import Mathlib

/-!
# PicConvertor: resampler, glyph renderer and task system

A shallow embedding of `resample.cpp`, `renderer.cpp` and `TaskSystem.cpp`.

Conventions of the embedding:

* `std::vector<T>` is a `List`; a read `v[i]` is `v.getD i 0`, a write `v[i] = a` is `v.set i a`.
* C++ `int` values are `Int`/`Nat`. The `int` products of the resampler that leave the range
  of an `int` on large inputs are written with the wrap-around `wrapInt` of the compiled code:
  the element count `out_w * out_h`, the pixel count `(x1 - x0) * (y1 - y0)` and the index
  `x * channels + k`. The other `int` expressions (the tile arithmetic `h + tile_h - 1`,
  `c * tile_h` and `tile_h * 4`, and the conversion of a rounded range bound to `int`) are
  exact, which describes the executions in which they do not overflow.
* `uint32_t` and `uint64_t` arithmetic wraps, which is written out with `% 2^32` and `% 2^64`.
* A `double` is a rational; every `double` operation is the exact operation followed by the
  rounding `fl` to the nearest `double` (IEEE 754 binary64, ties to even; the values of the
  program are far from overflow and underflow). The range bounds of the resampler are
  computed this way: the product `(double)b * n` and the quotient by `out_n` are both rounded
  before `floor` or `ceil` is taken.
* The tasks of one parallel pass are run one after the other, in an order that is a parameter
  of the pass (`order` maps the submission order `0, 1, ..., chunks-1` to the execution order).
* The renderer is the scalar build (without `PICCONV_USE_AVX2`). Loop bounds such as `out_w`
  and `out_h` are natural numbers.
* A `std::string` is the list of its bytes.
* Reads and writes of the embedding are total (`getD`, `set`), so the indices that the
  resampler accesses are listed by functions of their own that follow the same loops
  (`flattenAcc`, `hAcc`, `vTileAcc`, `resampleAcc`), each access with the array it goes to.
  The counters of `PruneStats` are natural numbers.
* The task system is a state machine whose steps are the sections of `TaskSystem.cpp` that run
  atomically: `submit` and the dequeue of a worker under `queueMutex`, and the end of a task
  with its `fetch_sub`.
-/

set_option autoImplicit false

namespace PicConvertor

/-! ## Data model (`image.h`, `resample.h`) -/

/-- The `Image` of `image.h`: dimensions, channel count and interleaved pixel bytes. -/
structure Image where
  width : Int
  height : Int
  channels : Int
  pixels : List Nat
deriving DecidableEq, Repr

/-- The `BlockPlanes` of `resample.h`: grid dimensions and three planes of `int`. -/
structure BlockPlanes where
  width : Int
  height : Int
  r : List Int
  g : List Int
  b : List Int
deriving DecidableEq, Repr

/-- Three same-shaped buffers that a pass fills in lock step (`pr, pg, pb`, `hr, hg, hb`,
`out.r, out.g, out.b`). -/
structure Planes (α : Type) where
  r : List α
  g : List α
  b : List α
deriving DecidableEq, Repr

/-- The colour channels. -/
inductive Chan where
  | R
  | G
  | B
deriving DecidableEq, Repr

/-- The buffer of one channel. -/
def Planes.get {α : Type} (p : Planes α) : Chan → List α
  | Chan.R => p.r
  | Chan.G => p.g
  | Chan.B => p.b

/-- The three element writes `r[i] = a; g[i] = b; b[i] = c`. -/
def Planes.set3 {α : Type} (p : Planes α) (i : Nat) (a b c : α) : Planes α :=
  ⟨p.r.set i a, p.g.set i b, p.b.set i c⟩

/-- Three zero-filled buffers of `n` elements (`resize(n)` of an empty vector). -/
def Planes.zeros {α : Type} [Zero α] (n : Nat) : Planes α :=
  ⟨List.replicate n 0, List.replicate n 0, List.replicate n 0⟩

/-- The offset of a channel inside an interleaved pixel. -/
def Chan.off : Chan → Nat
  | Chan.R => 0
  | Chan.G => 1
  | Chan.B => 2

/-- What makes the embedded function stop without a result. -/
inductive Fault where
  /-- a vector is constructed or resized with a negative element count -/
  | badAlloc
  /-- an integer division whose divisor is zero -/
  | divByZero
  /-- a write beyond the end of a vector -/
  | outOfBounds
deriving DecidableEq, Repr

/-! ## `resample.cpp` -/

/-- The conversion `(int)x` of an unsigned value. -/
def toInt32 (x : Nat) : Int :=
  if x % 2 ^ 32 < 2 ^ 31 then ((x % 2 ^ 32 : Nat) : Int) else ((x % 2 ^ 32 : Nat) : Int) - 2 ^ 32

/-- The value of an `int` expression whose exact value is `x`, as the compiled code computes
it: the low 32 bits of `x`, read as a signed number. -/
def wrapInt (x : Int) : Int := toInt32 (x % 2 ^ 32).toNat

/-- The element that the access `p[i]` goes to, for a pointer `p = v.data() + off` and an `int`
index `i`: the offset `off + i` as a `size_t`. A negative sum wraps to an offset beyond the
end of every vector. -/
def ptrIndex (off : Nat) (i : Int) : Nat := (((off : Int) + i) % 2 ^ 64).toNat

/-- The function `sum_u8_scalar`: the `uint32_t` sum of `len` bytes starting at `ptr + off`. -/
def sum_u8_scalar (ptr : List Nat) (off : Nat) (len : Int) : Nat :=
  (List.range len.toNat).foldl (fun s i => (s + ptr.getD (off + i) 0) % 2 ^ 32) 0

/-- The function `sum_u8` (build without AVX2). -/
def sum_u8 (ptr : List Nat) (off : Nat) (len : Int) : Nat :=
  sum_u8_scalar ptr off len

/-- The function `sum_u8_pair` (build without AVX2): two sums of the same length. -/
def sum_u8_pair (base : List Nat) (off0 off1 : Nat) (len : Int) : Nat × Nat :=
  (sum_u8_scalar base off0 len, sum_u8_scalar base off1 len)

/-- The tile height a pass works with: `tile_h = min(tile_h, h); if (tile_h <= 0) tile_h = 64`. -/
def clampTile (tile_h : Int) (h : Nat) : Nat :=
  let t := min tile_h (h : Int)
  if t ≤ 0 then 64 else t.toNat

/-- The body of the inner loop of `flatten_to_planes` for the whole row `y`: the reads
`src[x * img.channels + k]` through `src = img.pixels.data() + (size_t)y * img.width *
img.channels`, and the writes `rdst[x]`, `gdst[x]`, `bdst[x]`. -/
def flattenRow (img : Image) (y : Nat) (p : Planes Nat) : Planes Nat :=
  let w := img.width.toNat
  let ch := img.channels.toNat
  (List.range w).foldl (fun q x =>
    q.set3 (y * w + x)
      (img.pixels.getD (ptrIndex (y * w * ch) (wrapInt ((x : Int) * img.channels + 0))) 0)
      (img.pixels.getD (ptrIndex (y * w * ch) (wrapInt ((x : Int) * img.channels + 1))) 0)
      (img.pixels.getD (ptrIndex (y * w * ch) (wrapInt ((x : Int) * img.channels + 2))) 0)) p

/-- The task that `flatten_to_planes` submits for chunk `c`: rows `y0 ≤ y < y1`. -/
def flattenTile (img : Image) (tile_h c : Nat) (p : Planes Nat) : Planes Nat :=
  let h := img.height.toNat
  let y0 := c * tile_h
  let y1 := min h (y0 + tile_h)
  (List.range' y0 (y1 - y0)).foldl (fun q y => flattenRow img y q) p

/-- The function `flatten_to_planes`; the chunks are run in the order `order [0, .., chunks-1]`. -/
def flatten_to_planes (img : Image) (tile_h : Int) (order : List Nat → List Nat) : Planes Nat :=
  let w := img.width.toNat
  let h := img.height.toNat
  let th := clampTile tile_h h
  let chunks := (h + th - 1) / th
  (order (List.range chunks)).foldl (fun q c => flattenTile img th c q) (Planes.zeros (w * h))

/-- The `Run` of `resample.cpp`: output columns `start ≤ bx < stop` (the field `end` of the
source) whose source span has `len` pixels. -/
structure Run where
  start : Nat
  stop : Nat
  len : Int
deriving DecidableEq, Repr

/-- The loop over one run in `horizontal_box_sum`: pairs of columns while `bx + 1 < end`,
then the single column that is left. `fuel` bounds the number of iterations. -/
def hRunLoop (src : Planes Nat) (x0s : List Nat) (rowOff dstOff : Nat) (len : Int) (stop : Nat) :
    Nat → Nat → Planes Nat → Planes Nat
  | 0, _, dst => dst
  | fuel + 1, bx, dst =>
    if bx + 1 < stop then
      let sR := sum_u8_pair src.r (rowOff + x0s.getD bx 0) (rowOff + x0s.getD (bx + 1) 0) len
      let sG := sum_u8_pair src.g (rowOff + x0s.getD bx 0) (rowOff + x0s.getD (bx + 1) 0) len
      let sB := sum_u8_pair src.b (rowOff + x0s.getD bx 0) (rowOff + x0s.getD (bx + 1) 0) len
      hRunLoop src x0s rowOff dstOff len stop fuel (bx + 2)
        ((dst.set3 (dstOff + bx) sR.1 sG.1 sB.1).set3 (dstOff + (bx + 1)) sR.2 sG.2 sB.2)
    else if bx < stop then
      dst.set3 (dstOff + bx)
        (sum_u8 src.r (rowOff + x0s.getD bx 0) len)
        (sum_u8 src.g (rowOff + x0s.getD bx 0) len)
        (sum_u8 src.b (rowOff + x0s.getD bx 0) len)
    else dst

/-- One source row of `horizontal_box_sum`: the loop over the runs. -/
def hRow (src : Planes Nat) (w out_w : Nat) (x0s : List Nat) (runs : List Run) (y : Nat)
    (dst : Planes Nat) : Planes Nat :=
  runs.foldl (fun q run =>
    hRunLoop src x0s (y * w) (y * out_w) run.len run.stop (run.stop - run.start) run.start q) dst

/-- The task that `horizontal_box_sum` submits for chunk `c`. -/
def hTile (src : Planes Nat) (w h out_w : Nat) (x0s : List Nat) (runs : List Run)
    (tile_h c : Nat) (dst : Planes Nat) : Planes Nat :=
  let y0 := c * tile_h
  let y1 := min h (y0 + tile_h)
  (List.range' y0 (y1 - y0)).foldl (fun q y => hRow src w out_w x0s runs y q) dst

/-- The function `horizontal_box_sum`. -/
def horizontal_box_sum (src : Planes Nat) (w h out_w : Nat) (x0s : List Nat) (runs : List Run)
    (tile_h_rows : Int) (order : List Nat → List Nat) : Planes Nat :=
  let th := clampTile tile_h_rows h
  let chunks := (h + th - 1) / th
  (order (List.range chunks)).foldl (fun q c => hTile src w h out_w x0s runs th c q)
    (Planes.zeros (h * out_w))

/-- Rounding of a rational to the nearest integer, ties to the even integer. -/
def rne (y : ℚ) : ℤ :=
  let f := ⌊y⌋
  let d := y - f
  if d < 1 / 2 then f else if 1 / 2 < d then f + 1 else if f % 2 = 0 then f else f + 1

/-- The position of the leading bit of `n`, by halving at most `fuel` times. -/
def log2Fuel : Nat → Nat → Nat
  | 0, _ => 0
  | fuel + 1, n => if n < 2 then 0 else log2Fuel fuel (n / 2) + 1

/-- The position of the leading bit of a positive `n`: `2^(ilog2 n) ≤ n < 2^(ilog2 n + 1)`. -/
def ilog2 (n : Nat) : Nat := log2Fuel n n

/-- The binary exponent `e` of a non-zero rational: `2^e ≤ |x| < 2^(e+1)`. -/
def expo (x : ℚ) : ℤ :=
  let e0 : ℤ := (ilog2 x.num.natAbs : ℤ) - (ilog2 x.den : ℤ)
  if (2 : ℚ) ^ e0 ≤ |x| then e0 else e0 - 1

/-- The `double` nearest to `x`: 53 significant bits, ties to even. -/
def fl (x : ℚ) : ℚ :=
  if x = 0 then 0 else (rne (x / (2 : ℚ) ^ (expo x - 52)) : ℚ) * (2 : ℚ) ^ (expo x - 52)

/-- The value `(int)std::floor((double)b * n / out_n)`: the product of the two `double`
values is rounded, the quotient of the rounded product by `out_n` is rounded, and `floor` is
taken of the result. -/
def rangeStartRaw (n out_n b : Nat) : Int :=
  ⌊fl (fl ((b : ℚ) * (n : ℚ)) / (out_n : ℚ))⌋

/-- The value `(int)std::ceil((double)(b+1) * n / out_n)`. -/
def rangeEndRaw (n out_n b : Nat) : Int :=
  ⌈fl (fl (((b + 1 : Nat) : ℚ) * (n : ℚ)) / (out_n : ℚ))⌉

/-- The start of the source range of output index `b`:
`max(0, min(n, (int)floor((double)b * n / out_n)))`. -/
def rangeStart (n out_n b : Nat) : Nat :=
  (max 0 (min (n : Int) (rangeStartRaw n out_n b))).toNat

/-- The end of the source range of output index `b`:
`max(0, min(n, (int)ceil((double)(b+1) * n / out_n)))`. -/
def rangeEnd (n out_n b : Nat) : Nat :=
  (max 0 (min (n : Int) (rangeEndRaw n out_n b))).toNat

/-- The state of the run-grouping loop: the runs pushed so far, `run_start`, `cur_len`. -/
structure RunState where
  runs : List Run
  run_start : Nat
  cur_len : Int
deriving DecidableEq, Repr

/-- One iteration `bx` of the run-grouping loop. -/
def runStep (x0s x1s : List Nat) (out_w : Nat) (s : RunState) (bx : Nat) : RunState :=
  let len : Int := if bx = out_w then -1 else (x1s.getD bx 0 : Int) - (x0s.getD bx 0 : Int)
  if len ≠ s.cur_len then ⟨s.runs ++ [⟨s.run_start, bx, s.cur_len⟩], bx, len⟩ else s

/-- The grouping of equal-width columns into runs. -/
def buildRuns (x0s x1s : List Nat) (out_w : Nat) : List Run :=
  if 0 < out_w then
    ((List.range' 1 out_w).foldl (runStep x0s x1s out_w)
      ⟨[], 0, (x1s.getD 0 0 : Int) - (x0s.getD 0 0 : Int)⟩).runs
  else []

/-- The `uint64_t` sum of the rows `y0 ≤ sy < y1` of column `bx` of a partial-sum table. -/
def vSum (hs : List Nat) (out_w bx y0 y1 : Nat) : Nat :=
  (List.range' y0 (y1 - y0)).foldl (fun s sy => (s + hs.getD (sy * out_w + bx) 0) % 2 ^ 64) 0

/-- One output row `by` of the vertical pass; `count` is the `int` product
`(x1s[bx] - x0s[bx]) * (y1 - y0)`, replaced by 1 when it is not positive. -/
def vRow (hs : Planes Nat) (out_w : Nat) (x0s x1s y0s y1s : List Nat) (by_ : Nat)
    (out : Planes Int) : Planes Int :=
  let y0 := y0s.getD by_ 0
  let y1 := y1s.getD by_ 0
  (List.range out_w).foldl (fun q bx =>
    let count0 : Int :=
      wrapInt (((x1s.getD bx 0 : Int) - (x0s.getD bx 0 : Int)) * ((y1 : Int) - (y0 : Int)))
    let count : Nat := if count0 ≤ 0 then 1 else count0.toNat
    q.set3 (by_ * out_w + bx)
      (toInt32 (vSum hs.r out_w bx y0 y1 / count))
      (toInt32 (vSum hs.g out_w bx y0 y1 / count))
      (toInt32 (vSum hs.b out_w bx y0 y1 / count))) out

/-- The task that the vertical pass submits for chunk `c`. -/
def vTile (hs : Planes Nat) (out_w out_h : Nat) (x0s x1s y0s y1s : List Nat)
    (tile_h_rows c : Nat) (out : Planes Int) : Planes Int :=
  let by0 := c * tile_h_rows
  let by1 := min out_h (by0 + tile_h_rows)
  (List.range' by0 (by1 - by0)).foldl (fun q by_ => vRow hs out_w x0s x1s y0s y1s by_ q) out

/-- The five-argument `resample_to_planes_fast`, with the execution order of the chunks of the
three passes as parameters. The planes of the result are resized to the `int` product
`out_w * out_h` before the image is looked at: a negative product fails in `resize`, and a
product that has wrapped to a smaller non-negative number leaves the planes too short for the
writes of the vertical pass. -/
def resample_sched (img : Image) (out_w out_h : Int) (tile_h tile_h_horiz : Int)
    (o1 o2 o3 : List Nat → List Nat) : Except Fault BlockPlanes :=
  if wrapInt (out_w * out_h) < 0 then Except.error Fault.badAlloc
  else if img.width ≤ 0 ∨ img.height ≤ 0 then Except.ok ⟨0, 0, [], [], []⟩
  else if out_w < 0 ∨ out_h < 0 then Except.error Fault.badAlloc
  else if wrapInt (out_w * out_h) ≠ out_w * out_h then Except.error Fault.outOfBounds
  else
    let tile_h : Int := if tile_h ≤ 0 then 64 else tile_h
    let w := img.width.toNat
    let h := img.height.toNat
    let ow := out_w.toNat
    let oh := out_h.toNat
    let x0s := (List.range ow).map (rangeStart w ow)
    let x1s := (List.range ow).map (rangeEnd w ow)
    let runs := buildRuns x0s x1s ow
    let y0s := (List.range oh).map (rangeStart h oh)
    let y1s := (List.range oh).map (rangeEnd h oh)
    let p := flatten_to_planes img tile_h o1
    let tile_h_h_run : Int :=
      if tile_h_horiz ≤ 0 then
        let scaled : Int := tile_h * 4
        let scaled : Int := if scaled ≤ 0 then 64 else scaled
        max tile_h scaled
      else tile_h_horiz
    let tile_h_h_run : Int := min tile_h_h_run img.height
    let hs := horizontal_box_sum p w h ow x0s runs tile_h_h_run o2
    let tile_h_rows : Int := min tile_h out_h
    if tile_h_rows = 0 then Except.error Fault.divByZero
    else
      let num_chunks := (Int.tdiv (out_h + tile_h_rows - 1) tile_h_rows).toNat
      let out := (o3 (List.range num_chunks)).foldl
        (fun q c => vTile hs ow oh x0s x1s y0s y1s tile_h_rows.toNat c q) (Planes.zeros (ow * oh))
      Except.ok ⟨out_w, out_h, out.r, out.g, out.b⟩

/-- The function `resample_to_planes_fast(img, out_w, out_h, pool, tile_h, tile_h_horiz)`, the
chunks of every pass being run in submission order. -/
def resample_to_planes_fast (img : Image) (out_w out_h : Int) (tile_h tile_h_horiz : Int) :
    Except Fault BlockPlanes :=
  resample_sched img out_w out_h tile_h tile_h_horiz id id id

/-! ## `renderer.cpp` -/

/-- The buffer of one channel of a `BlockPlanes`. -/
def BlockPlanes.get (p : BlockPlanes) : Chan → List Int
  | Chan.R => p.r
  | Chan.G => p.g
  | Chan.B => p.b

/-- The sub-pixel width of a character cell. -/
def SUB_W : Nat := 8

/-- The sub-pixel height of a character cell. -/
def SUB_H : Nat := 8

/-- The conversion `(uint64_t)x` of an `int`. -/
def toU64 (x : Int) : Nat := (x % 2 ^ 64).toNat

/-- The sum of two `uint64_t`. -/
def addU64 (a b : Nat) : Nat := (a + b) % 2 ^ 64

/-- The difference of two `uint64_t`. -/
def subU64 (a b : Nat) : Nat := (a % 2 ^ 64 + (2 ^ 64 - b % 2 ^ 64)) % 2 ^ 64

/-- The product of two `uint64_t`. -/
def mulU64 (a b : Nat) : Nat := (a * b) % 2 ^ 64

/-- The six prefix-sum tables `sumR, sumG, sumB` and `sumR2, sumG2, sumB2`. -/
structure Integrals where
  sum : Planes Nat
  sq : Planes Nat
deriving DecidableEq, Repr

/-- The running row sums `rowR, rowG, rowB` and `rowR2, rowG2, rowB2`. -/
structure RowAcc where
  rowR : Nat
  rowG : Nat
  rowB : Nat
  rowR2 : Nat
  rowG2 : Nat
  rowB2 : Nat
deriving DecidableEq, Repr

/-- The body of the inner loop that builds the prefix sums, at row `y` and column `x`. -/
def integralCell (highres : BlockPlanes) (high_w y : Nat) (st : RowAcc × Integrals) (x : Nat) :
    RowAcc × Integrals :=
  let idx := y * high_w + x
  let r := highres.r.getD idx 0
  let g := highres.g.getD idx 0
  let b := highres.b.getD idx 0
  let rowR := addU64 st.1.rowR (toU64 r)
  let rowG := addU64 st.1.rowG (toU64 g)
  let rowB := addU64 st.1.rowB (toU64 b)
  let rowR2 := addU64 st.1.rowR2 (mulU64 (toU64 r) (toU64 r))
  let rowG2 := addU64 st.1.rowG2 (mulU64 (toU64 g) (toU64 g))
  let rowB2 := addU64 st.1.rowB2 (mulU64 (toU64 b) (toU64 b))
  let ii := (y + 1) * (high_w + 1) + (x + 1)
  let ii_up := y * (high_w + 1) + (x + 1)
  (⟨rowR, rowG, rowB, rowR2, rowG2, rowB2⟩,
   ⟨st.2.sum.set3 ii
      (addU64 (st.2.sum.r.getD ii_up 0) rowR)
      (addU64 (st.2.sum.g.getD ii_up 0) rowG)
      (addU64 (st.2.sum.b.getD ii_up 0) rowB),
    st.2.sq.set3 ii
      (addU64 (st.2.sq.r.getD ii_up 0) rowR2)
      (addU64 (st.2.sq.g.getD ii_up 0) rowG2)
      (addU64 (st.2.sq.b.getD ii_up 0) rowB2)⟩)

/-- One row `y` of the prefix-sum construction: the row sums start at zero. -/
def integralRow (highres : BlockPlanes) (high_w : Nat) (t : Integrals) (y : Nat) : Integrals :=
  ((List.range high_w).foldl (integralCell highres high_w y) (⟨0, 0, 0, 0, 0, 0⟩, t)).2

/-- The prefix sums of the values and of their squares that `render_high` builds; the grid
dimensions are taken non-negative. -/
def buildIntegrals (highres : BlockPlanes) : Integrals :=
  let high_w := highres.width.toNat
  let high_h := highres.height.toNat
  (List.range high_h).foldl (integralRow highres high_w)
    ⟨Planes.zeros ((high_w + 1) * (high_h + 1)), Planes.zeros ((high_w + 1) * (high_h + 1))⟩

/-- The lambda `rect_sum3`: the four-corner query `D + A - B - C` on a prefix-sum table. -/
def rect_sum3 (S : List Nat) (high_w x0 y0 x1 y1 : Nat) : Nat :=
  let A := S.getD (y0 * (high_w + 1) + x0) 0
  let B := S.getD (y0 * (high_w + 1) + x1) 0
  let C := S.getD (y1 * (high_w + 1) + x0) 0
  let D := S.getD (y1 * (high_w + 1) + x1) 0
  subU64 (subU64 (addU64 D A) B) C

/-- The type tag of a glyph descriptor. -/
inductive GType where
  | H
  | V
  | Q
  | F
  | S
deriving DecidableEq, Repr

/-- The `GDesc` of `render_high`: code point, type, level and quadrant index. -/
structure GDesc where
  code : Nat
  type : GType
  level : Nat
  qidx : Nat
deriving DecidableEq, Repr

/-- The array `vert_codes`. -/
def vert_codes : List Nat := [0x258F, 0x258E, 0x258D, 0x258C, 0x258B, 0x258A, 0x2589, 0x2588]

/-- The static glyph table, in the order of its `push_back` calls. -/
def glyphs : List GDesc :=
  [⟨0x2588, GType.F, 0, 0⟩, ⟨0x20, GType.S, 0, 0⟩,
   ⟨0x2598, GType.Q, 0, 0⟩, ⟨0x259D, GType.Q, 0, 1⟩, ⟨0x2596, GType.Q, 0, 2⟩,
   ⟨0x259E, GType.Q, 0, 3⟩]
  ++ [8, 7, 6, 5, 4, 3, 2, 1].map (fun level => ⟨0x2580 + level, GType.H, level, 0⟩)
  ++ [7, 6, 5, 4, 3, 2, 1, 0].map (fun i => ⟨vert_codes.getD i 0, GType.V, 8 - i, 0⟩)

/-- The six sums of a region and its pixel count. -/
structure Region where
  sR : Nat
  sG : Nat
  sB : Nat
  sR2 : Nat
  sG2 : Nat
  sB2 : Nat
  cnt : Nat
deriving DecidableEq, Repr

/-- The six rectangle queries of one rectangle together with a pixel count. -/
def rectRegion (t : Integrals) (high_w x0 y0 x1 y1 cnt : Nat) : Region :=
  ⟨rect_sum3 t.sum.r high_w x0 y0 x1 y1, rect_sum3 t.sum.g high_w x0 y0 x1 y1,
   rect_sum3 t.sum.b high_w x0 y0 x1 y1, rect_sum3 t.sq.r high_w x0 y0 x1 y1,
   rect_sum3 t.sq.g high_w x0 y0 x1 y1, rect_sum3 t.sq.b high_w x0 y0 x1 y1, cnt⟩

/-- The whole-cell sums `totalR .. totalB2` of the cell `(bx, by)`, with `tot = 64`. -/
def cellTotals (t : Integrals) (high_w bx by_ : Nat) : Region :=
  let x0c := bx * SUB_W
  let y0c := by_ * SUB_H
  rectRegion t high_w x0c y0c (x0c + SUB_W) (y0c + SUB_H) (SUB_W * SUB_H)

/-- The foreground sums `fgR .. fgB2` and `fgCnt` of a glyph in the cell `(bx, by)`. -/
def fgRegion (t : Integrals) (high_w bx by_ : Nat) (tot : Region) (gd : GDesc) : Region :=
  let x0c := bx * SUB_W
  let y0c := by_ * SUB_H
  let x1c := x0c + SUB_W
  let y1c := y0c + SUB_H
  match gd.type with
  | GType.H =>
    let rows := (gd.level * SUB_H + 7) / 8
    let fy0 := y1c - rows
    let fy1 := y1c
    rectRegion t high_w x0c fy0 x1c fy1 (mulU64 SUB_W (fy1 - fy0))
  | GType.V =>
    let cols := (gd.level * SUB_W + 7) / 8
    let fx0 := x0c
    let fx1 := x0c + cols
    rectRegion t high_w fx0 y0c fx1 y1c (mulU64 (fx1 - fx0) SUB_H)
  | GType.Q =>
    let qx0 := if gd.qidx % 2 ≠ 0 then x0c + SUB_W / 2 else x0c
    let qx1 := qx0 + SUB_W / 2
    let qy0 := if gd.qidx < 2 then y0c else y0c + SUB_H / 2
    let qy1 := qy0 + SUB_H / 2
    rectRegion t high_w qx0 qy0 qx1 qy1 (mulU64 (qx1 - qx0) (qy1 - qy0))
  | GType.F => tot
  | GType.S => ⟨0, 0, 0, 0, 0, 0, 0⟩

/-- The mean colours `fr, fgc, fb` and `br, bgcol, bb` of the prune check. -/
structure Means where
  fr : Int
  fgc : Int
  fb : Int
  br : Int
  bgcol : Int
  bb : Int
deriving DecidableEq, Repr

/-- The truncated means of the foreground and of the background region; the mean of an empty
region stays at its initial value `0`. -/
def regionMeans (tot fg : Region) : Means :=
  let bgCnt := subU64 tot.cnt fg.cnt
  { fr := if fg.cnt > 0 then toInt32 (fg.sR / fg.cnt) else 0
    fgc := if fg.cnt > 0 then toInt32 (fg.sG / fg.cnt) else 0
    fb := if fg.cnt > 0 then toInt32 (fg.sB / fg.cnt) else 0
    br := if bgCnt > 0 then toInt32 (subU64 tot.sR fg.sR / bgCnt) else 0
    bgcol := if bgCnt > 0 then toInt32 (subU64 tot.sG fg.sG / bgCnt) else 0
    bb := if bgCnt > 0 then toInt32 (subU64 tot.sB fg.sB / bgCnt) else 0 }

/-- The value `color_diff` of the prune check. -/
def colorDiff (m : Means) : Int :=
  |m.fr - m.br| + |m.fgc - m.bgcol| + |m.fb - m.bb|

/-- The conversion `(double)n` of an unsigned integer. -/
def toD (n : Nat) : ℚ := fl (n : ℚ)

/-- The contribution of one channel to `err` (scalar path), every operation rounded to
`double`: `(double)total2 - term_fg - term_bg`, or its variant for an empty foreground. -/
def chanErrD (total2 total fg fgCnt bgCnt : Nat) : ℚ :=
  if fgCnt > 0 then
    let term_fg : ℚ := fl (fl (toD fg * toD fg) / toD fgCnt)
    let term_bg : ℚ :=
      if bgCnt > 0 then
        fl (fl (toD (subU64 total fg) * toD (subU64 total fg)) / toD bgCnt)
      else 0
    fl (fl (toD total2 - term_fg) - term_bg)
  else if bgCnt > 0 then fl (toD total2 - fl (toD (mulU64 total total) / toD bgCnt))
  else toD total2

/-- The value `err` of a candidate: the channel contributions added to `0.0` in the order
R, G, B, every addition rounded to `double`. -/
def glyphErrD (tot fg : Region) : ℚ :=
  let bgCnt := subU64 tot.cnt fg.cnt
  fl (fl (fl (0 + chanErrD tot.sR2 tot.sR fg.sR fg.cnt bgCnt)
    + chanErrD tot.sG2 tot.sG fg.sG fg.cnt bgCnt)
    + chanErrD tot.sB2 tot.sB fg.sB fg.cnt bgCnt)

/-- The error of one channel in exact arithmetic: `chanErrD` without the roundings. -/
def chanErr (total2 total fg fgCnt bgCnt : Nat) : ℚ :=
  if fgCnt > 0 then
    let term_fg : ℚ := (fg : ℚ) * (fg : ℚ) / (fgCnt : ℚ)
    let term_bg : ℚ :=
      if bgCnt > 0 then ((subU64 total fg : Nat) : ℚ) * ((subU64 total fg : Nat) : ℚ) / (bgCnt : ℚ)
      else 0
    (total2 : ℚ) - term_fg - term_bg
  else if bgCnt > 0 then (total2 : ℚ) - ((mulU64 total total : Nat) : ℚ) / (bgCnt : ℚ)
  else (total2 : ℚ)

/-- The error of a candidate in exact arithmetic: `glyphErrD` without the roundings. -/
def glyphErr (tot fg : Region) : ℚ :=
  let bgCnt := subU64 tot.cnt fg.cnt
  0 + chanErr tot.sR2 tot.sR fg.sR fg.cnt bgCnt
    + chanErr tot.sG2 tot.sG fg.sG fg.cnt bgCnt
    + chanErr tot.sB2 tot.sB fg.sB fg.cnt bgCnt

/-- The counters of `PruneStats` (the two timers are left out). -/
structure PruneStats where
  total_cells : Nat
  candidates_considered : Nat
  candidates_skipped : Nat
  evaluations : Nat
deriving DecidableEq, Repr

/-- The best candidate of a cell so far: `best_err`, `best_cp` and the six colour values. -/
structure Best where
  best_err : ℚ
  best_cp : Nat
  best_fr : Int
  best_fg : Int
  best_fb : Int
  best_br : Int
  best_bg : Int
  best_bb : Int
deriving DecidableEq, Repr

/-- The state of a cell before its first candidate: `best_err = 1e308`, `best_cp = 0x20`. -/
def Best.init : Best := ⟨fl ((10 : ℚ) ^ 308), 0x20, 0, 0, 0, 0, 0, 0⟩

/-- The update of the best candidate after a full evaluation: strict `<`, and a colour is
overwritten only when its region is not empty. -/
def Best.update (best : Best) (tot fg : Region) (gd : GDesc) : Best :=
  let err := glyphErrD tot fg
  if err < best.best_err then
    let bgCnt := subU64 tot.cnt fg.cnt
    let m := regionMeans tot fg
    { best_err := err
      best_cp := gd.code
      best_fr := if fg.cnt > 0 then m.fr else best.best_fr
      best_fg := if fg.cnt > 0 then m.fgc else best.best_fg
      best_fb := if fg.cnt > 0 then m.fb else best.best_fb
      best_br := if bgCnt > 0 then m.br else best.best_br
      best_bg := if bgCnt > 0 then m.bgcol else best.best_bg
      best_bb := if bgCnt > 0 then m.bb else best.best_bb }
  else best

/-- The body of the loop over the glyph table for one candidate. -/
def glyphStep (t : Integrals) (high_w : Nat) (prune_threshold : Int) (bx by_ : Nat)
    (st : Best × PruneStats) (gd : GDesc) : Best × PruneStats :=
  let tot := cellTotals t high_w bx by_
  let fg := fgRegion t high_w bx by_ tot gd
  let stats := { st.2 with candidates_considered := st.2.candidates_considered + 1 }
  if colorDiff (regionMeans tot fg) < prune_threshold then
    (st.1, { stats with candidates_skipped := stats.candidates_skipped + 1 })
  else
    (st.1.update tot fg gd, { stats with evaluations := stats.evaluations + 1 })

/-- The search of one cell: the loop over the glyph table from the initial state. -/
def cellSearch (t : Integrals) (high_w : Nat) (prune_threshold : Int) (bx by_ : Nat)
    (stats : PruneStats) : Best × PruneStats :=
  glyphs.foldl (glyphStep t high_w prune_threshold bx by_) (Best.init, stats)

/-- The counters after one row `by` of cells. -/
def rowStats (t : Integrals) (high_w out_w : Nat) (prune_threshold : Int) (stats : PruneStats)
    (by_ : Nat) : PruneStats :=
  (List.range out_w).foldl
    (fun s bx => (cellSearch t high_w prune_threshold bx by_ s).2)
    { stats with total_cells := stats.total_cells + out_w }

/-- The counters after the task of band `tid`: rows `row0 ≤ by < row1`. -/
def bandStats (t : Integrals) (high_w out_w out_h threads : Nat) (prune_threshold : Int)
    (stats : PruneStats) (tid : Nat) : PruneStats :=
  let row0 := (out_h * tid) / threads
  let row1 := (out_h * (tid + 1)) / threads
  (List.range' row0 (row1 - row0)).foldl (rowStats t high_w out_w prune_threshold) stats

/-- The counters of `PruneStats` when `render_high` returns, from zeroed counters; `hc` is the
value of `std::thread::hardware_concurrency()`. -/
def render_high_stats (highres : BlockPlanes) (out_w out_h : Nat) (hc : Nat)
    (prune_threshold : Int) : PruneStats :=
  let t := buildIntegrals highres
  let threads := max 1 hc
  (List.range threads).foldl
    (bandStats t highres.width.toNat out_w out_h threads prune_threshold) ⟨0, 0, 0, 0⟩

/-- The best candidate of the cell `(bx, by)` found by `render_high`. -/
def render_high_cell (highres : BlockPlanes) (prune_threshold : Int) (bx by_ : Nat) : Best :=
  (cellSearch (buildIntegrals highres) highres.width.toNat prune_threshold bx by_ ⟨0, 0, 0, 0⟩).1

/-! ## Specification-level definitions -/

/-- The byte of channel `c` of the source pixel `(x, y)`. -/
def Image.px (img : Image) (c : Chan) (x y : Nat) : Nat :=
  img.pixels.getD ((y * img.width.toNat + x) * 3 + c.off) 0

/-- The length `x1s[bx] - x0s[bx]` of the source span of column `bx`. -/
def colLen (x0s x1s : List Nat) (bx : Nat) : Int :=
  (x1s.getD bx 0 : Int) - (x0s.getD bx 0 : Int)

/-- The invariant of the run-grouping loop before iteration `k`. -/
def RunInv (x0s x1s : List Nat) (k : Nat) (s : RunState) : Prop :=
  s.run_start < k ∧
  (∀ bx, s.run_start ≤ bx → bx < k → colLen x0s x1s bx = s.cur_len) ∧
  (∀ run ∈ s.runs, run.stop ≤ s.run_start ∧
    ∀ bx, run.start ≤ bx → bx < run.stop → colLen x0s x1s bx = run.len) ∧
  (∀ bx, bx < s.run_start → ∃ run ∈ s.runs, run.start ≤ bx ∧ bx < run.stop)

/-- The partial sum that the horizontal pass stores in cell `i` of the table of channel `c`:
the `uint32_t` sum of the span of column `i % out_w` in source row `i / out_w`. -/
def hVal (src : Planes Nat) (w out_w : Nat) (x0s x1s : List Nat) (c : Chan) (i : Nat) : Nat :=
  sum_u8_scalar (src.get c) ((i / out_w) * w + x0s.getD (i % out_w) 0)
    (colLen x0s x1s (i % out_w))

/-- The value that the vertical pass stores in cell `i` of the output plane of channel `c`. -/
def vVal (hs : Planes Nat) (out_w : Nat) (x0s x1s y0s y1s : List Nat) (c : Chan) (i : Nat) :
    Int :=
  let bx := i % out_w
  let by_ := i / out_w
  let y0 := y0s.getD by_ 0
  let y1 := y1s.getD by_ 0
  let count0 : Int :=
    wrapInt (((x1s.getD bx 0 : Int) - (x0s.getD bx 0 : Int)) * ((y1 : Int) - (y0 : Int)))
  let count : Nat := if count0 ≤ 0 then 1 else count0.toNat
  toInt32 (vSum (hs.get c) out_w bx y0 y1 / count)

/-- The byte that `flatten_to_planes` reads for channel offset `k` of the pixel `(x, y)`. -/
def srcByte (img : Image) (k : Nat) (x y : Nat) : Nat :=
  img.pixels.getD (ptrIndex (y * img.width.toNat * img.channels.toNat)
    (wrapInt ((x : Int) * img.channels + (k : Int)))) 0

/-- The planes of the source image: cell `y * w + x` holds the byte read for the pixel
`(x, y)`. -/
def flatPlanes (img : Image) : Planes Nat :=
  let w := img.width.toNat
  let n := w * img.height.toNat
  ⟨(List.range n).map (fun i => srcByte img 0 (i % w) (i / w)),
   (List.range n).map (fun i => srcByte img 1 (i % w) (i / w)),
   (List.range n).map (fun i => srcByte img 2 (i % w) (i / w))⟩

/-- The column range tables `x0s`, `x1s` (or the row range tables `y0s`, `y1s`). -/
def rangeStarts (n out_n : Nat) : List Nat := (List.range out_n).map (rangeStart n out_n)

/-- The table of the range ends. -/
def rangeEnds (n out_n : Nat) : List Nat := (List.range out_n).map (rangeEnd n out_n)

/-- The tables of horizontal partial sums of the source image. -/
def hPlanes (img : Image) (out_w : Nat) : Planes Nat :=
  let w := img.width.toNat
  let h := img.height.toNat
  let f := fun c => (List.range (out_w * h)).map
    (hVal (flatPlanes img) w out_w (rangeStarts w out_w) (rangeEnds w out_w) c)
  ⟨f Chan.R, f Chan.G, f Chan.B⟩

/-- The value of cell `i` of the output plane of channel `c`. -/
def outVal (img : Image) (out_w out_h : Nat) (c : Chan) (i : Nat) : Int :=
  vVal (hPlanes img out_w) out_w (rangeStarts img.width.toNat out_w)
    (rangeEnds img.width.toNat out_w) (rangeStarts img.height.toNat out_h)
    (rangeEnds img.height.toNat out_h) c i

/-- A 4 x 2 image used to instantiate the theorems. -/
def sampleImage : Image :=
  ⟨4, 2, 3, [10, 20, 30, 40, 50, 60, 70, 80, 90, 100, 110, 120,
             1, 2, 3, 4, 5, 6, 7, 8, 9, 10, 11, 12]⟩

/-- A grid of one cell whose 64 sub-pixels all have the dark colour `(5, 5, 5)`. -/
def darkPlanes : BlockPlanes :=
  ⟨8, 8, List.replicate 64 5, List.replicate 64 5, List.replicate 64 5⟩

/-- A white image of `h` rows of `w` pixels. -/
def whiteImage (w h : Nat) : Image := ⟨w, h, 3, List.replicate (3 * w * h) 255⟩

/-- The candidate `gd` of the cell `(bx, by)` is fully evaluated at the threshold
`prune_threshold`: the prune check `color_diff < prune_threshold` fails. -/
def evaluatedAt (t : Integrals) (high_w : Nat) (prune_threshold : Int) (bx by_ : Nat)
    (gd : GDesc) : Bool :=
  let tot := cellTotals t high_w bx by_
  !decide (colorDiff (regionMeans tot (fgRegion t high_w bx by_ tot gd)) < prune_threshold)

/-- One of the six prefix-sum tables: the sums (`sq = false`) or the sums of squares
(`sq = true`) of channel `c`. -/
def Integrals.tab (t : Integrals) (sq : Bool) (c : Chan) : List Nat :=
  if sq then t.sq.get c else t.sum.get c

/-- One of the six running row sums. -/
def RowAcc.get (a : RowAcc) (sq : Bool) (c : Chan) : Nat :=
  match sq, c with
  | false, Chan.R => a.rowR
  | false, Chan.G => a.rowG
  | false, Chan.B => a.rowB
  | true, Chan.R => a.rowR2
  | true, Chan.G => a.rowG2
  | true, Chan.B => a.rowB2

/-- The `uint64_t` value that the sub-pixel `(x, y)` adds to a running row sum: the value of
channel `c`, or its square. -/
def cellIn (highres : BlockPlanes) (high_w : Nat) (sq : Bool) (c : Chan) (x y : Nat) : Nat :=
  let v := toU64 ((highres.get c).getD (y * high_w + x) 0)
  if sq then mulU64 v v else v

/-- The loop body `integralCell` for a single table fed with the values `f x y`. -/
def tabCell (f : Nat → Nat → Nat) (high_w y : Nat) (st : Nat × List Nat) (x : Nat) :
    Nat × List Nat :=
  let acc := addU64 st.1 (f x y)
  (acc, st.2.set ((y + 1) * (high_w + 1) + (x + 1))
    (addU64 (st.2.getD (y * (high_w + 1) + (x + 1)) 0) acc))

/-- One row of the construction of a single table. -/
def tabRow (f : Nat → Nat → Nat) (high_w : Nat) (tab : List Nat) (y : Nat) : List Nat :=
  ((List.range high_w).foldl (tabCell f high_w y) (0, tab)).2

/-- The construction of a single prefix-sum table. -/
def tabBuild (f : Nat → Nat → Nat) (high_w high_h : Nat) : List Nat :=
  (List.range high_h).foldl (tabRow f high_w) (List.replicate ((high_w + 1) * (high_h + 1)) 0)

/-- The sum of `f` over the rectangle `[0, a) x [0, b)`. -/
def prefixSum (f : Nat → Nat → Nat) (a b : Nat) : Nat :=
  ∑ y ∈ Finset.range b, ∑ x ∈ Finset.range a, f x y

/-- The sum of `f` over the rectangle `[x0, x1) x [y0, y1)`. -/
def rectSum (f : Nat → Nat → Nat) (x0 y0 x1 y1 : Nat) : Nat :=
  ∑ y ∈ Finset.range (y1 - y0), ∑ x ∈ Finset.range (x1 - x0), f (x0 + x) (y0 + y)

/-- The invariant of the construction of a table inside row `y`, before column `x`. -/
def CellInv (f : Nat → Nat → Nat) (high_w high_h y x : Nat) (st : Nat × List Nat) : Prop :=
  st.1 = (∑ i ∈ Finset.range x, f i y) % 2 ^ 64 ∧
  st.2.length = (high_w + 1) * (high_h + 1) ∧
  (∀ a b, a ≤ high_w → b ≤ y → st.2.getD (b * (high_w + 1) + a) 0 = prefixSum f a b % 2 ^ 64) ∧
  (∀ a, a ≤ x → st.2.getD ((y + 1) * (high_w + 1) + a) 0 = prefixSum f a (y + 1) % 2 ^ 64) ∧
  (∀ a, x < a → a ≤ high_w → st.2.getD ((y + 1) * (high_w + 1) + a) 0 = 0) ∧
  (∀ a b, a ≤ high_w → y + 1 < b → b ≤ high_h → st.2.getD (b * (high_w + 1) + a) 0 = 0)

/-- The invariant of the construction of a table before row `y`. -/
def TabInv (f : Nat → Nat → Nat) (high_w high_h y : Nat) (tab : List Nat) : Prop :=
  tab.length = (high_w + 1) * (high_h + 1) ∧
  (∀ a b, a ≤ high_w → b ≤ y → tab.getD (b * (high_w + 1) + a) 0 = prefixSum f a b % 2 ^ 64) ∧
  (∀ a b, a ≤ high_w → y < b → b ≤ high_h → tab.getD (b * (high_w + 1) + a) 0 = 0)

/-- The value of channel `c` at the sub-pixel `(dx, dy)` of the cell `(bx, by)`, or its
square. -/
def cellNat (highres : BlockPlanes) (sq : Bool) (c : Chan) (bx by_ dx dy : Nat) : Nat :=
  let v := ((highres.get c).getD ((by_ * 8 + dy) * highres.width.toNat + (bx * 8 + dx)) 0).toNat
  if sq then v * v else v

/-- The sum of `g` over the sub-pixels of a cell that the mask `m` selects. -/
def maskSum (m : Nat → Nat → Bool) (g : Nat → Nat → Nat) : Nat :=
  ∑ dy ∈ Finset.range 8, ∑ dx ∈ Finset.range 8, if m dx dy then g dx dy else 0

/-- The six sums and the pixel count of the part of the cell `(bx, by)` that `m` selects. -/
def maskRegion (highres : BlockPlanes) (bx by_ : Nat) (m : Nat → Nat → Bool) : Region :=
  ⟨maskSum m (cellNat highres false Chan.R bx by_), maskSum m (cellNat highres false Chan.G bx by_),
   maskSum m (cellNat highres false Chan.B bx by_), maskSum m (cellNat highres true Chan.R bx by_),
   maskSum m (cellNat highres true Chan.G bx by_), maskSum m (cellNat highres true Chan.B bx by_),
   maskSum m (fun _ _ => 1)⟩

/-- The mask of the rectangle `[a0, a1) x [b0, b1)` of a cell. -/
def rectMask (a0 a1 b0 b1 : Nat) (dx dy : Nat) : Bool :=
  decide (a0 ≤ dx ∧ dx < a1 ∧ b0 ≤ dy ∧ dy < b1)

/-- The coverage mask of a glyph as the specification describes it: the bottom `level` rows
for a Horizontal, the left `level` columns for a Vertical, the 4 x 4 quarter number `qidx`
(top-left, top-right, bottom-left, bottom-right) for a Quadrant, the whole cell for Full and
nothing for Space. -/
def GDesc.mask (gd : GDesc) (dx dy : Nat) : Bool :=
  match gd.type with
  | GType.H => decide (8 - gd.level ≤ dy)
  | GType.V => decide (dx < gd.level)
  | GType.Q =>
    (if gd.qidx % 2 ≠ 0 then decide (4 ≤ dx) else decide (dx < 4)) &&
    (if gd.qidx < 2 then decide (dy < 4) else decide (4 ≤ dy))
  | GType.F => true
  | GType.S => false

/-- The cell `(bx, by)` lies inside the grid and its 64 values are in `[0, 255]`. -/
def CellOK (highres : BlockPlanes) (bx by_ : Nat) : Prop :=
  (bx + 1) * 8 ≤ highres.width.toNat ∧ (by_ + 1) * 8 ≤ highres.height.toNat ∧
  ∀ c dx dy, dx < 8 → dy < 8 →
    0 ≤ (highres.get c).getD ((by_ * 8 + dy) * highres.width.toNat + (bx * 8 + dx)) 0 ∧
    (highres.get c).getD ((by_ * 8 + dy) * highres.width.toNat + (bx * 8 + dx)) 0 ≤ 255

/-- The sums of `n` sub-pixels that all have the colour `(kR, kG, kB)`. -/
def flatRegion (n kR kG kB : Nat) : Region :=
  ⟨n * kR, n * kG, n * kB, n * (kR * kR), n * (kG * kG), n * (kB * kB), n⟩

/-- The 64 sub-pixels of the cell `(bx, by)` lie inside the grid and all have the colour
`(r, g, b)`. -/
def FlatCell (highres : BlockPlanes) (bx by_ : Nat) (r g b : Int) : Prop :=
  (bx + 1) * 8 ≤ highres.width.toNat ∧ (by_ + 1) * 8 ≤ highres.height.toNat ∧
  ∀ dx dy, dx < 8 → dy < 8 →
    highres.r.getD ((by_ * 8 + dy) * highres.width.toNat + (bx * 8 + dx)) 0 = r ∧
    highres.g.getD ((by_ * 8 + dy) * highres.width.toNat + (bx * 8 + dx)) 0 = g ∧
    highres.b.getD ((by_ * 8 + dy) * highres.width.toNat + (bx * 8 + dx)) 0 = b

/-- The value of channel `c` at the sub-pixel `(dx, dy)` of the cell `(bx, by)`, as a
rational. -/
def cellQ (highres : BlockPlanes) (c : Chan) (bx by_ dx dy : Nat) : ℚ :=
  (((highres.get c).getD ((by_ * 8 + dy) * highres.width.toNat + (bx * 8 + dx)) 0 : Int) : ℚ)

/-- The error of the candidate `gd` of the cell `(bx, by)` in exact arithmetic. -/
def errOf (highres : BlockPlanes) (bx by_ : Nat) (gd : GDesc) : ℚ :=
  let t := buildIntegrals highres
  let tot := cellTotals t highres.width.toNat bx by_
  glyphErr tot (fgRegion t highres.width.toNat bx by_ tot gd)

/-- The error `err` that `render_high` computes, in `double`, for the candidate `gd` of the
cell `(bx, by)`. -/
def errOfD (highres : BlockPlanes) (bx by_ : Nat) (gd : GDesc) : ℚ :=
  let t := buildIntegrals highres
  let tot := cellTotals t highres.width.toNat bx by_
  glyphErrD tot (fgRegion t highres.width.toNat bx by_ tot gd)

/-- A grid of one cell that is black except for one sub-pixel with red 10 at `(5, 3)` and one
sub-pixel with blue 10 at `(6, 5)`. -/
def tiePlanes : BlockPlanes :=
  ⟨8, 8, (List.replicate 64 0).set 29 10, List.replicate 64 0, (List.replicate 64 0).set 46 10⟩

/-! ## Output strings (`renderer.cpp`) -/

/-- The bytes of an ASCII string literal. -/
def ascii (s : String) : List Nat := s.toList.map Char.toNat

/-- The bytes that `operator<<` writes for an `int`: its decimal digits, after a `-` if it is
negative. -/
def decimal (v : Int) : List Nat := ascii (toString v)

/-- The function `bg_rgb`. -/
def bg_rgb (r g b : Int) : List Nat :=
  ascii "\x1b[48;2;" ++ decimal r ++ ascii ";" ++ decimal g ++ ascii ";" ++ decimal b ++ ascii "m"

/-- The function `fg_rgb`. -/
def fg_rgb (r g b : Int) : List Nat :=
  ascii "\x1b[38;2;" ++ decimal r ++ ascii ";" ++ decimal g ++ ascii ";" ++ decimal b ++ ascii "m"

/-- The function `reset`. -/
def reset : List Nat := ascii "\x1b[0m"

/-- The function `codepoint_to_utf8`; each `char` is given as a byte `0..255`. -/
def codepoint_to_utf8 (code : Nat) : List Nat :=
  if code ≤ 0x7F then [code % 256]
  else if code ≤ 0x7FF then
    [0xC0 ||| ((code >>> 6) &&& 0x1F), 0x80 ||| (code &&& 0x3F)]
  else if code ≤ 0xFFFF then
    [0xE0 ||| ((code >>> 12) &&& 0x0F), 0x80 ||| ((code >>> 6) &&& 0x3F), 0x80 ||| (code &&& 0x3F)]
  else
    [0xF0 ||| ((code >>> 18) &&& 0x07), 0x80 ||| ((code >>> 12) &&& 0x3F),
     0x80 ||| ((code >>> 6) &&& 0x3F), 0x80 ||| (code &&& 0x3F)]

/-! ## The low-fidelity renderer (`render_low`) -/

/-- The accumulators `rsum, gsum, bsum` and `count` of a cell of `render_low`. -/
structure LowAcc where
  rsum : Int
  gsum : Int
  bsum : Int
  count : Int
deriving DecidableEq, Repr

/-- The body of the loop over `dx`: the sub-pixel `(bx*8 + dx, by*8 + dy)` is added. -/
def lowPixel (highres : BlockPlanes) (bx by_ dy : Nat) (acc : LowAcc) (dx : Nat) : LowAcc :=
  let sx := bx * 8 + dx
  let sy := by_ * 8 + dy
  let idx := sy * highres.width.toNat + sx
  ⟨acc.rsum + highres.r.getD idx 0, acc.gsum + highres.g.getD idx 0,
   acc.bsum + highres.b.getD idx 0, acc.count + 1⟩

/-- The two loops over `dy` and `dx` of a cell. -/
def lowBlock (highres : BlockPlanes) (bx by_ : Nat) : LowAcc :=
  (List.range 8).foldl
    (fun acc dy => (List.range 8).foldl (lowPixel highres bx by_ dy) acc) ⟨0, 0, 0, 0⟩

/-- The conversion `(int)x` of a `long long`. -/
def longToInt (x : Int) : Int := toInt32 (toU64 x)

/-- The output so far and the colour `prev_br, prev_bg, prev_bb` of a row. -/
structure LowRow where
  out : List Nat
  prev_br : Int
  prev_bg : Int
  prev_bb : Int
deriving DecidableEq, Repr

/-- The body of the loop over `bx` of `render_low`. -/
def lowCell (highres : BlockPlanes) (by_ : Nat) (st : LowRow) (bx : Nat) : LowRow :=
  let acc := lowBlock highres bx by_
  let br := longToInt (acc.rsum.tdiv acc.count)
  let bg := longToInt (acc.gsum.tdiv acc.count)
  let bb := longToInt (acc.bsum.tdiv acc.count)
  if br ≠ st.prev_br ∨ bg ≠ st.prev_bg ∨ bb ≠ st.prev_bb then
    ⟨st.out ++ bg_rgb br bg bb ++ ascii " ", br, bg, bb⟩
  else
    ⟨st.out ++ ascii " ", st.prev_br, st.prev_bg, st.prev_bb⟩

/-- The body of the loop over `by` of `render_low`. -/
def lowLine (highres : BlockPlanes) (out_w : Nat) (out : List Nat) (by_ : Nat) : List Nat :=
  ((List.range out_w).foldl (lowCell highres by_) ⟨out, -1, -1, -1⟩).out ++ reset ++ ascii "\n"

/-- The function `render_low`. -/
def render_low (highres : BlockPlanes) (out_w out_h : Nat) : List Nat :=
  (List.range out_h).foldl (lowLine highres out_w) []

/-! ## The output of the high-fidelity renderer (`render_high`) -/

/-- The string `local` of a task and the colours `prev_br .. prev_fb` of a row. -/
structure HighRow where
  out : List Nat
  prev_br : Int
  prev_bg : Int
  prev_bb : Int
  prev_fr : Int
  prev_fg : Int
  prev_fb : Int
deriving DecidableEq, Repr

/-- The part of the loop over `bx` that follows the search: the colour escapes that changed
and the glyph are appended. -/
def emitCell (st : HighRow) (best : Best) : HighRow :=
  let st1 : HighRow :=
    if best.best_br ≠ st.prev_br ∨ best.best_bg ≠ st.prev_bg ∨ best.best_bb ≠ st.prev_bb then
      { st with out := st.out ++ bg_rgb best.best_br best.best_bg best.best_bb
                prev_br := best.best_br, prev_bg := best.best_bg, prev_bb := best.best_bb }
    else st
  let st2 : HighRow :=
    if best.best_fr ≠ st1.prev_fr ∨ best.best_fg ≠ st1.prev_fg ∨ best.best_fb ≠ st1.prev_fb then
      { st1 with out := st1.out ++ fg_rgb best.best_fr best.best_fg best.best_fb
                 prev_fr := best.best_fr, prev_fg := best.best_fg, prev_fb := best.best_fb }
    else st1
  { st2 with out := st2.out ++ codepoint_to_utf8 best.best_cp }

/-- The body of the loop over `bx` of a task of `render_high`. -/
def highCell (t : Integrals) (high_w : Nat) (prune_threshold : Int) (measure_only : Bool)
    (by_ : Nat) (st : HighRow) (bx : Nat) : HighRow :=
  let best := (cellSearch t high_w prune_threshold bx by_ ⟨0, 0, 0, 0⟩).1
  if measure_only then st else emitCell st best

/-- The body of the loop over `by` of a task of `render_high`. -/
def highLine (t : Integrals) (high_w out_w : Nat) (prune_threshold : Int) (measure_only : Bool)
    (out : List Nat) (by_ : Nat) : List Nat :=
  let st := (List.range out_w).foldl (highCell t high_w prune_threshold measure_only by_)
    ⟨out, -1, -1, -1, -1, -1, -1⟩
  (if measure_only then st.out else st.out ++ reset) ++ ascii "\n"

/-- The string `parts[tid]` that the task of band `tid` builds. -/
def highPart (t : Integrals) (high_w out_w out_h threads : Nat) (prune_threshold : Int)
    (measure_only : Bool) (tid : Nat) : List Nat :=
  let row0 := (out_h * tid) / threads
  let row1 := (out_h * (tid + 1)) / threads
  (List.range' row0 (row1 - row0)).foldl
    (highLine t high_w out_w prune_threshold measure_only) []

/-- The function `render_high`: the string it returns; `hc` is the value of
`std::thread::hardware_concurrency()`. Every task writes its own `parts[tid]`, and the parts
are concatenated after `wait_idle`. -/
def render_high (highres : BlockPlanes) (out_w out_h : Nat) (hc : Nat) (prune_threshold : Int)
    (measure_only : Bool) : List Nat :=
  let t := buildIntegrals highres
  let threads := max 1 hc
  (List.range threads).foldl
    (fun out tid =>
      out ++ highPart t highres.width.toNat out_w out_h threads prune_threshold measure_only tid)
    []

/-! ## The task system (`TaskSystem.cpp`) -/

/-- The value of `threadCount` after the first statement of the constructor; `hc` is the value
of `std::thread::hardware_concurrency()`, an `unsigned int`, and `std::max(1u, hc - 1)` is
computed in `unsigned int` before it is converted to `int`. -/
def resolveThreadCount (hc : Nat) (threadCount : Int) : Int :=
  if threadCount ≤ 0 then toInt32 (max 1 ((hc % 2 ^ 32 + (2 ^ 32 - 1)) % 2 ^ 32)) else threadCount

/-- How a work unit ends: it returns, or it throws a `std::exception`, or it throws something
else. -/
inductive Outcome where
  | returns
  | throwsStd
  | throwsOther
deriving DecidableEq, Repr

/-- The number of errors that the `catch` clauses of `workerThread` log for a work unit. -/
def Outcome.logged : Outcome → Nat
  | Outcome.returns => 0
  | Outcome.throwsStd => 1
  | Outcome.throwsOther => 1

/-- A work unit: an identifier and the way its execution ends. -/
structure Task where
  id : Nat
  outcome : Outcome
deriving DecidableEq, Repr

/-- Where a worker thread is in `workerThread`: waiting at the top of the loop for the lock and
the condition, running a task it took from the queue, or returned. -/
inductive Worker where
  | waiting
  | running (task : Task)
  | exited
deriving DecidableEq, Repr

/-- The state of a `TaskSystem`: its workers, the queue `tasks`, `stopFlag` and `activeTasks`,
and as bookkeeping the tasks submitted so far, the tasks whose execution has ended and the
number of logged errors. -/
structure TaskSystem where
  workers : List Worker
  tasks : List Task
  stopFlag : Bool
  activeTasks : Int
  submitted : List Task
  completed : List Task
  errors : Nat
deriving DecidableEq, Repr

/-- The constructor `TaskSystem::TaskSystem`: the loop `for (i = 0; i < threadCount; ++i)`
starts one worker per iteration. -/
def TaskSystem.new (hc : Nat) (threadCount : Int) : TaskSystem :=
  { workers := (List.range (resolveThreadCount hc threadCount).toNat).foldl
      (fun ws _ => ws ++ [Worker.waiting]) []
    tasks := [], stopFlag := false, activeTasks := 0, submitted := [], completed := []
    errors := 0 }

/-- The function `submit`: the task goes to the back of the queue. -/
def TaskSystem.submit (s : TaskSystem) (task : Task) : TaskSystem :=
  { s with tasks := s.tasks ++ [task], submitted := s.submitted ++ [task] }

/-- The locked section of `workerThread` for the worker `w`: it passes the wait when
`stopFlag || !tasks.empty()`, returns when the pool is stopped and the queue is empty, and
otherwise takes the front of the queue and increments `activeTasks`. The result is `none` when
the worker is not at the top of its loop or stays blocked in the wait. -/
def TaskSystem.dequeue (s : TaskSystem) (w : Nat) : Option TaskSystem :=
  match s.workers[w]? with
  | some Worker.waiting =>
    if s.stopFlag || !s.tasks.isEmpty then
      if s.stopFlag && s.tasks.isEmpty then
        some { s with workers := s.workers.set w Worker.exited }
      else
        match s.tasks with
        | [] => some s
        | task :: rest =>
          some { s with workers := s.workers.set w (Worker.running task), tasks := rest
                        activeTasks := s.activeTasks + 1 }
    else none
  | _ => none

/-- The rest of the loop body of `workerThread` for the worker `w`: the task runs inside
`try`, an exception is caught and logged, then `activeTasks` is decremented and the worker is
back at the top of its loop. -/
def TaskSystem.finish (s : TaskSystem) (w : Nat) : Option TaskSystem :=
  match s.workers[w]? with
  | some (Worker.running task) =>
    some { s with workers := s.workers.set w Worker.waiting
                  activeTasks := s.activeTasks - 1
                  completed := s.completed ++ [task]
                  errors := s.errors + task.outcome.logged }
  | _ => none

/-- The locked section of `stop`. -/
def TaskSystem.setStop (s : TaskSystem) : TaskSystem :=
  if s.stopFlag then s else { s with stopFlag := true }

/-- The predicate of the wait of `wait_idle`. -/
def TaskSystem.idle (s : TaskSystem) : Bool :=
  s.tasks.isEmpty && decide (s.activeTasks = 0)

/-- The atomic steps of a pool: a thread submits a task, a worker runs its locked section, a
worker ends the task it is running, a thread sets the stop flag. -/
inductive Action where
  | submit (task : Task)
  | dequeue (w : Nat)
  | finish (w : Nat)
  | stop
deriving DecidableEq, Repr

/-- One atomic step; `none` when the step is not enabled. -/
def TaskSystem.step (s : TaskSystem) : Action → Option TaskSystem
  | Action.submit task => some (s.submit task)
  | Action.dequeue w => s.dequeue w
  | Action.finish w => s.finish w
  | Action.stop => some s.setStop

/-- A sequence of atomic steps. -/
def TaskSystem.run (s : TaskSystem) : List Action → Option TaskSystem
  | [] => some s
  | a :: as => (s.step a).bind (fun s' => s'.run as)

/-- The tasks that the workers are running. -/
def TaskSystem.inFlight (s : TaskSystem) : List Task :=
  s.workers.filterMap (fun w => match w with
    | Worker.running task => some task
    | _ => none)

/-- The glyph table has an entry of type `ty`, level `level` and quadrant index `qidx`, it is
the only such entry, it carries the code point `code`, and in every cell the foreground sums
that `render_high` computes for it are the sums over the sub-pixels that `m` selects. -/
def TableEntry (ty : GType) (level qidx code : Nat) (m : Nat → Nat → Bool) : Prop :=
  ∃ gd ∈ glyphs, gd.type = ty ∧ gd.level = level ∧ gd.qidx = qidx ∧ gd.code = code ∧
    (∀ gd' ∈ glyphs, gd'.type = ty → gd'.level = level → gd'.qidx = qidx → gd' = gd) ∧
    ∀ (highres : BlockPlanes) (bx by_ : Nat), CellOK highres bx by_ →
      fgRegion (buildIntegrals highres) highres.width.toNat bx by_
        (cellTotals (buildIntegrals highres) highres.width.toNat bx by_) gd =
      maskRegion highres bx by_ m

/-- The accounting invariant of a pool: the submitted tasks are, up to order, the completed,
the in-flight and the queued ones, and `activeTasks` counts the in-flight tasks. -/
def TaskSystem.Inv (s : TaskSystem) : Prop :=
  s.submitted.Perm (s.completed ++ s.inFlight ++ s.tasks) ∧
  s.activeTasks = (s.inFlight.length : Int)

/-- The colour of the cell `(bx, by)` as the specification of `render_low` gives it: for the
channel `c` the truncating quotient by 64 of the sum of the 64 values of the 8 x 8 block at
`(bx*8, by*8)`. -/
def lowColour (highres : BlockPlanes) (c : Chan) (bx by_ : Nat) : Int :=
  (∑ dy ∈ Finset.range 8, ∑ dx ∈ Finset.range 8,
    (highres.get c).getD ((by_ * 8 + dy) * highres.width.toNat + (bx * 8 + dx)) 0).tdiv 64

/-- The bytes of the cell `bx` of the row `by` in the output of `render_low` as the
specification gives them: the background escape if and only if the cell is the first of its
row or its colour differs from the colour of the previous cell, then one space. -/
def lowCellSpec (highres : BlockPlanes) (by_ bx : Nat) : List Nat :=
  (if bx = 0 ∨ (lowColour highres Chan.R bx by_ ≠ lowColour highres Chan.R (bx - 1) by_ ∨
      lowColour highres Chan.G bx by_ ≠ lowColour highres Chan.G (bx - 1) by_ ∨
      lowColour highres Chan.B bx by_ ≠ lowColour highres Chan.B (bx - 1) by_) then
    bg_rgb (lowColour highres Chan.R bx by_) (lowColour highres Chan.G bx by_)
      (lowColour highres Chan.B bx by_)
  else []) ++ ascii " "

/-- The output of `render_low` as the specification gives it: the rows `0, ..., out_h - 1`,
each the cells `0, ..., out_w - 1` followed by the reset escape and a newline. -/
def lowSpec (highres : BlockPlanes) (out_w out_h : Nat) : List Nat :=
  (List.range out_h).flatMap (fun by_ =>
    (List.range out_w).flatMap (lowCellSpec highres by_) ++ reset ++ ascii "\n")

/-- The body of the loop over the glyph table, with the table entry of the last update of the
best candidate kept next to it (the counters are left out). -/
def selectStep (t : Integrals) (high_w : Nat) (prune_threshold : Int) (bx by_ : Nat)
    (st : Best × Option GDesc) (gd : GDesc) : Best × Option GDesc :=
  let tot := cellTotals t high_w bx by_
  let fg := fgRegion t high_w bx by_ tot gd
  if colorDiff (regionMeans tot fg) < prune_threshold then st
  else if glyphErrD tot fg < st.1.best_err then (st.1.update tot fg gd, some gd)
  else st

/-- The table entry that `render_high` selects for the cell `(bx, by)`: the entry of the last
update of the best candidate, `none` when every candidate was pruned. -/
def cellSelect (highres : BlockPlanes) (prune_threshold : Int) (bx by_ : Nat) : Option GDesc :=
  (glyphs.foldl (selectStep (buildIntegrals highres) highres.width.toNat prune_threshold bx by_)
    (Best.init, none)).2

/-- Decoding of one code point by the UTF-8 rules: a lead byte `0xxxxxxx`, `110xxxxx`,
`1110xxxx` or `11110xxx` followed by one continuation byte `10xxxxxx` for every further byte,
the payload bits concatenated; an encoding that is longer than necessary, or gives a value
above `0x10FFFF` or one of the surrogate values `0xD800 .. 0xDFFF`, is rejected. -/
def utf8Decode : List Nat → Option Nat
  | [b0] => if b0 < 0x80 then some b0 else none
  | [b0, b1] =>
    if 0xC0 ≤ b0 ∧ b0 < 0xE0 ∧ 0x80 ≤ b1 ∧ b1 < 0xC0 ∧
        0x80 ≤ (b0 - 0xC0) * 64 + (b1 - 0x80) then
      some ((b0 - 0xC0) * 64 + (b1 - 0x80))
    else none
  | [b0, b1, b2] =>
    if 0xE0 ≤ b0 ∧ b0 < 0xF0 ∧ 0x80 ≤ b1 ∧ b1 < 0xC0 ∧ 0x80 ≤ b2 ∧ b2 < 0xC0 ∧
        0x800 ≤ (b0 - 0xE0) * 4096 + (b1 - 0x80) * 64 + (b2 - 0x80) ∧
        ¬ (0xD800 ≤ (b0 - 0xE0) * 4096 + (b1 - 0x80) * 64 + (b2 - 0x80) ∧
          (b0 - 0xE0) * 4096 + (b1 - 0x80) * 64 + (b2 - 0x80) ≤ 0xDFFF) then
      some ((b0 - 0xE0) * 4096 + (b1 - 0x80) * 64 + (b2 - 0x80))
    else none
  | [b0, b1, b2, b3] =>
    if 0xF0 ≤ b0 ∧ b0 < 0xF8 ∧ 0x80 ≤ b1 ∧ b1 < 0xC0 ∧ 0x80 ≤ b2 ∧ b2 < 0xC0 ∧
        0x80 ≤ b3 ∧ b3 < 0xC0 ∧
        0x10000 ≤ (b0 - 0xF0) * 262144 + (b1 - 0x80) * 4096 + (b2 - 0x80) * 64 + (b3 - 0x80) ∧
        (b0 - 0xF0) * 262144 + (b1 - 0x80) * 4096 + (b2 - 0x80) * 64 + (b3 - 0x80) ≤ 0x10FFFF then
      some ((b0 - 0xF0) * 262144 + (b1 - 0x80) * 4096 + (b2 - 0x80) * 64 + (b3 - 0x80))
    else none
  | _ => none

/-- The invariant of the run-grouping loop that links the runs: every run pushed so far is not
empty, each run stops where the next one starts and has another length, the first run starts
at column 0, and the last run stops at `run_start` with a length other than `cur_len`. -/
def RunLinked (s : RunState) : Prop :=
  (∀ run ∈ s.runs, run.start < run.stop) ∧
  List.Chain' (fun a b : Run => a.stop = b.start ∧ a.len ≠ b.len) s.runs ∧
  (∀ run, s.runs.head? = some run → run.start = 0) ∧
  (s.runs = [] → s.run_start = 0) ∧
  (∀ run, s.runs.getLast? = some run → run.stop = s.run_start ∧ run.len ≠ s.cur_len)

/-- Some worker of the pool has not left its loop. -/
def TaskSystem.alive (s : TaskSystem) : Prop :=
  ∃ w ∈ s.workers, w ≠ Worker.exited

/-- The task `task` is not lost: its execution has ended, or a worker is running it, or it is
in the queue of a pool that still has a worker in its loop. -/
def TaskSystem.Pending (s : TaskSystem) (task : Task) : Prop :=
  task ∈ s.completed ∨ task ∈ s.inFlight ∨ (task ∈ s.tasks ∧ s.alive)

/-- The truncating quotient of a region sum by the pixel count of the region; `0` for a region
without pixels. -/
def truncMean (sum cnt : Nat) : Int :=
  if cnt = 0 then 0 else ((sum / cnt : Nat) : Int)

/-- The truncated mean colours of the two regions of the glyph `gd` in the cell `(bx, by)` as
the specification gives them: per channel the quotient of the sum of the values of the
sub-pixels of the region by their number, for the foreground (the mask of the glyph) and for
the background (the rest of the cell). -/
def specMeans (highres : BlockPlanes) (bx by_ : Nat) (gd : GDesc) : Means :=
  { fr := truncMean (maskSum gd.mask (cellNat highres false Chan.R bx by_))
      (maskSum gd.mask (fun _ _ => 1))
    fgc := truncMean (maskSum gd.mask (cellNat highres false Chan.G bx by_))
      (maskSum gd.mask (fun _ _ => 1))
    fb := truncMean (maskSum gd.mask (cellNat highres false Chan.B bx by_))
      (maskSum gd.mask (fun _ _ => 1))
    br := truncMean (maskSum (fun dx dy => !gd.mask dx dy) (cellNat highres false Chan.R bx by_))
      (maskSum (fun dx dy => !gd.mask dx dy) (fun _ _ => 1))
    bgcol := truncMean
      (maskSum (fun dx dy => !gd.mask dx dy) (cellNat highres false Chan.G bx by_))
      (maskSum (fun dx dy => !gd.mask dx dy) (fun _ _ => 1))
    bb := truncMean (maskSum (fun dx dy => !gd.mask dx dy) (cellNat highres false Chan.B bx by_))
      (maskSum (fun dx dy => !gd.mask dx dy) (fun _ _ => 1)) }

/-- The six colours of a best candidate, in the order of `Means`. -/
def Best.colours (b : Best) : Means :=
  ⟨b.best_fr, b.best_fg, b.best_fb, b.best_br, b.best_bg, b.best_bb⟩

/-- The body of the loop over `bx` of a task of `render_high`, with the counters: the search
of the cell updates the counters, and the cell is emitted unless `measure_only` is set. -/
def highCellStats (t : Integrals) (high_w : Nat) (prune_threshold : Int) (measure_only : Bool)
    (by_ : Nat) (st : HighRow × PruneStats) (bx : Nat) : HighRow × PruneStats :=
  let r := cellSearch t high_w prune_threshold bx by_ st.2
  (if measure_only then st.1 else emitCell st.1 r.1, r.2)

/-- The body of the loop over `by` of a task of `render_high`, with the counters. -/
def highLineStats (t : Integrals) (high_w out_w : Nat) (prune_threshold : Int)
    (measure_only : Bool) (st : List Nat × PruneStats) (by_ : Nat) : List Nat × PruneStats :=
  let r := (List.range out_w).foldl (highCellStats t high_w prune_threshold measure_only by_)
    (⟨st.1, -1, -1, -1, -1, -1, -1⟩, { st.2 with total_cells := st.2.total_cells + out_w })
  ((if measure_only then r.1.out else r.1.out ++ reset) ++ ascii "\n", r.2)

/-- The task of band `tid`: the string `local` that it moves to `parts[tid]`, and the counters
after it. -/
def highTask (t : Integrals) (high_w out_w out_h threads : Nat) (prune_threshold : Int)
    (measure_only : Bool) (tid : Nat) (stats : PruneStats) : List Nat × PruneStats :=
  let row0 := (out_h * tid) / threads
  let row1 := (out_h * (tid + 1)) / threads
  (List.range' row0 (row1 - row0)).foldl
    (highLineStats t high_w out_w prune_threshold measure_only) ([], stats)

/-- The function `render_high` with the order in which the pool runs the tasks of the bands as
a parameter: the string it returns and the counters of `PruneStats` from zeroed counters. The
array `parts` starts with `threads` empty strings, every task writes its own `parts[tid]`, and
the parts are concatenated in the order of `tid` after `wait_idle`. -/
def render_high_sched (highres : BlockPlanes) (out_w out_h : Nat) (hc : Nat)
    (prune_threshold : Int) (measure_only : Bool) (order : List Nat → List Nat) :
    List Nat × PruneStats :=
  let t := buildIntegrals highres
  let threads := max 1 hc
  let r := (order (List.range threads)).foldl
    (fun (st : List (List Nat) × PruneStats) tid =>
      let p := highTask t highres.width.toNat out_w out_h threads prune_threshold measure_only
        tid st.2
      (st.1.set tid p.1, p.2))
    (List.replicate threads [], ⟨0, 0, 0, 0⟩)
  ((List.range threads).foldl (fun out tid => out ++ r.1.getD tid []) [], r.2)

/-- The arrays that `resample_to_planes_fast` indexes: the interleaved pixel bytes of the
image, a plane `pr, pg, pb`, a table of partial sums `hr, hg, hb`, a channel `out.r, out.g,
out.b` of the result, and the four tables of range bounds. The three arrays of a group have
the same size and are indexed in lock step. -/
inductive Arr where
  | pixels
  | plane
  | hsum
  | out
  | x0s
  | x1s
  | y0s
  | y1s
deriving DecidableEq, Repr

/-- The number of elements of an array of `resample_to_planes_fast`: `img.pixels.size()`,
`pr.resize(w * h)`, `hr.resize(h * out_w)`, `out.r.resize(out_w * out_h)` with its `int`
product, `x0s(out_w)`, `x1s(out_w)`, `y0s(out_h)` and `y1s(out_h)`. -/
def arrSize (img : Image) (out_w out_h : Nat) : Arr → Nat
  | Arr.pixels => img.pixels.length
  | Arr.plane => img.width.toNat * img.height.toNat
  | Arr.hsum => img.height.toNat * out_w
  | Arr.out => (wrapInt ((out_w : Int) * (out_h : Int))).toNat
  | Arr.x0s => out_w
  | Arr.x1s => out_w
  | Arr.y0s => out_h
  | Arr.y1s => out_h

/-- The elements that `sum_u8_scalar(ptr + off, len)` reads: `ptr[off + i]` for `i < len`. -/
def sum_u8_reads (off : Nat) (len : Int) : List (Arr × Nat) :=
  (List.range len.toNat).map (fun i => (Arr.plane, off + i))

/-- The array accesses of the inner loop of `flatten_to_planes` for the whole row `y`: per
pixel the reads `src[x * channels + k]` and the writes `rdst[x]`, `gdst[x]`, `bdst[x]`. -/
def flattenRowAcc (img : Image) (y : Nat) : List (Arr × Nat) :=
  let w := img.width.toNat
  let ch := img.channels.toNat
  (List.range w).flatMap (fun x =>
    [(Arr.pixels, ptrIndex (y * w * ch) (wrapInt ((x : Int) * img.channels + 0))),
     (Arr.plane, y * w + x),
     (Arr.pixels, ptrIndex (y * w * ch) (wrapInt ((x : Int) * img.channels + 1))),
     (Arr.plane, y * w + x),
     (Arr.pixels, ptrIndex (y * w * ch) (wrapInt ((x : Int) * img.channels + 2))),
     (Arr.plane, y * w + x)])

/-- The array accesses of the task that `flatten_to_planes` submits for chunk `c`. -/
def flattenTileAcc (img : Image) (tile_h c : Nat) : List (Arr × Nat) :=
  let h := img.height.toNat
  let y0 := c * tile_h
  let y1 := min h (y0 + tile_h)
  (List.range' y0 (y1 - y0)).flatMap (flattenRowAcc img)

/-- The array accesses of `flatten_to_planes`, chunk after chunk. -/
def flattenAcc (img : Image) (tile_h : Int) : List (Arr × Nat) :=
  let h := img.height.toNat
  let th := clampTile tile_h h
  let chunks := (h + th - 1) / th
  (List.range chunks).flatMap (flattenTileAcc img th)

/-- The array accesses of the loop over one run in `horizontal_box_sum`: for a pair of
columns the reads `x0s[bx]`, `x0s[bx+1]`, the bytes of the two sums and the writes `dst[bx]`,
`dst[bx+1]`; for the single column that is left the read `x0s[bx]`, the bytes of its sum and
the write `dst[bx]`. -/
def hRunAcc (x0s : List Nat) (rowOff dstOff : Nat) (len : Int) (stop : Nat) :
    Nat → Nat → List (Arr × Nat)
  | 0, _ => []
  | fuel + 1, bx =>
    if bx + 1 < stop then
      [(Arr.x0s, bx), (Arr.x0s, bx + 1)] ++
      sum_u8_reads (rowOff + x0s.getD bx 0) len ++
      sum_u8_reads (rowOff + x0s.getD (bx + 1) 0) len ++
      [(Arr.hsum, dstOff + bx), (Arr.hsum, dstOff + (bx + 1))] ++
      hRunAcc x0s rowOff dstOff len stop fuel (bx + 2)
    else if bx < stop then
      [(Arr.x0s, bx)] ++ sum_u8_reads (rowOff + x0s.getD bx 0) len ++ [(Arr.hsum, dstOff + bx)]
    else []

/-- The array accesses of one source row of `horizontal_box_sum`. -/
def hRowAcc (w out_w : Nat) (x0s : List Nat) (runs : List Run) (y : Nat) : List (Arr × Nat) :=
  runs.flatMap (fun run =>
    hRunAcc x0s (y * w) (y * out_w) run.len run.stop (run.stop - run.start) run.start)

/-- The array accesses of the task that `horizontal_box_sum` submits for chunk `c`. -/
def hTileAcc (w h out_w : Nat) (x0s : List Nat) (runs : List Run) (tile_h c : Nat) :
    List (Arr × Nat) :=
  let y0 := c * tile_h
  let y1 := min h (y0 + tile_h)
  (List.range' y0 (y1 - y0)).flatMap (hRowAcc w out_w x0s runs)

/-- The array accesses of `horizontal_box_sum`, chunk after chunk. -/
def hAcc (w h out_w : Nat) (x0s : List Nat) (runs : List Run) (tile_h_rows : Int) :
    List (Arr × Nat) :=
  let th := clampTile tile_h_rows h
  let chunks := (h + th - 1) / th
  (List.range chunks).flatMap (hTileAcc w h out_w x0s runs th)

/-- The array accesses of one output row `by` of the vertical pass: the reads `y0s[by]`,
`y1s[by]`, and per column the reads `x1s[bx]`, `x0s[bx]`, the reads `hr[sy * out_w + bx]`
for `y0 ≤ sy < y1` and the write `out.r[by * out_w + bx]`. -/
def vRowAcc (out_w : Nat) (y0s y1s : List Nat) (by_ : Nat) : List (Arr × Nat) :=
  let y0 := y0s.getD by_ 0
  let y1 := y1s.getD by_ 0
  [(Arr.y0s, by_), (Arr.y1s, by_)] ++
  (List.range out_w).flatMap (fun bx =>
    [(Arr.x1s, bx), (Arr.x0s, bx)] ++
    (List.range' y0 (y1 - y0)).map (fun sy => (Arr.hsum, sy * out_w + bx)) ++
    [(Arr.out, by_ * out_w + bx)])

/-- The array accesses of the task that the vertical pass submits for chunk `c`. -/
def vTileAcc (out_w out_h : Nat) (y0s y1s : List Nat) (tile_h_rows c : Nat) :
    List (Arr × Nat) :=
  let by0 := c * tile_h_rows
  let by1 := min out_h (by0 + tile_h_rows)
  (List.range' by0 (by1 - by0)).flatMap (vRowAcc out_w y0s y1s)

/-- The array accesses of `resample_to_planes_fast`, in the order of the source: none when
the function fails in its allocations or returns early for an image without pixels, and
otherwise the loop that fills `x0s` and `x1s`, the run-grouping loop, the loop that fills
`y0s` and `y1s`, `flatten_to_planes`, `horizontal_box_sum` and the vertical pass (nothing when
`tile_h_rows` is zero, where the division fails before the pass). -/
def resampleAcc (img : Image) (out_w out_h : Int) (tile_h tile_h_horiz : Int) :
    List (Arr × Nat) :=
  if wrapInt (out_w * out_h) < 0 then []
  else if img.width ≤ 0 ∨ img.height ≤ 0 then []
  else if out_w < 0 ∨ out_h < 0 then []
  else
  let tile_h : Int := if tile_h ≤ 0 then 64 else tile_h
  let w := img.width.toNat
  let h := img.height.toNat
  let ow := out_w.toNat
  let oh := out_h.toNat
  let x0s := (List.range ow).map (rangeStart w ow)
  let x1s := (List.range ow).map (rangeEnd w ow)
  let runs := buildRuns x0s x1s ow
  let y0s := (List.range oh).map (rangeStart h oh)
  let y1s := (List.range oh).map (rangeEnd h oh)
  let tile_h_h_run : Int :=
    if tile_h_horiz ≤ 0 then
      let scaled : Int := tile_h * 4
      let scaled : Int := if scaled ≤ 0 then 64 else scaled
      max tile_h scaled
    else tile_h_horiz
  let tile_h_h_run : Int := min tile_h_h_run img.height
  let tile_h_rows : Int := min tile_h out_h
  (List.range ow).flatMap (fun bx => [(Arr.x0s, bx), (Arr.x1s, bx)]) ++
  (if 0 < ow then
    [(Arr.x1s, 0), (Arr.x0s, 0)] ++
    (List.range' 1 ow).flatMap (fun bx =>
      if bx = ow then [] else [(Arr.x1s, bx), (Arr.x0s, bx)])
   else []) ++
  (List.range oh).flatMap (fun by_ => [(Arr.y0s, by_), (Arr.y1s, by_)]) ++
  flattenAcc img tile_h ++
  hAcc w h ow x0s runs tile_h_h_run ++
  (if tile_h_rows = 0 then []
   else
    (List.range (Int.tdiv (out_h + tile_h_rows - 1) tile_h_rows).toNat).flatMap
      (vTileAcc ow oh y0s y1s tile_h_rows.toNat))

/-- The transformer `T` overwrites the cells selected by `S` with the values `v` and keeps
every other cell, in each of the three buffers. -/
def PUpd {α : Type} (T : Planes α → Planes α) (S : Nat → Prop) (v : Chan → Nat → α) : Prop :=
  ∀ (p : Planes α) (c : Chan) (i : Nat),
    (S i → ((T p).get c)[i]? = ((p.get c)[i]?).map (fun _ => v c i)) ∧
    (¬ S i → ((T p).get c)[i]? = (p.get c)[i]?)


/-! ## Rounding to `double` -/

theorem rne_intCast (z : ℤ) : rne (z : ℚ) = z := by
  unfold rne
  simp

theorem rne_err (y : ℚ) : |((rne y : ℤ) : ℚ) - y| ≤ 1 / 2 := by
  unfold rne
  have h1 := Int.floor_le y
  have h2 := Int.lt_floor_add_one y
  simp only
  split
  · rw [abs_le]; constructor <;> linarith
  · split
    · rw [abs_le]; push_cast; constructor <;> linarith
    · split
      · rw [abs_le]; constructor <;> linarith
      · rw [abs_le]; push_cast; constructor <;> linarith

theorem log2Fuel_le (fuel n : Nat) (hn : n ≠ 0) : 2 ^ log2Fuel fuel n ≤ n := by
  induction fuel generalizing n with
  | zero => simp only [log2Fuel, pow_zero]; omega
  | succ fuel ih =>
    simp only [log2Fuel]
    split
    · simp only [pow_zero]; omega
    · have h := ih (n / 2) (by omega)
      rw [pow_succ]
      omega

theorem lt_log2Fuel (fuel n : Nat) (hn : n ≤ fuel) : n < 2 ^ (log2Fuel fuel n + 1) := by
  induction fuel generalizing n with
  | zero =>
    have : n = 0 := by omega
    subst this
    simp [log2Fuel]
  | succ fuel ih =>
    simp only [log2Fuel]
    split
    · simp only [zero_add, pow_one]; omega
    · have h := ih (n / 2) (by omega)
      rw [pow_succ]
      omega

theorem expo_le (x : ℚ) (hx : x ≠ 0) : (2 : ℚ) ^ (expo x) ≤ |x| := by
  unfold expo
  simp only
  split
  · assumption
  · have hp : x.num.natAbs ≠ 0 := by
      intro h
      apply hx
      have : x.num = 0 := Int.natAbs_eq_zero.mp h
      exact Rat.zero_of_num_zero this
    have hq : x.den ≠ 0 := x.den_nz
    have h1 : 2 ^ (ilog2 x.num.natAbs) ≤ x.num.natAbs := log2Fuel_le _ _ hp
    have h2 : x.den < 2 ^ (ilog2 x.den + 1) := lt_log2Fuel _ _ (le_refl _)
    have habs : |x| = (x.num.natAbs : ℚ) / (x.den : ℚ) := by
      have := Rat.num_div_den x
      conv_lhs => rw [← this]
      rw [abs_div, Nat.abs_cast]
      congr 1
      rw [Nat.cast_natAbs, Int.cast_abs]
    rw [habs]
    have e : ((ilog2 x.num.natAbs : ℤ) - (ilog2 x.den : ℤ) - 1) =
        (ilog2 x.num.natAbs : ℤ) - ((ilog2 x.den + 1 : ℕ) : ℤ) := by push_cast; ring
    rw [e, zpow_sub₀ (by norm_num : (2 : ℚ) ≠ 0), zpow_natCast, zpow_natCast]
    have h1' : ((2 : ℚ) ^ (ilog2 x.num.natAbs)) ≤ (x.num.natAbs : ℚ) := by exact_mod_cast h1
    have h2' : (x.den : ℚ) ≤ (2 : ℚ) ^ (ilog2 x.den + 1) := by exact_mod_cast (le_of_lt h2)
    have hq' : (0 : ℚ) < (x.den : ℚ) := by exact_mod_cast (Nat.pos_of_ne_zero hq)
    exact div_le_div₀ (by positivity) h1' hq' h2'

/-- The relative error of a rounding is at most `2^-53`. -/
theorem fl_err (x : ℚ) : |fl x - x| ≤ |x| / 2 ^ 53 := by
  unfold fl
  split
  · next h => subst h; simp
  · next hx =>
    have hs : (0 : ℚ) < (2 : ℚ) ^ (expo x - 52) := zpow_pos (by norm_num) _
    have h1 := rne_err (x / (2 : ℚ) ^ (expo x - 52))
    have e : ((rne (x / (2 : ℚ) ^ (expo x - 52)) : ℤ) : ℚ) * (2 : ℚ) ^ (expo x - 52) - x =
        (((rne (x / (2 : ℚ) ^ (expo x - 52)) : ℤ) : ℚ) - x / (2 : ℚ) ^ (expo x - 52)) *
          (2 : ℚ) ^ (expo x - 52) := by
      field_simp
    rw [e, abs_mul, abs_of_pos hs]
    have h2 : (2 : ℚ) ^ (expo x - 52) = (2 : ℚ) ^ (expo x) / 2 ^ 52 := by
      rw [zpow_sub₀ (by norm_num : (2 : ℚ) ≠ 0)]
      norm_num
    have h3 := expo_le x hx
    calc |((rne (x / (2 : ℚ) ^ (expo x - 52)) : ℤ) : ℚ) - x / (2 : ℚ) ^ (expo x - 52)| *
          (2 : ℚ) ^ (expo x - 52)
        ≤ 1 / 2 * (2 : ℚ) ^ (expo x - 52) := mul_le_mul_of_nonneg_right h1 (le_of_lt hs)
      _ = (2 : ℚ) ^ (expo x) / 2 ^ 53 := by rw [h2]; ring
      _ ≤ |x| / 2 ^ 53 := by
        apply div_le_div_of_nonneg_right h3 (by positivity)

/-- A natural number below `2^53` is a `double`. -/
theorem fl_natCast (z : Nat) (hz : z < 2 ^ 53) : fl (z : ℚ) = (z : ℚ) := by
  unfold fl
  split
  · next h => rw [h]
  · next hx =>
    have h3 := expo_le (z : ℚ) hx
    rw [abs_of_nonneg (by positivity)] at h3
    have hlt : (2 : ℚ) ^ (expo (z : ℚ)) < (2 : ℚ) ^ (53 : ℤ) := by
      refine lt_of_le_of_lt h3 ?_
      have : (z : ℚ) < ((2 ^ 53 : ℕ) : ℚ) := by exact_mod_cast hz
      calc (z : ℚ) < ((2 ^ 53 : ℕ) : ℚ) := this
        _ = (2 : ℚ) ^ (53 : ℤ) := by norm_num
    have he : expo (z : ℚ) < 53 := by
      by_contra hcon
      push_neg at hcon
      have := zpow_le_zpow_right₀ (by norm_num : (1 : ℚ) ≤ 2) hcon
      linarith
    obtain ⟨k, hk⟩ : ∃ k : ℕ, (52 : ℤ) - expo (z : ℚ) = (k : ℤ) :=
      ⟨(52 - expo (z : ℚ)).toNat, by omega⟩
    have hs : (2 : ℚ) ^ (expo (z : ℚ) - 52) = 1 / (2 : ℚ) ^ k := by
      have : expo (z : ℚ) - 52 = -(k : ℤ) := by omega
      rw [this, zpow_neg, zpow_natCast]
      simp
    rw [hs]
    have e : (z : ℚ) / (1 / (2 : ℚ) ^ k) = (((z * 2 ^ k : ℕ) : ℤ) : ℚ) := by
      push_cast
      field_simp
    rw [e, rne_intCast]
    push_cast
    field_simp

theorem fl_zero : fl 0 = 0 := by
  unfold fl; simp

/-- A rational that is a natural number below `2^53` is a `double`. -/
theorem fl_eq_nat (q : ℚ) (z : Nat) (h : q = (z : ℚ)) (hz : z < 2 ^ 53) : fl q = (z : ℚ) := by
  rw [h]; exact fl_natCast z hz

theorem toD_eq (z : Nat) (hz : z < 2 ^ 53) : toD z = (z : ℚ) := fl_natCast z hz

/-- One rounded operation: an operand error `η` grows by at most `2^-20` as long as the exact
value is below `2^32`. -/
theorem fl_step (x y η : ℚ) (h : |x - y| ≤ η) (hy : |y| ≤ 2 ^ 32) (hη : η ≤ 1) :
    |fl x - y| ≤ η + 1 / 2 ^ 20 := by
  have h1 := fl_err x
  have h2 : |x| ≤ 2 ^ 32 + 1 := by
    have : |x| ≤ |x - y| + |y| := by
      have := abs_add (x - y) y
      simpa using this
    linarith
  have h3 : |x| / 2 ^ 53 ≤ 1 / 2 ^ 20 := by
    rw [div_le_iff₀ (by positivity)]
    refine le_trans h2 ?_
    norm_num
  have h4 : |fl x - y| ≤ |fl x - x| + |x - y| := by
    have := abs_add (fl x - x) (x - y)
    simpa using this
  linarith

theorem fl_ge_half (x : ℚ) (hx : 0 ≤ x) : x / 2 ≤ fl x := by
  have h1 := fl_err x
  rw [abs_le, abs_of_nonneg hx] at h1
  have h3 : x / 2 ^ 53 ≤ x / 2 :=
    div_le_div_of_nonneg_left hx (by norm_num) (by norm_num)
  linarith [h1.1]

/-- Rounding to the nearest integer is monotone. -/
theorem rne_mono (a b : ℚ) (h : a ≤ b) : rne a ≤ rne b := by
  have hf : ⌊a⌋ ≤ ⌊b⌋ := Int.floor_mono h
  have ha1 := Int.floor_le a
  have ha2 := Int.lt_floor_add_one a
  have hb1 := Int.floor_le b
  have hb2 := Int.lt_floor_add_one b
  rcases hf.lt_or_eq with hlt | heq
  · have h1 : rne a ≤ ⌊a⌋ + 1 := by
      unfold rne
      simp only
      split_ifs <;> omega
    have h2 : ⌊b⌋ ≤ rne b := by
      unfold rne
      simp only
      split_ifs <;> omega
    omega
  · unfold rne
    simp only
    rw [← heq]
    split_ifs <;> first | omega | (exfalso; linarith)

/-- The upper bound of the binary exponent. -/
theorem lt_expo (x : ℚ) (hx : x ≠ 0) : |x| < (2 : ℚ) ^ (expo x + 1) := by
  unfold expo
  simp only
  split
  · have hp : x.num.natAbs ≠ 0 := by
      intro h
      apply hx
      have : x.num = 0 := Int.natAbs_eq_zero.mp h
      exact Rat.zero_of_num_zero this
    have hq : x.den ≠ 0 := x.den_nz
    have h1 : x.num.natAbs < 2 ^ (ilog2 x.num.natAbs + 1) := lt_log2Fuel _ _ (le_refl _)
    have h2 : 2 ^ (ilog2 x.den) ≤ x.den := log2Fuel_le _ _ hq
    have habs : |x| = (x.num.natAbs : ℚ) / (x.den : ℚ) := by
      have := Rat.num_div_den x
      conv_lhs => rw [← this]
      rw [abs_div, Nat.abs_cast]
      congr 1
      rw [Nat.cast_natAbs, Int.cast_abs]
    rw [habs]
    have e : ((ilog2 x.num.natAbs : ℤ) - (ilog2 x.den : ℤ) + 1) =
        ((ilog2 x.num.natAbs + 1 : ℕ) : ℤ) - ((ilog2 x.den : ℕ) : ℤ) := by push_cast; ring
    rw [e, zpow_sub₀ (by norm_num : (2 : ℚ) ≠ 0), zpow_natCast, zpow_natCast]
    have h1' : (x.num.natAbs : ℚ) < (2 : ℚ) ^ (ilog2 x.num.natAbs + 1) := by exact_mod_cast h1
    have h2' : ((2 : ℚ) ^ (ilog2 x.den)) ≤ (x.den : ℚ) := by exact_mod_cast h2
    have hq' : (0 : ℚ) < (x.den : ℚ) := by exact_mod_cast (Nat.pos_of_ne_zero hq)
    exact div_lt_div₀ h1' h2' (by positivity) (by positivity)
  · next h =>
    rw [sub_add_cancel]
    exact lt_of_not_le h

/-- A rounded value is not negative when the exact value is not. -/
theorem fl_nonneg (x : ℚ) (hx : 0 ≤ x) : 0 ≤ fl x := by
  have := fl_ge_half x hx
  linarith

/-- Rounding to `double` is monotone on the non-negative rationals. -/
theorem fl_mono (x y : ℚ) (hx : 0 ≤ x) (hxy : x ≤ y) : fl x ≤ fl y := by
  rcases hx.lt_or_eq with hx0 | hx0
  · have hy0 : 0 < y := lt_of_lt_of_le hx0 hxy
    have hxne : x ≠ 0 := ne_of_gt hx0
    have hyne : y ≠ 0 := ne_of_gt hy0
    have lx := expo_le x hxne
    have ux := lt_expo x hxne
    have ly := expo_le y hyne
    have uy := lt_expo y hyne
    rw [abs_of_pos hx0] at lx ux
    rw [abs_of_pos hy0] at ly uy
    have hle : expo x ≤ expo y := by
      have : (2 : ℚ) ^ (expo x) < (2 : ℚ) ^ (expo y + 1) :=
        lt_of_le_of_lt lx (lt_of_le_of_lt hxy uy)
      have := (zpow_lt_zpow_iff_right₀ (by norm_num : (1 : ℚ) < 2)).mp this
      omega
    have fx : fl x = (rne (x / (2 : ℚ) ^ (expo x - 52)) : ℚ) * (2 : ℚ) ^ (expo x - 52) := by
      unfold fl
      rw [if_neg hxne]
    have fy : fl y = (rne (y / (2 : ℚ) ^ (expo y - 52)) : ℚ) * (2 : ℚ) ^ (expo y - 52) := by
      unfold fl
      rw [if_neg hyne]
    have sx : (0 : ℚ) < (2 : ℚ) ^ (expo x - 52) := zpow_pos (by norm_num) _
    have sy : (0 : ℚ) < (2 : ℚ) ^ (expo y - 52) := zpow_pos (by norm_num) _
    rcases hle.lt_or_eq with hlt | heq
    · have h1 : x / (2 : ℚ) ^ (expo x - 52) ≤ (((2 : ℤ) ^ 53 : ℤ) : ℚ) := by
        rw [div_le_iff₀ sx]
        have e : ((((2 : ℤ) ^ 53 : ℤ)) : ℚ) * (2 : ℚ) ^ (expo x - 52) = (2 : ℚ) ^ (expo x + 1) := by
          rw [zpow_sub₀ (by norm_num : (2 : ℚ) ≠ 0), zpow_add₀ (by norm_num : (2 : ℚ) ≠ 0)]
          push_cast
          norm_num
          field_simp
          ring
        rw [e]
        exact le_of_lt ux
      have h2 := rne_mono _ _ h1
      rw [rne_intCast] at h2
      have h3 : fl x ≤ (2 : ℚ) ^ (expo x + 1) := by
        rw [fx]
        have e : (2 : ℚ) ^ (expo x + 1) = (((2 : ℤ) ^ 53 : ℤ) : ℚ) * (2 : ℚ) ^ (expo x - 52) := by
          rw [zpow_sub₀ (by norm_num : (2 : ℚ) ≠ 0), zpow_add₀ (by norm_num : (2 : ℚ) ≠ 0)]
          push_cast
          norm_num
          field_simp
          ring
        rw [e]
        exact mul_le_mul_of_nonneg_right (by exact_mod_cast h2) (le_of_lt sx)
      have h4 : (((2 : ℤ) ^ 52 : ℤ) : ℚ) ≤ y / (2 : ℚ) ^ (expo y - 52) := by
        rw [le_div_iff₀ sy]
        have e : ((((2 : ℤ) ^ 52 : ℤ)) : ℚ) * (2 : ℚ) ^ (expo y - 52) = (2 : ℚ) ^ (expo y) := by
          rw [zpow_sub₀ (by norm_num : (2 : ℚ) ≠ 0)]
          push_cast
          norm_num
          ring
        rw [e]
        exact ly
      have h5 := rne_mono _ _ h4
      rw [rne_intCast] at h5
      have h6 : (2 : ℚ) ^ (expo y) ≤ fl y := by
        rw [fy]
        have e : (2 : ℚ) ^ (expo y) = (((2 : ℤ) ^ 52 : ℤ) : ℚ) * (2 : ℚ) ^ (expo y - 52) := by
          rw [zpow_sub₀ (by norm_num : (2 : ℚ) ≠ 0)]
          push_cast
          norm_num
          ring
        rw [e]
        exact mul_le_mul_of_nonneg_right (by exact_mod_cast h5) (le_of_lt sy)
      have h7 : (2 : ℚ) ^ (expo x + 1) ≤ (2 : ℚ) ^ (expo y) :=
        zpow_le_zpow_right₀ (by norm_num) (by omega)
      linarith
    · rw [fx, fy, heq]
      have h1 : x / (2 : ℚ) ^ (expo y - 52) ≤ y / (2 : ℚ) ^ (expo y - 52) :=
        div_le_div_of_nonneg_right hxy (le_of_lt sy)
      have h2 := rne_mono _ _ h1
      exact mul_le_mul_of_nonneg_right (by exact_mod_cast h2) (le_of_lt sy)
  · rw [← hx0, fl_zero]
    exact fl_nonneg y (by linarith)

/-- For a numerator below `2^53` the rounded quotient has the floor and the ceiling of the
exact quotient. -/
theorem fl_div_floor_ceil (p q : Nat) (hq : 0 < q) (hp : p < 2 ^ 53) :
    ⌊fl (fl (p : ℚ) / (q : ℚ))⌋ = ((p / q : Nat) : Int) ∧
    ⌈fl (fl (p : ℚ) / (q : ℚ))⌉ = (((p + q - 1) / q : Nat) : Int) := by
  rw [fl_natCast p hp]
  have hq' : (0 : ℚ) < (q : ℚ) := by exact_mod_cast hq
  have hdm := Nat.div_add_mod p q
  have hml := Nat.mod_lt p hq
  by_cases hr : p % q = 0
  · have hpk : p = q * (p / q) := by omega
    have hx : (p : ℚ) / (q : ℚ) = ((p / q : Nat) : ℚ) := by
      rw [div_eq_iff (ne_of_gt hq')]
      have : (p : ℚ) = ((q * (p / q) : Nat) : ℚ) := by rw [← hpk]
      rw [this]
      push_cast
      ring
    have hk : p / q < 2 ^ 53 := lt_of_le_of_lt (Nat.div_le_self p q) hp
    rw [fl_eq_nat _ _ hx hk]
    constructor
    · exact Int.floor_natCast _
    · rw [Int.ceil_natCast]
      congr 1
      symm
      apply Nat.div_eq_of_lt_le
      · have : p / q * q = p := by rw [Nat.mul_comm]; exact hpk.symm
        rw [this]
        omega
      · have : (p / q).succ * q = p + q := by
          rw [Nat.succ_mul, Nat.mul_comm]
          omega
        rw [this]
        omega
  · have hr1 : 1 ≤ p % q := Nat.pos_of_ne_zero hr
    have hx : (p : ℚ) / (q : ℚ) = ((p / q : Nat) : ℚ) + ((p % q : Nat) : ℚ) / (q : ℚ) := by
      rw [div_eq_iff (ne_of_gt hq')]
      have : (p : ℚ) = ((q * (p / q) + p % q : Nat) : ℚ) := by rw [hdm]
      rw [this]
      push_cast
      field_simp
      ring
    have hlo : (1 : ℚ) / (q : ℚ) ≤ ((p % q : Nat) : ℚ) / (q : ℚ) := by
      apply div_le_div_of_nonneg_right _ (le_of_lt hq')
      exact_mod_cast hr1
    have hhi : ((p % q : Nat) : ℚ) / (q : ℚ) ≤ 1 - 1 / (q : ℚ) := by
      rw [div_le_iff₀ hq']
      have : ((p % q : Nat) : ℚ) ≤ (q : ℚ) - 1 := by
        have h : p % q + 1 ≤ q := hml
        have : ((p % q + 1 : Nat) : ℚ) ≤ (q : ℚ) := by exact_mod_cast h
        push_cast at this
        linarith
      field_simp
      linarith
    have hx0 : (0 : ℚ) ≤ (p : ℚ) / (q : ℚ) := by positivity
    have herr := fl_err ((p : ℚ) / (q : ℚ))
    rw [abs_of_nonneg hx0, abs_le] at herr
    have hsmall : (p : ℚ) / (q : ℚ) / 2 ^ 53 < 1 / (q : ℚ) := by
      rw [div_div, div_lt_div_iff₀ (by positivity) hq']
      have : (p : ℚ) < 2 ^ 53 := by exact_mod_cast hp
      nlinarith
    have hc : (p + q - 1) / q = p / q + 1 := by
      apply Nat.div_eq_of_lt_le
      · have : (p / q + 1) * q = q * (p / q) + q := by ring
        rw [this]
        omega
      · have : (p / q + 1).succ * q = q * (p / q) + q + q := by
          rw [Nat.succ_mul]
          ring
        rw [this]
        omega
    constructor
    · rw [Int.floor_eq_iff, Int.cast_natCast]
      constructor
      · linarith [herr.1]
      · linarith [herr.2]
    · rw [Int.ceil_eq_iff, hc, Int.cast_natCast]
      push_cast
      constructor
      · linarith [herr.1]
      · linarith [herr.2]

/-! ## Buffers that are filled cell by cell -/

section Upd

variable {α : Type}

theorem Planes.get_set3 (p : Planes α) (j : Nat) (a b c : α) (ch : Chan) :
    (p.set3 j a b c).get ch = (p.get ch).set j (match ch with
      | Chan.R => a
      | Chan.G => b
      | Chan.B => c) := by
  cases ch <;> rfl

theorem Planes.ext_get {p q : Planes α} (h : ∀ c, p.get c = q.get c) : p = q := by
  cases p; cases q
  have hr := h Chan.R
  have hg := h Chan.G
  have hb := h Chan.B
  simp only [Planes.get] at hr hg hb
  subst hr; subst hg; subst hb; rfl

theorem PUpd.skip (v : Chan → Nat → α) : PUpd (fun p => p) (fun _ => False) v := by
  intro p c i
  exact ⟨fun h => h.elim, fun _ => rfl⟩

theorem PUpd.set3 (v : Chan → Nat → α) (j : Nat) :
    PUpd (fun p => p.set3 j (v Chan.R j) (v Chan.G j) (v Chan.B j)) (fun i => i = j) v := by
  intro p c i
  constructor
  · intro h
    subst h
    rw [Planes.get_set3, List.getElem?_set]
    cases c <;> simp <;> split <;> simp_all [List.getElem?_eq_none]
  · intro h
    rw [Planes.get_set3, List.getElem?_set_ne (Ne.symm h)]

theorem PUpd.comp {T1 T2 : Planes α → Planes α} {S1 S2 : Nat → Prop} {v : Chan → Nat → α}
    (h1 : PUpd T1 S1 v) (h2 : PUpd T2 S2 v) :
    PUpd (fun p => T2 (T1 p)) (fun i => S1 i ∨ S2 i) v := by
  intro p c i
  have a1 := h1 p c i
  have a2 := h2 (T1 p) c i
  constructor
  · intro h
    by_cases hs2 : S2 i
    · rw [a2.1 hs2]
      by_cases hs1 : S1 i
      · rw [a1.1 hs1]; cases (p.get c)[i]? <;> rfl
      · rw [a1.2 hs1]
    · rw [a2.2 hs2]
      exact a1.1 (h.resolve_right hs2)
  · intro h
    rw [a2.2 (fun hs => h (Or.inr hs)), a1.2 (fun hs => h (Or.inl hs))]

theorem PUpd.congr {T : Planes α → Planes α} {S S' : Nat → Prop} {v : Chan → Nat → α}
    (h : PUpd T S v) (hS : ∀ i, S i ↔ S' i) : PUpd T S' v := by
  intro p c i
  have a := h p c i
  exact ⟨fun hs => a.1 ((hS i).2 hs), fun hs => a.2 (fun hs' => hs ((hS i).1 hs'))⟩

theorem PUpd.foldl {β : Type} {v : Chan → Nat → α} (f : Planes α → β → Planes α)
    (S : β → Nat → Prop) (l : List β) (h : ∀ a ∈ l, PUpd (fun p => f p a) (S a) v) :
    PUpd (fun p => l.foldl f p) (fun i => ∃ a ∈ l, S a i) v := by
  induction l using List.reverseRecOn with
  | nil => exact (PUpd.skip v).congr (by simp)
  | append_singleton l a ih =>
    have h1 := ih (fun b hb => h b (by simp [hb]))
    have h2 := h a (by simp)
    have h3 : PUpd (fun p => (l ++ [a]).foldl f p) (fun i => (∃ b ∈ l, S b i) ∨ S a i) v := by
      have e : (fun p => (l ++ [a]).foldl f p) = (fun p => f (l.foldl f p) a) := by
        funext p; simp [List.foldl_append]
      rw [e]; exact h1.comp h2
    refine h3.congr ?_
    intro i
    simp only [List.mem_append, List.mem_singleton]
    constructor
    · rintro (⟨b, hb, hs⟩ | hs)
      · exact ⟨b, Or.inl hb, hs⟩
      · exact ⟨a, Or.inr rfl, hs⟩
    · rintro ⟨b, hb | hb, hs⟩
      · exact Or.inl ⟨b, hb, hs⟩
      · subst hb; exact Or.inr hs

/-- Two transformers that overwrite the same cells with the same values agree. -/
theorem PUpd.eq_of {T1 T2 : Planes α → Planes α} {S1 S2 : Nat → Prop} {v : Chan → Nat → α}
    (h1 : PUpd T1 S1 v) (h2 : PUpd T2 S2 v) (hS : ∀ i, S1 i ↔ S2 i) (p : Planes α) :
    T1 p = T2 p := by
  apply Planes.ext_get
  intro c
  apply List.ext_getElem?
  intro i
  by_cases hs : S1 i
  · rw [(h1 p c i).1 hs, (h2 p c i).1 ((hS i).1 hs)]
  · rw [(h1 p c i).2 hs, (h2 p c i).2 (fun h => hs ((hS i).2 h))]

/-- A transformer that overwrites every cell of a buffer produces the table of the values. -/
theorem PUpd.get_total {T : Planes α → Planes α} {S : Nat → Prop} {v : Chan → Nat → α}
    (h : PUpd T S v) (p : Planes α) (c : Chan) (n : Nat) (hn : (p.get c).length = n)
    (hS : ∀ i, i < n → S i) (hS' : ∀ i, S i → i < n) :
    (T p).get c = (List.range n).map (v c) := by
  apply List.ext_getElem?
  intro i
  by_cases hi : i < n
  · rw [(h p c i).1 (hS i hi), List.getElem?_map, List.getElem?_range hi]
    rw [List.getElem?_eq_getElem (by omega)]
    rfl
  · rw [(h p c i).2 (fun hs => hi (hS' i hs))]
    rw [List.getElem?_eq_none (by omega), List.getElem?_eq_none (by simp; omega)]

theorem PUpd.set3_of (v : Chan → Nat → α) (j : Nat) (a b c : α) (ha : a = v Chan.R j)
    (hb : b = v Chan.G j) (hc : c = v Chan.B j) :
    PUpd (fun p => p.set3 j a b c) (fun i => i = j) v := by
  subst ha; subst hb; subst hc; exact PUpd.set3 v j

theorem Planes.get_zeros [Zero α] (n : Nat) (c : Chan) :
    (Planes.zeros n : Planes α).get c = List.replicate n 0 := by
  cases c <;> rfl

end Upd

/-! ## Row tiles -/

theorem clampTile_pos (t : Int) (h : Nat) : 0 < clampTile t h := by
  unfold clampTile
  simp only
  split
  · decide
  · omega

/-- The row tiles of a pass cover exactly the rows below `h`. -/
theorem tile_cover (h th : Nat) (hth : 0 < th) (y : Nat) :
    (∃ c ∈ List.range ((h + th - 1) / th),
      y ∈ List.range' (c * th) (min h (c * th + th) - c * th)) ↔ y < h := by
  constructor
  · rintro ⟨c, _, hy⟩
    rw [List.mem_range'_1] at hy
    omega
  · intro hy
    refine ⟨y / th, ?_, ?_⟩
    · rw [List.mem_range, Nat.div_lt_iff_lt_mul hth]
      have h1 : h + th - 1 < ((h + th - 1) / th + 1) * th := by
        have := Nat.lt_div_mul_add hth (a := h + th - 1)
        rw [Nat.add_mul, Nat.one_mul]; exact this
      have h2 : (h + th - 1) / th * th ≤ h + th - 1 := Nat.div_mul_le_self _ _
      by_contra hcon
      push_neg at hcon
      have h3 : ((h + th - 1) / th) * th ≤ y := hcon
      have h4 : ((h + th - 1) / th + 1) * th = (h + th - 1) / th * th + th := by ring
      omega
    · rw [List.mem_range'_1]
      have h1 : y / th * th ≤ y := Nat.div_mul_le_self _ _
      have h2 : y < y / th * th + th := Nat.lt_div_mul_add hth
      omega

/-- Under any permutation of the chunks the tiles still cover exactly the rows below `h`. -/
theorem tile_cover_perm (h th : Nat) (hth : 0 < th) (order : List Nat → List Nat)
    (ho : ∀ l, (order l).Perm l) (y : Nat) :
    (∃ c ∈ order (List.range ((h + th - 1) / th)),
      y ∈ List.range' (c * th) (min h (c * th + th) - c * th)) ↔ y < h := by
  rw [← tile_cover h th hth y]
  constructor
  · rintro ⟨c, hc, hy⟩; exact ⟨c, (ho _).mem_iff.1 hc, hy⟩
  · rintro ⟨c, hc, hy⟩; exact ⟨c, (ho _).mem_iff.2 hc, hy⟩

/-- The cells of a `w`-wide grid of `h` rows are the indices below `w * h`. -/
theorem grid_index (w h i : Nat) : (∃ y, y < h ∧ ∃ x, x < w ∧ i = y * w + x) ↔ i < w * h := by
  constructor
  · rintro ⟨y, hy, x, hx, rfl⟩
    calc y * w + x < y * w + w := by omega
      _ = (y + 1) * w := by ring
      _ ≤ h * w := Nat.mul_le_mul_right _ hy
      _ = w * h := Nat.mul_comm _ _
  · intro hi
    have hw : 0 < w := by
      rcases Nat.eq_zero_or_pos w with h0 | h0
      · subst h0; simp at hi
      · exact h0
    refine ⟨i / w, ?_, i % w, Nat.mod_lt _ hw, ?_⟩
    · rw [Nat.div_lt_iff_lt_mul hw, Nat.mul_comm]; exact hi
    · have := Nat.div_add_mod i w
      rw [Nat.mul_comm] at this
      omega

/-! ## Pass 1: `flatten_to_planes` -/

/-- The byte that `flatten_to_planes` stores in cell `i` of the plane of channel `c`. -/
theorem flattenRow_upd (img : Image) (y : Nat) :
    PUpd (flattenRow img y) (fun i => ∃ x, x < img.width.toNat ∧ i = y * img.width.toNat + x)
      (fun c i => srcByte img c.off (i % img.width.toNat) (i / img.width.toNat)) := by
  unfold flattenRow
  refine (PUpd.foldl _ (fun x i => i = y * img.width.toNat + x) _ ?_).congr ?_
  · intro x hx
    rw [List.mem_range] at hx
    have e1 : (y * img.width.toNat + x) % img.width.toNat = x := by
      rw [Nat.add_comm, Nat.add_mul_mod_self_right, Nat.mod_eq_of_lt hx]
    have e2 : (y * img.width.toNat + x) / img.width.toNat = y := by
      rw [Nat.add_comm, Nat.add_mul_div_right _ _ (by omega), Nat.div_eq_of_lt hx, Nat.zero_add]
    refine PUpd.set3_of _ _ _ _ _ ?_ ?_ ?_ <;>
      · simp only [Chan.off, srcByte, e1, e2]; rfl
  · intro i
    simp [List.mem_range]

theorem flattenTile_upd (img : Image) (th c : Nat) :
    PUpd (flattenTile img th c)
      (fun i => ∃ y ∈ List.range' (c * th) (min img.height.toNat (c * th + th) - c * th),
        ∃ x, x < img.width.toNat ∧ i = y * img.width.toNat + x)
      (fun c i => srcByte img c.off (i % img.width.toNat) (i / img.width.toNat)) := by
  unfold flattenTile
  exact PUpd.foldl (fun q y => flattenRow img y q) _ _ (fun y _ => flattenRow_upd img y)

/-- The planes that `flatten_to_planes` returns, whatever the tile height and the order. -/
theorem flatten_to_planes_get (img : Image) (tile_h : Int) (order : List Nat → List Nat)
    (ho : ∀ l, (order l).Perm l) (c : Chan) :
    (flatten_to_planes img tile_h order).get c =
      (List.range (img.width.toNat * img.height.toNat)).map
        (fun i => srcByte img c.off (i % img.width.toNat) (i / img.width.toNat)) := by
  unfold flatten_to_planes
  have hU := PUpd.foldl (fun q c => flattenTile img (clampTile tile_h img.height.toNat) c q) _
    (order (List.range ((img.height.toNat + clampTile tile_h img.height.toNat - 1) /
      clampTile tile_h img.height.toNat)))
    (fun c _ => flattenTile_upd img (clampTile tile_h img.height.toNat) c)
  have hS : ∀ i, (∃ c ∈ order (List.range ((img.height.toNat +
      clampTile tile_h img.height.toNat - 1) / clampTile tile_h img.height.toNat)),
      ∃ y ∈ List.range' (c * clampTile tile_h img.height.toNat)
        (min img.height.toNat (c * clampTile tile_h img.height.toNat +
          clampTile tile_h img.height.toNat) - c * clampTile tile_h img.height.toNat),
        ∃ x, x < img.width.toNat ∧ i = y * img.width.toNat + x) ↔
      i < img.width.toNat * img.height.toNat := by
    intro i
    rw [← grid_index]
    constructor
    · rintro ⟨c, hc, y, hy, hx⟩
      exact ⟨y, (tile_cover_perm _ _ (clampTile_pos _ _) order ho y).1 ⟨c, hc, hy⟩, hx⟩
    · rintro ⟨y, hy, hx⟩
      obtain ⟨c, hc, hy'⟩ := (tile_cover_perm _ _ (clampTile_pos _ _) order ho y).2 hy
      exact ⟨c, hc, y, hy', hx⟩
  exact hU.get_total _ c _ (by rw [Planes.get_zeros]; simp) (fun i hi => (hS i).2 hi)
    (fun i hi => (hS i).1 hi)

/-! ## The runs of equal-width columns -/

theorem runInv_step (x0s x1s : List Nat) (out_w k : Nat) (s : RunState) (hk : k < out_w)
    (h : RunInv x0s x1s k s) : RunInv x0s x1s (k + 1) (runStep x0s x1s out_w s k) := by
  obtain ⟨h1, h2, h3, h4⟩ := h
  unfold runStep
  have hne : k ≠ out_w := by omega
  simp only [hne, if_false]
  by_cases hl : (x1s.getD k 0 : Int) - (x0s.getD k 0 : Int) = s.cur_len
  · simp only [hl, ne_eq, not_true_eq_false, if_false]
    refine ⟨by omega, ?_, h3, h4⟩
    intro bx hb1 hb2
    rcases Nat.lt_or_ge bx k with hlt | hge
    · exact h2 bx hb1 hlt
    · have : bx = k := by omega
      subst this; exact hl
  · simp only [ne_eq, hl, not_false_eq_true, if_true]
    unfold RunInv
    dsimp only
    refine ⟨by omega, ?_, ?_, ?_⟩
    · intro bx hb1 hb2
      have : bx = k := by omega
      subst this; rfl
    · intro run hrun
      rw [List.mem_append, List.mem_singleton] at hrun
      rcases hrun with hrun | hrun
      · exact ⟨by have := (h3 run hrun).1; omega, (h3 run hrun).2⟩
      · subst hrun
        exact ⟨le_refl _, fun bx hb1 hb2 => h2 bx hb1 hb2⟩
    · intro bx hb
      rcases Nat.lt_or_ge bx s.run_start with hlt | hge
      · obtain ⟨run, hrun, hr⟩ := h4 bx hlt
        exact ⟨run, by simp [hrun], hr⟩
      · exact ⟨⟨s.run_start, k, s.cur_len⟩, by simp, hge, hb⟩

theorem runInv_fold (x0s x1s : List Nat) (out_w : Nat) (n : Nat) (hn : n + 1 ≤ out_w) :
    RunInv x0s x1s (n + 1) ((List.range' 1 n).foldl (runStep x0s x1s out_w)
      ⟨[], 0, (x1s.getD 0 0 : Int) - (x0s.getD 0 0 : Int)⟩) := by
  induction n with
  | zero =>
    refine ⟨by simp, ?_, by simp, by simp⟩
    intro bx _ hb
    have : bx = 0 := by omega
    subst this; rfl
  | succ n ih =>
    rw [List.range'_concat, List.foldl_append]
    simp only [Nat.one_mul, List.foldl_cons, List.foldl_nil]
    rw [Nat.add_comm 1 n]
    exact runInv_step x0s x1s out_w (n + 1) _ (by omega) (ih (by omega))

/-- The runs partition the output columns, and every column of a run has the length of the run. -/
theorem buildRuns_ok (x0s x1s : List Nat) (out_w : Nat) (hw : 0 < out_w)
    (hlen : ∀ bx, bx < out_w → 0 ≤ colLen x0s x1s bx) :
    (∀ run ∈ buildRuns x0s x1s out_w, ∀ bx, run.start ≤ bx → bx < run.stop →
      bx < out_w ∧ colLen x0s x1s bx = run.len) ∧
    (∀ bx, bx < out_w → ∃ run ∈ buildRuns x0s x1s out_w, run.start ≤ bx ∧ bx < run.stop) := by
  unfold buildRuns
  simp only [hw, if_true]
  obtain ⟨n, rfl⟩ : ∃ n, out_w = n + 1 := ⟨out_w - 1, by omega⟩
  rw [List.range'_concat, List.foldl_append]
  simp only [Nat.one_mul, List.foldl_cons, List.foldl_nil]
  obtain ⟨h1, h2, h3, h4⟩ := runInv_fold x0s x1s (n + 1) n (le_refl _)
  generalize (List.range' 1 n).foldl (runStep x0s x1s (n + 1))
    ⟨[], 0, (x1s.getD 0 0 : Int) - (x0s.getD 0 0 : Int)⟩ = s at h1 h2 h3 h4
  have hcur : s.cur_len ≠ -1 := by
    have e := h2 s.run_start (le_refl _) h1
    have := hlen s.run_start (by omega)
    omega
  unfold runStep
  have e1 : (1 + n = n + 1) := by omega
  simp only [e1, if_true, ne_eq]
  have hcur' : ¬ ((-1 : Int) = s.cur_len) := fun h => hcur h.symm
  simp only [hcur', not_false_eq_true, if_true]
  constructor
  · intro run hrun bx hb1 hb2
    rw [List.mem_append, List.mem_singleton] at hrun
    rcases hrun with hrun | hrun
    · have := h3 run hrun
      exact ⟨by omega, this.2 bx hb1 hb2⟩
    · subst hrun
      exact ⟨hb2, h2 bx hb1 hb2⟩
  · intro bx hb
    rcases Nat.lt_or_ge bx s.run_start with hlt | hge
    · obtain ⟨run, hrun, hr⟩ := h4 bx hlt
      exact ⟨run, by simp [hrun], hr⟩
    · exact ⟨⟨s.run_start, n + 1, s.cur_len⟩, by simp, hge, hb⟩

/-! ## Pass 2: `horizontal_box_sum` -/

theorem hRunLoop_upd (src : Planes Nat) (x0s : List Nat) (rowOff dstOff : Nat) (len : Int)
    (stop : Nat) (v : Chan → Nat → Nat) (fuel : Nat) :
    ∀ bx, stop - bx ≤ fuel →
      (∀ c col, bx ≤ col → col < stop →
        v c (dstOff + col) = sum_u8_scalar (src.get c) (rowOff + x0s.getD col 0) len) →
      PUpd (hRunLoop src x0s rowOff dstOff len stop fuel bx)
        (fun i => ∃ col, bx ≤ col ∧ col < stop ∧ i = dstOff + col) v := by
  induction fuel with
  | zero =>
    intro bx hf _
    refine (PUpd.skip v).congr ?_
    intro i
    constructor
    · exact fun h => h.elim
    · rintro ⟨col, h1, h2, _⟩; omega
  | succ fuel ih =>
    intro bx hf hv
    by_cases h1 : bx + 1 < stop
    · have e : hRunLoop src x0s rowOff dstOff len stop (fuel + 1) bx = fun dst =>
          hRunLoop src x0s rowOff dstOff len stop fuel (bx + 2)
            ((dst.set3 (dstOff + bx)
                (sum_u8_scalar src.r (rowOff + x0s.getD bx 0) len)
                (sum_u8_scalar src.g (rowOff + x0s.getD bx 0) len)
                (sum_u8_scalar src.b (rowOff + x0s.getD bx 0) len)).set3 (dstOff + (bx + 1))
                (sum_u8_scalar src.r (rowOff + x0s.getD (bx + 1) 0) len)
                (sum_u8_scalar src.g (rowOff + x0s.getD (bx + 1) 0) len)
                (sum_u8_scalar src.b (rowOff + x0s.getD (bx + 1) 0) len)) := by
        funext dst
        simp [hRunLoop, h1, sum_u8_pair]
      rw [e]
      have s1 := PUpd.set3_of v (dstOff + bx) _ _ _
        (hv Chan.R bx (le_refl _) (by omega)).symm (hv Chan.G bx (le_refl _) (by omega)).symm
        (hv Chan.B bx (le_refl _) (by omega)).symm
      have s2 := PUpd.set3_of v (dstOff + (bx + 1)) _ _ _
        (hv Chan.R (bx + 1) (by omega) h1).symm (hv Chan.G (bx + 1) (by omega) h1).symm
        (hv Chan.B (bx + 1) (by omega) h1).symm
      have s3 := ih (bx + 2) (by omega) (fun c col hc1 hc2 => hv c col (by omega) hc2)
      refine ((s1.comp s2).comp s3).congr ?_
      intro i
      constructor
      · rintro ((h | h) | ⟨col, hc1, hc2, hc3⟩)
        · exact ⟨bx, le_refl _, by omega, h⟩
        · exact ⟨bx + 1, by omega, h1, h⟩
        · exact ⟨col, by omega, hc2, hc3⟩
      · rintro ⟨col, hc1, hc2, hc3⟩
        rcases Nat.lt_or_ge col (bx + 2) with hlt | hge
        · rcases Nat.lt_or_ge col (bx + 1) with hlt' | hge'
          · have : col = bx := by omega
            subst this; exact Or.inl (Or.inl hc3)
          · have : col = bx + 1 := by omega
            subst this; exact Or.inl (Or.inr hc3)
        · exact Or.inr ⟨col, hge, hc2, hc3⟩
    · by_cases h2 : bx < stop
      · have e : hRunLoop src x0s rowOff dstOff len stop (fuel + 1) bx = fun dst =>
            dst.set3 (dstOff + bx)
              (sum_u8_scalar src.r (rowOff + x0s.getD bx 0) len)
              (sum_u8_scalar src.g (rowOff + x0s.getD bx 0) len)
              (sum_u8_scalar src.b (rowOff + x0s.getD bx 0) len) := by
          funext dst
          simp [hRunLoop, h1, h2, sum_u8]
        rw [e]
        have s1 := PUpd.set3_of v (dstOff + bx) _ _ _
          (hv Chan.R bx (le_refl _) h2).symm (hv Chan.G bx (le_refl _) h2).symm
          (hv Chan.B bx (le_refl _) h2).symm
        refine s1.congr ?_
        intro i
        constructor
        · intro h; exact ⟨bx, le_refl _, h2, h⟩
        · rintro ⟨col, hc1, hc2, hc3⟩
          have : col = bx := by omega
          subst this; exact hc3
      · have e : hRunLoop src x0s rowOff dstOff len stop (fuel + 1) bx = fun dst => dst := by
          funext dst
          simp [hRunLoop, h1, h2]
        rw [e]
        refine (PUpd.skip v).congr ?_
        intro i
        constructor
        · exact fun h => h.elim
        · rintro ⟨col, hc1, hc2, _⟩; omega

theorem hVal_at (src : Planes Nat) (w out_w : Nat) (x0s x1s : List Nat) (c : Chan)
    (y col : Nat) (hcol : col < out_w) :
    hVal src w out_w x0s x1s c (y * out_w + col) =
      sum_u8_scalar (src.get c) (y * w + x0s.getD col 0) (colLen x0s x1s col) := by
  unfold hVal
  have h1 : (y * out_w + col) / out_w = y := by
    rw [Nat.add_comm, Nat.add_mul_div_right _ _ (by omega), Nat.div_eq_of_lt hcol, Nat.zero_add]
  have h2 : (y * out_w + col) % out_w = col := by
    rw [Nat.add_comm, Nat.add_mul_mod_self_right, Nat.mod_eq_of_lt hcol]
  rw [h1, h2]

theorem hRow_upd (src : Planes Nat) (w out_w : Nat) (x0s x1s : List Nat) (hw : 0 < out_w)
    (hlen : ∀ bx, bx < out_w → 0 ≤ colLen x0s x1s bx) (y : Nat) :
    PUpd (hRow src w out_w x0s (buildRuns x0s x1s out_w) y)
      (fun i => ∃ col, col < out_w ∧ i = y * out_w + col) (hVal src w out_w x0s x1s) := by
  obtain ⟨hr1, hr2⟩ := buildRuns_ok x0s x1s out_w hw hlen
  unfold hRow
  refine (PUpd.foldl _ (fun run i => ∃ col, run.start ≤ col ∧ col < run.stop ∧
    i = y * out_w + col) _ ?_).congr ?_
  · intro run hrun
    refine hRunLoop_upd src x0s (y * w) (y * out_w) run.len run.stop _ _ run.start (le_refl _) ?_
    intro c col hc1 hc2
    obtain ⟨hc3, hc4⟩ := hr1 run hrun col hc1 hc2
    rw [hVal_at _ _ _ _ _ _ _ _ hc3, hc4]
  · intro i
    constructor
    · rintro ⟨run, hrun, col, hc1, hc2, hc3⟩
      exact ⟨col, (hr1 run hrun col hc1 hc2).1, hc3⟩
    · rintro ⟨col, hc1, hc2⟩
      obtain ⟨run, hrun, h1, h2⟩ := hr2 col hc1
      exact ⟨run, hrun, col, h1, h2, hc2⟩

/-- The partial-sum tables that `horizontal_box_sum` returns, whatever the tile height and the
order of the tiles. -/
theorem horizontal_box_sum_get (src : Planes Nat) (w h out_w : Nat) (x0s x1s : List Nat)
    (hw : 0 < out_w) (hlen : ∀ bx, bx < out_w → 0 ≤ colLen x0s x1s bx) (tile : Int)
    (order : List Nat → List Nat) (ho : ∀ l, (order l).Perm l) (c : Chan) :
    (horizontal_box_sum src w h out_w x0s (buildRuns x0s x1s out_w) tile order).get c =
      (List.range (out_w * h)).map (hVal src w out_w x0s x1s c) := by
  unfold horizontal_box_sum
  have hT : ∀ k, PUpd (hTile src w h out_w x0s (buildRuns x0s x1s out_w) (clampTile tile h) k)
      (fun i => ∃ y ∈ List.range' (k * clampTile tile h)
        (min h (k * clampTile tile h + clampTile tile h) - k * clampTile tile h),
        ∃ col, col < out_w ∧ i = y * out_w + col) (hVal src w out_w x0s x1s) := by
    intro k
    unfold hTile
    exact PUpd.foldl (fun q y => hRow src w out_w x0s (buildRuns x0s x1s out_w) y q) _ _
      (fun y _ => hRow_upd src w out_w x0s x1s hw hlen y)
  have hU := PUpd.foldl
    (fun q k => hTile src w h out_w x0s (buildRuns x0s x1s out_w) (clampTile tile h) k q) _
    (order (List.range ((h + clampTile tile h - 1) / clampTile tile h))) (fun k _ => hT k)
  have hS : ∀ i, (∃ k ∈ order (List.range ((h + clampTile tile h - 1) / clampTile tile h)),
      ∃ y ∈ List.range' (k * clampTile tile h)
        (min h (k * clampTile tile h + clampTile tile h) - k * clampTile tile h),
        ∃ col, col < out_w ∧ i = y * out_w + col) ↔ i < out_w * h := by
    intro i
    rw [← grid_index]
    constructor
    · rintro ⟨k, hk, y, hy, hx⟩
      exact ⟨y, (tile_cover_perm _ _ (clampTile_pos _ _) order ho y).1 ⟨k, hk, hy⟩, hx⟩
    · rintro ⟨y, hy, hx⟩
      obtain ⟨k, hk, hy'⟩ := (tile_cover_perm _ _ (clampTile_pos _ _) order ho y).2 hy
      exact ⟨k, hk, y, hy', hx⟩
  exact hU.get_total _ c _ (by rw [Planes.get_zeros]; simp [Nat.mul_comm]) (fun i hi => (hS i).2 hi)
    (fun i hi => (hS i).1 hi)

/-! ## Pass 3: the vertical pass, and the whole function -/

theorem vRow_upd (hs : Planes Nat) (out_w : Nat) (x0s x1s y0s y1s : List Nat) (hw : 0 < out_w)
    (y : Nat) :
    PUpd (vRow hs out_w x0s x1s y0s y1s y)
      (fun i => ∃ bx, bx < out_w ∧ i = y * out_w + bx) (vVal hs out_w x0s x1s y0s y1s) := by
  unfold vRow
  refine (PUpd.foldl _ (fun bx i => i = y * out_w + bx) _ ?_).congr ?_
  · intro bx hbx
    rw [List.mem_range] at hbx
    have h1 : (y * out_w + bx) / out_w = y := by
      rw [Nat.add_comm, Nat.add_mul_div_right _ _ (by omega), Nat.div_eq_of_lt hbx, Nat.zero_add]
    have h2 : (y * out_w + bx) % out_w = bx := by
      rw [Nat.add_comm, Nat.add_mul_mod_self_right, Nat.mod_eq_of_lt hbx]
    refine PUpd.set3_of _ _ _ _ _ ?_ ?_ ?_ <;>
      · simp only [vVal, h1, h2]; rfl
  · intro i
    simp [List.mem_range]

theorem tdiv_chunks (n m : Nat) (hm : 0 < m) :
    (Int.tdiv ((n : Int) + (m : Int) - 1) (m : Int)).toNat = (n + m - 1) / m := by
  have e : ((n : Int) + (m : Int) - 1) = ((n + m - 1 : Nat) : Int) := by omega
  rw [e, Int.tdiv_eq_ediv (by omega) (by omega)]
  norm_cast

/-- An `int` expression whose exact value is in the range of an `int` has that value. -/
theorem wrapInt_eq (x : Int) (h0 : -2 ^ 31 ≤ x) (h1 : x < 2 ^ 31) : wrapInt x = x := by
  unfold wrapInt toInt32
  split <;> omega

/-- The rounded floor is not above the rounded ceiling. -/
theorem rangeStartRaw_le_rangeEndRaw (n out_n b : Nat) :
    rangeStartRaw n out_n b ≤ rangeEndRaw n out_n b := by
  unfold rangeStartRaw rangeEndRaw
  have h0 : (0 : ℚ) ≤ (b : ℚ) * (n : ℚ) := by positivity
  have h1 : (b : ℚ) * (n : ℚ) ≤ ((b + 1 : Nat) : ℚ) * (n : ℚ) := by
    apply mul_le_mul_of_nonneg_right _ (by positivity)
    push_cast
    linarith
  have h2 := fl_mono _ _ h0 h1
  have h3 : fl ((b : ℚ) * (n : ℚ)) / (out_n : ℚ) ≤
      fl (((b + 1 : Nat) : ℚ) * (n : ℚ)) / (out_n : ℚ) :=
    div_le_div_of_nonneg_right h2 (by positivity)
  have h4 := fl_mono _ _ (div_nonneg (fl_nonneg _ h0) (by positivity)) h3
  have h5 := Int.floor_le (fl (fl ((b : ℚ) * (n : ℚ)) / (out_n : ℚ)))
  have h6 := Int.le_ceil (fl (fl (((b + 1 : Nat) : ℚ) * (n : ℚ)) / (out_n : ℚ)))
  have : ((⌊fl (fl ((b : ℚ) * (n : ℚ)) / (out_n : ℚ))⌋ : Int) : ℚ) ≤
      ((⌈fl (fl (((b + 1 : Nat) : ℚ) * (n : ℚ)) / (out_n : ℚ))⌉ : Int) : ℚ) := by linarith
  exact_mod_cast this

/-- The start of a source range is not above its end, whatever the rounding does. -/
theorem rangeStart_le_rangeEnd (n out_n b : Nat) : rangeStart n out_n b ≤ rangeEnd n out_n b := by
  unfold rangeStart rangeEnd
  have := rangeStartRaw_le_rangeEndRaw n out_n b
  omega

theorem getD_rangeStarts (n out_n b : Nat) (hb : b < out_n) :
    (rangeStarts n out_n).getD b 0 = rangeStart n out_n b := by
  unfold rangeStarts
  rw [List.getD_eq_getElem?_getD, List.getElem?_map, List.getElem?_range hb]
  rfl

theorem getD_rangeEnds (n out_n b : Nat) (hb : b < out_n) :
    (rangeEnds n out_n).getD b 0 = rangeEnd n out_n b := by
  unfold rangeEnds
  rw [List.getD_eq_getElem?_getD, List.getElem?_map, List.getElem?_range hb]
  rfl

theorem colLen_ranges_nonneg (n out_n b : Nat) (hb : b < out_n) :
    0 ≤ colLen (rangeStarts n out_n) (rangeEnds n out_n) b := by
  unfold colLen
  rw [getD_rangeStarts _ _ _ hb, getD_rangeEnds _ _ _ hb]
  have := rangeStart_le_rangeEnd n out_n b
  omega

theorem flatten_to_planes_eq (img : Image) (tile_h : Int) (order : List Nat → List Nat)
    (ho : ∀ l, (order l).Perm l) : flatten_to_planes img tile_h order = flatPlanes img := by
  apply Planes.ext_get
  intro c
  rw [flatten_to_planes_get img tile_h order ho c]
  cases c <;> rfl

theorem horizontal_box_sum_eq (img : Image) (out_w : Nat) (hw : 0 < out_w) (tile : Int)
    (order : List Nat → List Nat) (ho : ∀ l, (order l).Perm l) :
    horizontal_box_sum (flatPlanes img) img.width.toNat img.height.toNat out_w
      (rangeStarts img.width.toNat out_w)
      (buildRuns (rangeStarts img.width.toNat out_w) (rangeEnds img.width.toNat out_w) out_w)
      tile order = hPlanes img out_w := by
  apply Planes.ext_get
  intro c
  rw [horizontal_box_sum_get _ _ _ _ _ _ hw (fun b hb => colLen_ranges_nonneg _ _ b hb) tile
    order ho c]
  cases c <;> rfl

/-- For a non-degenerate image and a grid of at least one cell and fewer than `2^31` cells,
`resample_to_planes_fast` returns the grid whose cells are `outVal`, for every tile height
and every order of the tiles of each pass. -/
theorem resample_sched_eq (img : Image) (out_w out_h tile_h tile_h_horiz : Int)
    (o1 o2 o3 : List Nat → List Nat) (h1 : ∀ l, (o1 l).Perm l) (h2 : ∀ l, (o2 l).Perm l)
    (h3 : ∀ l, (o3 l).Perm l) (hw : 1 ≤ img.width) (hh : 1 ≤ img.height)
    (how : 1 ≤ out_w) (hoh : 1 ≤ out_h) (hgrid : out_w * out_h < 2 ^ 31) :
    resample_sched img out_w out_h tile_h tile_h_horiz o1 o2 o3 =
      Except.ok ⟨out_w, out_h,
        (List.range (out_w.toNat * out_h.toNat)).map (outVal img out_w.toNat out_h.toNat Chan.R),
        (List.range (out_w.toNat * out_h.toNat)).map (outVal img out_w.toNat out_h.toNat Chan.G),
        (List.range (out_w.toNat * out_h.toNat)).map (outVal img out_w.toNat out_h.toNat Chan.B)⟩ := by
  unfold resample_sched
  have h0 : 0 ≤ out_w * out_h := Int.mul_nonneg (by omega) (by omega)
  rw [wrapInt_eq _ (by omega) hgrid]
  have hprod : ¬ (out_w * out_h < 0) := by omega
  have hdeg : ¬ (img.width ≤ 0 ∨ img.height ≤ 0) := by omega
  have hneg : ¬ (out_w < 0 ∨ out_h < 0) := by omega
  simp only [hprod, hdeg, hneg, if_false, ne_eq, not_true_eq_false]
  obtain ⟨ow, rfl⟩ : ∃ ow : Nat, out_w = (ow : Int) := ⟨out_w.toNat, by omega⟩
  obtain ⟨oh, rfl⟩ : ∃ oh : Nat, out_h = (oh : Int) := ⟨out_h.toNat, by omega⟩
  simp only [Int.toNat_ofNat]
  generalize htile : (if tile_h ≤ 0 then (64 : Int) else tile_h) = th
  have hth : 1 ≤ th := by
    rw [← htile]; split <;> omega
  obtain ⟨tr, htr⟩ : ∃ tr : Nat, min th (oh : Int) = (tr : Int) := ⟨(min th oh).toNat, by omega⟩
  have htr0 : 0 < tr := by omega
  have hz : ¬ (min th (oh : Int) = 0) := by omega
  simp only [hz, if_false]
  rw [flatten_to_planes_eq img th o1 h1]
  have e2 := horizontal_box_sum_eq img ow (by omega)
  simp only [rangeStarts, rangeEnds] at e2
  rw [e2 _ o2 h2]
  rw [htr, tdiv_chunks oh tr htr0]
  simp only [Int.toNat_ofNat]
  have hT : ∀ k, PUpd (vTile (hPlanes img ow) ow oh
      (List.map (rangeStart img.width.toNat ow) (List.range ow))
      (List.map (rangeEnd img.width.toNat ow) (List.range ow))
      (List.map (rangeStart img.height.toNat oh) (List.range oh))
      (List.map (rangeEnd img.height.toNat oh) (List.range oh)) tr k)
      (fun i => ∃ y ∈ List.range' (k * tr) (min oh (k * tr + tr) - k * tr),
        ∃ bx, bx < ow ∧ i = y * ow + bx) (outVal img ow oh) := by
    intro k
    unfold vTile
    exact PUpd.foldl _ _ _ (fun y _ => vRow_upd _ ow _ _ _ _ (by omega) y)
  have hU := PUpd.foldl (fun q k => vTile (hPlanes img ow) ow oh
      (List.map (rangeStart img.width.toNat ow) (List.range ow))
      (List.map (rangeEnd img.width.toNat ow) (List.range ow))
      (List.map (rangeStart img.height.toNat oh) (List.range oh))
      (List.map (rangeEnd img.height.toNat oh) (List.range oh)) tr k q) _
    (o3 (List.range ((oh + tr - 1) / tr))) (fun k _ => hT k)
  have hS : ∀ i, (∃ k ∈ o3 (List.range ((oh + tr - 1) / tr)),
      ∃ y ∈ List.range' (k * tr) (min oh (k * tr + tr) - k * tr),
        ∃ bx, bx < ow ∧ i = y * ow + bx) ↔ i < ow * oh := by
    intro i
    rw [← grid_index]
    constructor
    · rintro ⟨k, hk, y, hy, hx⟩
      exact ⟨y, (tile_cover_perm _ _ htr0 o3 h3 y).1 ⟨k, hk, hy⟩, hx⟩
    · rintro ⟨y, hy, hx⟩
      obtain ⟨k, hk, hy'⟩ := (tile_cover_perm _ _ htr0 o3 h3 y).2 hy
      exact ⟨k, hk, y, hy', hx⟩
  have hget := fun c => hU.get_total (Planes.zeros (ow * oh)) c (ow * oh)
    (by rw [Planes.get_zeros]; simp) (fun i hi => (hS i).2 hi) (fun i hi => (hS i).1 hi)
  have hR := hget Chan.R
  have hG := hget Chan.G
  have hB := hget Chan.B
  simp only [Planes.get] at hR hG hB
  rw [hR, hG, hB]

/-! ## Sums -/

theorem foldl_add_mod (f : Nat → Nat) (M : Nat) (a n : Nat) :
    (List.range' a n).foldl (fun s i => (s + f i) % M) 0 =
      (∑ i ∈ Finset.range n, f (a + i)) % M := by
  induction n with
  | zero => simp [Nat.zero_mod]
  | succ n ih =>
    rw [List.range'_concat, List.foldl_append, ih, Finset.sum_range_succ]
    simp [Nat.add_mod]

theorem foldl_add_mod_range (f : Nat → Nat) (M : Nat) (n : Nat) :
    (List.range n).foldl (fun s i => (s + f i) % M) 0 = (∑ i ∈ Finset.range n, f i) % M := by
  rw [List.range_eq_range', foldl_add_mod]
  simp

/-- The indices of a table stay below `2^53` when `out_n * n` does. -/
theorem range_prod_lt (n out_n b : Nat) (hb : b < out_n) (hd : out_n * n < 2 ^ 53) :
    (b + 1) * n < 2 ^ 53 :=
  lt_of_le_of_lt (Nat.mul_le_mul_right n hb) hd

/-- As long as `b * n < 2^53` the rounding is harmless: `(int)floor((double)b * n / out_n)`
is the floor of `b * n / out_n`. -/
theorem rangeStartRaw_eq (n out_n b : Nat) (ho : 0 < out_n) (hbn : b * n < 2 ^ 53) :
    rangeStartRaw n out_n b = ((b * n / out_n : Nat) : Int) := by
  unfold rangeStartRaw
  have e : (b : ℚ) * (n : ℚ) = ((b * n : Nat) : ℚ) := by push_cast; ring
  rw [e]
  exact (fl_div_floor_ceil (b * n) out_n ho hbn).1

/-- As long as `(b+1) * n < 2^53`, `(int)ceil((double)(b+1) * n / out_n)` is the ceiling of
`(b+1) * n / out_n`. -/
theorem rangeEndRaw_eq (n out_n b : Nat) (ho : 0 < out_n) (hbn : (b + 1) * n < 2 ^ 53) :
    rangeEndRaw n out_n b = ((((b + 1) * n + out_n - 1) / out_n : Nat) : Int) := by
  unfold rangeEndRaw
  have e : ((b + 1 : Nat) : ℚ) * (n : ℚ) = (((b + 1) * n : Nat) : ℚ) := by push_cast; ring
  rw [e]
  exact (fl_div_floor_ceil ((b + 1) * n) out_n ho hbn).2

/-- The clamp of the range start changes nothing: the start is the floor of `b * n / out_n`. -/
theorem rangeStart_eq (n out_n b : Nat) (hb : b < out_n) (hbn : b * n < 2 ^ 53) :
    rangeStart n out_n b = b * n / out_n := by
  unfold rangeStart
  rw [rangeStartRaw_eq n out_n b (by omega) hbn]
  have : b * n / out_n ≤ n := by
    apply Nat.div_le_of_le_mul
    exact Nat.mul_le_mul_right _ (by omega)
  generalize b * n / out_n = m at this ⊢
  omega

/-- The clamp of the range end changes nothing: the end is the ceiling of `(b+1) * n / out_n`. -/
theorem rangeEnd_eq (n out_n b : Nat) (hb : b < out_n) (hbn : (b + 1) * n < 2 ^ 53) :
    rangeEnd n out_n b = ((b + 1) * n + out_n - 1) / out_n := by
  unfold rangeEnd
  rw [rangeEndRaw_eq n out_n b (by omega) hbn]
  have : ((b + 1) * n + out_n - 1) / out_n ≤ n := by
    rw [Nat.div_le_iff_le_mul_add_pred (by omega)]
    have : (b + 1) * n ≤ out_n * n := Nat.mul_le_mul_right _ (by omega)
    omega
  generalize ((b + 1) * n + out_n - 1) / out_n = m at this ⊢
  omega

/-- No source range is empty. -/
theorem rangeStart_lt_rangeEnd (n out_n b : Nat) (hn : 0 < n) (hb : b < out_n)
    (hbn : (b + 1) * n < 2 ^ 53) : rangeStart n out_n b < rangeEnd n out_n b := by
  have hbn0 : b * n < 2 ^ 53 :=
    lt_of_le_of_lt (Nat.mul_le_mul_right n (Nat.le_succ b)) hbn
  rw [rangeStart_eq n out_n b hb hbn0, rangeEnd_eq n out_n b hb hbn]
  have h1 : b * n / out_n + 1 = (b * n + out_n) / out_n := by
    rw [Nat.add_div_right _ (by omega)]
  have h2 : (b * n + out_n) / out_n ≤ ((b + 1) * n + out_n - 1) / out_n := by
    apply Nat.div_le_div_right
    have e : (b + 1) * n = b * n + n := by ring
    rw [e]
    omega
  omega

theorem rangeEnd_le (n out_n b : Nat) : rangeEnd n out_n b ≤ n := by
  unfold rangeEnd
  omega

/-! ## The value of an output cell -/

theorem getD_map_range {β : Type} (f : Nat → β) (d : β) (n i : Nat) (hi : i < n) :
    ((List.range n).map f).getD i d = f i := by
  rw [List.getD_eq_getElem?_getD, List.getElem?_map, List.getElem?_range hi]
  rfl

theorem grid_lt (w h x y : Nat) (hx : x < w) (hy : y < h) : y * w + x < w * h := by
  exact (grid_index w h (y * w + x)).1 ⟨y, hy, x, hx, rfl⟩

/-- The index `x * 3 + k` of a read of `flatten_to_planes` does not wrap when `3 * x + k` is
in the range of an `int`, and the read then goes to the element `off + x * 3 + k`. -/
theorem ptrIndex_wrap (off x k : Nat) (hx : 3 * x + k < 2 ^ 31) (hoff : off + (x * 3 + k) < 2 ^ 64) :
    ptrIndex off (wrapInt ((x : Int) * 3 + (k : Int))) = off + (x * 3 + k) := by
  rw [wrapInt_eq _ (by omega) (by omega)]
  unfold ptrIndex
  omega

/-- The byte that `flatten_to_planes` reads for a pixel of a three-channel image whose width
and height are in range is the byte of that pixel. -/
theorem srcByte_eq (img : Image) (hch : img.channels = 3) (c : Chan) (x y : Nat)
    (hx : x < img.width.toNat) (hy : y < img.height.toNat)
    (h3w : 3 * img.width.toNat < 2 ^ 31) (hh31 : img.height.toNat < 2 ^ 31) :
    srcByte img c.off x y = img.px c x y := by
  unfold srcByte Image.px
  rw [hch]
  have hk : c.off < 3 := by cases c <;> decide
  have h1 : y * img.width.toNat + x < img.width.toNat * img.height.toNat := grid_lt _ _ x y hx hy
  have h2 : img.width.toNat * img.height.toNat ≤ img.width.toNat * 2 ^ 31 :=
    Nat.mul_le_mul_left _ (le_of_lt hh31)
  have e : y * img.width.toNat * (3 : Int).toNat + (x * 3 + c.off) =
      (y * img.width.toNat + x) * 3 + c.off := by
    rw [show (3 : Int).toNat = 3 from rfl]
    ring
  rw [ptrIndex_wrap _ x c.off (by omega) (by rw [e]; omega), e]

theorem flatPlanes_getD (img : Image) (hch : img.channels = 3) (c : Chan) (x y : Nat)
    (hx : x < img.width.toNat) (hy : y < img.height.toNat)
    (h3w : 3 * img.width.toNat < 2 ^ 31) (hh31 : img.height.toNat < 2 ^ 31) :
    ((flatPlanes img).get c).getD (y * img.width.toNat + x) 0 = img.px c x y := by
  have hi := grid_lt _ _ x y hx hy
  have e : (flatPlanes img).get c = (List.range (img.width.toNat * img.height.toNat)).map
      (fun i => srcByte img c.off (i % img.width.toNat) (i / img.width.toNat)) := by
    cases c <;> rfl
  have e1 : (y * img.width.toNat + x) % img.width.toNat = x := by
    rw [Nat.add_comm, Nat.add_mul_mod_self_right, Nat.mod_eq_of_lt hx]
  have e2 : (y * img.width.toNat + x) / img.width.toNat = y := by
    rw [Nat.add_comm, Nat.add_mul_div_right _ _ (by omega), Nat.div_eq_of_lt hx, Nat.zero_add]
  rw [e, getD_map_range _ _ _ _ hi, e1, e2]
  exact srcByte_eq img hch c x y hx hy h3w hh31

theorem hPlanes_getD (img : Image) (out_w : Nat) (hch : img.channels = 3) (c : Chan)
    (bx y : Nat) (hbx : bx < out_w) (hy : y < img.height.toNat)
    (h3w : 3 * img.width.toNat < 2 ^ 31) (hh31 : img.height.toNat < 2 ^ 31) :
    ((hPlanes img out_w).get c).getD (y * out_w + bx) 0 =
      (∑ j ∈ Finset.range (rangeEnd img.width.toNat out_w bx - rangeStart img.width.toNat out_w bx),
        img.px c (rangeStart img.width.toNat out_w bx + j) y) % 2 ^ 32 := by
  have hi := grid_lt _ _ bx y hbx hy
  have e : (hPlanes img out_w).get c = (List.range (out_w * img.height.toNat)).map
      (hVal (flatPlanes img) img.width.toNat out_w (rangeStarts img.width.toNat out_w)
        (rangeEnds img.width.toNat out_w) c) := by
    cases c <;> rfl
  rw [e, getD_map_range _ _ _ _ hi, hVal_at _ _ _ _ _ _ _ _ hbx]
  unfold sum_u8_scalar colLen
  rw [getD_rangeStarts _ _ _ hbx, getD_rangeEnds _ _ _ hbx]
  have hle := rangeStart_le_rangeEnd img.width.toNat out_w bx
  have hle2 := rangeEnd_le img.width.toNat out_w bx
  have e2 : ((rangeEnd img.width.toNat out_w bx : Int) -
      (rangeStart img.width.toNat out_w bx : Int)).toNat =
      rangeEnd img.width.toNat out_w bx - rangeStart img.width.toNat out_w bx := by omega
  rw [e2, foldl_add_mod_range]
  congr 1
  apply Finset.sum_congr rfl
  intro j hj
  rw [Finset.mem_range] at hj
  rw [Nat.add_assoc (y * img.width.toNat)]
  exact flatPlanes_getD img hch c _ y (by omega) hy h3w hh31

/-- The value of the output cell `(bx, by)` in terms of the source pixels: the `uint64_t` sum
of the `uint32_t` row sums, divided by the `int` pixel count `(x1 - x0) * (y1 - y0)`, which is
replaced by 1 when it is not positive, and converted to `int`. -/
theorem outVal_count (img : Image) (out_w out_h : Nat) (c : Chan) (bx by_ : Nat)
    (hch : img.channels = 3)
    (h3w : 3 * img.width.toNat < 2 ^ 31) (hh31 : img.height.toNat < 2 ^ 31)
    (hbx : bx < out_w) (hby : by_ < out_h) :
    outVal img out_w out_h c (by_ * out_w + bx) =
      toInt32 ((∑ sy ∈ Finset.range (rangeEnd img.height.toNat out_h by_ -
          rangeStart img.height.toNat out_h by_),
        (∑ j ∈ Finset.range (rangeEnd img.width.toNat out_w bx -
            rangeStart img.width.toNat out_w bx),
          img.px c (rangeStart img.width.toNat out_w bx + j)
            (rangeStart img.height.toNat out_h by_ + sy)) % 2 ^ 32) % 2 ^ 64 /
        (if wrapInt ((((rangeEnd img.width.toNat out_w bx -
              rangeStart img.width.toNat out_w bx) *
            (rangeEnd img.height.toNat out_h by_ -
              rangeStart img.height.toNat out_h by_) : Nat)) : Int) ≤ 0 then 1
         else (wrapInt ((((rangeEnd img.width.toNat out_w bx -
              rangeStart img.width.toNat out_w bx) *
            (rangeEnd img.height.toNat out_h by_ -
              rangeStart img.height.toNat out_h by_) : Nat)) : Int)).toNat)) := by
  have h1 : (by_ * out_w + bx) / out_w = by_ := by
    rw [Nat.add_comm, Nat.add_mul_div_right _ _ (by omega), Nat.div_eq_of_lt hbx, Nat.zero_add]
  have h2 : (by_ * out_w + bx) % out_w = bx := by
    rw [Nat.add_comm, Nat.add_mul_mod_self_right, Nat.mod_eq_of_lt hbx]
  unfold outVal vVal
  simp only [h1, h2]
  rw [getD_rangeStarts _ _ _ hbx, getD_rangeEnds _ _ _ hbx, getD_rangeStarts _ _ _ hby,
    getD_rangeEnds _ _ _ hby]
  have hx := rangeStart_le_rangeEnd img.width.toNat out_w bx
  have hy := rangeStart_le_rangeEnd img.height.toNat out_h by_
  have hy2 := rangeEnd_le img.height.toNat out_h by_
  have hnum : vSum ((hPlanes img out_w).get c) out_w bx
        (rangeStart img.height.toNat out_h by_) (rangeEnd img.height.toNat out_h by_) =
      (∑ sy ∈ Finset.range (rangeEnd img.height.toNat out_h by_ -
          rangeStart img.height.toNat out_h by_),
        (∑ j ∈ Finset.range (rangeEnd img.width.toNat out_w bx -
            rangeStart img.width.toNat out_w bx),
          img.px c (rangeStart img.width.toNat out_w bx + j)
            (rangeStart img.height.toNat out_h by_ + sy)) % 2 ^ 32) % 2 ^ 64 := by
    unfold vSum
    rw [foldl_add_mod]
    congr 1
    apply Finset.sum_congr rfl
    intro sy hsy
    rw [Finset.mem_range] at hsy
    exact hPlanes_getD img out_w hch c bx _ hbx (by omega) h3w hh31
  rw [hnum]
  have hc0 : ((rangeEnd img.width.toNat out_w bx : Int) -
        (rangeStart img.width.toNat out_w bx : Int)) *
      ((rangeEnd img.height.toNat out_h by_ : Int) -
        (rangeStart img.height.toNat out_h by_ : Int)) =
      ((((rangeEnd img.width.toNat out_w bx - rangeStart img.width.toNat out_w bx) *
        (rangeEnd img.height.toNat out_h by_ -
          rangeStart img.height.toNat out_h by_) : Nat)) : Int) := by
    push_cast [Nat.cast_sub hx, Nat.cast_sub hy]
    ring
  rw [hc0]

theorem toInt32_of_lt (x : Nat) (h : x < 2 ^ 31) : toInt32 x = (x : Int) := by
  unfold toInt32
  have e : x % 2 ^ 32 = x := Nat.mod_eq_of_lt (by omega)
  rw [e]
  have h' : x < 2147483648 := by omega
  simp [h']

theorem resample_ok (img : Image) (out_w out_h : Nat) (tile_h tile_h_horiz : Int)
    (hw : 1 ≤ img.width) (hh : 1 ≤ img.height) (how : 1 ≤ out_w) (hoh : 1 ≤ out_h)
    (hgrid : out_w * out_h < 2 ^ 31) :
    resample_to_planes_fast img out_w out_h tile_h tile_h_horiz =
      Except.ok ⟨out_w, out_h,
        (List.range (out_w * out_h)).map (outVal img out_w out_h Chan.R),
        (List.range (out_w * out_h)).map (outVal img out_w out_h Chan.G),
        (List.range (out_w * out_h)).map (outVal img out_w out_h Chan.B)⟩ := by
  unfold resample_to_planes_fast
  have := resample_sched_eq img out_w out_h tile_h tile_h_horiz id id id
    (fun l => List.Perm.refl l) (fun l => List.Perm.refl l) (fun l => List.Perm.refl l)
    hw hh (by omega) (by omega) (by exact_mod_cast hgrid)
  simpa using this

theorem whiteImage_px (w h : Nat) (c : Chan) (x y : Nat) (hx : x < (whiteImage w h).width.toNat)
    (hy : y < (whiteImage w h).height.toNat) : (whiteImage w h).px c x y = 255 := by
  have h1 : (whiteImage w h).width.toNat = w := by simp [whiteImage]
  have h2 : (whiteImage w h).height.toNat = h := by simp [whiteImage]
  rw [h1] at hx
  rw [h2] at hy
  unfold Image.px
  rw [h1, List.getD_eq_getElem?_getD]
  have : (whiteImage w h).pixels = List.replicate (3 * w * h) 255 := rfl
  rw [this, List.getElem?_replicate]
  have hoff : c.off ≤ 2 := by cases c <;> simp [Chan.off]
  have hg := grid_lt w h x y hx hy
  have hlt : (y * w + x) * 3 + c.off < 3 * w * h := by
    have e : 3 * w * h = (w * h) * 3 := by ring
    rw [e]
    omega
  rw [if_pos hlt]
  rfl

/-- The single cell that a white image of `w x h` pixels is resampled to. -/
theorem whiteImage_outVal (w h : Nat) (c : Chan) (hw : 1 ≤ w) (hh : 1 ≤ h)
    (h3w : 3 * w < 2 ^ 31) (hh31 : h < 2 ^ 31) :
    outVal (whiteImage w h) 1 1 c 0 =
      toInt32 ((h * ((w * 255) % 2 ^ 32)) % 2 ^ 64 /
        (if wrapInt (((w * h : Nat)) : Int) ≤ 0 then 1
         else (wrapInt (((w * h : Nat)) : Int)).toNat)) := by
  have h1 : (whiteImage w h).width.toNat = w := by simp [whiteImage]
  have h2 : (whiteImage w h).height.toNat = h := by simp [whiteImage]
  have hw53 : w < 2 ^ 53 := by omega
  have hh53 : h < 2 ^ 53 := by omega
  have e1 : rangeEnd w 1 0 = w := by
    rw [rangeEnd_eq _ _ _ (by omega) (by omega)]
    simp
  have e2 : rangeStart w 1 0 = 0 := by
    rw [rangeStart_eq _ _ _ (by omega) (by omega)]
    simp
  have e3 : rangeEnd h 1 0 = h := by
    rw [rangeEnd_eq _ _ _ (by omega) (by omega)]
    simp
  have e4 : rangeStart h 1 0 = 0 := by
    rw [rangeStart_eq _ _ _ (by omega) (by omega)]
    simp
  have := outVal_count (whiteImage w h) 1 1 c 0 0 rfl (by rw [h1]; exact h3w)
    (by rw [h2]; exact hh31) (by omega) (by omega)
  simp only [Nat.zero_mul, Nat.zero_add] at this
  rw [this, h1, h2, e1, e2, e3, e4]
  have hrow : ∀ sy ∈ Finset.range (h - 0),
      (∑ j ∈ Finset.range (w - 0), (whiteImage w h).px c (0 + j) (0 + sy)) % 2 ^ 32 =
        (w * 255) % 2 ^ 32 := by
    intro sy hsy
    rw [Finset.mem_range] at hsy
    rw [Finset.sum_congr rfl (fun j hj => whiteImage_px w h c _ _
      (by rw [Finset.mem_range] at hj; rw [h1]; omega) (by rw [h2]; omega))]
    simp
  rw [Finset.sum_congr rfl hrow]
  simp only [Finset.sum_const, Finset.card_range, smul_eq_mul, Nat.sub_zero]

/-- C2, the code at a failing input: the white image of 16777216 x 128 pixels, resampled to
a single cell, has the pixel count `16777216 * 128 = 2^31`, which wraps to `-2^31` as an
`int`; the count is replaced by 1, and the sum `2^31 * 255` of each channel is stored as the
`int` -2147483648, which is outside `[0, 255]`. -/
theorem resample_values_overflow :
    resample_to_planes_fast (whiteImage 16777216 128) (1 : Nat) (1 : Nat) 64 (-1) =
      Except.ok ⟨(1 : Nat), (1 : Nat), [-2147483648], [-2147483648], [-2147483648]⟩ := by
  have h := resample_ok (whiteImage 16777216 128) 1 1 64 (-1) (by decide) (by decide)
    (by decide) (by decide) (by norm_num)
  have hv : ∀ c, outVal (whiteImage 16777216 128) 1 1 c 0 = -2147483648 := by
    intro c
    rw [whiteImage_outVal 16777216 128 c (by norm_num) (by norm_num) (by norm_num)
      (by norm_num)]
    decide
  have e : List.range (1 * 1) = [0] := rfl
  rw [h, e]
  simp only [List.map, hv]

/-- C3, the code at the failing input: for the 4 x 2 image and the grid 46341 x 46341 the
`int` product `out_w * out_h` wraps to -2147479015 and `resize` fails. -/
theorem resample_dimensions_fault :
    resample_to_planes_fast sampleImage 46341 46341 64 (-1) = Except.error Fault.badAlloc := by
  unfold resample_to_planes_fast resample_sched
  rw [if_pos (by decide)]

/-- C5, what the code does: the planes are resized to the `int` product `out_w * out_h`
before the image is looked at. For every image whose width or height is non-positive and
every `out_w, out_h ≥ 0`: if `out_w * out_h < 2^31` then `resample_to_planes_fast` returns,
without a fault, a `BlockPlanes` with `width == 0`, `height == 0` and empty `r`, `g` and `b`;
if the product wraps to a negative number then `resize` fails and nothing is returned. -/
theorem resample_degenerate (img : Image) (out_w out_h tile_h tile_h_horiz : Int)
    (hdeg : img.width ≤ 0 ∨ img.height ≤ 0) (how : 0 ≤ out_w) (hoh : 0 ≤ out_h) :
    (out_w * out_h < 2 ^ 31 →
      resample_to_planes_fast img out_w out_h tile_h tile_h_horiz =
        Except.ok ⟨0, 0, [], [], []⟩) ∧
    (wrapInt (out_w * out_h) < 0 →
      resample_to_planes_fast img out_w out_h tile_h tile_h_horiz =
        Except.error Fault.badAlloc) := by
  unfold resample_to_planes_fast resample_sched
  constructor
  · intro hgrid
    have h0 : 0 ≤ out_w * out_h := Int.mul_nonneg how hoh
    rw [wrapInt_eq _ (by omega) hgrid]
    have hprod : ¬ (out_w * out_h < 0) := by omega
    simp only [hprod, hdeg, if_false, if_true]
  · intro hneg
    simp only [hneg, if_true]

theorem resample_degenerate_witness :
    (((⟨0, 5, 3, []⟩ : Image).width ≤ 0 ∨ (⟨0, 5, 3, []⟩ : Image).height ≤ 0) ∧
      (0 : Int) ≤ 16 ∧ (0 : Int) ≤ 0) ∧
    ((16 : Int) * 0 < 2 ^ 31 →
      resample_to_planes_fast ⟨0, 5, 3, []⟩ 16 0 64 (-1) = Except.ok ⟨0, 0, [], [], []⟩) ∧
    (wrapInt (16 * 0) < 0 →
      resample_to_planes_fast ⟨0, 5, 3, []⟩ 16 0 64 (-1) = Except.error Fault.badAlloc) :=
  ⟨⟨by decide, by decide, by decide⟩,
   resample_degenerate ⟨0, 5, 3, []⟩ 16 0 64 (-1) (by decide) (by decide) (by decide)⟩

/-- C5, the code at the failing input: for an image without pixels and the grid
46341 x 46341 the `int` product `out_w * out_h` wraps to -2147479015, `resize` fails and no
empty grid is returned. -/
theorem resample_degenerate_fault :
    resample_to_planes_fast ⟨0, 0, 3, []⟩ 46341 46341 64 (-1) = Except.error Fault.badAlloc := by
  unfold resample_to_planes_fast resample_sched
  rw [if_pos (by decide)]

/-- With `out_h = 0` the divisor `min(tile_h, out_h)` of the chunk count of the vertical pass
is zero, whatever the image, the width of the grid and the tile heights. -/
theorem resample_zero_height (img : Image) (out_w tile_h tile_h_horiz : Int)
    (hw : 1 ≤ img.width) (hh : 1 ≤ img.height) (how : 0 ≤ out_w) :
    resample_to_planes_fast img out_w 0 tile_h tile_h_horiz = Except.error Fault.divByZero := by
  unfold resample_to_planes_fast resample_sched
  have hdeg : ¬ (img.width ≤ 0 ∨ img.height ≤ 0) := by omega
  have hneg : ¬ (out_w < 0 ∨ False) := by
    rintro (h | h)
    · omega
    · exact h
  have hmin : min (if tile_h ≤ 0 then (64 : Int) else tile_h) 0 = 0 := by
    split <;> omega
  have hz : wrapInt 0 = 0 := by decide
  simp only [Int.mul_zero, hz, lt_irrefl, hdeg, hneg, if_false, hmin, if_true, ne_eq,
    not_true_eq_false]

/-- C6, the code at the failing input: for the non-degenerate 4 x 2 image and the zero-area
grid `out_w = 2`, `out_h = 0` the vertical pass computes its chunk count with the divisor
`min(tile_h, out_h) = 0`: the function stops with a division by zero instead of returning an
empty result. -/
theorem resample_zero_height_fault :
    resample_to_planes_fast sampleImage 2 0 64 (-1) = Except.error Fault.divByZero :=
  resample_zero_height sampleImage 2 64 (-1) (by decide) (by decide) (by decide)

/-- A relation between two states is kept by two folds over the same list when every pair of
steps keeps it. -/
theorem foldl_rel {σ τ β : Type} (R : σ → τ → Prop) (f : σ → β → σ) (g : τ → β → τ)
    (l : List β) (h : ∀ s t b, b ∈ l → R s t → R (f s b) (g t b)) :
    ∀ s t, R s t → R (l.foldl f s) (l.foldl g t) := by
  induction l with
  | nil => intro s t hR; exact hR
  | cons a l ih =>
    intro s t hR
    simp only [List.foldl_cons]
    exact ih (fun s t b hb => h s t b (List.mem_cons_of_mem _ hb)) _ _
      (h s t a (List.mem_cons_self _ _) hR)

theorem evaluatedAt_mono (t : Integrals) (high_w : Nat) (t1 t2 : Int) (h : t1 ≤ t2)
    (bx by_ : Nat) (gd : GDesc) (he : evaluatedAt t high_w t2 bx by_ gd = true) :
    evaluatedAt t high_w t1 bx by_ gd = true := by
  unfold evaluatedAt at he ⊢
  simp only [Bool.not_eq_true', decide_eq_false_iff_not, not_lt] at he ⊢
  omega

theorem glyphStep_evaluations (t : Integrals) (high_w : Nat) (thr : Int) (bx by_ : Nat)
    (st : Best × PruneStats) (gd : GDesc) :
    (glyphStep t high_w thr bx by_ st gd).2.evaluations =
      st.2.evaluations + (if evaluatedAt t high_w thr bx by_ gd then 1 else 0) := by
  unfold glyphStep evaluatedAt
  simp only
  split <;> simp_all

/-- The counter `evaluations` grows, over one cell, by the number of candidates that pass the
prune check. -/
theorem cellSearch_evaluations (t : Integrals) (high_w : Nat) (thr : Int) (bx by_ : Nat)
    (stats : PruneStats) :
    (cellSearch t high_w thr bx by_ stats).2.evaluations =
      stats.evaluations + (glyphs.filter (evaluatedAt t high_w thr bx by_)).length := by
  unfold cellSearch
  have key : ∀ (l : List GDesc) (st : Best × PruneStats),
      (l.foldl (glyphStep t high_w thr bx by_) st).2.evaluations =
        st.2.evaluations + (l.filter (evaluatedAt t high_w thr bx by_)).length := by
    intro l
    induction l with
    | nil => intro st; simp
    | cons a l ih =>
      intro st
      rw [List.foldl_cons, ih, glyphStep_evaluations, List.filter_cons]
      split
      · simp only [List.length_cons]; omega
      · omega
  exact key glyphs (Best.init, stats)

theorem cellSearch_evaluations_le (t : Integrals) (high_w : Nat) (t1 t2 : Int) (h : t1 ≤ t2)
    (bx by_ : Nat) (s2 s1 : PruneStats) (hs : s2.evaluations ≤ s1.evaluations) :
    (cellSearch t high_w t2 bx by_ s2).2.evaluations ≤
      (cellSearch t high_w t1 bx by_ s1).2.evaluations := by
  unfold cellSearch
  refine foldl_rel (fun a b : Best × PruneStats => a.2.evaluations ≤ b.2.evaluations) _ _ glyphs
    ?_ _ _ hs
  intro a b gd _ hab
  rw [glyphStep_evaluations, glyphStep_evaluations]
  have := evaluatedAt_mono t high_w t1 t2 h bx by_ gd
  by_cases h2 : evaluatedAt t high_w t2 bx by_ gd = true
  · rw [if_pos h2, if_pos (this h2)]
    have hab' : a.2.evaluations ≤ b.2.evaluations := hab
    show a.2.evaluations + 1 ≤ b.2.evaluations + 1
    omega
  · rw [if_neg h2]
    have hab' : a.2.evaluations ≤ b.2.evaluations := hab
    show a.2.evaluations + 0 ≤ b.2.evaluations + _
    omega

/-- C10: for every `BlockPlanes` and every pair of thresholds `t1 ≤ t2`, the number of full
error evaluations of `render_high` (the counter `evaluations` of `PruneStats`) with
`prune_threshold = t2` is at most the number with `prune_threshold = t1`; per cell, every
candidate evaluated at `t2` is evaluated at `t1`, and the counter counts exactly the evaluated
candidates. -/
theorem evaluations_antitone (highres : BlockPlanes) (out_w out_h hc : Nat) (t1 t2 : Int)
    (h : t1 ≤ t2) :
    (render_high_stats highres out_w out_h hc t2).evaluations ≤
      (render_high_stats highres out_w out_h hc t1).evaluations ∧
    ∀ bx by_,
      (∀ gd ∈ glyphs,
        evaluatedAt (buildIntegrals highres) highres.width.toNat t2 bx by_ gd = true →
        evaluatedAt (buildIntegrals highres) highres.width.toNat t1 bx by_ gd = true) ∧
      ∀ (thr : Int) (stats : PruneStats),
        (cellSearch (buildIntegrals highres) highres.width.toNat thr bx by_ stats).2.evaluations =
          stats.evaluations +
            (glyphs.filter
              (evaluatedAt (buildIntegrals highres) highres.width.toNat thr bx by_)).length := by
  refine ⟨?_, fun bx by_ => ⟨fun gd _ he => evaluatedAt_mono _ _ t1 t2 h bx by_ gd he,
    fun thr stats => cellSearch_evaluations _ _ thr bx by_ stats⟩⟩
  unfold render_high_stats
  simp only
  refine foldl_rel (fun a b : PruneStats => a.evaluations ≤ b.evaluations) _ _ _ ?_ _ _
    (le_refl _)
  intro a b tid _ hab
  unfold bandStats
  simp only
  refine foldl_rel (fun a b : PruneStats => a.evaluations ≤ b.evaluations) _ _ _ ?_ _ _ hab
  intro a b y _ hab
  unfold rowStats
  refine foldl_rel (fun a b : PruneStats => a.evaluations ≤ b.evaluations) _ _ _ ?_ _ _ hab
  intro a b x _ hab
  exact cellSearch_evaluations_le _ _ t1 t2 h x y a b hab

theorem evaluations_antitone_witness :
    ((0 : Int) ≤ 24) ∧
    ((render_high_stats ⟨8, 8, List.replicate 64 5, List.replicate 64 5, List.replicate 64 5⟩
        1 1 4 24).evaluations ≤
      (render_high_stats ⟨8, 8, List.replicate 64 5, List.replicate 64 5, List.replicate 64 5⟩
        1 1 4 0).evaluations ∧
    ∀ bx by_,
      (∀ gd ∈ glyphs,
        evaluatedAt (buildIntegrals
          ⟨8, 8, List.replicate 64 5, List.replicate 64 5, List.replicate 64 5⟩)
          (8 : Int).toNat 24 bx by_ gd = true →
        evaluatedAt (buildIntegrals
          ⟨8, 8, List.replicate 64 5, List.replicate 64 5, List.replicate 64 5⟩)
          (8 : Int).toNat 0 bx by_ gd = true) ∧
      ∀ (thr : Int) (stats : PruneStats),
        (cellSearch (buildIntegrals
          ⟨8, 8, List.replicate 64 5, List.replicate 64 5, List.replicate 64 5⟩)
          (8 : Int).toNat thr bx by_ stats).2.evaluations =
          stats.evaluations +
            (glyphs.filter
              (evaluatedAt (buildIntegrals
                ⟨8, 8, List.replicate 64 5, List.replicate 64 5, List.replicate 64 5⟩)
                (8 : Int).toNat thr bx by_)).length) :=
  ⟨by decide,
   evaluations_antitone ⟨8, 8, List.replicate 64 5, List.replicate 64 5, List.replicate 64 5⟩
    1 1 4 0 24 (by decide)⟩

/-! ## The prefix-sum tables -/

theorem getD_set (l : List Nat) (i j v : Nat) :
    (l.set i v).getD j 0 = if j = i ∧ i < l.length then v else l.getD j 0 := by
  rw [List.getD_eq_getElem?_getD, List.getD_eq_getElem?_getD, List.getElem?_set]
  by_cases h : i = j
  · subst h
    by_cases h2 : i < l.length
    · simp [h2]
    · simp [h2, List.getElem?_eq_none (Nat.le_of_not_lt h2)]
  · have h' : ¬ (j = i) := fun e => h e.symm
    simp [h, h']

theorem idx_ne (w a b a' b' : Nat) (ha : a ≤ w) (ha' : a' ≤ w) (h : a ≠ a' ∨ b ≠ b') :
    b * (w + 1) + a ≠ b' * (w + 1) + a' := by
  intro e
  have h1 : (b * (w + 1) + a) / (w + 1) = b := by
    rw [Nat.add_comm, Nat.add_mul_div_right _ _ (by omega), Nat.div_eq_of_lt (by omega),
      Nat.zero_add]
  have h2 : (b' * (w + 1) + a') / (w + 1) = b' := by
    rw [Nat.add_comm, Nat.add_mul_div_right _ _ (by omega), Nat.div_eq_of_lt (by omega),
      Nat.zero_add]
  have hb : b = b' := by rw [← h1, ← h2, e]
  subst hb
  omega

theorem prefixSum_zero_left (f : Nat → Nat → Nat) (b : Nat) : prefixSum f 0 b = 0 := by
  simp [prefixSum]

theorem prefixSum_zero_right (f : Nat → Nat → Nat) (a : Nat) : prefixSum f a 0 = 0 := by
  simp [prefixSum]

theorem prefixSum_succ (f : Nat → Nat → Nat) (a b : Nat) :
    prefixSum f a (b + 1) = prefixSum f a b + ∑ x ∈ Finset.range a, f x b := by
  simp [prefixSum, Finset.sum_range_succ]

theorem cellInv_step (f : Nat → Nat → Nat) (w h y x : Nat) (hy : y < h) (hx : x < w)
    (st : Nat × List Nat) (hinv : CellInv f w h y x st) :
    CellInv f w h y (x + 1) (tabCell f w y st x) := by
  obtain ⟨h1, h2, h3, h4, h5, h6⟩ := hinv
  have hk : (y + 1) * (w + 1) + (x + 1) < st.2.length := by
    rw [h2]; exact grid_lt (w + 1) (h + 1) (x + 1) (y + 1) (by omega) (by omega)
  unfold tabCell
  refine ⟨?_, ?_, ?_, ?_, ?_, ?_⟩
  · simp only [addU64]
    rw [h1, Finset.sum_range_succ]
    omega
  · simp only [List.length_set]; exact h2
  · intro a b ha hb
    simp only
    rw [getD_set, if_neg]
    · exact h3 a b ha hb
    · intro hc
      exact idx_ne w a b (x + 1) (y + 1) ha (by omega) (Or.inr (by omega)) hc.1
  · intro a ha
    simp only
    rw [getD_set]
    by_cases hax : a = x + 1
    · subst hax
      rw [if_pos ⟨rfl, hk⟩]
      simp only [addU64]
      rw [h3 (x + 1) y (by omega) (le_refl _), h1, prefixSum_succ, Finset.sum_range_succ]
      omega
    · rw [if_neg]
      · exact h4 a (by omega)
      · intro hc
        exact idx_ne w a (y + 1) (x + 1) (y + 1) (by omega) (by omega) (Or.inl hax) hc.1
  · intro a ha1 ha2
    simp only
    rw [getD_set, if_neg]
    · exact h5 a (by omega) ha2
    · intro hc
      exact idx_ne w a (y + 1) (x + 1) (y + 1) ha2 (by omega) (Or.inl (by omega)) hc.1
  · intro a b ha hb1 hb2
    simp only
    rw [getD_set, if_neg]
    · exact h6 a b ha hb1 hb2
    · intro hc
      exact idx_ne w a b (x + 1) (y + 1) ha (by omega) (Or.inr (by omega)) hc.1

theorem cellInv_fold (f : Nat → Nat → Nat) (w h y : Nat) (hy : y < h) (st : Nat × List Nat)
    (hinv : CellInv f w h y 0 st) (n : Nat) (hn : n ≤ w) :
    CellInv f w h y n ((List.range n).foldl (tabCell f w y) st) := by
  induction n with
  | zero => exact hinv
  | succ n ih =>
    rw [List.range_succ, List.foldl_append]
    exact cellInv_step f w h y n hy (by omega) _ (ih (by omega))

theorem tabInv_step (f : Nat → Nat → Nat) (w h y : Nat) (hy : y < h) (tab : List Nat)
    (hinv : TabInv f w h y tab) : TabInv f w h (y + 1) (tabRow f w tab y) := by
  obtain ⟨h1, h2, h3⟩ := hinv
  have h0 : CellInv f w h y 0 (0, tab) := by
    refine ⟨by simp, h1, h2, ?_, ?_, ?_⟩
    · intro a ha
      have : a = 0 := by omega
      subst this
      rw [prefixSum_zero_left]
      exact h3 0 (y + 1) (by omega) (by omega) (by omega)
    · intro a _ ha2
      exact h3 a (y + 1) ha2 (by omega) (by omega)
    · intro a b ha hb1 hb2
      exact h3 a b ha (by omega) hb2
  obtain ⟨_, g2, g3, g4, _, g6⟩ := cellInv_fold f w h y hy (0, tab) h0 w (le_refl _)
  unfold tabRow
  refine ⟨g2, ?_, ?_⟩
  · intro a b ha hb
    rcases Nat.lt_or_ge b (y + 1) with hlt | hge
    · exact g3 a b ha (by omega)
    · have : b = y + 1 := by omega
      subst this
      exact g4 a ha
  · intro a b ha hb1 hb2
    exact g6 a b ha hb1 hb2

theorem tabInv_fold (f : Nat → Nat → Nat) (w h n : Nat) (hn : n ≤ h) :
    TabInv f w h n ((List.range n).foldl (tabRow f w) (List.replicate ((w + 1) * (h + 1)) 0)) := by
  induction n with
  | zero =>
    simp only [List.range_zero, List.foldl_nil]
    refine ⟨by simp, ?_, ?_⟩
    · intro a b ha hb
      have : b = 0 := by omega
      subst this
      rw [prefixSum_zero_right]
      rw [List.getD_eq_getElem?_getD, List.getElem?_replicate]
      split <;> rfl
    · intro a b _ _ _
      rw [List.getD_eq_getElem?_getD, List.getElem?_replicate]
      split <;> rfl
  | succ n ih =>
    rw [List.range_succ, List.foldl_append]
    exact tabInv_step f w h n (by omega) _ (ih (by omega))

/-- Every entry of a table is the prefix sum of its position, modulo `2^64`. -/
theorem tabBuild_getD (f : Nat → Nat → Nat) (w h a b : Nat) (ha : a ≤ w) (hb : b ≤ h) :
    (tabBuild f w h).getD (b * (w + 1) + a) 0 = prefixSum f a b % 2 ^ 64 :=
  (tabInv_fold f w h h (le_refl _)).2.1 a b ha hb

theorem foldl_proj {σ τ β : Type} (proj : σ → τ) (f : σ → β → σ) (g : τ → β → τ)
    (h : ∀ s b, proj (f s b) = g (proj s) b) (l : List β) :
    ∀ s, proj (l.foldl f s) = l.foldl g (proj s) := by
  induction l with
  | nil => intro s; rfl
  | cons a l ih => intro s; simp only [List.foldl_cons]; rw [ih, h]

theorem integralCell_proj (highres : BlockPlanes) (w y : Nat) (sq : Bool) (c : Chan)
    (st : RowAcc × Integrals) (x : Nat) :
    ((integralCell highres w y st x).1.get sq c, (integralCell highres w y st x).2.tab sq c) =
      tabCell (cellIn highres w sq c) w y (st.1.get sq c, st.2.tab sq c) x := by
  cases sq <;> cases c <;> rfl

theorem integralRow_proj (highres : BlockPlanes) (w : Nat) (sq : Bool) (c : Chan)
    (t : Integrals) (y : Nat) :
    (integralRow highres w t y).tab sq c = tabRow (cellIn highres w sq c) w (t.tab sq c) y := by
  unfold integralRow tabRow
  have := foldl_proj (fun st : RowAcc × Integrals => (st.1.get sq c, st.2.tab sq c))
    (integralCell highres w y) (tabCell (cellIn highres w sq c) w y)
    (fun st x => integralCell_proj highres w y sq c st x) (List.range w)
    (⟨0, 0, 0, 0, 0, 0⟩, t)
  have e : (RowAcc.mk 0 0 0 0 0 0).get sq c = 0 := by cases sq <;> cases c <;> rfl
  simp only [e] at this
  rw [← this]

/-- Each of the six tables of `buildIntegrals` is the single table built from the values of
its channel. -/
theorem buildIntegrals_tab (highres : BlockPlanes) (sq : Bool) (c : Chan) :
    (buildIntegrals highres).tab sq c =
      tabBuild (cellIn highres highres.width.toNat sq c) highres.width.toNat
        highres.height.toNat := by
  unfold buildIntegrals tabBuild
  simp only
  rw [foldl_proj (fun t : Integrals => t.tab sq c) (integralRow highres highres.width.toNat)
    (tabRow (cellIn highres highres.width.toNat sq c) highres.width.toNat)
    (fun t y => integralRow_proj highres _ sq c t y)]
  congr 1
  cases sq <;> cases c <;> rfl

theorem prefixSum_rect (f : Nat → Nat → Nat) (x0 y0 x1 y1 : Nat) (hx : x0 ≤ x1) (hy : y0 ≤ y1) :
    prefixSum f x1 y1 + prefixSum f x0 y0 =
      prefixSum f x1 y0 + prefixSum f x0 y1 + rectSum f x0 y0 x1 y1 := by
  obtain ⟨dx, rfl⟩ : ∃ dx, x1 = x0 + dx := ⟨x1 - x0, by omega⟩
  obtain ⟨dy, rfl⟩ : ∃ dy, y1 = y0 + dy := ⟨y1 - y0, by omega⟩
  simp only [prefixSum, rectSum, Finset.sum_range_add, Finset.sum_add_distrib,
    Nat.add_sub_cancel_left]
  ring

/-- The four-corner query on a table is the sum over the rectangle, modulo `2^64`. -/
theorem rect_sum3_tab (f : Nat → Nat → Nat) (w h x0 y0 x1 y1 : Nat) (hx : x0 ≤ x1)
    (hx1 : x1 ≤ w) (hy : y0 ≤ y1) (hy1 : y1 ≤ h) :
    rect_sum3 (tabBuild f w h) w x0 y0 x1 y1 = rectSum f x0 y0 x1 y1 % 2 ^ 64 := by
  unfold rect_sum3
  simp only
  rw [tabBuild_getD f w h x0 y0 (by omega) (by omega),
    tabBuild_getD f w h x1 y0 hx1 (by omega),
    tabBuild_getD f w h x0 y1 (by omega) hy1,
    tabBuild_getD f w h x1 y1 hx1 hy1]
  have key := prefixSum_rect f x0 y0 x1 y1 hx hy
  unfold addU64 subU64
  omega

/-! ## The sums of a region of a cell -/

theorem sum_range_indicator (G : Nat → Nat) (a b n : Nat) (_hab : a ≤ b) (hbn : b ≤ n) :
    (∑ i ∈ Finset.range n, if a ≤ i ∧ i < b then G i else 0) =
      ∑ j ∈ Finset.range (b - a), G (a + j) := by
  rw [← Finset.sum_filter]
  have e : (Finset.range n).filter (fun i => a ≤ i ∧ i < b) = Finset.Ico a b := by
    ext i
    simp only [Finset.mem_filter, Finset.mem_range, Finset.mem_Ico]
    omega
  rw [e, Finset.sum_Ico_eq_sum_range]

theorem rect_mask (g : Nat → Nat → Nat) (a0 a1 b0 b1 : Nat) (ha : a0 ≤ a1) (ha1 : a1 ≤ 8)
    (hb : b0 ≤ b1) (hb1 : b1 ≤ 8) :
    (∑ y ∈ Finset.range (b1 - b0), ∑ x ∈ Finset.range (a1 - a0), g (a0 + x) (b0 + y)) =
      maskSum (rectMask a0 a1 b0 b1) g := by
  unfold maskSum rectMask
  rw [← sum_range_indicator (fun dy => ∑ x ∈ Finset.range (a1 - a0), g (a0 + x) dy) b0 b1 8
    hb hb1]
  apply Finset.sum_congr rfl
  intro dy _
  by_cases hdy : b0 ≤ dy ∧ dy < b1
  · rw [if_pos hdy, ← sum_range_indicator (fun dx => g dx dy) a0 a1 8 ha ha1]
    apply Finset.sum_congr rfl
    intro dx _
    by_cases hdx : a0 ≤ dx ∧ dx < a1
    · have : (a0 ≤ dx ∧ dx < a1 ∧ b0 ≤ dy ∧ dy < b1) := ⟨hdx.1, hdx.2, hdy.1, hdy.2⟩
      simp [hdx, this]
    · have : ¬ (a0 ≤ dx ∧ dx < a1 ∧ b0 ≤ dy ∧ dy < b1) := fun h => hdx ⟨h.1, h.2.1⟩
      simp [hdx, this]
  · rw [if_neg hdy]
    symm
    apply Finset.sum_eq_zero
    intro dx _
    have : ¬ (a0 ≤ dx ∧ dx < a1 ∧ b0 ≤ dy ∧ dy < b1) := fun h => hdy ⟨h.2.2.1, h.2.2.2⟩
    simp [this]

theorem maskSum_congr (m m' : Nat → Nat → Bool) (g g' : Nat → Nat → Nat)
    (hm : ∀ dx dy, dx < 8 → dy < 8 → m dx dy = m' dx dy)
    (hg : ∀ dx dy, dx < 8 → dy < 8 → g dx dy = g' dx dy) : maskSum m g = maskSum m' g' := by
  unfold maskSum
  apply Finset.sum_congr rfl
  intro dy hdy
  apply Finset.sum_congr rfl
  intro dx hdx
  rw [Finset.mem_range] at hdx hdy
  rw [hm dx dy hdx hdy, hg dx dy hdx hdy]

theorem maskSum_le (m : Nat → Nat → Bool) (g : Nat → Nat → Nat) (B : Nat)
    (hg : ∀ dx dy, dx < 8 → dy < 8 → g dx dy ≤ B) : maskSum m g ≤ 64 * B := by
  unfold maskSum
  have h1 : ∀ dy ∈ Finset.range 8,
      (∑ dx ∈ Finset.range 8, if m dx dy then g dx dy else 0) ≤ 8 * B := by
    intro dy hdy
    rw [Finset.mem_range] at hdy
    have := Finset.sum_le_card_nsmul (Finset.range 8)
      (fun dx => if m dx dy then g dx dy else 0) B (by
        intro dx hdx
        rw [Finset.mem_range] at hdx
        simp only
        split
        · exact hg dx dy hdx hdy
        · exact Nat.zero_le _)
    simpa using this
  have := Finset.sum_le_card_nsmul (Finset.range 8) _ (8 * B) h1
  simp only [Finset.card_range, smul_eq_mul] at this
  omega

theorem cellIn_eq (highres : BlockPlanes) (bx by_ : Nat) (hok : CellOK highres bx by_)
    (sq : Bool) (c : Chan) (dx dy : Nat) (hdx : dx < 8) (hdy : dy < 8) :
    cellIn highres highres.width.toNat sq c (bx * 8 + dx) (by_ * 8 + dy) =
      cellNat highres sq c bx by_ dx dy := by
  obtain ⟨h0, h255⟩ := hok.2.2 c dx dy hdx hdy
  unfold cellIn cellNat
  simp only
  generalize (highres.get c).getD ((by_ * 8 + dy) * highres.width.toNat + (bx * 8 + dx)) 0 = v
    at h0 h255
  obtain ⟨n, rfl⟩ : ∃ n : Nat, v = (n : Int) := ⟨v.toNat, by omega⟩
  have hn : n ≤ 255 := by omega
  have e : toU64 (n : Int) = n := by
    unfold toU64
    have : ((n : Int) % 2 ^ 64) = (n : Int) := Int.emod_eq_of_lt (by omega) (by omega)
    rw [this]; simp
  rw [e]
  simp only [Int.toNat_ofNat]
  cases sq
  · simp
  · simp only [if_true]
    unfold mulU64
    apply Nat.mod_eq_of_lt
    have : n * n ≤ 255 * 255 := Nat.mul_le_mul hn hn
    omega

theorem cellNat_le (highres : BlockPlanes) (bx by_ : Nat) (hok : CellOK highres bx by_)
    (sq : Bool) (c : Chan) (dx dy : Nat) (hdx : dx < 8) (hdy : dy < 8) :
    cellNat highres sq c bx by_ dx dy ≤ 65025 := by
  obtain ⟨h0, h255⟩ := hok.2.2 c dx dy hdx hdy
  unfold cellNat
  simp only
  generalize (highres.get c).getD ((by_ * 8 + dy) * highres.width.toNat + (bx * 8 + dx)) 0 = v
    at h0 h255
  have hn : v.toNat ≤ 255 := by omega
  cases sq
  · simp only [Bool.false_eq_true, if_false]; omega
  · simp only [if_true]
    have : v.toNat * v.toNat ≤ 255 * 255 := Nat.mul_le_mul hn hn
    omega

/-- The four-corner query of a rectangle of a cell is the sum of the values (or of their
squares) over the rectangle. -/
theorem rect_cell (highres : BlockPlanes) (bx by_ : Nat) (hok : CellOK highres bx by_)
    (sq : Bool) (c : Chan) (a0 a1 b0 b1 : Nat) (ha : a0 ≤ a1) (ha1 : a1 ≤ 8) (hb : b0 ≤ b1)
    (hb1 : b1 ≤ 8) :
    rect_sum3 ((buildIntegrals highres).tab sq c) highres.width.toNat (bx * 8 + a0)
      (by_ * 8 + b0) (bx * 8 + a1) (by_ * 8 + b1) =
      maskSum (rectMask a0 a1 b0 b1) (cellNat highres sq c bx by_) := by
  rw [buildIntegrals_tab, rect_sum3_tab _ _ _ _ _ _ _ (by omega) (by have := hok.1; omega)
    (by omega) (by have := hok.2.1; omega)]
  unfold rectSum
  have e1 : bx * 8 + a1 - (bx * 8 + a0) = a1 - a0 := by omega
  have e2 : by_ * 8 + b1 - (by_ * 8 + b0) = b1 - b0 := by omega
  rw [e1, e2]
  have e3 : (∑ y ∈ Finset.range (b1 - b0), ∑ x ∈ Finset.range (a1 - a0),
      cellIn highres highres.width.toNat sq c (bx * 8 + a0 + x) (by_ * 8 + b0 + y)) =
      ∑ y ∈ Finset.range (b1 - b0), ∑ x ∈ Finset.range (a1 - a0),
        cellNat highres sq c bx by_ (a0 + x) (b0 + y) := by
    apply Finset.sum_congr rfl
    intro y hy
    apply Finset.sum_congr rfl
    intro x hx
    rw [Finset.mem_range] at hx hy
    rw [Nat.add_assoc, Nat.add_assoc]
    exact cellIn_eq highres bx by_ hok sq c (a0 + x) (b0 + y) (by omega) (by omega)
  rw [e3, rect_mask _ a0 a1 b0 b1 ha ha1 hb hb1]
  apply Nat.mod_eq_of_lt
  have := maskSum_le (rectMask a0 a1 b0 b1) (cellNat highres sq c bx by_) 65025
    (fun dx dy hdx hdy => cellNat_le highres bx by_ hok sq c dx dy hdx hdy)
  omega

theorem maskRegion_congr (highres : BlockPlanes) (bx by_ : Nat) (m m' : Nat → Nat → Bool)
    (hm : ∀ dx dy, dx < 8 → dy < 8 → m dx dy = m' dx dy) :
    maskRegion highres bx by_ m = maskRegion highres bx by_ m' := by
  unfold maskRegion
  rw [maskSum_congr m m' _ _ hm (fun _ _ _ _ => rfl),
    maskSum_congr m m' (cellNat highres false Chan.G bx by_) _ hm (fun _ _ _ _ => rfl),
    maskSum_congr m m' (cellNat highres false Chan.B bx by_) _ hm (fun _ _ _ _ => rfl),
    maskSum_congr m m' (cellNat highres true Chan.R bx by_) _ hm (fun _ _ _ _ => rfl),
    maskSum_congr m m' (cellNat highres true Chan.G bx by_) _ hm (fun _ _ _ _ => rfl),
    maskSum_congr m m' (cellNat highres true Chan.B bx by_) _ hm (fun _ _ _ _ => rfl),
    maskSum_congr m m' (fun _ _ => 1) _ hm (fun _ _ _ _ => rfl)]

theorem rectMask_count (a0 a1 b0 b1 : Nat) (ha : a0 ≤ a1) (ha1 : a1 ≤ 8) (hb : b0 ≤ b1)
    (hb1 : b1 ≤ 8) : maskSum (rectMask a0 a1 b0 b1) (fun _ _ => 1) = (a1 - a0) * (b1 - b0) := by
  rw [← rect_mask (fun _ _ => 1) a0 a1 b0 b1 ha ha1 hb hb1]
  simp [Nat.mul_comm]

/-- The six rectangle queries of a rectangle of a cell, with its pixel count. -/
theorem rectRegion_cell (highres : BlockPlanes) (bx by_ : Nat) (hok : CellOK highres bx by_)
    (a0 a1 b0 b1 : Nat) (ha : a0 ≤ a1) (ha1 : a1 ≤ 8) (hb : b0 ≤ b1) (hb1 : b1 ≤ 8)
    (x0 y0 x1 y1 cnt : Nat) (hx0 : x0 = bx * 8 + a0) (hy0 : y0 = by_ * 8 + b0)
    (hx1 : x1 = bx * 8 + a1) (hy1 : y1 = by_ * 8 + b1) (hcnt : cnt = (a1 - a0) * (b1 - b0)) :
    rectRegion (buildIntegrals highres) highres.width.toNat x0 y0 x1 y1 cnt =
      maskRegion highres bx by_ (rectMask a0 a1 b0 b1) := by
  subst hx0 hy0 hx1 hy1 hcnt
  unfold rectRegion maskRegion
  have h := fun sq c => rect_cell highres bx by_ hok sq c a0 a1 b0 b1 ha ha1 hb hb1
  have hRs : rect_sum3 (buildIntegrals highres).sum.r highres.width.toNat (bx * 8 + a0)
      (by_ * 8 + b0) (bx * 8 + a1) (by_ * 8 + b1) = _ := h false Chan.R
  have hGs : rect_sum3 (buildIntegrals highres).sum.g highres.width.toNat (bx * 8 + a0)
      (by_ * 8 + b0) (bx * 8 + a1) (by_ * 8 + b1) = _ := h false Chan.G
  have hBs : rect_sum3 (buildIntegrals highres).sum.b highres.width.toNat (bx * 8 + a0)
      (by_ * 8 + b0) (bx * 8 + a1) (by_ * 8 + b1) = _ := h false Chan.B
  have hRq : rect_sum3 (buildIntegrals highres).sq.r highres.width.toNat (bx * 8 + a0)
      (by_ * 8 + b0) (bx * 8 + a1) (by_ * 8 + b1) = _ := h true Chan.R
  have hGq : rect_sum3 (buildIntegrals highres).sq.g highres.width.toNat (bx * 8 + a0)
      (by_ * 8 + b0) (bx * 8 + a1) (by_ * 8 + b1) = _ := h true Chan.G
  have hBq : rect_sum3 (buildIntegrals highres).sq.b highres.width.toNat (bx * 8 + a0)
      (by_ * 8 + b0) (bx * 8 + a1) (by_ * 8 + b1) = _ := h true Chan.B
  rw [hRs, hGs, hBs, hRq, hGq, hBq, rectMask_count a0 a1 b0 b1 ha ha1 hb hb1]

theorem cellTotals_eq (highres : BlockPlanes) (bx by_ : Nat) (hok : CellOK highres bx by_) :
    cellTotals (buildIntegrals highres) highres.width.toNat bx by_ =
      maskRegion highres bx by_ (fun _ _ => true) := by
  unfold cellTotals
  simp only [SUB_W, SUB_H]
  refine Eq.trans (rectRegion_cell highres bx by_ hok 0 8 0 8 (by omega) (by omega) (by omega)
    (by omega) _ _ _ _ _ rfl rfl rfl rfl rfl) ?_
  apply maskRegion_congr
  intro dx dy hdx hdy
  simp [rectMask, hdx, hdy]

/-- The foreground sums that `render_high` computes for a glyph are the sums over the mask of
the glyph. -/
theorem fgRegion_eq (highres : BlockPlanes) (bx by_ : Nat) (hok : CellOK highres bx by_)
    (gd : GDesc) (hl : gd.level ≤ 8) :
    fgRegion (buildIntegrals highres) highres.width.toNat bx by_
      (cellTotals (buildIntegrals highres) highres.width.toNat bx by_) gd =
      maskRegion highres bx by_ gd.mask := by
  unfold fgRegion
  simp only [SUB_W, SUB_H]
  cases ht : gd.type with
  | H =>
    simp only
    have e : (gd.level * 8 + 7) / 8 = gd.level := by omega
    rw [e]
    refine Eq.trans (rectRegion_cell highres bx by_ hok 0 8 (8 - gd.level) 8 (by omega)
      (by omega) (by omega) (by omega) _ _ _ _ _ rfl (by omega) rfl rfl
      (by unfold mulU64; rw [Nat.mod_eq_of_lt (by omega)]; omega)) ?_
    apply maskRegion_congr
    intro dx dy hdx hdy
    simp only [rectMask, GDesc.mask, ht]
    simp [hdx, hdy]
  | V =>
    simp only
    have e : (gd.level * 8 + 7) / 8 = gd.level := by omega
    rw [e]
    refine Eq.trans (rectRegion_cell highres bx by_ hok 0 gd.level 0 8 (by omega) (by omega)
      (by omega) (by omega) _ _ _ _ _ rfl rfl rfl rfl
      (by unfold mulU64; rw [Nat.mod_eq_of_lt (by omega)]; omega)) ?_
    apply maskRegion_congr
    intro dx dy hdx hdy
    simp only [rectMask, GDesc.mask, ht]
    simp [hdx, hdy]
  | Q =>
    simp only
    refine Eq.trans (rectRegion_cell highres bx by_ hok (if gd.qidx % 2 ≠ 0 then 4 else 0)
      ((if gd.qidx % 2 ≠ 0 then 4 else 0) + 4) (if gd.qidx < 2 then 0 else 4)
      ((if gd.qidx < 2 then 0 else 4) + 4) (by omega) (by split <;> omega)
      (by omega) (by split <;> omega) _ _ _ _ _ (by split <;> simp) (by split <;> simp)
      (by split <;> simp) (by split <;> simp)
      (by unfold mulU64; split <;> split <;> simp)) ?_
    apply maskRegion_congr
    intro dx dy hdx hdy
    simp only [rectMask, GDesc.mask, ht]
    rw [Bool.eq_iff_iff]
    simp only [Bool.and_eq_true, decide_eq_true_eq]
    split_ifs <;> simp only [Bool.and_eq_true, decide_eq_true_eq] <;> omega
  | F =>
    simp only
    rw [cellTotals_eq highres bx by_ hok]
    apply maskRegion_congr
    intro dx dy _ _
    simp only [GDesc.mask, ht]
  | S =>
    simp only
    have e : maskRegion highres bx by_ gd.mask = maskRegion highres bx by_ (fun _ _ => false) := by
      apply maskRegion_congr
      intro dx dy _ _
      simp only [GDesc.mask, ht]
    rw [e]
    simp [maskRegion, maskSum]

/-! ## The initial candidate -/

/-- The initial `best_err` is above every error of a cell. -/
theorem init_err_large : (12484802 : ℚ) ≤ Best.init.best_err := by
  simp only [Best.init]
  refine le_trans ?_ (fl_ge_half ((10 : ℚ) ^ 308) (by positivity))
  norm_num

/-! ## A cell of one colour -/

theorem maskSum_const (m : Nat → Nat → Bool) (k : Nat) :
    maskSum m (fun _ _ => k) = maskSum m (fun _ _ => 1) * k := by
  unfold maskSum
  rw [Finset.sum_mul]
  apply Finset.sum_congr rfl
  intro dy _
  rw [Finset.sum_mul]
  apply Finset.sum_congr rfl
  intro dx _
  split <;> simp

theorem maskSum_one_le (m : Nat → Nat → Bool) : maskSum m (fun _ _ => 1) ≤ 64 := by
  have := maskSum_le m (fun _ _ => 1) 1 (fun _ _ _ _ => le_refl _)
  omega

theorem subU64_of_le (a b : Nat) (hb : b ≤ a) (ha : a < 2 ^ 64) : subU64 a b = a - b := by
  unfold subU64
  omega

theorem FlatCell.ok {highres : BlockPlanes} {bx by_ : Nat} {r g b : Int}
    (h : FlatCell highres bx by_ r g b) (hr : 0 ≤ r ∧ r ≤ 255) (hg : 0 ≤ g ∧ g ≤ 255)
    (hb : 0 ≤ b ∧ b ≤ 255) : CellOK highres bx by_ := by
  refine ⟨h.1, h.2.1, ?_⟩
  intro c dx dy hdx hdy
  obtain ⟨e1, e2, e3⟩ := h.2.2 dx dy hdx hdy
  cases c
  · show 0 ≤ highres.r.getD _ 0 ∧ highres.r.getD _ 0 ≤ 255
    rw [e1]; exact hr
  · show 0 ≤ highres.g.getD _ 0 ∧ highres.g.getD _ 0 ≤ 255
    rw [e2]; exact hg
  · show 0 ≤ highres.b.getD _ 0 ∧ highres.b.getD _ 0 ≤ 255
    rw [e3]; exact hb

/-- The sums over a mask of a cell of one colour. -/
theorem maskRegion_flat (highres : BlockPlanes) (bx by_ : Nat) (r g b : Int)
    (h : FlatCell highres bx by_ r g b) (m : Nat → Nat → Bool) :
    maskRegion highres bx by_ m =
      flatRegion (maskSum m (fun _ _ => 1)) r.toNat g.toNat b.toNat := by
  have hv : ∀ sq c, maskSum m (cellNat highres sq c bx by_) =
      maskSum m (fun _ _ => if sq then
        (match c with
          | Chan.R => r
          | Chan.G => g
          | Chan.B => b).toNat *
        (match c with
          | Chan.R => r
          | Chan.G => g
          | Chan.B => b).toNat
        else (match c with
          | Chan.R => r
          | Chan.G => g
          | Chan.B => b).toNat) := by
    intro sq c
    apply maskSum_congr _ _ _ _ (fun _ _ _ _ => rfl)
    intro dx dy hdx hdy
    obtain ⟨e1, e2, e3⟩ := h.2.2 dx dy hdx hdy
    unfold cellNat
    cases c
    · show (let v := (highres.r.getD _ 0).toNat; if sq = true then v * v else v) = _
      rw [e1]
    · show (let v := (highres.g.getD _ 0).toNat; if sq = true then v * v else v) = _
      rw [e2]
    · show (let v := (highres.b.getD _ 0).toNat; if sq = true then v * v else v) = _
      rw [e3]
  unfold maskRegion flatRegion
  rw [hv false Chan.R, hv false Chan.G, hv false Chan.B, hv true Chan.R, hv true Chan.G,
    hv true Chan.B]
  simp only [Bool.false_eq_true, if_false, if_true]
  rw [maskSum_const m r.toNat, maskSum_const m g.toNat, maskSum_const m b.toNat,
    maskSum_const m (r.toNat * r.toNat), maskSum_const m (g.toNat * g.toNat),
    maskSum_const m (b.toNat * b.toNat)]

theorem maskSum_true_one : maskSum (fun _ _ => true) (fun _ _ => 1) = 64 := by
  simp [maskSum]

theorem flat_sub (n m k : Nat) (hnm : n + m = 64) (hk : k ≤ 255) :
    subU64 (64 * k) (n * k) = m * k := by
  have e : 64 * k = n * k + m * k := by rw [← Nat.add_mul, hnm]
  have h1 : n * k ≤ 64 * k := by omega
  have h2 : 64 * k < 2 ^ 64 := by omega
  rw [subU64_of_le _ _ h1 h2]
  omega

theorem flat_cnt (n m : Nat) (hnm : n + m = 64) : subU64 64 n = m := by
  rw [subU64_of_le _ _ (by omega) (by norm_num)]
  omega

theorem flat_mean (n k : Nat) (hn : 0 < n) (hk : k ≤ 255) : toInt32 (n * k / n) = (k : Int) := by
  rw [Nat.mul_div_cancel_left _ hn]
  exact toInt32_of_lt k (by omega)

/-- The truncated means of a split of a cell of one colour into `n` and `m` sub-pixels. -/
theorem flat_means (n m kR kG kB : Nat) (hnm : n + m = 64) (hR : kR ≤ 255) (hG : kG ≤ 255)
    (hB : kB ≤ 255) :
    regionMeans (flatRegion 64 kR kG kB) (flatRegion n kR kG kB) =
      { fr := if 0 < n then (kR : Int) else 0
        fgc := if 0 < n then (kG : Int) else 0
        fb := if 0 < n then (kB : Int) else 0
        br := if 0 < m then (kR : Int) else 0
        bgcol := if 0 < m then (kG : Int) else 0
        bb := if 0 < m then (kB : Int) else 0 } := by
  unfold regionMeans flatRegion
  simp only [flat_cnt n m hnm, flat_sub n m _ hnm hR, flat_sub n m _ hnm hG,
    flat_sub n m _ hnm hB, gt_iff_lt]
  by_cases hn : 0 < n <;> by_cases hm : 0 < m <;>
    simp only [hn, hm, if_true, if_false, flat_mean, hR, hG, hB]

theorem flat_colorDiff (n m kR kG kB : Nat) (hnm : n + m = 64) (hR : kR ≤ 255) (hG : kG ≤ 255)
    (hB : kB ≤ 255) :
    colorDiff (regionMeans (flatRegion 64 kR kG kB) (flatRegion n kR kG kB)) =
      if n = 0 ∨ m = 0 then ((kR + kG + kB : Nat) : Int) else 0 := by
  rw [flat_means n m kR kG kB hnm hR hG hB]
  unfold colorDiff
  by_cases hn : 0 < n <;> by_cases hm : 0 < m
  · have h1 : ¬ (n = 0 ∨ m = 0) := by omega
    simp [hn, hm, h1]
  · have h1 : (n = 0 ∨ m = 0) := by omega
    simp only [hn, hm, h1, if_true, if_false, sub_zero]
    rw [abs_of_nonneg (by omega), abs_of_nonneg (by omega), abs_of_nonneg (by omega)]
    push_cast; ring
  · have h1 : (n = 0 ∨ m = 0) := by omega
    simp only [hn, hm, h1, if_true, if_false, zero_sub, abs_neg]
    rw [abs_of_nonneg (by omega), abs_of_nonneg (by omega), abs_of_nonneg (by omega)]
    push_cast; ring
  · omega

theorem flat_bounds (n k : Nat) (hn : n ≤ 64) (hk : k ≤ 255) :
    n * k < 2 ^ 53 ∧ n * k * (n * k) < 2 ^ 53 ∧ n * (k * k) < 2 ^ 53 := by
  have h1 : n * k ≤ 64 * 255 := Nat.mul_le_mul hn hk
  have h2 : n * k * (n * k) ≤ 64 * 255 * (64 * 255) := Nat.mul_le_mul h1 h1
  have h3 : n * (k * k) ≤ 64 * (255 * 255) := Nat.mul_le_mul hn (Nat.mul_le_mul hk hk)
  refine ⟨?_, ?_, ?_⟩ <;> omega

/-- The rounded term `s * s / n` of a region of `n` sub-pixels of value `k` is exact. -/
theorem termD_flat (n k : Nat) (hn : 0 < n) (hn64 : n ≤ 64) (hk : k ≤ 255) :
    fl (fl (toD (n * k) * toD (n * k)) / toD n) = ((n * (k * k) : Nat) : ℚ) := by
  obtain ⟨b1, b2, b3⟩ := flat_bounds n k hn64 hk
  have hn' : (n : ℚ) ≠ 0 := by exact_mod_cast (Nat.pos_iff_ne_zero.mp hn)
  rw [toD_eq (n * k) b1, toD_eq n (by omega),
    fl_eq_nat (((n * k : Nat) : ℚ) * ((n * k : Nat) : ℚ)) (n * k * (n * k))
      (by push_cast; ring) b2]
  refine fl_eq_nat _ (n * (k * k)) ?_ b3
  push_cast
  field_simp
  ring

theorem chanErrD_flat (n m k : Nat) (hnm : n + m = 64) (hk : k ≤ 255) :
    chanErrD (64 * (k * k)) (64 * k) (n * k) n m = 0 := by
  unfold chanErrD
  rw [flat_sub n m k hnm hk]
  have h64 : ((n : ℚ) + (m : ℚ)) = 64 := by exact_mod_cast hnm
  obtain ⟨_, _, b3⟩ := flat_bounds 64 k (le_refl _) hk
  by_cases hn : n > 0
  · by_cases hm : m > 0
    · simp only [hn, hm, if_true]
      rw [termD_flat n k hn (by omega) hk, termD_flat m k hm (by omega) hk, toD_eq _ b3,
        fl_eq_nat (((64 * (k * k) : Nat) : ℚ) - ((n * (k * k) : Nat) : ℚ)) (m * (k * k))
          (by push_cast; linear_combination (k : ℚ) * k * h64.symm)
          (flat_bounds m k (by omega) hk).2.2, sub_self, fl_zero]
    · have hm0 : m = 0 := by omega
      subst hm0
      have hn64 : n = 64 := by omega
      subst hn64
      simp only [hn, hm, if_true, if_false]
      rw [termD_flat 64 k hn (le_refl _) hk, toD_eq _ b3, sub_self, fl_zero, sub_zero, fl_zero]
  · have hn0 : n = 0 := by omega
    subst hn0
    have hm64 : m = 64 := by omega
    subst hm64
    have e : mulU64 (64 * k) (64 * k) = 64 * k * (64 * k) := by
      unfold mulU64
      apply Nat.mod_eq_of_lt
      have : 64 * k * (64 * k) ≤ 64 * 255 * (64 * 255) :=
        Nat.mul_le_mul (by omega) (by omega)
      omega
    have hpos : (64 : Nat) > 0 := by omega
    simp only [hn, hpos, if_false, if_true, e]
    obtain ⟨_, b2, _⟩ := flat_bounds 64 k (le_refl _) hk
    rw [toD_eq _ b3, toD_eq _ b2, toD_eq 64 (by norm_num),
      fl_eq_nat (((64 * k * (64 * k) : Nat) : ℚ) / ((64 : Nat) : ℚ)) (64 * (k * k))
        (by push_cast; field_simp; ring) b3, sub_self, fl_zero]

/-- Every split of a cell of one colour has the computed error zero. -/
theorem glyphErrD_flat (n m kR kG kB : Nat) (hnm : n + m = 64) (hR : kR ≤ 255) (hG : kG ≤ 255)
    (hB : kB ≤ 255) :
    glyphErrD (flatRegion 64 kR kG kB) (flatRegion n kR kG kB) = 0 := by
  unfold glyphErrD flatRegion
  simp only [flat_cnt n m hnm]
  rw [chanErrD_flat n m kR hnm hR, chanErrD_flat n m kG hnm hG, chanErrD_flat n m kB hnm hB]
  simp only [add_zero, fl_zero]

theorem chanErr_flat (n m k : Nat) (hnm : n + m = 64) (hk : k ≤ 255) :
    chanErr (64 * (k * k)) (64 * k) (n * k) n m = 0 := by
  unfold chanErr
  rw [flat_sub n m k hnm hk]
  have h64 : ((n : ℚ) + (m : ℚ)) = 64 := by exact_mod_cast hnm
  by_cases hn : n > 0
  · have hn' : (n : ℚ) ≠ 0 := by exact_mod_cast (Nat.pos_iff_ne_zero.mp hn)
    by_cases hm : m > 0
    · have hm' : (m : ℚ) ≠ 0 := by exact_mod_cast (Nat.pos_iff_ne_zero.mp hm)
      simp only [hn, hm, if_true]
      push_cast
      field_simp
      have : (64 : ℚ) = n + m := h64.symm
      rw [this]
      ring
    · have hm0 : m = 0 := by omega
      subst hm0
      have hn64 : n = 64 := by omega
      subst hn64
      simp only [hn, hm, if_true, if_false]
      push_cast
      ring
  · have hn0 : n = 0 := by omega
    subst hn0
    have hm64 : m = 64 := by omega
    subst hm64
    have e : mulU64 (64 * k) (64 * k) = 64 * k * (64 * k) := by
      unfold mulU64
      apply Nat.mod_eq_of_lt
      have : 64 * k * (64 * k) ≤ 64 * 255 * (64 * 255) :=
        Nat.mul_le_mul (by omega) (by omega)
      omega
    simp only [hn, if_false, e]
    norm_num
    ring

/-- Every split of a cell of one colour has error zero. -/
theorem glyphErr_flat (n m kR kG kB : Nat) (hnm : n + m = 64) (hR : kR ≤ 255) (hG : kG ≤ 255)
    (hB : kB ≤ 255) :
    glyphErr (flatRegion 64 kR kG kB) (flatRegion n kR kG kB) = 0 := by
  unfold glyphErr flatRegion
  simp only [flat_cnt n m hnm]
  rw [chanErr_flat n m kR hnm hR, chanErr_flat n m kG hnm hG, chanErr_flat n m kB hnm hB]
  norm_num

theorem glyphs_level_le : ∀ gd ∈ glyphs, gd.level ≤ 8 := by decide

theorem foldl_fst_const {σ τ β : Type} (f : σ × τ → β → σ × τ) (l : List β) (P : σ → Prop)
    (h : ∀ st b, b ∈ l → P st.1 → (f st b).1 = st.1) :
    ∀ st, P st.1 → (l.foldl f st).1 = st.1 := by
  induction l with
  | nil => intro st _; rfl
  | cons a l ih =>
    intro st hP
    simp only [List.foldl_cons]
    have h1 := h st a (List.mem_cons_self _ _) hP
    rw [ih (fun st b hb => h st b (List.mem_cons_of_mem _ hb)) _ (by rw [h1]; exact hP), h1]

/-- The totals and the foreground sums of a glyph in a cell of one colour. -/
theorem flat_regions (highres : BlockPlanes) (bx by_ : Nat) (r g b : Int)
    (hr : 0 ≤ r ∧ r ≤ 255) (hg : 0 ≤ g ∧ g ≤ 255) (hb : 0 ≤ b ∧ b ≤ 255)
    (h : FlatCell highres bx by_ r g b) (gd : GDesc) (hl : gd.level ≤ 8) :
    cellTotals (buildIntegrals highres) highres.width.toNat bx by_ =
      flatRegion 64 r.toNat g.toNat b.toNat ∧
    fgRegion (buildIntegrals highres) highres.width.toNat bx by_
      (cellTotals (buildIntegrals highres) highres.width.toNat bx by_) gd =
      flatRegion (maskSum gd.mask (fun _ _ => 1)) r.toNat g.toNat b.toNat := by
  have hok := h.ok hr hg hb
  constructor
  · rw [cellTotals_eq highres bx by_ hok, maskRegion_flat highres bx by_ r g b h,
      maskSum_true_one]
  · rw [fgRegion_eq highres bx by_ hok gd hl, maskRegion_flat highres bx by_ r g b h]

/-- In a cell of one colour a candidate never replaces a best candidate of error zero. -/
theorem flat_step_keep (highres : BlockPlanes) (bx by_ : Nat) (thr : Int) (r g b : Int)
    (hr : 0 ≤ r ∧ r ≤ 255) (hg : 0 ≤ g ∧ g ≤ 255) (hb : 0 ≤ b ∧ b ≤ 255)
    (h : FlatCell highres bx by_ r g b) (gd : GDesc) (hl : gd.level ≤ 8)
    (st : Best × PruneStats) (h0 : st.1.best_err ≤ 0) :
    (glyphStep (buildIntegrals highres) highres.width.toNat thr bx by_ st gd).1 = st.1 := by
  obtain ⟨e1, e2⟩ := flat_regions highres bx by_ r g b hr hg hb h gd hl
  unfold glyphStep
  simp only [e2]
  simp only [e1]
  split
  · rfl
  · simp only [Best.update]
    have hn := maskSum_one_le gd.mask
    rw [glyphErrD_flat (maskSum gd.mask (fun _ _ => 1)) (64 - maskSum gd.mask (fun _ _ => 1))
      r.toNat g.toNat b.toNat (by omega) (by omega) (by omega) (by omega)]
    rw [if_neg (not_lt.mpr h0)]

/-- In a cell of one colour whose channel sum is below the threshold every candidate is
pruned. -/
theorem flat_step_pruned (highres : BlockPlanes) (bx by_ : Nat) (thr : Int) (r g b : Int)
    (hr : 0 ≤ r ∧ r ≤ 255) (hg : 0 ≤ g ∧ g ≤ 255) (hb : 0 ≤ b ∧ b ≤ 255)
    (h : FlatCell highres bx by_ r g b) (hthr : r + g + b < thr) (gd : GDesc)
    (hl : gd.level ≤ 8) (st : Best × PruneStats) :
    (glyphStep (buildIntegrals highres) highres.width.toNat thr bx by_ st gd).1 = st.1 := by
  obtain ⟨e1, e2⟩ := flat_regions highres bx by_ r g b hr hg hb h gd hl
  unfold glyphStep
  simp only [e2]
  simp only [e1]
  have hn := maskSum_one_le gd.mask
  rw [flat_colorDiff (maskSum gd.mask (fun _ _ => 1)) (64 - maskSum gd.mask (fun _ _ => 1))
    r.toNat g.toNat b.toNat (by omega) (by omega) (by omega) (by omega)]
  have hlt : (if maskSum gd.mask (fun _ _ => 1) = 0 ∨ 64 - maskSum gd.mask (fun _ _ => 1) = 0
      then ((r.toNat + g.toNat + b.toNat : Nat) : Int) else 0) < thr := by
    split
    · push_cast; omega
    · omega
  rw [if_pos hlt]

/-- The search of a cell of one colour. -/
theorem flat_cell_search (highres : BlockPlanes) (bx by_ : Nat) (thr : Int) (r g b : Int)
    (hr : 0 ≤ r ∧ r ≤ 255) (hg : 0 ≤ g ∧ g ≤ 255) (hb : 0 ≤ b ∧ b ≤ 255)
    (h : FlatCell highres bx by_ r g b) (stats : PruneStats) :
    (thr ≤ r + g + b →
      (cellSearch (buildIntegrals highres) highres.width.toNat thr bx by_ stats).1 =
        ⟨0, 0x2588, r, g, b, 0, 0, 0⟩) ∧
    (r + g + b < thr →
      (cellSearch (buildIntegrals highres) highres.width.toNat thr bx by_ stats).1 =
        Best.init) := by
  constructor
  · intro hthr
    unfold cellSearch
    have hg0 : glyphs = (⟨0x2588, GType.F, 0, 0⟩ : GDesc) :: glyphs.tail := by decide
    rw [hg0, List.foldl_cons]
    have hfull : (glyphStep (buildIntegrals highres) highres.width.toNat thr bx by_
        (Best.init, stats) ⟨0x2588, GType.F, 0, 0⟩).1 = ⟨0, 0x2588, r, g, b, 0, 0, 0⟩ := by
      obtain ⟨e1, e2⟩ := flat_regions highres bx by_ r g b hr hg hb h
        ⟨0x2588, GType.F, 0, 0⟩ (by decide)
      have hm : maskSum (GDesc.mask ⟨0x2588, GType.F, 0, 0⟩) (fun _ _ => 1) = 64 :=
        maskSum_true_one
      rw [hm] at e2
      unfold glyphStep
      simp only [e2]
      simp only [e1]
      rw [flat_colorDiff 64 0 r.toNat g.toNat b.toNat (by omega) (by omega) (by omega)
        (by omega)]
      have hge : ¬ ((if (64 : Nat) = 0 ∨ (0 : Nat) = 0
          then ((r.toNat + g.toNat + b.toNat : Nat) : Int) else 0) < thr) := by
        simp only [or_true, if_true]
        push_cast; omega
      rw [if_neg hge]
      simp only [Best.update]
      rw [glyphErrD_flat 64 0 r.toNat g.toNat b.toNat (by omega) (by omega) (by omega)
        (by omega)]
      have hlt : (0 : ℚ) < Best.init.best_err :=
        lt_of_lt_of_le (by norm_num) init_err_large
      rw [if_pos hlt, flat_means 64 0 r.toNat g.toNat b.toNat (by omega) (by omega) (by omega)
        (by omega)]
      simp only [flatRegion, flat_cnt 64 0 (by omega)]
      have e3 : ((r.toNat : Nat) : Int) = r := by omega
      have e4 : ((g.toNat : Nat) : Int) = g := by omega
      have e5 : ((b.toNat : Nat) : Int) = b := by omega
      simp [e3, e4, e5, Best.init]
    have hkeep := foldl_fst_const
      (glyphStep (buildIntegrals highres) highres.width.toNat thr bx by_) glyphs.tail
      (fun best : Best => best.best_err ≤ 0)
      (fun st gd hgd h0 => flat_step_keep highres bx by_ thr r g b hr hg hb h gd
        (glyphs_level_le gd (List.mem_of_mem_tail hgd)) st h0)
      (glyphStep (buildIntegrals highres) highres.width.toNat thr bx by_
        (Best.init, stats) ⟨0x2588, GType.F, 0, 0⟩)
      (by rw [hfull])
    rw [hkeep, hfull]
  · intro hthr
    unfold cellSearch
    exact foldl_fst_const
      (glyphStep (buildIntegrals highres) highres.width.toNat thr bx by_) glyphs
      (fun _ => True)
      (fun st gd hgd _ => flat_step_pruned highres bx by_ thr r g b hr hg hb h hthr gd
        (glyphs_level_le gd hgd) st)
      (Best.init, stats) trivial

/-! ## The error of a candidate is the exact sum of squared errors -/

/-- A mask that selects no sub-pixel of the cell is false on the whole cell. -/
theorem mask_empty (m : Nat → Nat → Bool) (h : maskSum m (fun _ _ => 1) = 0) :
    ∀ dx dy, dx < 8 → dy < 8 → m dx dy = false := by
  intro dx dy hdx hdy
  unfold maskSum at h
  rw [Finset.sum_eq_zero_iff] at h
  have h1 := h dy (Finset.mem_range.mpr hdy)
  rw [Finset.sum_eq_zero_iff] at h1
  have h2 := h1 dx (Finset.mem_range.mpr hdx)
  by_contra hc
  have : m dx dy = true := by
    cases hm : m dx dy
    · exact absurd hm hc
    · rfl
  simp [this] at h2

theorem maskSum_compl (m : Nat → Nat → Bool) (g : Nat → Nat → Nat) :
    maskSum (fun _ _ => true) g = maskSum m g + maskSum (fun dx dy => !m dx dy) g := by
  unfold maskSum
  rw [← Finset.sum_add_distrib]
  apply Finset.sum_congr rfl
  intro dy _
  rw [← Finset.sum_add_distrib]
  apply Finset.sum_congr rfl
  intro dx _
  cases hm : m dx dy <;> simp [hm]

theorem maskSum_empty (m : Nat → Nat → Bool) (g : Nat → Nat → Nat)
    (h : maskSum m (fun _ _ => 1) = 0) : maskSum m g = 0 := by
  have hm := mask_empty m h
  unfold maskSum
  apply Finset.sum_eq_zero
  intro dy hdy
  apply Finset.sum_eq_zero
  intro dx hdx
  rw [Finset.mem_range] at hdx hdy
  rw [hm dx dy hdx hdy]
  simp

theorem cellNat_cast (highres : BlockPlanes) (bx by_ : Nat) (hok : CellOK highres bx by_)
    (c : Chan) (dx dy : Nat) (hdx : dx < 8) (hdy : dy < 8) :
    ((cellNat highres false c bx by_ dx dy : Nat) : ℚ) = cellQ highres c bx by_ dx dy ∧
    ((cellNat highres true c bx by_ dx dy : Nat) : ℚ) =
      cellQ highres c bx by_ dx dy * cellQ highres c bx by_ dx dy ∧
    cellNat highres false c bx by_ dx dy ≤ 255 := by
  obtain ⟨h0, h255⟩ := hok.2.2 c dx dy hdx hdy
  unfold cellNat cellQ
  simp only [Bool.false_eq_true, if_false, if_true]
  generalize (highres.get c).getD ((by_ * 8 + dy) * highres.width.toNat + (bx * 8 + dx)) 0 = v
    at h0 h255
  obtain ⟨n, rfl⟩ : ∃ n : Nat, v = (n : Int) := ⟨v.toNat, by omega⟩
  simp only [Int.toNat_ofNat]
  refine ⟨by simp, by push_cast; ring, by omega⟩

theorem chanErr_le (total2 total fg fgCnt bgCnt : Nat) :
    chanErr total2 total fg fgCnt bgCnt ≤ (total2 : ℚ) := by
  unfold chanErr
  have h1 : (0 : ℚ) ≤ (fg : ℚ) * (fg : ℚ) / (fgCnt : ℚ) :=
    div_nonneg (mul_self_nonneg _) (Nat.cast_nonneg _)
  have h2 : (0 : ℚ) ≤ ((subU64 total fg : Nat) : ℚ) * ((subU64 total fg : Nat) : ℚ) /
      (bgCnt : ℚ) := div_nonneg (mul_self_nonneg _) (Nat.cast_nonneg _)
  have h3 : (0 : ℚ) ≤ ((mulU64 total total : Nat) : ℚ) / (bgCnt : ℚ) :=
    div_nonneg (Nat.cast_nonneg _) (Nat.cast_nonneg _)
  split
  · simp only
    split <;> linarith
  · split <;> linarith

/-! ## The rounding error of a candidate -/

/-- The rounded term `s * s / n` is within `2^-20` of the exact one. -/
theorem termD_near (s n : Nat) (hs : s ≤ 16320) (hn : 0 < n) (hn64 : n ≤ 64) :
    |fl (fl (toD s * toD s) / toD n) - (s : ℚ) * (s : ℚ) / (n : ℚ)| ≤ 1 / 2 ^ 20 ∧
    0 ≤ (s : ℚ) * (s : ℚ) / (n : ℚ) ∧ (s : ℚ) * (s : ℚ) / (n : ℚ) ≤ 2 ^ 29 := by
  have hss : s * s ≤ 16320 * 16320 := Nat.mul_le_mul hs hs
  have hq : ((s : ℚ) * (s : ℚ)) ≤ 266342400 := by exact_mod_cast hss
  have hn1 : (1 : ℚ) ≤ (n : ℚ) := by exact_mod_cast hn
  have hsq : (0 : ℚ) ≤ (s : ℚ) * (s : ℚ) := mul_self_nonneg _
  have h0 : 0 ≤ (s : ℚ) * (s : ℚ) / (n : ℚ) := div_nonneg hsq (by linarith)
  have h1 : (s : ℚ) * (s : ℚ) / (n : ℚ) ≤ 2 ^ 29 := by
    rw [div_le_iff₀ (by linarith)]
    have h2 : (2 : ℚ) ^ 29 * 1 ≤ 2 ^ 29 * (n : ℚ) :=
      mul_le_mul_of_nonneg_left hn1 (by norm_num)
    have h3 : (266342400 : ℚ) ≤ 2 ^ 29 * 1 := by norm_num
    linarith
  rw [toD_eq s (by omega), toD_eq n (by omega),
    fl_eq_nat ((s : ℚ) * (s : ℚ)) (s * s) (by push_cast; ring) (by omega)]
  refine ⟨?_, h0, h1⟩
  have h4 := fl_step (((s * s : Nat) : ℚ) / (n : ℚ)) ((s : ℚ) * (s : ℚ) / (n : ℚ)) 0
    (by push_cast; simp)
    (by rw [abs_of_nonneg h0]; refine le_trans h1 ?_; norm_num) (by norm_num)
  rw [zero_add] at h4
  exact h4

/-- The computed contribution of a channel is within `4 * 2^-20` of the exact one. -/
theorem chanErrD_near (T2 T F n nb : Nat) (hT2 : T2 ≤ 4161600) (hT : T ≤ 16320) (hF : F ≤ T)
    (hn : n ≤ 64) (hnb : nb ≤ 64) :
    |chanErrD T2 T F n nb - chanErr T2 T F n nb| ≤ 4 / 2 ^ 20 ∧
    |chanErr T2 T F n nb| ≤ 2 ^ 30 := by
  unfold chanErrD chanErr
  have hsub : subU64 T F = T - F := subU64_of_le T F hF (by omega)
  have hmul : mulU64 T T = T * T := by
    unfold mulU64
    apply Nat.mod_eq_of_lt
    have := Nat.mul_le_mul hT hT
    omega
  have hT2q : (T2 : ℚ) ≤ 4161600 := by exact_mod_cast hT2
  have hT2n : (0 : ℚ) ≤ (T2 : ℚ) := Nat.cast_nonneg _
  rw [hsub, hmul, toD_eq T2 (by omega)]
  by_cases h1 : n > 0
  · obtain ⟨f1, f2, f3⟩ := termD_near F n (by omega) h1 hn
    by_cases h2 : nb > 0
    · obtain ⟨g1, g2, g3⟩ := termD_near (T - F) nb (by omega) h2 hnb
      simp only [h1, h2, if_true]
      generalize fl (fl (toD F * toD F) / toD n) = tfh at f1 ⊢
      generalize (F : ℚ) * (F : ℚ) / (n : ℚ) = tf at f1 f2 f3 ⊢
      generalize fl (fl (toD (T - F) * toD (T - F)) / toD nb) = tbh at g1 ⊢
      generalize ((T - F : Nat) : ℚ) * ((T - F : Nat) : ℚ) / (nb : ℚ) = tb at g1 g2 g3 ⊢
      have e29 : (2 : ℚ) ^ 29 = 536870912 := by norm_num
      have e30 : (2 : ℚ) ^ 30 = 1073741824 := by norm_num
      have e32 : (2 : ℚ) ^ 32 = 4294967296 := by norm_num
      rw [e29] at f3 g3
      have s1 := fl_step ((T2 : ℚ) - tfh) ((T2 : ℚ) - tf) (1 / 2 ^ 20)
        (by rw [abs_le] at f1 ⊢; constructor <;> linarith [f1.1, f1.2])
        (by rw [abs_le, e32]; constructor <;> linarith) (by norm_num)
      generalize fl ((T2 : ℚ) - tfh) = a at s1 ⊢
      have s2 := fl_step (a - tbh) ((T2 : ℚ) - tf - tb) (3 / 2 ^ 20)
        (by rw [abs_le] at g1 s1 ⊢; constructor <;> linarith [g1.1, g1.2, s1.1, s1.2])
        (by rw [abs_le, e32]; constructor <;> linarith) (by norm_num)
      refine ⟨le_trans s2 (by norm_num), ?_⟩
      rw [abs_le, e30]; constructor <;> linarith
    · simp only [h1, h2, if_true, if_false]
      generalize fl (fl (toD F * toD F) / toD n) = tfh at f1 ⊢
      generalize (F : ℚ) * (F : ℚ) / (n : ℚ) = tf at f1 f2 f3 ⊢
      have e29 : (2 : ℚ) ^ 29 = 536870912 := by norm_num
      have e30 : (2 : ℚ) ^ 30 = 1073741824 := by norm_num
      have e32 : (2 : ℚ) ^ 32 = 4294967296 := by norm_num
      rw [e29] at f3
      have s1 := fl_step ((T2 : ℚ) - tfh) ((T2 : ℚ) - tf) (1 / 2 ^ 20)
        (by rw [abs_le] at f1 ⊢; constructor <;> linarith [f1.1, f1.2])
        (by rw [abs_le, e32]; constructor <;> linarith) (by norm_num)
      generalize fl ((T2 : ℚ) - tfh) = a at s1 ⊢
      have s2 := fl_step (a - 0) ((T2 : ℚ) - tf - 0) (2 / 2 ^ 20)
        (by rw [abs_le] at s1 ⊢; constructor <;> linarith [s1.1, s1.2])
        (by rw [abs_le, e32]; constructor <;> linarith) (by norm_num)
      refine ⟨le_trans s2 (by norm_num), ?_⟩
      rw [abs_le, e30]; constructor <;> linarith
  · by_cases h2 : nb > 0
    · simp only [h1, h2, if_true, if_false]
      have hTT : T * T ≤ 16320 * 16320 := Nat.mul_le_mul hT hT
      have hq : ((T * T : Nat) : ℚ) ≤ 266342400 := by exact_mod_cast hTT
      have hq0 : (0 : ℚ) ≤ ((T * T : Nat) : ℚ) := Nat.cast_nonneg _
      have hn1 : (1 : ℚ) ≤ (nb : ℚ) := by exact_mod_cast h2
      have h0 : 0 ≤ ((T * T : Nat) : ℚ) / (nb : ℚ) := div_nonneg hq0 (by linarith)
      have h3 : ((T * T : Nat) : ℚ) / (nb : ℚ) ≤ 2 ^ 29 := by
        rw [div_le_iff₀ (by linarith)]
        have h4 : (2 : ℚ) ^ 29 * 1 ≤ 2 ^ 29 * (nb : ℚ) :=
          mul_le_mul_of_nonneg_left hn1 (by norm_num)
        have h5 : (266342400 : ℚ) ≤ 2 ^ 29 * 1 := by norm_num
        linarith
      rw [toD_eq (T * T) (by omega), toD_eq nb (by omega)]
      have s0 := fl_step (((T * T : Nat) : ℚ) / (nb : ℚ)) (((T * T : Nat) : ℚ) / (nb : ℚ)) 0
        (by simp) (by rw [abs_of_nonneg h0]; refine le_trans h3 ?_; norm_num) (by norm_num)
      generalize fl (((T * T : Nat) : ℚ) / (nb : ℚ)) = th at s0 ⊢
      generalize ((T * T : Nat) : ℚ) / (nb : ℚ) = t at s0 h0 h3 ⊢
      have e29 : (2 : ℚ) ^ 29 = 536870912 := by norm_num
      have e30 : (2 : ℚ) ^ 30 = 1073741824 := by norm_num
      have e32 : (2 : ℚ) ^ 32 = 4294967296 := by norm_num
      rw [e29] at h3
      have s1 := fl_step ((T2 : ℚ) - th) ((T2 : ℚ) - t) (1 / 2 ^ 20)
        (by rw [abs_le] at s0 ⊢; constructor <;> linarith [s0.1, s0.2])
        (by rw [abs_le, e32]; constructor <;> linarith) (by norm_num)
      rw [zero_add] at s0
      refine ⟨le_trans s1 (by norm_num), ?_⟩
      rw [abs_le, e30]; constructor <;> linarith
    · simp only [h1, h2, if_false]
      refine ⟨by rw [sub_self, abs_zero]; norm_num, ?_⟩
      rw [abs_of_nonneg hT2n]
      refine le_trans hT2q ?_
      norm_num

/-- The three rounded additions of the channel contributions. -/
theorem sumD_near (a b c a' b' c' : ℚ) (ha : |a - a'| ≤ 4 / 2 ^ 20) (hb : |b - b'| ≤ 4 / 2 ^ 20)
    (hc : |c - c'| ≤ 4 / 2 ^ 20) (ha' : |a'| ≤ 2 ^ 30) (hb' : |b'| ≤ 2 ^ 30)
    (hc' : |c'| ≤ 2 ^ 30) :
    |fl (fl (fl (0 + a) + b) + c) - (0 + a' + b' + c')| ≤ 15 / 2 ^ 20 := by
  have e30 : (2 : ℚ) ^ 30 = 1073741824 := by norm_num
  have e32 : (2 : ℚ) ^ 32 = 4294967296 := by norm_num
  rw [abs_le, e30] at ha' hb' hc'
  have s1 := fl_step (0 + a) (0 + a') (4 / 2 ^ 20)
    (by rw [abs_le] at ha ⊢; constructor <;> linarith [ha.1, ha.2])
    (by rw [abs_le, e32]; constructor <;> linarith [ha'.1, ha'.2])
    (by norm_num)
  generalize fl (0 + a) = x at s1 ⊢
  have s2 := fl_step (x + b) (0 + a' + b') (9 / 2 ^ 20)
    (by rw [abs_le] at hb s1 ⊢; constructor <;> linarith [hb.1, hb.2, s1.1, s1.2])
    (by rw [abs_le, e32]; constructor <;> linarith [ha'.1, ha'.2, hb'.1, hb'.2])
    (by norm_num)
  generalize fl (x + b) = y at s2 ⊢
  have s3 := fl_step (y + c) (0 + a' + b' + c') (14 / 2 ^ 20)
    (by rw [abs_le] at hc s2 ⊢; constructor <;> linarith [hc.1, hc.2, s2.1, s2.2])
    (by rw [abs_le, e32]; constructor <;>
      linarith [ha'.1, ha'.2, hb'.1, hb'.2, hc'.1, hc'.2])
    (by norm_num)
  exact le_trans s3 (by norm_num)

/-! ## The search without pruning -/

theorem colorDiff_nonneg (m : Means) : 0 ≤ colorDiff m := by
  unfold colorDiff
  have h1 := abs_nonneg (m.fr - m.br)
  have h2 := abs_nonneg (m.fgc - m.bgcol)
  have h3 := abs_nonneg (m.fb - m.bb)
  omega

theorem cellOK_of_values (highres : BlockPlanes) (out_w out_h bx by_ : Nat)
    (hw : ((out_w * 8 : Nat) : Int) ≤ highres.width)
    (hh : ((out_h * 8 : Nat) : Int) ≤ highres.height)
    (hvals : ∀ c, ∀ v ∈ highres.get c, 0 ≤ v ∧ v ≤ 255) (hbx : bx < out_w) (hby : by_ < out_h) :
    CellOK highres bx by_ := by
  refine ⟨by omega, by omega, ?_⟩
  intro c dx dy _ _
  rw [List.getD_eq_getElem?_getD]
  cases h : (highres.get c)[(by_ * 8 + dy) * highres.width.toNat + (bx * 8 + dx)]? with
  | none => simp
  | some v => exact hvals c v (List.getElem?_mem h)

/-! ## The computed error against the exact error -/

/-- The sums of a cell with values in `[0, 255]`, over a mask and over the whole cell. -/
theorem region_bounds (highres : BlockPlanes) (bx by_ : Nat) (hok : CellOK highres bx by_)
    (m : Nat → Nat → Bool) (c : Chan) :
    maskSum (fun _ _ => true) (cellNat highres true c bx by_) ≤ 4161600 ∧
    maskSum (fun _ _ => true) (cellNat highres false c bx by_) ≤ 16320 ∧
    maskSum m (cellNat highres false c bx by_) ≤
      maskSum (fun _ _ => true) (cellNat highres false c bx by_) ∧
    maskSum m (fun _ _ => 1) ≤ 64 ∧ subU64 64 (maskSum m (fun _ _ => 1)) ≤ 64 := by
  have h1 := maskSum_le (fun _ _ => true) (cellNat highres true c bx by_) 65025
    (fun dx dy hdx hdy => cellNat_le highres bx by_ hok true c dx dy hdx hdy)
  have h2 := maskSum_le (fun _ _ => true) (cellNat highres false c bx by_) 255
    (fun dx dy hdx hdy => (cellNat_cast highres bx by_ hok c dx dy hdx hdy).2.2)
  have h3 := maskSum_compl m (cellNat highres false c bx by_)
  have h4 := maskSum_one_le m
  have h5 : subU64 64 (maskSum m (fun _ _ => 1)) ≤ 64 := by
    rw [subU64_of_le _ _ h4 (by norm_num)]
    omega
  refine ⟨by omega, by omega, by omega, h4, h5⟩

/-- The error that `render_high` computes in `double` is within `15 * 2^-20` of the exact
error. -/
theorem errOfD_near (highres : BlockPlanes) (bx by_ : Nat) (hok : CellOK highres bx by_)
    (gd : GDesc) (hl : gd.level ≤ 8) :
    |errOfD highres bx by_ gd - errOf highres bx by_ gd| ≤ 15 / 2 ^ 20 := by
  unfold errOfD errOf
  simp only
  rw [fgRegion_eq highres bx by_ hok gd hl, cellTotals_eq highres bx by_ hok]
  unfold glyphErrD glyphErr maskRegion
  simp only [maskSum_true_one]
  have h := fun c =>
    chanErrD_near (maskSum (fun _ _ => true) (cellNat highres true c bx by_))
      (maskSum (fun _ _ => true) (cellNat highres false c bx by_))
      (maskSum gd.mask (cellNat highres false c bx by_))
      (maskSum gd.mask (fun _ _ => 1)) (subU64 64 (maskSum gd.mask (fun _ _ => 1)))
      (region_bounds highres bx by_ hok gd.mask c).1
      (region_bounds highres bx by_ hok gd.mask c).2.1
      (region_bounds highres bx by_ hok gd.mask c).2.2.1
      (region_bounds highres bx by_ hok gd.mask c).2.2.2.1
      (region_bounds highres bx by_ hok gd.mask c).2.2.2.2
  exact sumD_near _ _ _ _ _ _ (h Chan.R).1 (h Chan.G).1 (h Chan.B).1 (h Chan.R).2 (h Chan.G).2
    (h Chan.B).2

/-- The exact error of a candidate is at most the sum of the squares of the cell. -/
theorem errOf_le (highres : BlockPlanes) (bx by_ : Nat) (hok : CellOK highres bx by_)
    (gd : GDesc) : errOf highres bx by_ gd ≤ 12484800 := by
  unfold errOf
  simp only
  unfold glyphErr
  simp only
  rw [cellTotals_eq highres bx by_ hok]
  have hR := (region_bounds highres bx by_ hok gd.mask Chan.R).1
  have hG := (region_bounds highres bx by_ hok gd.mask Chan.G).1
  have hB := (region_bounds highres bx by_ hok gd.mask Chan.B).1
  have cR := chanErr_le (maskRegion highres bx by_ (fun _ _ => true)).sR2
    (maskRegion highres bx by_ (fun _ _ => true)).sR
    (fgRegion (buildIntegrals highres) highres.width.toNat bx by_
      (maskRegion highres bx by_ (fun _ _ => true)) gd).sR
    (fgRegion (buildIntegrals highres) highres.width.toNat bx by_
      (maskRegion highres bx by_ (fun _ _ => true)) gd).cnt
    (subU64 (maskRegion highres bx by_ (fun _ _ => true)).cnt
      (fgRegion (buildIntegrals highres) highres.width.toNat bx by_
        (maskRegion highres bx by_ (fun _ _ => true)) gd).cnt)
  have cG := chanErr_le (maskRegion highres bx by_ (fun _ _ => true)).sG2
    (maskRegion highres bx by_ (fun _ _ => true)).sG
    (fgRegion (buildIntegrals highres) highres.width.toNat bx by_
      (maskRegion highres bx by_ (fun _ _ => true)) gd).sG
    (fgRegion (buildIntegrals highres) highres.width.toNat bx by_
      (maskRegion highres bx by_ (fun _ _ => true)) gd).cnt
    (subU64 (maskRegion highres bx by_ (fun _ _ => true)).cnt
      (fgRegion (buildIntegrals highres) highres.width.toNat bx by_
        (maskRegion highres bx by_ (fun _ _ => true)) gd).cnt)
  have cB := chanErr_le (maskRegion highres bx by_ (fun _ _ => true)).sB2
    (maskRegion highres bx by_ (fun _ _ => true)).sB
    (fgRegion (buildIntegrals highres) highres.width.toNat bx by_
      (maskRegion highres bx by_ (fun _ _ => true)) gd).sB
    (fgRegion (buildIntegrals highres) highres.width.toNat bx by_
      (maskRegion highres bx by_ (fun _ _ => true)) gd).cnt
    (subU64 (maskRegion highres bx by_ (fun _ _ => true)).cnt
      (fgRegion (buildIntegrals highres) highres.width.toNat bx by_
        (maskRegion highres bx by_ (fun _ _ => true)) gd).cnt)
  have qR : (((maskRegion highres bx by_ (fun _ _ => true)).sR2 : Nat) : ℚ) ≤ 4161600 := by
    exact_mod_cast hR
  have qG : (((maskRegion highres bx by_ (fun _ _ => true)).sG2 : Nat) : ℚ) ≤ 4161600 := by
    exact_mod_cast hG
  have qB : (((maskRegion highres bx by_ (fun _ _ => true)).sB2 : Nat) : ℚ) ≤ 4161600 := by
    exact_mod_cast hB
  linarith

/-- Every computed error is below the initial `best_err`. -/
theorem errOfD_lt_init (highres : BlockPlanes) (bx by_ : Nat) (hok : CellOK highres bx by_)
    (gd : GDesc) (hl : gd.level ≤ 8) : errOfD highres bx by_ gd < Best.init.best_err := by
  have h1 := errOfD_near highres bx by_ hok gd hl
  have h2 := errOf_le highres bx by_ hok gd
  have h3 := init_err_large
  rw [abs_le] at h1
  have h4 : (15 : ℚ) / 2 ^ 20 ≤ 1 := by norm_num
  linarith [h1.2]

/-! ## Exact errors lie on a grid -/

theorem tiePlanes_values : ∀ c, ∀ v ∈ tiePlanes.get c, 0 ≤ v ∧ v ≤ 255 := by
  intro c
  cases c <;> decide

theorem darkPlanes_values : ∀ c, ∀ v ∈ darkPlanes.get c, 0 ≤ v ∧ v ≤ 255 := by
  intro c v hv
  have : v = 5 := by
    cases c <;> exact List.eq_of_mem_replicate hv
  omega

theorem darkPlanes_flat : FlatCell darkPlanes 0 0 5 5 5 := by
  refine ⟨by decide, by decide, ?_⟩
  intro dx dy hdx hdy
  have hi : (0 * 8 + dy) * darkPlanes.width.toNat + (0 * 8 + dx) < 64 := by
    have : darkPlanes.width.toNat = 8 := rfl
    rw [this]; omega
  have e : (List.replicate 64 (5 : Int)).getD
      ((0 * 8 + dy) * darkPlanes.width.toNat + (0 * 8 + dx)) 0 = 5 := by
    rw [List.getD_eq_getElem?_getD, List.getElem?_replicate, if_pos hi]
    rfl
  exact ⟨e, e, e⟩

/-- C9, as amended: for every `prune_threshold` and every character cell whose 64 sub-pixels
all have one colour `(r, g, b)` in `[0, 255]^3`: if `prune_threshold ≤ r + g + b`,
`render_high` selects the Full glyph (U+2588) with error zero and the foreground colour it
emits is `(r, g, b)`; if `prune_threshold > r + g + b`, every candidate is pruned, the cell
keeps its initial Space glyph (U+0020) with the initial `best_err = 1e308` and the colours it
emits are `(0, 0, 0)`. -/
theorem render_high_flat_cell (highres : BlockPlanes) (bx by_ : Nat) (thr : Int) (r g b : Int)
    (hr : 0 ≤ r ∧ r ≤ 255) (hg : 0 ≤ g ∧ g ≤ 255) (hb : 0 ≤ b ∧ b ≤ 255)
    (h : FlatCell highres bx by_ r g b) :
    (thr ≤ r + g + b →
      render_high_cell highres thr bx by_ = ⟨0, 0x2588, r, g, b, 0, 0, 0⟩) ∧
    (r + g + b < thr →
      render_high_cell highres thr bx by_ = ⟨fl ((10 : ℚ) ^ 308), 0x20, 0, 0, 0, 0, 0, 0⟩) := by
  unfold render_high_cell
  exact flat_cell_search highres bx by_ thr r g b hr hg hb h ⟨0, 0, 0, 0⟩

theorem render_high_flat_cell_witness :
    (((0 : Int) ≤ 5 ∧ (5 : Int) ≤ 255) ∧ FlatCell darkPlanes 0 0 5 5 5) ∧
    (((24 : Int) ≤ 5 + 5 + 5 →
      render_high_cell darkPlanes 24 0 0 = ⟨0, 0x2588, 5, 5, 5, 0, 0, 0⟩) ∧
    ((5 : Int) + 5 + 5 < 24 →
      render_high_cell darkPlanes 24 0 0 = ⟨fl ((10 : ℚ) ^ 308), 0x20, 0, 0, 0, 0, 0, 0⟩)) :=
  ⟨⟨by decide, darkPlanes_flat⟩,
   render_high_flat_cell darkPlanes 0 0 24 5 5 5 (by decide) (by decide) (by decide)
    darkPlanes_flat⟩

/-- C9, counterexample: at the default `prune_threshold = 24` the cell whose 64 sub-pixels
all have the colour `(5, 5, 5)` gets the Space glyph with the background colour `(0, 0, 0)`,
which is not the colour of the cell. -/
theorem render_high_flat_cell_counterexample :
    FlatCell darkPlanes 0 0 5 5 5 ∧
    (render_high_cell darkPlanes 24 0 0).best_cp = 0x20 ∧
    (render_high_cell darkPlanes 24 0 0).best_br = 0 ∧
    (render_high_cell darkPlanes 24 0 0).best_bg = 0 ∧
    (render_high_cell darkPlanes 24 0 0).best_bb = 0 := by
  have h := (flat_cell_search darkPlanes 0 0 24 5 5 5 (by decide) (by decide) (by decide)
    darkPlanes_flat ⟨0, 0, 0, 0⟩).2 (by decide)
  unfold render_high_cell
  rw [h]
  exact ⟨darkPlanes_flat, rfl, rfl, rfl, rfl⟩

/-! ## The glyph table -/

theorem tableEntry_of (gd : GDesc) (hgd : gd ∈ glyphs) (m : Nat → Nat → Bool)
    (huniq : ∀ gd' ∈ glyphs, gd'.type = gd.type → gd'.level = gd.level → gd'.qidx = gd.qidx →
      gd' = gd)
    (hm : ∀ dx dy, dx < 8 → dy < 8 → gd.mask dx dy = m dx dy) :
    TableEntry gd.type gd.level gd.qidx gd.code m := by
  refine ⟨gd, hgd, rfl, rfl, rfl, rfl, huniq, ?_⟩
  intro highres bx by_ hok
  rw [fgRegion_eq highres bx by_ hok gd (glyphs_level_le gd hgd)]
  exact maskRegion_congr highres bx by_ _ _ hm

/-- The Vertical entry of level `N` carries `0x2587 + N` and covers the left `N` columns. -/
theorem vertical_entry (N : Nat) (h1 : 1 ≤ N) (h8 : N ≤ 8) :
    TableEntry GType.V N 0 (0x2587 + N) (fun dx _ => decide (dx < N)) := by
  have h := tableEntry_of ⟨0x2587 + N, GType.V, N, 0⟩
    (by interval_cases N <;> decide) (fun dx _ => decide (dx < N))
    (by interval_cases N <;> decide) (fun dx dy _ _ => rfl)
  exact h

/-- The Horizontal entry of level `N` carries `0x2580 + N` and covers the bottom `N` rows. -/
theorem horizontal_entry (N : Nat) (h1 : 1 ≤ N) (h8 : N ≤ 8) :
    TableEntry GType.H N 0 (0x2580 + N) (fun _ dy => decide (8 - N ≤ dy)) := by
  have h := tableEntry_of ⟨0x2580 + N, GType.H, N, 0⟩
    (by interval_cases N <;> decide) (fun _ dy => decide (8 - N ≤ dy))
    (by interval_cases N <;> decide) (fun dx dy _ _ => rfl)
  exact h

/-- C12 (the code diverges from the claim): for every `N` in `1..8` the only Vertical entry of
level `N` of the glyph table of `render_high` has as foreground the left `N` sub-pixel columns
of the cell (for `N ≤ 7` no other entry of the table has that foreground), and it carries the
code point `0x2587 + N = vert_codes[8 - N]`, that is U+2588, U+2589, ..., U+258F for
`N = 1, 2, ..., 8`, which is never the code point `vert_codes[N - 1]` of the claim
(U+258F, U+258E, ..., U+2588). -/
theorem vertical_glyph_codes (N : Nat) (h1 : 1 ≤ N) (h8 : N ≤ 8) :
    TableEntry GType.V N 0 (0x2587 + N) (fun dx _ => decide (dx < N)) ∧
    (N ≤ 7 → ∀ gd ∈ glyphs, (∀ dx < 8, ∀ dy < 8, gd.mask dx dy = decide (dx < N)) →
      gd.type = GType.V ∧ gd.level = N) ∧
    0x2587 + N = vert_codes.getD (8 - N) 0 ∧
    0x2587 + N ≠ [0x258F, 0x258E, 0x258D, 0x258C, 0x258B, 0x258A, 0x2589, 0x2588].getD (N - 1) 0 := by
  refine ⟨vertical_entry N h1 h8, ?_, ?_, ?_⟩
  · intro h7
    interval_cases N <;> decide
  · interval_cases N <;> decide
  · interval_cases N <;> decide

theorem vertical_glyph_codes_witness :
    (1 ≤ 1 ∧ 1 ≤ 8) ∧
    (TableEntry GType.V 1 0 (0x2587 + 1) (fun dx _ => decide (dx < 1)) ∧
    (1 ≤ 7 → ∀ gd ∈ glyphs, (∀ dx < 8, ∀ dy < 8, gd.mask dx dy = decide (dx < 1)) →
      gd.type = GType.V ∧ gd.level = 1) ∧
    0x2587 + 1 = vert_codes.getD (8 - 1) 0 ∧
    0x2587 + 1 ≠
      [0x258F, 0x258E, 0x258D, 0x258C, 0x258B, 0x258A, 0x2589, 0x2588].getD (1 - 1) 0) :=
  ⟨⟨by decide, by decide⟩, vertical_glyph_codes 1 (by decide) (by decide)⟩

/-- C13: in the glyph table of `render_high` the Full entry (whole cell foreground) has code
point U+2588, the Space entry (no foreground) has U+0020, the four Quadrant entries whose
foreground is the top-left, top-right, bottom-left and bottom-right 4 x 4 quarter have U+2598,
U+259D, U+2596 and U+259E, and for every `N` in `1..8` the Horizontal entry whose foreground
is the bottom `N` sub-pixel rows has code point `U+2580 + N`. -/
theorem block_glyph_codes :
    TableEntry GType.F 0 0 0x2588 (fun _ _ => true) ∧
    TableEntry GType.S 0 0 0x20 (fun _ _ => false) ∧
    TableEntry GType.Q 0 0 0x2598 (fun dx dy => decide (dx < 4 ∧ dy < 4)) ∧
    TableEntry GType.Q 0 1 0x259D (fun dx dy => decide (4 ≤ dx ∧ dy < 4)) ∧
    TableEntry GType.Q 0 2 0x2596 (fun dx dy => decide (dx < 4 ∧ 4 ≤ dy)) ∧
    TableEntry GType.Q 0 3 0x259E (fun dx dy => decide (4 ≤ dx ∧ 4 ≤ dy)) ∧
    ∀ N, 1 ≤ N → N ≤ 8 →
      TableEntry GType.H N 0 (0x2580 + N) (fun _ dy => decide (8 - N ≤ dy)) := by
  refine ⟨?_, ?_, ?_, ?_, ?_, ?_, horizontal_entry⟩
  · exact tableEntry_of ⟨0x2588, GType.F, 0, 0⟩ (by decide) _ (by decide) (fun _ _ _ _ => rfl)
  · exact tableEntry_of ⟨0x20, GType.S, 0, 0⟩ (by decide) _ (by decide) (fun _ _ _ _ => rfl)
  · exact tableEntry_of ⟨0x2598, GType.Q, 0, 0⟩ (by decide) _ (by decide)
      (fun dx dy _ _ => by simp [GDesc.mask])
  · exact tableEntry_of ⟨0x259D, GType.Q, 0, 1⟩ (by decide) _ (by decide)
      (fun dx dy _ _ => by simp [GDesc.mask])
  · exact tableEntry_of ⟨0x2596, GType.Q, 0, 2⟩ (by decide) _ (by decide)
      (fun dx dy _ _ => by simp [GDesc.mask])
  · exact tableEntry_of ⟨0x259E, GType.Q, 0, 3⟩ (by decide) _ (by decide)
      (fun dx dy _ _ => by simp [GDesc.mask])

/-- C14 (the code diverges from the claim): `render_high` visits the 22 candidates of every
cell in the order Full, Space, the four Quadrants (top-left, top-right, bottom-left,
bottom-right), the Horizontals of level `8, 7, ..., 1`, and then the Verticals of level
`1, 2, ..., 8` (code points U+2588, U+2589, ..., U+258F), that is in order of increasing
coverage of the foreground they are scored with, not of decreasing coverage. -/
theorem glyph_visit_order (t : Integrals) (high_w : Nat) (prune_threshold : Int)
    (bx by_ : Nat) (stats : PruneStats) :
    cellSearch t high_w prune_threshold bx by_ stats =
      List.foldl (glyphStep t high_w prune_threshold bx by_) (Best.init, stats)
        [⟨0x2588, GType.F, 0, 0⟩, ⟨0x20, GType.S, 0, 0⟩,
         ⟨0x2598, GType.Q, 0, 0⟩, ⟨0x259D, GType.Q, 0, 1⟩, ⟨0x2596, GType.Q, 0, 2⟩,
         ⟨0x259E, GType.Q, 0, 3⟩,
         ⟨0x2588, GType.H, 8, 0⟩, ⟨0x2587, GType.H, 7, 0⟩, ⟨0x2586, GType.H, 6, 0⟩,
         ⟨0x2585, GType.H, 5, 0⟩, ⟨0x2584, GType.H, 4, 0⟩, ⟨0x2583, GType.H, 3, 0⟩,
         ⟨0x2582, GType.H, 2, 0⟩, ⟨0x2581, GType.H, 1, 0⟩,
         ⟨0x2588, GType.V, 1, 0⟩, ⟨0x2589, GType.V, 2, 0⟩, ⟨0x258A, GType.V, 3, 0⟩,
         ⟨0x258B, GType.V, 4, 0⟩, ⟨0x258C, GType.V, 5, 0⟩, ⟨0x258D, GType.V, 6, 0⟩,
         ⟨0x258E, GType.V, 7, 0⟩, ⟨0x258F, GType.V, 8, 0⟩] ∧
    glyphs.length = 22 ∧
    ((glyphs.filter (fun gd => decide (gd.type = GType.V))).map (fun gd => gd.level) =
      [1, 2, 3, 4, 5, 6, 7, 8]) ∧
    (∀ N, 1 ≤ N → N ≤ 8 →
      TableEntry GType.V N 0 (0x2587 + N) (fun dx _ => decide (dx < N))) := by
  refine ⟨?_, by decide, by decide, vertical_entry⟩
  unfold cellSearch
  have h : glyphs =
      [⟨0x2588, GType.F, 0, 0⟩, ⟨0x20, GType.S, 0, 0⟩,
       ⟨0x2598, GType.Q, 0, 0⟩, ⟨0x259D, GType.Q, 0, 1⟩, ⟨0x2596, GType.Q, 0, 2⟩,
       ⟨0x259E, GType.Q, 0, 3⟩,
       ⟨0x2588, GType.H, 8, 0⟩, ⟨0x2587, GType.H, 7, 0⟩, ⟨0x2586, GType.H, 6, 0⟩,
       ⟨0x2585, GType.H, 5, 0⟩, ⟨0x2584, GType.H, 4, 0⟩, ⟨0x2583, GType.H, 3, 0⟩,
       ⟨0x2582, GType.H, 2, 0⟩, ⟨0x2581, GType.H, 1, 0⟩,
       ⟨0x2588, GType.V, 1, 0⟩, ⟨0x2589, GType.V, 2, 0⟩, ⟨0x258A, GType.V, 3, 0⟩,
       ⟨0x258B, GType.V, 4, 0⟩, ⟨0x258C, GType.V, 5, 0⟩, ⟨0x258D, GType.V, 6, 0⟩,
       ⟨0x258E, GType.V, 7, 0⟩, ⟨0x258F, GType.V, 8, 0⟩] := by decide
  rw [h]

/-! ## The task system -/

theorem foldl_push_length {α β : Type} (x : α) (l : List β) (init : List α) :
    (l.foldl (fun ws _ => ws ++ [x]) init).length = init.length + l.length := by
  induction l generalizing init with
  | nil => simp
  | cons b l ih =>
    simp only [List.foldl_cons]
    rw [ih]
    simp
    omega

theorem new_workers_length (hc : Nat) (threadCount : Int) :
    (TaskSystem.new hc threadCount).workers.length = (resolveThreadCount hc threadCount).toNat := by
  unfold TaskSystem.new
  simp only
  rw [foldl_push_length]
  simp

/-- C18 (the code diverges from the claim): for a requested `threadCount ≥ 1` the constructor
starts exactly `threadCount` workers; for `threadCount ≤ 0` and a reported hardware
parallelism `1 ≤ hc ≤ 2^31` it starts exactly `max(1, hc - 1)` workers; but for
`threadCount ≤ 0` and `hc = 0` (unknown), as for `hc > 2^31`, it starts no worker at all: the
difference `hc - 1` is computed in `unsigned int`, where `0 - 1` wraps to `4294967295`, and
that value converted to `int` is negative. -/
theorem taskSystem_worker_count (hc : Nat) (threadCount : Int) (hhc : hc < 2 ^ 32) :
    (1 ≤ threadCount →
      ((TaskSystem.new hc threadCount).workers.length : Int) = threadCount) ∧
    (threadCount ≤ 0 → 1 ≤ hc → hc ≤ 2 ^ 31 →
      (TaskSystem.new hc threadCount).workers.length = max 1 (hc - 1)) ∧
    (threadCount ≤ 0 → (hc = 0 ∨ 2 ^ 31 < hc) →
      (TaskSystem.new hc threadCount).workers.length = 0) := by
  rw [new_workers_length]
  unfold resolveThreadCount toInt32
  refine ⟨?_, ?_, ?_⟩
  · intro h
    rw [if_neg (by omega)]
    omega
  · intro h h1 h31
    rw [if_pos h]
    have e : (hc % 2 ^ 32 + (2 ^ 32 - 1)) % 2 ^ 32 = hc - 1 := by omega
    rw [e]
    have h2 : max 1 (hc - 1) % 2 ^ 32 = max 1 (hc - 1) := by
      apply Nat.mod_eq_of_lt
      omega
    rw [h2]
    split <;> omega
  · intro h h0
    rw [if_pos h]
    rcases h0 with h0 | h0
    · subst h0
      decide
    · have e : (hc % 2 ^ 32 + (2 ^ 32 - 1)) % 2 ^ 32 = hc - 1 := by omega
      rw [e]
      have h2 : max 1 (hc - 1) % 2 ^ 32 = hc - 1 := by
        rw [Nat.max_eq_right (by omega)]
        apply Nat.mod_eq_of_lt
        omega
      rw [h2]
      split <;> omega

theorem taskSystem_worker_count_witness :
    (0 : Nat) < 2 ^ 32 ∧
    (((1 : Int) ≤ -1 →
      ((TaskSystem.new 0 (-1)).workers.length : Int) = -1) ∧
    ((-1 : Int) ≤ 0 → 1 ≤ 0 → 0 ≤ 2 ^ 31 →
      (TaskSystem.new 0 (-1)).workers.length = max 1 (0 - 1)) ∧
    ((-1 : Int) ≤ 0 → ((0 : Nat) = 0 ∨ 2 ^ 31 < 0) →
      (TaskSystem.new 0 (-1)).workers.length = 0)) :=
  ⟨by decide, taskSystem_worker_count 0 (-1) (by decide)⟩

theorem inFlight_set_running (l : List Worker) (w : Nat) (a : Worker) (task : Task)
    (h : l[w]? = some a) (ha : ∀ t, a ≠ Worker.running t) (s : TaskSystem)
    (hs : s.workers = l) (s' : TaskSystem) (hs' : s'.workers = l.set w (Worker.running task)) :
    s'.inFlight.Perm (task :: s.inFlight) := by
  unfold TaskSystem.inFlight
  rw [hs, hs']
  clear hs hs' s s'
  induction l generalizing w with
  | nil => simp at h
  | cons x xs ih =>
    cases w with
    | zero =>
      simp only [List.getElem?_cons_zero, Option.some.injEq] at h
      subst h
      simp only [List.set_cons_zero, List.filterMap_cons]
      cases x with
      | waiting => exact List.Perm.refl _
      | running t => exact absurd rfl (ha t)
      | exited => exact List.Perm.refl _
    | succ w =>
      simp only [List.getElem?_cons_succ] at h
      simp only [List.set_cons_succ, List.filterMap_cons]
      cases x with
      | waiting => exact ih w h
      | running t =>
        exact ((ih w h).cons t).trans (List.Perm.swap task t _)
      | exited => exact ih w h

theorem inFlight_set_idle (l : List Worker) (w : Nat) (b : Worker) (task : Task)
    (h : l[w]? = some (Worker.running task)) (hb : ∀ t, b ≠ Worker.running t) (s : TaskSystem)
    (hs : s.workers = l) (s' : TaskSystem) (hs' : s'.workers = l.set w b) :
    s.inFlight.Perm (task :: s'.inFlight) := by
  unfold TaskSystem.inFlight
  rw [hs, hs']
  clear hs hs' s s'
  induction l generalizing w with
  | nil => simp at h
  | cons x xs ih =>
    cases w with
    | zero =>
      simp only [List.getElem?_cons_zero, Option.some.injEq] at h
      subst h
      simp only [List.set_cons_zero, List.filterMap_cons]
      cases b with
      | waiting => exact List.Perm.refl _
      | running t => exact absurd rfl (hb t)
      | exited => exact List.Perm.refl _
    | succ w =>
      simp only [List.getElem?_cons_succ] at h
      simp only [List.set_cons_succ, List.filterMap_cons]
      cases x with
      | waiting => exact ih w h
      | running t =>
        exact ((ih w h).cons t).trans (List.Perm.swap task t _)
      | exited => exact ih w h

theorem inFlight_set_same (l : List Worker) (w : Nat) (a b : Worker)
    (h : l[w]? = some a) (ha : ∀ t, a ≠ Worker.running t) (hb : ∀ t, b ≠ Worker.running t)
    (s : TaskSystem) (hs : s.workers = l) (s' : TaskSystem) (hs' : s'.workers = l.set w b) :
    s'.inFlight = s.inFlight := by
  unfold TaskSystem.inFlight
  rw [hs, hs']
  clear hs hs' s s'
  induction l generalizing w with
  | nil => simp at h
  | cons x xs ih =>
    cases w with
    | zero =>
      simp only [List.getElem?_cons_zero, Option.some.injEq] at h
      subst h
      rw [List.set_cons_zero, List.filterMap_cons, List.filterMap_cons]
      cases x with
      | running t => exact absurd rfl (ha t)
      | waiting =>
        cases b with
        | running t => exact absurd rfl (hb t)
        | waiting => rfl
        | exited => rfl
      | exited =>
        cases b with
        | running t => exact absurd rfl (hb t)
        | waiting => rfl
        | exited => rfl
    | succ w =>
      simp only [List.getElem?_cons_succ] at h
      simp only [List.set_cons_succ, List.filterMap_cons]
      rw [ih w h]

theorem inv_new (hc : Nat) (threadCount : Int) : (TaskSystem.new hc threadCount).Inv := by
  have h : ∀ (l : List Nat) (init : List Worker),
      init.filterMap (fun w => match w with
        | Worker.running task => some task
        | _ => none) = [] →
      (l.foldl (fun ws _ => ws ++ [Worker.waiting]) init).filterMap (fun w => match w with
        | Worker.running task => some task
        | _ => none) = [] := by
    intro l
    induction l with
    | nil => intro init h; exact h
    | cons a l ih =>
      intro init h
      simp only [List.foldl_cons]
      apply ih
      rw [List.filterMap_append, h]
      rfl
  have hfl : (TaskSystem.new hc threadCount).inFlight = [] := h _ [] rfl
  unfold TaskSystem.Inv
  rw [hfl]
  exact ⟨List.Perm.refl _, rfl⟩

theorem inv_step (s s' : TaskSystem) (a : Action) (hinv : s.Inv) (h : s.step a = some s') :
    s'.Inv := by
  obtain ⟨hp, hc⟩ := hinv
  cases a with
  | submit task =>
    simp only [TaskSystem.step, Option.some.injEq] at h
    subst h
    refine ⟨?_, hc⟩
    show (s.submitted ++ [task]).Perm (s.completed ++ s.inFlight ++ (s.tasks ++ [task]))
    rw [← List.append_assoc]
    exact List.Perm.append_right _ hp
  | stop =>
    simp only [TaskSystem.step, Option.some.injEq] at h
    subst h
    unfold TaskSystem.setStop
    split
    · exact ⟨hp, hc⟩
    · exact ⟨hp, hc⟩
  | dequeue w =>
    simp only [TaskSystem.step, TaskSystem.dequeue] at h
    split at h
    · next hw =>
      split at h
      · split at h
        · simp only [Option.some.injEq] at h
          subst h
          have e := inFlight_set_same s.workers w Worker.waiting Worker.exited hw
            (by intro t; simp) (by intro t; simp) s rfl
            { s with workers := s.workers.set w Worker.exited } rfl
          unfold TaskSystem.Inv
          rw [e]
          exact ⟨hp, hc⟩
        · split at h
          · simp only [Option.some.injEq] at h
            subst h
            exact ⟨hp, hc⟩
          · next task rest htasks =>
            simp only [Option.some.injEq] at h
            subst h
            have e := inFlight_set_running s.workers w Worker.waiting task hw
              (by intro t; simp) s rfl
              { s with workers := s.workers.set w (Worker.running task), tasks := rest
                       activeTasks := s.activeTasks + 1 } rfl
            unfold TaskSystem.Inv
            refine ⟨?_, ?_⟩
            · simp only
              rw [htasks] at hp
              refine hp.trans ?_
              rw [List.append_assoc, List.append_assoc]
              apply List.Perm.append_left
              refine List.Perm.trans ?_ (List.Perm.append_right rest e.symm)
              simp only [List.cons_append]
              exact List.perm_middle
            · simp only
              rw [e.length_eq, hc]
              simp
      · cases h
    · cases h
  | finish w =>
    simp only [TaskSystem.step, TaskSystem.finish] at h
    split at h
    · next task hw =>
      simp only [Option.some.injEq] at h
      subst h
      have e := inFlight_set_idle s.workers w Worker.waiting task hw
        (by intro t; simp) s rfl
        { s with workers := s.workers.set w Worker.waiting
                 activeTasks := s.activeTasks - 1
                 completed := s.completed ++ [task]
                 errors := s.errors + task.outcome.logged } rfl
      unfold TaskSystem.Inv
      refine ⟨?_, ?_⟩
      · simp only
        refine hp.trans ?_
        rw [List.append_assoc, List.append_assoc, List.append_assoc]
        apply List.Perm.append_left
        simp only [List.singleton_append]
        exact List.Perm.append_right _ e
      · have := e.length_eq
        simp only [List.length_cons] at this
        have key : ∀ n : Nat, s.inFlight.length = n + 1 → s.activeTasks - 1 = (n : Int) := by
          intro n hn
          omega
        exact key _ this
    · cases h

theorem inv_run (actions : List Action) (s s' : TaskSystem) (hinv : s.Inv)
    (h : s.run actions = some s') : s'.Inv := by
  induction actions generalizing s with
  | nil =>
    simp only [TaskSystem.run, Option.some.injEq] at h
    subst h
    exact hinv
  | cons a as ih =>
    simp only [TaskSystem.run] at h
    cases hs : s.step a with
    | none => rw [hs] at h; cases h
    | some s1 =>
      rw [hs] at h
      exact ih s1 (inv_step s s1 a hinv hs) h

/-- C19: in the state machine of `TaskSystem` (queue, active-task counter, stop flag; steps:
submit, a worker dequeues and increments the counter atomically under the lock, a worker
finishes and decrements, stop), every state that is reachable from the constructed pool
satisfies `submitted = queued + in-flight + completed` with the counter equal to the number of
in-flight tasks (the submitted tasks are, up to order, the completed, the in-flight and the
queued ones), and the predicate of `wait_idle` (queue empty and counter `== 0`) holds only in
states where every submitted task has completed. -/
theorem taskSystem_accounting (hc : Nat) (threadCount : Int) (actions : List Action)
    (s : TaskSystem) (h : (TaskSystem.new hc threadCount).run actions = some s) :
    s.submitted.length = s.tasks.length + s.inFlight.length + s.completed.length ∧
    s.activeTasks = s.inFlight.length ∧
    s.submitted.Perm (s.completed ++ s.inFlight ++ s.tasks) ∧
    (s.idle = true → s.submitted.Perm s.completed) := by
  obtain ⟨hp, hcnt⟩ := inv_run actions _ s (inv_new hc threadCount) h
  refine ⟨?_, hcnt, hp, ?_⟩
  · have := hp.length_eq
    simp only [List.length_append] at this
    omega
  · intro hidle
    unfold TaskSystem.idle at hidle
    simp only [Bool.and_eq_true, decide_eq_true_eq, List.isEmpty_iff] at hidle
    obtain ⟨ht, ha⟩ := hidle
    rw [ha] at hcnt
    have hf : s.inFlight = [] := by
      apply List.eq_nil_of_length_eq_zero
      omega
    rw [hf, ht] at hp
    simpa using hp

theorem taskSystem_accounting_witness :
    ((TaskSystem.new 3 0).run
      [Action.submit ⟨1, Outcome.returns⟩, Action.submit ⟨2, Outcome.throwsStd⟩,
       Action.dequeue 0, Action.dequeue 1, Action.finish 1, Action.finish 0] =
      some ⟨[Worker.waiting, Worker.waiting], [], false, 0,
        [⟨1, Outcome.returns⟩, ⟨2, Outcome.throwsStd⟩],
        [⟨2, Outcome.throwsStd⟩, ⟨1, Outcome.returns⟩], 1⟩) ∧
    (let s : TaskSystem := ⟨[Worker.waiting, Worker.waiting], [], false, 0,
        [⟨1, Outcome.returns⟩, ⟨2, Outcome.throwsStd⟩],
        [⟨2, Outcome.throwsStd⟩, ⟨1, Outcome.returns⟩], 1⟩
     s.submitted.length = s.tasks.length + s.inFlight.length + s.completed.length ∧
     s.activeTasks = s.inFlight.length ∧
     s.submitted.Perm (s.completed ++ s.inFlight ++ s.tasks) ∧
     (s.idle = true → s.submitted.Perm s.completed)) :=
  ⟨by decide, taskSystem_accounting 3 0
    [Action.submit ⟨1, Outcome.returns⟩, Action.submit ⟨2, Outcome.throwsStd⟩,
     Action.dequeue 0, Action.dequeue 1, Action.finish 1, Action.finish 0] _ (by decide)⟩

/-- C20: when the work unit that the worker `w` runs ends, by returning or by throwing any
exception, the worker is back at the top of its loop (it stays in the pool and no other worker
changes), the active-task counter is decremented by one, the queue and the stop flag are
unchanged, and an exception only adds a logged error; if the queue is not empty the worker
then dequeues its front. -/
theorem worker_survives_exception (s : TaskSystem) (w : Nat) (task : Task)
    (h : s.workers[w]? = some (Worker.running task)) :
    ∃ s', s.finish w = some s' ∧
      s'.activeTasks = s.activeTasks - 1 ∧ s'.tasks = s.tasks ∧ s'.stopFlag = s.stopFlag ∧
      s'.workers = s.workers.set w Worker.waiting ∧ s'.workers[w]? = some Worker.waiting ∧
      s'.completed = s.completed ++ [task] ∧
      s'.errors = (if task.outcome = Outcome.returns then s.errors else s.errors + 1) ∧
      (∀ next rest, s.tasks = next :: rest →
        ∃ s'', s'.dequeue w = some s'' ∧ s''.workers[w]? = some (Worker.running next) ∧
          s''.tasks = rest ∧ s''.activeTasks = s.activeTasks) := by
  have hlt : w < s.workers.length := by
    rcases Nat.lt_or_ge w s.workers.length with hlt | hge
    · exact hlt
    · rw [List.getElem?_eq_none hge] at h; cases h
  refine ⟨⟨s.workers.set w Worker.waiting, s.tasks, s.stopFlag, s.activeTasks - 1, s.submitted,
      s.completed ++ [task],
      s.errors + task.outcome.logged⟩,
    by unfold TaskSystem.finish; rw [h], rfl, rfl, rfl, rfl, ?_, rfl, ?_, ?_⟩
  · exact List.getElem?_set_self hlt
  · show s.errors + task.outcome.logged = _
    cases task.outcome <;> simp [Outcome.logged]
  · intro next rest htasks
    have hw : (s.workers.set w Worker.waiting)[w]? = some Worker.waiting :=
      List.getElem?_set_self hlt
    refine ⟨⟨(s.workers.set w Worker.waiting).set w (Worker.running next), rest, s.stopFlag,
      s.activeTasks - 1 + 1, s.submitted, s.completed ++ [task],
      s.errors + task.outcome.logged⟩, ?_, ?_, rfl, ?_⟩
    · unfold TaskSystem.dequeue
      simp only [hw, htasks, List.isEmpty_cons, Bool.not_false, Bool.or_true, Bool.and_false,
        if_true, Bool.false_eq_true, if_false]
    · exact List.getElem?_set_self (by simpa using hlt)
    · show s.activeTasks - 1 + 1 = s.activeTasks
      omega

theorem worker_survives_exception_witness :
    (([Worker.running ⟨7, Outcome.throwsOther⟩] : List Worker)[0]? =
      some (Worker.running ⟨7, Outcome.throwsOther⟩)) ∧
    (let s : TaskSystem :=
      ⟨[Worker.running ⟨7, Outcome.throwsOther⟩], [⟨8, Outcome.returns⟩], false, 1,
        [⟨7, Outcome.throwsOther⟩, ⟨8, Outcome.returns⟩], [], 0⟩
     ∃ s', s.finish 0 = some s' ∧
      s'.activeTasks = s.activeTasks - 1 ∧ s'.tasks = s.tasks ∧ s'.stopFlag = s.stopFlag ∧
      s'.workers = s.workers.set 0 Worker.waiting ∧ s'.workers[0]? = some Worker.waiting ∧
      s'.completed = s.completed ++ [⟨7, Outcome.throwsOther⟩] ∧
      s'.errors = (if (⟨7, Outcome.throwsOther⟩ : Task).outcome = Outcome.returns
        then s.errors else s.errors + 1) ∧
      (∀ next rest, s.tasks = next :: rest →
        ∃ s'', s'.dequeue 0 = some s'' ∧ s''.workers[0]? = some (Worker.running next) ∧
          s''.tasks = rest ∧ s''.activeTasks = s.activeTasks)) :=
  ⟨rfl, worker_survives_exception
    ⟨[Worker.running ⟨7, Outcome.throwsOther⟩], [⟨8, Outcome.returns⟩], false, 1,
      [⟨7, Outcome.throwsOther⟩, ⟨8, Outcome.returns⟩], [], 0⟩ 0 ⟨7, Outcome.throwsOther⟩ rfl⟩

/-! ## The low-fidelity renderer -/

theorem getD_bounds (l : List Int) (h : ∀ v ∈ l, 0 ≤ v ∧ v ≤ 255) (i : Nat) :
    0 ≤ l.getD i 0 ∧ l.getD i 0 ≤ 255 := by
  rw [List.getD_eq_getElem?_getD]
  cases hi : l[i]? with
  | none => simp
  | some v => exact h v (List.getElem?_mem hi)

theorem foldl_append_flatMap {α : Type} (g : α → List Nat) (l : List α) (init : List Nat) :
    l.foldl (fun out x => out ++ g x) init = init ++ l.flatMap g := by
  induction l generalizing init with
  | nil => simp
  | cons a l ih =>
    simp only [List.foldl_cons, List.flatMap_cons]
    rw [ih, List.append_assoc]

/-- The loop over `dx` adds the values of one row of the block. -/
theorem lowPixel_fold (highres : BlockPlanes) (bx by_ dy n : Nat) (acc : LowAcc) :
    (List.range n).foldl (lowPixel highres bx by_ dy) acc =
      ⟨acc.rsum + ∑ dx ∈ Finset.range n,
          highres.r.getD ((by_ * 8 + dy) * highres.width.toNat + (bx * 8 + dx)) 0,
        acc.gsum + ∑ dx ∈ Finset.range n,
          highres.g.getD ((by_ * 8 + dy) * highres.width.toNat + (bx * 8 + dx)) 0,
        acc.bsum + ∑ dx ∈ Finset.range n,
          highres.b.getD ((by_ * 8 + dy) * highres.width.toNat + (bx * 8 + dx)) 0,
        acc.count + n⟩ := by
  induction n with
  | zero => simp
  | succ n ih =>
    rw [List.range_succ, List.foldl_append, ih]
    simp only [List.foldl_cons, List.foldl_nil, lowPixel, Finset.sum_range_succ]
    congr 1 <;> push_cast <;> ring

/-- The two loops of a cell add the 64 values of the block. -/
theorem lowBlock_fold (highres : BlockPlanes) (bx by_ m : Nat) (acc : LowAcc) :
    (List.range m).foldl
      (fun acc dy => (List.range 8).foldl (lowPixel highres bx by_ dy) acc) acc =
      ⟨acc.rsum + ∑ dy ∈ Finset.range m, ∑ dx ∈ Finset.range 8,
          highres.r.getD ((by_ * 8 + dy) * highres.width.toNat + (bx * 8 + dx)) 0,
        acc.gsum + ∑ dy ∈ Finset.range m, ∑ dx ∈ Finset.range 8,
          highres.g.getD ((by_ * 8 + dy) * highres.width.toNat + (bx * 8 + dx)) 0,
        acc.bsum + ∑ dy ∈ Finset.range m, ∑ dx ∈ Finset.range 8,
          highres.b.getD ((by_ * 8 + dy) * highres.width.toNat + (bx * 8 + dx)) 0,
        acc.count + 8 * m⟩ := by
  induction m with
  | zero => simp
  | succ m ih =>
    rw [show List.range (m + 1) = List.range m ++ [m] from List.range_succ m, List.foldl_append,
      ih]
    simp only [List.foldl_cons, List.foldl_nil, lowPixel_fold, Finset.sum_range_succ _ m]
    congr 1 <;> push_cast <;> ring

theorem block_sum_bounds (l : List Int) (h : ∀ v ∈ l, 0 ≤ v ∧ v ≤ 255) (f : Nat → Nat → Nat) :
    0 ≤ ∑ dy ∈ Finset.range 8, ∑ dx ∈ Finset.range 8, l.getD (f dy dx) 0 ∧
    ∑ dy ∈ Finset.range 8, ∑ dx ∈ Finset.range 8, l.getD (f dy dx) 0 ≤ 16320 := by
  constructor
  · apply Finset.sum_nonneg
    intro dy _
    apply Finset.sum_nonneg
    intro dx _
    exact (getD_bounds l h _).1
  · have h1 : ∀ dy ∈ Finset.range 8,
        ∑ dx ∈ Finset.range 8, l.getD (f dy dx) 0 ≤ 2040 := by
      intro dy _
      have := Finset.sum_le_card_nsmul (Finset.range 8) (fun dx => l.getD (f dy dx) 0) 255
        (fun dx _ => (getD_bounds l h _).2)
      simpa using this
    have := Finset.sum_le_card_nsmul (Finset.range 8)
      (fun dy => ∑ dx ∈ Finset.range 8, l.getD (f dy dx) 0) 2040 h1
    simpa using this

theorem longToInt_of_small (x : Int) (h0 : 0 ≤ x) (h1 : x ≤ 255) : longToInt x = x := by
  unfold longToInt toU64 toInt32
  have e : (x % 2 ^ 64).toNat % 2 ^ 32 = x.toNat := by omega
  rw [e]
  split <;> omega

/-- The colour that `render_low` computes for a cell is the colour of the specification, and
it lies in `[0, 255]`. -/
theorem lowBlock_colour (highres : BlockPlanes)
    (hvals : ∀ c, ∀ v ∈ highres.get c, 0 ≤ v ∧ v ≤ 255) (bx by_ : Nat) :
    longToInt ((lowBlock highres bx by_).rsum.tdiv (lowBlock highres bx by_).count) =
      lowColour highres Chan.R bx by_ ∧
    longToInt ((lowBlock highres bx by_).gsum.tdiv (lowBlock highres bx by_).count) =
      lowColour highres Chan.G bx by_ ∧
    longToInt ((lowBlock highres bx by_).bsum.tdiv (lowBlock highres bx by_).count) =
      lowColour highres Chan.B bx by_ ∧
    ∀ c, 0 ≤ lowColour highres c bx by_ ∧ lowColour highres c bx by_ ≤ 255 := by
  have hb : ∀ c, 0 ≤ lowColour highres c bx by_ ∧ lowColour highres c bx by_ ≤ 255 := by
    intro c
    unfold lowColour
    obtain ⟨h0, h1⟩ := block_sum_bounds (highres.get c) (hvals c)
      (fun dy dx => (by_ * 8 + dy) * highres.width.toNat + (bx * 8 + dx))
    generalize (∑ dy ∈ Finset.range 8, ∑ dx ∈ Finset.range 8,
      (highres.get c).getD ((by_ * 8 + dy) * highres.width.toNat + (bx * 8 + dx)) 0) = S
      at h0 h1 ⊢
    rw [Int.tdiv_eq_ediv h0 (by norm_num)]
    omega
  unfold lowBlock
  rw [lowBlock_fold]
  simp only [zero_add, Nat.cast_ofNat, Nat.reduceMul]
  refine ⟨?_, ?_, ?_, hb⟩
  · exact longToInt_of_small _ (hb Chan.R).1 (hb Chan.R).2
  · exact longToInt_of_small _ (hb Chan.G).1 (hb Chan.G).2
  · exact longToInt_of_small _ (hb Chan.B).1 (hb Chan.B).2

/-- The state of a row of `render_low` after the cells `0, ..., k - 1`. -/
theorem lowCell_fold (highres : BlockPlanes)
    (hvals : ∀ c, ∀ v ∈ highres.get c, 0 ≤ v ∧ v ≤ 255) (by_ : Nat) (out : List Nat) (k : Nat) :
    (List.range k).foldl (lowCell highres by_) ⟨out, -1, -1, -1⟩ =
      ⟨out ++ (List.range k).flatMap (lowCellSpec highres by_),
        if k = 0 then -1 else lowColour highres Chan.R (k - 1) by_,
        if k = 0 then -1 else lowColour highres Chan.G (k - 1) by_,
        if k = 0 then -1 else lowColour highres Chan.B (k - 1) by_⟩ := by
  induction k with
  | zero => simp
  | succ k ih =>
    rw [List.range_succ, List.foldl_append, ih]
    simp only [List.foldl_cons, List.foldl_nil, List.flatMap_append, List.flatMap_cons, List.flatMap_nil,
      List.append_nil, Nat.add_sub_cancel, Nat.succ_ne_zero, if_false]
    obtain ⟨eR, eG, eB, hb⟩ := lowBlock_colour highres hvals k by_
    unfold lowCell
    simp only [eR, eG, eB]
    unfold lowCellSpec
    by_cases hk : k = 0
    · subst hk
      have hR := (hb Chan.R).1
      have hne : lowColour highres Chan.R 0 by_ ≠ -1 := by omega
      simp only [if_true, ne_eq, hne, not_false_eq_true, true_or, List.append_assoc]
    · simp only [hk, if_false, false_or]
      by_cases hc : (lowColour highres Chan.R k by_ ≠ lowColour highres Chan.R (k - 1) by_ ∨
          lowColour highres Chan.G k by_ ≠ lowColour highres Chan.G (k - 1) by_ ∨
          lowColour highres Chan.B k by_ ≠ lowColour highres Chan.B (k - 1) by_)
      · simp only [if_pos hc, List.append_assoc]
      · simp only [if_neg hc, List.nil_append, List.append_assoc]
        push_neg at hc
        obtain ⟨h1, h2, h3⟩ := hc
        rw [← h1, ← h2, ← h3]

/-- The function `render_low` returns the output that the specification describes. -/
theorem render_low_eq_spec (highres : BlockPlanes)
    (hvals : ∀ c, ∀ v ∈ highres.get c, 0 ≤ v ∧ v ≤ 255) (out_w out_h : Nat) :
    render_low highres out_w out_h = lowSpec highres out_w out_h := by
  unfold render_low lowSpec
  have h : lowLine highres out_w = fun out by_ =>
      out ++ ((List.range out_w).flatMap (lowCellSpec highres by_) ++ reset ++ ascii "\n") := by
    funext out by_
    unfold lowLine
    rw [lowCell_fold highres hvals]
    simp only [List.append_assoc]
  rw [h, foldl_append_flatMap]
  simp

/-- C15: for every `BlockPlanes` with values in `[0, 255]` of size at least
`out_w*8 x out_h*8`, `render_low` returns exactly the concatenation over the rows
`by = 0, ..., out_h - 1` of: for each cell `bx = 0, ..., out_w - 1` in order, the escape
`ESC[48;2;R;G;Bm` (decimal `R`, `G`, `B`) if and only if the cell is the first of its row or
its colour differs from the colour of the previous cell of the row, followed by one space;
then `ESC[0m` and a newline. The colour of a cell is, per channel, the truncating quotient by
64 of the sum of the 64 values of the 8 x 8 block at `(bx*8, by*8)`, which lies inside the
grid. -/
theorem render_low_output (highres : BlockPlanes) (out_w out_h : Nat)
    (hw : ((out_w * 8 : Nat) : Int) ≤ highres.width)
    (hh : ((out_h * 8 : Nat) : Int) ≤ highres.height)
    (hvals : ∀ c, ∀ v ∈ highres.get c, 0 ≤ v ∧ v ≤ 255) :
    render_low highres out_w out_h = lowSpec highres out_w out_h ∧
    (∀ bx by_ dx dy, bx < out_w → by_ < out_h → dx < 8 → dy < 8 →
      ((bx * 8 + dx : Nat) : Int) < highres.width ∧
      ((by_ * 8 + dy : Nat) : Int) < highres.height) ∧
    (∀ c bx by_, 0 ≤ lowColour highres c bx by_ ∧ lowColour highres c bx by_ ≤ 255) := by
  refine ⟨render_low_eq_spec highres hvals out_w out_h, ?_, ?_⟩
  · intro bx by_ dx dy hbx hby hdx hdy
    constructor <;> omega
  · intro c bx by_
    exact (lowBlock_colour highres hvals bx by_).2.2.2 c

theorem render_low_output_witness :
    ((((1 * 8 : Nat) : Int) ≤ darkPlanes.width) ∧ (((1 * 8 : Nat) : Int) ≤ darkPlanes.height) ∧
      (∀ c, ∀ v ∈ darkPlanes.get c, 0 ≤ v ∧ v ≤ 255)) ∧
    (render_low darkPlanes 1 1 = lowSpec darkPlanes 1 1 ∧
    (∀ bx by_ dx dy, bx < 1 → by_ < 1 → dx < 8 → dy < 8 →
      ((bx * 8 + dx : Nat) : Int) < darkPlanes.width ∧
      ((by_ * 8 + dy : Nat) : Int) < darkPlanes.height) ∧
    (∀ c bx by_, 0 ≤ lowColour darkPlanes c bx by_ ∧ lowColour darkPlanes c bx by_ ≤ 255)) :=
  ⟨⟨by decide, by decide, darkPlanes_values⟩,
   render_low_output darkPlanes 1 1 (by decide) (by decide) darkPlanes_values⟩

/-- In a grid of one colour every cell of the covered part has that colour. -/
theorem lowColour_uniform (highres : BlockPlanes) (out_w out_h : Nat) (v : Int) (c : Chan)
    (hw : ((out_w * 8 : Nat) : Int) ≤ highres.width)
    (hh : ((out_h * 8 : Nat) : Int) ≤ highres.height)
    (hlen : (highres.get c).length = highres.width.toNat * highres.height.toNat)
    (hv : ∀ x ∈ highres.get c, x = v) (bx by_ : Nat) (hbx : bx < out_w) (hby : by_ < out_h) :
    lowColour highres c bx by_ = v := by
  unfold lowColour
  have hcell : ∀ dy ∈ Finset.range 8, ∀ dx ∈ Finset.range 8,
      (highres.get c).getD ((by_ * 8 + dy) * highres.width.toNat + (bx * 8 + dx)) 0 = v := by
    intro dy hdy dx hdx
    rw [Finset.mem_range] at hdy hdx
    have hi := grid_lt highres.width.toNat highres.height.toNat (bx * 8 + dx) (by_ * 8 + dy)
      (by omega) (by omega)
    rw [← hlen] at hi
    rw [List.getD_eq_getElem?_getD, List.getElem?_eq_getElem hi]
    exact hv _ (List.getElem_mem _)
  rw [Finset.sum_congr rfl (fun dy hdy => Finset.sum_congr rfl (hcell dy hdy))]
  simp only [Finset.sum_const, Finset.card_range, smul_eq_mul, nsmul_eq_mul, Nat.cast_ofNat]
  rw [show (8 : Int) * (8 * v) = v * 64 by ring]
  exact Int.mul_tdiv_cancel _ (by norm_num)

/-- The cells of a row in which all cells have the colour `(r, g, b)`. -/
theorem lowRow_uniform (highres : BlockPlanes) (out_w by_ : Nat) (r g b : Int)
    (hcol : ∀ bx, bx < out_w → lowColour highres Chan.R bx by_ = r ∧
      lowColour highres Chan.G bx by_ = g ∧ lowColour highres Chan.B bx by_ = b)
    (k : Nat) (hk : k ≤ out_w) :
    (List.range k).flatMap (lowCellSpec highres by_) =
      (if k = 0 then [] else bg_rgb r g b) ++ List.replicate k 32 := by
  induction k with
  | zero => rfl
  | succ k ih =>
    rw [List.range_succ, List.flatMap_append, ih (by omega)]
    simp only [List.flatMap_cons, List.flatMap_nil, List.append_nil, Nat.succ_ne_zero, if_false]
    obtain ⟨e1, e2, e3⟩ := hcol k (by omega)
    unfold lowCellSpec
    rw [e1, e2, e3]
    have hsp : ascii " " = [32] := by decide
    rw [hsp]
    by_cases h0 : k = 0
    · subst h0
      simp
    · obtain ⟨f1, f2, f3⟩ := hcol (k - 1) (by omega)
      rw [f1, f2, f3]
      simp only [h0, if_false, ne_eq, not_true_eq_false, or_self, List.nil_append,
        List.append_assoc]
      rw [List.replicate_succ']

/-- C16: for every `BlockPlanes` whose cells all hold the same colour `(r, g, b)` in
`[0, 255]^3`, of size at least `out_w*8 x out_h*8`, every `out_w ≥ 1` and every `out_h`, each
of the `out_h` rows of the output of `render_low` is one background-colour escape for `(r, g, b)`,
placed at the start of the row, followed by `out_w` spaces and the row terminator `ESC[0m`,
newline. -/
theorem render_low_uniform (highres : BlockPlanes) (out_w out_h : Nat) (r g b : Int)
    (hr : 0 ≤ r ∧ r ≤ 255) (hg : 0 ≤ g ∧ g ≤ 255) (hb : 0 ≤ b ∧ b ≤ 255)
    (h1 : 1 ≤ out_w)
    (hw : ((out_w * 8 : Nat) : Int) ≤ highres.width)
    (hh : ((out_h * 8 : Nat) : Int) ≤ highres.height)
    (hlen : ∀ c, (highres.get c).length = highres.width.toNat * highres.height.toNat)
    (hR : ∀ x ∈ highres.r, x = r) (hG : ∀ x ∈ highres.g, x = g) (hB : ∀ x ∈ highres.b, x = b) :
    render_low highres out_w out_h =
      (List.range out_h).flatMap
        (fun _ => bg_rgb r g b ++ List.replicate out_w 32 ++ ascii "\x1b[0m" ++ [10]) := by
  have hvals : ∀ c, ∀ v ∈ highres.get c, 0 ≤ v ∧ v ≤ 255 := by
    intro c v hv
    cases c
    · rw [hR v hv]; exact hr
    · rw [hG v hv]; exact hg
    · rw [hB v hv]; exact hb
  rw [render_low_eq_spec highres hvals out_w out_h]
  unfold lowSpec
  have hrow : ∀ by_ ∈ List.range out_h,
      (List.range out_w).flatMap (lowCellSpec highres by_) ++ reset ++ ascii "\n" =
        bg_rgb r g b ++ List.replicate out_w 32 ++ ascii "\x1b[0m" ++ [10] := by
    intro by_ hby
    rw [List.mem_range] at hby
    rw [lowRow_uniform highres out_w by_ r g b (fun bx hbx =>
      ⟨lowColour_uniform highres out_w out_h r Chan.R hw hh (hlen Chan.R) hR bx by_ hbx hby,
       lowColour_uniform highres out_w out_h g Chan.G hw hh (hlen Chan.G) hG bx by_ hbx hby,
       lowColour_uniform highres out_w out_h b Chan.B hw hh (hlen Chan.B) hB bx by_ hbx hby⟩)
      out_w (le_refl _)]
    rw [if_neg (by omega)]
    rfl
  generalize List.range out_h = rows at hrow
  induction rows with
  | nil => rfl
  | cons a rows ih =>
    rw [List.flatMap_cons, List.flatMap_cons, hrow a (List.mem_cons_self _ _),
      ih (fun x hx => hrow x (List.mem_cons_of_mem _ hx))]

theorem darkPlanes_uniform : ∀ x ∈ darkPlanes.r, x = 5 := by
  intro x hx
  exact List.eq_of_mem_replicate hx

theorem render_low_uniform_witness :
    ((0 : Int) ≤ 5 ∧ (5 : Int) ≤ 255) ∧ 1 ≤ 1 ∧
    (((1 * 8 : Nat) : Int) ≤ darkPlanes.width) ∧ (((1 * 8 : Nat) : Int) ≤ darkPlanes.height) ∧
    (∀ c, (darkPlanes.get c).length = darkPlanes.width.toNat * darkPlanes.height.toNat) ∧
    (∀ x ∈ darkPlanes.r, x = 5) ∧
    (render_low darkPlanes 1 1 =
      (List.range 1).flatMap
        (fun _ => bg_rgb 5 5 5 ++ List.replicate 1 32 ++ ascii "\x1b[0m" ++ [10])) ∧
    bg_rgb 5 5 5 ++ List.replicate 1 32 ++ ascii "\x1b[0m" ++ [10] =
      ascii "\x1b[48;2;5;5;5m \x1b[0m\n" :=
  ⟨by decide, by decide, by decide, by decide, by intro c; cases c <;> rfl, darkPlanes_uniform,
   render_low_uniform darkPlanes 1 1 5 5 5 (by decide) (by decide) (by decide) (by decide)
    (by decide) (by decide) (by intro c; cases c <;> rfl) darkPlanes_uniform
    darkPlanes_uniform darkPlanes_uniform,
   by decide⟩

/-! ## The output of the high-fidelity renderer -/

theorem foldl_append_flatMap_mem {α : Type} (F : List Nat → α → List Nat) (g : α → List Nat)
    (l : List α) (h : ∀ x ∈ l, ∀ out, F out x = out ++ g x) (init : List Nat) :
    l.foldl F init = init ++ l.flatMap g := by
  induction l generalizing init with
  | nil => simp
  | cons a l ih =>
    simp only [List.foldl_cons, List.flatMap_cons]
    rw [h a (List.mem_cons_self _ _), ih (fun x hx => h x (List.mem_cons_of_mem _ hx)),
      List.append_assoc]

theorem flatMap_congr_mem {α β : Type} (f g : α → List β) (l : List α)
    (h : ∀ x ∈ l, f x = g x) : l.flatMap f = l.flatMap g := by
  rw [List.flatMap_def, List.flatMap_def, List.map_congr_left h]

/-- The rows of the bands `0, ..., k - 1` are the rows `0, ..., out_h * k / threads - 1`. -/
theorem band_rows (out_h threads k : Nat) :
    (List.range k).flatMap (fun tid =>
      List.range' ((out_h * tid) / threads)
        ((out_h * (tid + 1)) / threads - (out_h * tid) / threads)) =
      List.range ((out_h * k) / threads) := by
  induction k with
  | zero => simp
  | succ k ih =>
    rw [List.range_succ, List.flatMap_append, ih]
    simp only [List.flatMap_cons, List.flatMap_nil, List.append_nil]
    have hle : (out_h * k) / threads ≤ (out_h * (k + 1)) / threads :=
      Nat.div_le_div_right (Nat.mul_le_mul_left _ (Nat.le_succ k))
    rw [List.range_eq_range', List.range_eq_range']
    have := List.range'_append 0 ((out_h * k) / threads)
      ((out_h * (k + 1)) / threads - (out_h * k) / threads) 1
    simp only [Nat.one_mul, Nat.zero_add] at this
    rw [this]
    congr 1
    omega

set_option maxRecDepth 100000 in
theorem render_high_dark : render_high darkPlanes 1 1 4 0 false =
    ascii "\x1b[48;2;0;0;0m\x1b[38;2;5;5;5m" ++ [0xE2, 0x96, 0x88] ++ ascii "\x1b[0m\n" := by
  decide!

/-! ## The total error grows with the threshold -/

/-- The search with book-keeping finds the best candidate of `cellSearch`. -/
theorem selectStep_fst (t : Integrals) (high_w : Nat) (thr : Int) (bx by_ : Nat)
    (l : List GDesc) (b : Best) (sel : Option GDesc) (stats : PruneStats) :
    (l.foldl (selectStep t high_w thr bx by_) (b, sel)).1 =
      (l.foldl (glyphStep t high_w thr bx by_) (b, stats)).1 := by
  induction l generalizing b sel stats with
  | nil => rfl
  | cons gd l ih =>
    simp only [List.foldl_cons]
    unfold selectStep glyphStep
    simp only
    split
    · exact ih _ _ _
    · split
      · exact ih _ _ _
      · next hlt =>
        have e : b.update (cellTotals t high_w bx by_)
            (fgRegion t high_w bx by_ (cellTotals t high_w bx by_) gd) gd = b := by
          unfold Best.update
          simp only
          rw [if_neg hlt]
        rw [e]
        exact ih _ _ _

theorem block_glyph_codes_witness :
    (1 ≤ 3 ∧ 3 ≤ 8) ∧
    TableEntry GType.H 3 0 (0x2580 + 3) (fun _ dy => decide (8 - 3 ≤ dy)) :=
  ⟨⟨by decide, by decide⟩, block_glyph_codes.2.2.2.2.2.2 3 (by decide) (by decide)⟩

theorem glyph_visit_order_witness :
    (1 ≤ 8 ∧ 8 ≤ 8) ∧
    TableEntry GType.V 8 0 (0x2587 + 8) (fun dx _ => decide (dx < 8)) :=
  ⟨⟨by decide, by decide⟩,
   (glyph_visit_order (buildIntegrals darkPlanes) 8 0 0 0 ⟨0, 0, 0, 0⟩).2.2.2 8 (by decide)
    (by decide)⟩

/-! ## `codepoint_to_utf8` -/

theorem or_cont : ∀ y, y < 64 → 0x80 ||| y = 0x80 + y := by decide

theorem or_lead2 : ∀ y, y < 32 → 0xC0 ||| y = 0xC0 + y := by decide

theorem or_lead3 : ∀ y, y < 16 → 0xE0 ||| y = 0xE0 + y := by decide

theorem or_lead4 : ∀ y, y < 8 → 0xF0 ||| y = 0xF0 + y := by decide

theorem and_3F (x : Nat) : x &&& 0x3F = x % 64 := Nat.and_pow_two_sub_one_eq_mod x 6

theorem and_1F (x : Nat) : x &&& 0x1F = x % 32 := Nat.and_pow_two_sub_one_eq_mod x 5

theorem and_0F (x : Nat) : x &&& 0x0F = x % 16 := Nat.and_pow_two_sub_one_eq_mod x 4

theorem and_07 (x : Nat) : x &&& 0x07 = x % 8 := Nat.and_pow_two_sub_one_eq_mod x 3

/-- The bytes of `codepoint_to_utf8` without bit operations. -/
theorem codepoint_to_utf8_eq (c : Nat) :
    codepoint_to_utf8 c =
      if c ≤ 0x7F then [c]
      else if c ≤ 0x7FF then [0xC0 + c / 64 % 32, 0x80 + c % 64]
      else if c ≤ 0xFFFF then [0xE0 + c / 4096 % 16, 0x80 + c / 64 % 64, 0x80 + c % 64]
      else [0xF0 + c / 262144 % 8, 0x80 + c / 4096 % 64, 0x80 + c / 64 % 64, 0x80 + c % 64] := by
  unfold codepoint_to_utf8
  simp only [and_3F, and_1F, and_0F, and_07, Nat.shiftRight_eq_div_pow]
  have h6 : (2 : Nat) ^ 6 = 64 := by norm_num
  have h12 : (2 : Nat) ^ 12 = 4096 := by norm_num
  have h18 : (2 : Nat) ^ 18 = 262144 := by norm_num
  rw [h6, h12, h18]
  rw [or_cont (c % 64) (Nat.mod_lt _ (by norm_num)),
    or_cont (c / 64 % 64) (Nat.mod_lt _ (by norm_num)),
    or_cont (c / 4096 % 64) (Nat.mod_lt _ (by norm_num)),
    or_lead2 (c / 64 % 32) (Nat.mod_lt _ (by norm_num)),
    or_lead3 (c / 4096 % 16) (Nat.mod_lt _ (by norm_num)),
    or_lead4 (c / 262144 % 8) (Nat.mod_lt _ (by norm_num))]
  split
  · next h => rw [Nat.mod_eq_of_lt (by omega)]
  · rfl

/-- C29, as amended: for every code point `c` with `0 ≤ c ≤ 0x10FFFF`, `codepoint_to_utf8(c)`
has 1, 2, 3 or 4 bytes according to `c ≤ 0x7F`, `c ≤ 0x7FF`, `c ≤ 0xFFFF` or above, and every
byte is below 256; for every `c` that is not a surrogate (`0xD800 ≤ c ≤ 0xDFFF`) decoding the
bytes by the UTF-8 rules returns `c`, whereas a surrogate is written in the three-byte layout,
which the UTF-8 rules reject; U+2588 encodes as `E2 96 88`. -/
theorem codepoint_to_utf8_correct (c : Nat) (hc : c ≤ 0x10FFFF) :
    (codepoint_to_utf8 c).length =
      (if c ≤ 0x7F then 1 else if c ≤ 0x7FF then 2 else if c ≤ 0xFFFF then 3 else 4) ∧
    (∀ b ∈ codepoint_to_utf8 c, b < 256) ∧
    utf8Decode (codepoint_to_utf8 c) = (if 0xD800 ≤ c ∧ c ≤ 0xDFFF then none else some c) ∧
    codepoint_to_utf8 0x2588 = [0xE2, 0x96, 0x88] := by
  refine ⟨?_, ?_, ?_, by decide⟩
  · rw [codepoint_to_utf8_eq]
    split
    · rfl
    · split
      · rfl
      · split <;> rfl
  · rw [codepoint_to_utf8_eq]
    intro b hb
    split at hb
    · simp only [List.mem_singleton] at hb; omega
    · split at hb
      · simp only [List.mem_cons, List.mem_singleton, List.not_mem_nil, or_false] at hb
        omega
      · split at hb
        · simp only [List.mem_cons, List.mem_singleton, List.not_mem_nil, or_false] at hb
          omega
        · simp only [List.mem_cons, List.mem_singleton, List.not_mem_nil, or_false] at hb
          omega
  · rw [codepoint_to_utf8_eq]
    split
    · next h =>
      simp only [utf8Decode]
      rw [if_pos (by omega), if_neg (by omega)]
    · next h1 =>
      split
      · next h2 =>
        simp only [utf8Decode]
        have e : (0xC0 + c / 64 % 32 - 0xC0) * 64 + (0x80 + c % 64 - 0x80) = c := by omega
        rw [e, if_pos (by omega), if_neg (by omega)]
      · next h2 =>
        split
        · next h3 =>
          simp only [utf8Decode]
          have e : (0xE0 + c / 4096 % 16 - 0xE0) * 4096 + (0x80 + c / 64 % 64 - 0x80) * 64 +
              (0x80 + c % 64 - 0x80) = c := by omega
          rw [e]
          by_cases hs : 0xD800 ≤ c ∧ c ≤ 0xDFFF
          · rw [if_neg (by omega), if_pos hs]
          · rw [if_pos (by omega), if_neg hs]
        · next h3 =>
          simp only [utf8Decode]
          have e : (0xF0 + c / 262144 % 8 - 0xF0) * 262144 +
              (0x80 + c / 4096 % 64 - 0x80) * 4096 + (0x80 + c / 64 % 64 - 0x80) * 64 +
              (0x80 + c % 64 - 0x80) = c := by omega
          rw [e, if_pos (by omega), if_neg (by omega)]

theorem codepoint_to_utf8_correct_witness :
    (0x2588 ≤ 0x10FFFF) ∧
    ((codepoint_to_utf8 0x2588).length =
      (if 0x2588 ≤ 0x7F then 1 else if 0x2588 ≤ 0x7FF then 2 else if 0x2588 ≤ 0xFFFF then 3
        else 4) ∧
    (∀ b ∈ codepoint_to_utf8 0x2588, b < 256) ∧
    utf8Decode (codepoint_to_utf8 0x2588) =
      (if 0xD800 ≤ 0x2588 ∧ 0x2588 ≤ 0xDFFF then none else some 0x2588) ∧
    codepoint_to_utf8 0x2588 = [0xE2, 0x96, 0x88]) :=
  ⟨by decide, codepoint_to_utf8_correct 0x2588 (by decide)⟩

/-- C29, counterexample: the surrogate `0xD800` is within `0 .. 0x10FFFF`,
`codepoint_to_utf8` writes it as
`ED A0 80`, and decoding these bytes by the UTF-8 rules does not return `0xD800`. -/
theorem codepoint_to_utf8_correct_counterexample :
    0xD800 ≤ 0x10FFFF ∧ codepoint_to_utf8 0xD800 = [0xED, 0xA0, 0x80] ∧
    utf8Decode (codepoint_to_utf8 0xD800) ≠ some 0xD800 := by
  decide

/-! ## The column ranges and the runs of `resample_to_planes_fast` -/

theorem runLinked_step (x0s x1s : List Nat) (out_w k : Nat) (s : RunState)
    (hk : s.run_start < k) (h : RunLinked s) : RunLinked (runStep x0s x1s out_w s k) := by
  obtain ⟨h1, h2, h3, h4, h5⟩ := h
  have key : ∀ len : Int, RunLinked
      (if len ≠ s.cur_len then ⟨s.runs ++ [⟨s.run_start, k, s.cur_len⟩], k, len⟩ else s) := by
    intro len
    by_cases hne : len = s.cur_len
    · rw [if_neg (not_not.2 hne)]
      exact ⟨h1, h2, h3, h4, h5⟩
    rw [if_pos hne]
    refine ⟨?_, ?_, ?_, ?_, ?_⟩
    · intro run hrun
      dsimp only at hrun
      rw [List.mem_append, List.mem_singleton] at hrun
      rcases hrun with hrun | hrun
      · exact h1 run hrun
      · subst hrun; exact hk
    · refine List.Chain'.append h2 (List.chain'_singleton _) ?_
      intro x hx y hy
      simp only [List.head?_cons, Option.mem_def, Option.some.injEq] at hy
      subst hy
      exact h5 x hx
    · intro run hrun
      dsimp only at hrun
      cases hr : s.runs with
      | nil =>
        rw [hr] at hrun
        simp only [List.nil_append, List.head?_cons, Option.some.injEq] at hrun
        subst hrun
        exact h4 hr
      | cons a l =>
        rw [hr] at hrun h3
        simp only [List.cons_append, List.head?_cons, Option.some.injEq] at hrun h3
        exact h3 run hrun
    · intro hnil
      simp at hnil
    · intro run hrun
      dsimp only at hrun
      rw [List.getLast?_append] at hrun
      simp only [List.getLast?_singleton] at hrun
      change some _ = some run at hrun
      simp only [Option.some.injEq] at hrun
      subst hrun
      exact ⟨rfl, fun e => hne e.symm⟩
  exact key _

theorem runLinked_fold (x0s x1s : List Nat) (out_w : Nat) (n : Nat) (hn : n + 1 ≤ out_w) :
    RunLinked ((List.range' 1 n).foldl (runStep x0s x1s out_w)
      ⟨[], 0, (x1s.getD 0 0 : Int) - (x0s.getD 0 0 : Int)⟩) := by
  induction n with
  | zero =>
    refine ⟨by simp, by simp, by simp, by simp, by simp⟩
  | succ n ih =>
    rw [List.range'_concat, List.foldl_append]
    simp only [Nat.one_mul, List.foldl_cons, List.foldl_nil]
    rw [Nat.add_comm 1 n]
    exact runLinked_step x0s x1s out_w (n + 1) _
      (runInv_fold x0s x1s out_w n (by omega)).1 (ih (by omega))

/-- The runs are linked: none is empty, each stops where the next one starts and has another
length, the first starts at column 0 and the last stops at `out_w`. -/
theorem buildRuns_linked (x0s x1s : List Nat) (out_w : Nat) (hw : 0 < out_w)
    (hlen : ∀ bx, bx < out_w → 0 ≤ colLen x0s x1s bx) :
    (∀ run ∈ buildRuns x0s x1s out_w, run.start < run.stop) ∧
    List.Chain' (fun a b : Run => a.stop = b.start ∧ a.len ≠ b.len) (buildRuns x0s x1s out_w) ∧
    (∃ run rest, buildRuns x0s x1s out_w = run :: rest ∧ run.start = 0) ∧
    (∃ run, (buildRuns x0s x1s out_w).getLast? = some run ∧ run.stop = out_w) := by
  unfold buildRuns
  simp only [hw, if_true]
  obtain ⟨n, rfl⟩ : ∃ n, out_w = n + 1 := ⟨out_w - 1, by omega⟩
  rw [List.range'_concat, List.foldl_append]
  simp only [Nat.one_mul, List.foldl_cons, List.foldl_nil]
  obtain ⟨h1, h2, -, -⟩ := runInv_fold x0s x1s (n + 1) n (le_refl _)
  have hL := runLinked_fold x0s x1s (n + 1) n (le_refl _)
  generalize (List.range' 1 n).foldl (runStep x0s x1s (n + 1))
    ⟨[], 0, (x1s.getD 0 0 : Int) - (x0s.getD 0 0 : Int)⟩ = s at h1 h2 hL
  have hcur : s.cur_len ≠ -1 := by
    have e := h2 s.run_start (le_refl _) h1
    have := hlen s.run_start (by omega)
    omega
  have e1 : (1 + n = n + 1) := by omega
  rw [e1]
  have hL' := runLinked_step x0s x1s (n + 1) (n + 1) s h1 hL
  have hst : runStep x0s x1s (n + 1) s (n + 1) =
      ⟨s.runs ++ [⟨s.run_start, n + 1, s.cur_len⟩], n + 1, -1⟩ := by
    unfold runStep
    have hcur' : ¬ ((-1 : Int) = s.cur_len) := fun h => hcur h.symm
    simp only [if_true, ne_eq, hcur', not_false_eq_true]
  rw [hst] at hL' ⊢
  obtain ⟨g1, g2, g3, -, g5⟩ := hL'
  dsimp only at g1 g2 g3 g5 ⊢
  refine ⟨g1, g2, ?_, ?_⟩
  · cases hr : s.runs ++ [(⟨s.run_start, n + 1, s.cur_len⟩ : Run)] with
    | nil => simp at hr
    | cons a l =>
      rw [hr] at g3
      exact ⟨a, l, rfl, g3 a (by simp)⟩
  · refine ⟨⟨s.run_start, n + 1, s.cur_len⟩, ?_, rfl⟩
    rw [List.getLast?_append]
    simp

/-- C28: for every source width `w ≥ 1` and `out_w ≥ 1`, the `Run` list built by
`resample_to_planes_fast` from the range tables, as the `double` expressions produce them,
partitions the output columns: the first run starts at 0, each run has `start < end`, each
run's `end` is the next run's `start`, the last run ends at `out_w`; every column `bx` of a
run satisfies `x1s[bx] - x0s[bx] == run.len`; and any two adjacent runs have different `len`.
When `out_w * w < 2^53` every `len` is positive. -/
theorem runs_partition (w out_w : Nat) (hw : 1 ≤ w) (ho : 1 ≤ out_w) :
    (∃ run rest, buildRuns (rangeStarts w out_w) (rangeEnds w out_w) out_w = run :: rest ∧
      run.start = 0) ∧
    (∀ run ∈ buildRuns (rangeStarts w out_w) (rangeEnds w out_w) out_w, run.start < run.stop) ∧
    List.Chain' (fun a b : Run => a.stop = b.start ∧ a.len ≠ b.len)
      (buildRuns (rangeStarts w out_w) (rangeEnds w out_w) out_w) ∧
    (∃ run, (buildRuns (rangeStarts w out_w) (rangeEnds w out_w) out_w).getLast? = some run ∧
      run.stop = out_w) ∧
    (∀ run ∈ buildRuns (rangeStarts w out_w) (rangeEnds w out_w) out_w, ∀ bx,
      run.start ≤ bx → bx < run.stop →
        bx < out_w ∧
        ((rangeEnds w out_w).getD bx 0 : Int) - ((rangeStarts w out_w).getD bx 0 : Int) =
          run.len ∧ (out_w * w < 2 ^ 53 → 0 < run.len)) := by
  have hlen := colLen_ranges_nonneg w out_w
  obtain ⟨a1, a2, a3, a4⟩ := buildRuns_linked (rangeStarts w out_w) (rangeEnds w out_w) out_w
    (by omega) hlen
  obtain ⟨b1, -⟩ := buildRuns_ok (rangeStarts w out_w) (rangeEnds w out_w) out_w (by omega) hlen
  refine ⟨a3, a1, a2, a4, ?_⟩
  intro run hrun bx hb1 hb2
  obtain ⟨c1, c2⟩ := b1 run hrun bx hb1 hb2
  refine ⟨c1, c2, ?_⟩
  intro hd
  rw [← c2]
  unfold colLen
  rw [getD_rangeStarts w out_w bx c1, getD_rangeEnds w out_w bx c1]
  have := rangeStart_lt_rangeEnd w out_w bx (by omega) c1 (range_prod_lt w out_w bx c1 hd)
  omega

theorem runs_partition_witness :
    (1 ≤ 5) ∧ (1 ≤ 3) ∧
    ((∃ run rest, buildRuns (rangeStarts 5 3) (rangeEnds 5 3) 3 = run :: rest ∧
      run.start = 0) ∧
    (∀ run ∈ buildRuns (rangeStarts 5 3) (rangeEnds 5 3) 3, run.start < run.stop) ∧
    List.Chain' (fun a b : Run => a.stop = b.start ∧ a.len ≠ b.len)
      (buildRuns (rangeStarts 5 3) (rangeEnds 5 3) 3) ∧
    (∃ run, (buildRuns (rangeStarts 5 3) (rangeEnds 5 3) 3).getLast? = some run ∧
      run.stop = 3) ∧
    (∀ run ∈ buildRuns (rangeStarts 5 3) (rangeEnds 5 3) 3, ∀ bx,
      run.start ≤ bx → bx < run.stop →
        bx < 3 ∧
        ((rangeEnds 5 3).getD bx 0 : Int) - ((rangeStarts 5 3).getD bx 0 : Int) =
          run.len ∧ (3 * 5 < 2 ^ 53 → 0 < run.len))) :=
  ⟨by decide, by decide, runs_partition 5 3 (by decide) (by decide)⟩

/-! ## The rectangle queries, the error and the prune check of `render_high` -/

theorem cellIn_val (highres : BlockPlanes) (hvals : ∀ c, ∀ v ∈ highres.get c, 0 ≤ v ∧ v ≤ 255)
    (sq : Bool) (c : Chan) (x y : Nat) :
    cellIn highres highres.width.toNat sq c x y =
      (if sq then ((highres.get c).getD (y * highres.width.toNat + x) 0).toNat *
          ((highres.get c).getD (y * highres.width.toNat + x) 0).toNat
        else ((highres.get c).getD (y * highres.width.toNat + x) 0).toNat) ∧
    cellIn highres highres.width.toNat sq c x y ≤ 65025 := by
  obtain ⟨h0, h255⟩ := getD_bounds (highres.get c) (hvals c) (y * highres.width.toNat + x)
  unfold cellIn
  simp only
  generalize (highres.get c).getD (y * highres.width.toNat + x) 0 = v at h0 h255
  have hn : v.toNat ≤ 255 := by omega
  have hu : toU64 v = v.toNat := by
    unfold toU64
    rw [Int.emod_eq_of_lt h0 (by omega)]
  rw [hu]
  have hm : v.toNat * v.toNat ≤ 65025 := Nat.mul_le_mul hn hn
  cases sq
  · simp only [Bool.false_eq_true, if_false]
    exact ⟨trivial, by omega⟩
  · simp only [if_true]
    unfold mulU64
    rw [Nat.mod_eq_of_lt (by omega)]
    exact ⟨rfl, hm⟩

theorem rectSum_le (f : Nat → Nat → Nat) (B x0 y0 x1 y1 : Nat) (hf : ∀ x y, f x y ≤ B) :
    rectSum f x0 y0 x1 y1 ≤ (y1 - y0) * ((x1 - x0) * B) := by
  unfold rectSum
  calc ∑ y ∈ Finset.range (y1 - y0), ∑ x ∈ Finset.range (x1 - x0), f (x0 + x) (y0 + y)
      ≤ ∑ _y ∈ Finset.range (y1 - y0), ∑ _x ∈ Finset.range (x1 - x0), B :=
        Finset.sum_le_sum (fun y _ => Finset.sum_le_sum (fun x _ => hf _ _))
    _ = (y1 - y0) * ((x1 - x0) * B) := by simp

theorem rectSum_Ico (f : Nat → Nat → Nat) (x0 y0 x1 y1 : Nat) :
    rectSum f x0 y0 x1 y1 = ∑ y ∈ Finset.Ico y0 y1, ∑ x ∈ Finset.Ico x0 x1, f x y := by
  unfold rectSum
  rw [Finset.sum_Ico_eq_sum_range]
  refine Finset.sum_congr rfl (fun y _ => ?_)
  rw [Finset.sum_Ico_eq_sum_range]

/-- The four-corner query on a table of `render_high` is the sum over the rectangle, without
any reduction modulo `2^64`, when the values are in `[0, 255]` and the table fits an `int`
index. -/
theorem rect_sum3_direct (highres : BlockPlanes) (sq : Bool) (c : Chan) (x0 y0 x1 y1 : Nat)
    (hvals : ∀ c, ∀ v ∈ highres.get c, 0 ≤ v ∧ v ≤ 255)
    (hfit : (highres.width.toNat + 1) * (highres.height.toNat + 1) ≤ 2 ^ 31)
    (hx : x0 ≤ x1) (hx1 : x1 ≤ highres.width.toNat) (hy : y0 ≤ y1)
    (hy1 : y1 ≤ highres.height.toNat) :
    rect_sum3 ((buildIntegrals highres).tab sq c) highres.width.toNat x0 y0 x1 y1 =
      ∑ y ∈ Finset.Ico y0 y1, ∑ x ∈ Finset.Ico x0 x1,
        (if sq then ((highres.get c).getD (y * highres.width.toNat + x) 0).toNat *
            ((highres.get c).getD (y * highres.width.toNat + x) 0).toNat
          else ((highres.get c).getD (y * highres.width.toNat + x) 0).toNat) := by
  rw [buildIntegrals_tab, rect_sum3_tab _ _ _ _ _ _ _ hx hx1 hy hy1]
  have hle := rectSum_le (cellIn highres highres.width.toNat sq c) 65025 x0 y0 x1 y1
    (fun x y => (cellIn_val highres hvals sq c x y).2)
  have h1 : (y1 - y0) * (x1 - x0) ≤ highres.height.toNat * highres.width.toNat :=
    Nat.mul_le_mul (by omega) (by omega)
  have h2 : highres.height.toNat * highres.width.toNat ≤
      (highres.width.toNat + 1) * (highres.height.toNat + 1) := by
    rw [Nat.mul_comm]
    exact Nat.mul_le_mul (by omega) (by omega)
  have h3 : (y1 - y0) * ((x1 - x0) * 65025) = (y1 - y0) * (x1 - x0) * 65025 := by ring
  have h4 : (y1 - y0) * (x1 - x0) * 65025 ≤ 2 ^ 31 * 65025 :=
    Nat.mul_le_mul_right _ (by omega)
  rw [Nat.mod_eq_of_lt (by
    have : (2 : Nat) ^ 31 * 65025 < 2 ^ 64 := by norm_num
    omega)]
  rw [rectSum_Ico]
  refine Finset.sum_congr rfl (fun y _ => Finset.sum_congr rfl (fun x _ => ?_))
  exact (cellIn_val highres hvals sq c x y).1

theorem darkPlanes_cellOK : CellOK darkPlanes 0 0 :=
  cellOK_of_values darkPlanes 1 1 0 0 (by decide) (by decide) darkPlanes_values (by decide)
    (by decide)

/-- C24: for every `BlockPlanes` of width `W` and height `H` with values in `[0, 255]` (and
with a table size `(W + 1) * (H + 1)` within the range of the `int` index of the tables) and
every rectangle `0 ≤ x0 ≤ x1 ≤ W`, `0 ≤ y0 ≤ y1 ≤ H`, the four-corner query `D + A - B - C` of
`render_high` on the prefix tables it builds equals the direct sum of the channel values,
respectively of their squares, over the cells with `x0 ≤ x < x1` and `y0 ≤ y < y1`; the
wrap-around of the unsigned 64-bit intermediate results does not change it. -/
theorem rect_query_exact (highres : BlockPlanes) (c : Chan) (x0 y0 x1 y1 : Nat)
    (hvals : ∀ c, ∀ v ∈ highres.get c, 0 ≤ v ∧ v ≤ 255)
    (hfit : (highres.width.toNat + 1) * (highres.height.toNat + 1) ≤ 2 ^ 31)
    (hx : x0 ≤ x1) (hx1 : x1 ≤ highres.width.toNat) (hy : y0 ≤ y1)
    (hy1 : y1 ≤ highres.height.toNat) :
    rect_sum3 ((buildIntegrals highres).sum.get c) highres.width.toNat x0 y0 x1 y1 =
      ∑ y ∈ Finset.Ico y0 y1, ∑ x ∈ Finset.Ico x0 x1,
        ((highres.get c).getD (y * highres.width.toNat + x) 0).toNat ∧
    rect_sum3 ((buildIntegrals highres).sq.get c) highres.width.toNat x0 y0 x1 y1 =
      ∑ y ∈ Finset.Ico y0 y1, ∑ x ∈ Finset.Ico x0 x1,
        ((highres.get c).getD (y * highres.width.toNat + x) 0).toNat *
          ((highres.get c).getD (y * highres.width.toNat + x) 0).toNat := by
  have h1 := rect_sum3_direct highres false c x0 y0 x1 y1 hvals hfit hx hx1 hy hy1
  have h2 := rect_sum3_direct highres true c x0 y0 x1 y1 hvals hfit hx hx1 hy hy1
  simp only [Integrals.tab, Bool.false_eq_true, if_false, if_true] at h1 h2
  exact ⟨h1, h2⟩

theorem rect_query_exact_witness :
    (∀ c, ∀ v ∈ darkPlanes.get c, 0 ≤ v ∧ v ≤ 255) ∧
    ((darkPlanes.width.toNat + 1) * (darkPlanes.height.toNat + 1) ≤ 2 ^ 31) ∧
    (2 ≤ 5) ∧ (5 ≤ darkPlanes.width.toNat) ∧ (1 ≤ 8) ∧ (8 ≤ darkPlanes.height.toNat) ∧
    (rect_sum3 ((buildIntegrals darkPlanes).sum.get Chan.R) darkPlanes.width.toNat 2 1 5 8 =
      ∑ y ∈ Finset.Ico 1 8, ∑ x ∈ Finset.Ico 2 5,
        ((darkPlanes.get Chan.R).getD (y * darkPlanes.width.toNat + x) 0).toNat ∧
    rect_sum3 ((buildIntegrals darkPlanes).sq.get Chan.R) darkPlanes.width.toNat 2 1 5 8 =
      ∑ y ∈ Finset.Ico 1 8, ∑ x ∈ Finset.Ico 2 5,
        ((darkPlanes.get Chan.R).getD (y * darkPlanes.width.toNat + x) 0).toNat *
          ((darkPlanes.get Chan.R).getD (y * darkPlanes.width.toNat + x) 0).toNat) :=
  ⟨darkPlanes_values, by decide, by decide, by decide, by decide, by decide,
    rect_query_exact darkPlanes Chan.R 2 1 5 8 darkPlanes_values (by decide) (by decide)
      (by decide) (by decide) (by decide)⟩

theorem tiePlanes_cellOK : CellOK tiePlanes 0 0 :=
  cellOK_of_values tiePlanes 1 1 0 0 (by decide) (by decide) tiePlanes_values (by decide)
    (by decide)

theorem means_eq (T F Fb n nb : Nat) (hT : T = F + Fb) (hn : 64 = n + nb) (hTle : T ≤ 16320) :
    (if n > 0 then toInt32 (F / n) else 0) = truncMean F n ∧
    (if subU64 64 n > 0 then toInt32 (subU64 T F / subU64 64 n) else 0) = truncMean Fb nb := by
  have e1 : subU64 64 n = nb := by
    rw [subU64_of_le 64 n (by omega) (by norm_num)]; omega
  have e2 : subU64 T F = Fb := by
    rw [subU64_of_le T F (by omega) (by omega)]; omega
  rw [e1, e2]
  unfold truncMean
  constructor
  · by_cases h : n = 0
    · simp [h]
    · have h1 : F / n ≤ F := Nat.div_le_self _ _
      rw [if_pos (by omega), if_neg h, toInt32_of_lt _ (by omega)]
  · by_cases h : nb = 0
    · simp [h]
    · have h1 : Fb / nb ≤ Fb := Nat.div_le_self _ _
      rw [if_pos (by omega), if_neg h, toInt32_of_lt _ (by omega)]

/-- The means of the prune check are the truncated means of the two regions of the glyph. -/
theorem regionMeans_spec (highres : BlockPlanes) (bx by_ : Nat) (hok : CellOK highres bx by_)
    (gd : GDesc) (hl : gd.level ≤ 8) :
    regionMeans (cellTotals (buildIntegrals highres) highres.width.toNat bx by_)
      (fgRegion (buildIntegrals highres) highres.width.toNat bx by_
        (cellTotals (buildIntegrals highres) highres.width.toNat bx by_) gd) =
      specMeans highres bx by_ gd := by
  rw [fgRegion_eq highres bx by_ hok gd hl, cellTotals_eq highres bx by_ hok]
  unfold regionMeans maskRegion specMeans
  simp only
  have hn := maskSum_compl gd.mask (fun _ _ => 1)
  rw [maskSum_true_one] at hn
  rw [maskSum_true_one]
  obtain ⟨_, r2, _, _, _⟩ := region_bounds highres bx by_ hok gd.mask Chan.R
  obtain ⟨_, g2, _, _, _⟩ := region_bounds highres bx by_ hok gd.mask Chan.G
  obtain ⟨_, b2, _, _, _⟩ := region_bounds highres bx by_ hok gd.mask Chan.B
  obtain ⟨r3, r4⟩ := means_eq _ _ _ _ _
    (maskSum_compl gd.mask (cellNat highres false Chan.R bx by_)) hn r2
  obtain ⟨g3, g4⟩ := means_eq _ _ _ _ _
    (maskSum_compl gd.mask (cellNat highres false Chan.G bx by_)) hn g2
  obtain ⟨b3, b4⟩ := means_eq _ _ _ _ _
    (maskSum_compl gd.mask (cellNat highres false Chan.B bx by_)) hn b2
  rw [r3, r4, g3, g4, b3, b4]

/-- C22: for every cell with values in `[0, 255]` and every glyph candidate of the table,
`render_high` skips the full error evaluation of the candidate if and only if
`|fr-br| + |fg-bg| + |fb-bb| < prune_threshold`, where `(fr,fg,fb)` and `(br,bg,bb)` are the
truncated integer means of the foreground and of the background region of the candidate: when
the inequality holds the best candidate is left as it was and the candidate is counted as
skipped, and otherwise the candidate is evaluated and counted as an evaluation. -/
theorem prune_check (highres : BlockPlanes) (thr : Int) (bx by_ : Nat)
    (hok : CellOK highres bx by_) (gd : GDesc) (hgd : gd ∈ glyphs) (st : Best × PruneStats) :
    (evaluatedAt (buildIntegrals highres) highres.width.toNat thr bx by_ gd = false ↔
      colorDiff (specMeans highres bx by_ gd) < thr) ∧
    (colorDiff (specMeans highres bx by_ gd) < thr →
      glyphStep (buildIntegrals highres) highres.width.toNat thr bx by_ st gd =
        (st.1, ⟨st.2.total_cells, st.2.candidates_considered + 1, st.2.candidates_skipped + 1,
          st.2.evaluations⟩)) ∧
    (¬ colorDiff (specMeans highres bx by_ gd) < thr →
      glyphStep (buildIntegrals highres) highres.width.toNat thr bx by_ st gd =
        (st.1.update (cellTotals (buildIntegrals highres) highres.width.toNat bx by_)
          (fgRegion (buildIntegrals highres) highres.width.toNat bx by_
            (cellTotals (buildIntegrals highres) highres.width.toNat bx by_) gd) gd,
          ⟨st.2.total_cells, st.2.candidates_considered + 1, st.2.candidates_skipped,
            st.2.evaluations + 1⟩)) := by
  have hm := regionMeans_spec highres bx by_ hok gd (glyphs_level_le gd hgd)
  refine ⟨?_, ?_, ?_⟩
  · unfold evaluatedAt
    simp only [hm]
    simp
  · intro h
    unfold glyphStep
    simp only [hm, h, if_true]
  · intro h
    unfold glyphStep
    simp only [hm, h, if_false]

theorem prune_check_witness :
    CellOK darkPlanes 0 0 ∧ (⟨0x2588, GType.F, 0, 0⟩ : GDesc) ∈ glyphs ∧
    ((evaluatedAt (buildIntegrals darkPlanes) darkPlanes.width.toNat 24 0 0
        ⟨0x2588, GType.F, 0, 0⟩ = false ↔
      colorDiff (specMeans darkPlanes 0 0 ⟨0x2588, GType.F, 0, 0⟩) < 24) ∧
    (colorDiff (specMeans darkPlanes 0 0 ⟨0x2588, GType.F, 0, 0⟩) < 24 →
      glyphStep (buildIntegrals darkPlanes) darkPlanes.width.toNat 24 0 0
          (Best.init, ⟨0, 0, 0, 0⟩) ⟨0x2588, GType.F, 0, 0⟩ =
        (Best.init, ⟨0, 0 + 1, 0 + 1, 0⟩)) ∧
    (¬ colorDiff (specMeans darkPlanes 0 0 ⟨0x2588, GType.F, 0, 0⟩) < 24 →
      glyphStep (buildIntegrals darkPlanes) darkPlanes.width.toNat 24 0 0
          (Best.init, ⟨0, 0, 0, 0⟩) ⟨0x2588, GType.F, 0, 0⟩ =
        (Best.init.update
          (cellTotals (buildIntegrals darkPlanes) darkPlanes.width.toNat 0 0)
          (fgRegion (buildIntegrals darkPlanes) darkPlanes.width.toNat 0 0
            (cellTotals (buildIntegrals darkPlanes) darkPlanes.width.toNat 0 0)
            ⟨0x2588, GType.F, 0, 0⟩) ⟨0x2588, GType.F, 0, 0⟩,
          ⟨0, 0 + 1, 0, 0 + 1⟩))) :=
  ⟨darkPlanes_cellOK, by decide,
    prune_check darkPlanes 24 0 0 darkPlanes_cellOK ⟨0x2588, GType.F, 0, 0⟩ (by decide)
      (Best.init, ⟨0, 0, 0, 0⟩)⟩

/-! ## `TaskSystem::stop` -/

theorem set_mem_of_getElem? {α : Type} (l : List α) (w : Nat) (a x : α) (h : l[w]? = some a) :
    x ∈ l.set w x := by
  have hw : w < l.length := by
    by_contra hcon
    rw [List.getElem?_eq_none (by omega)] at h
    cases h
  exact List.mem_iff_getElem.2 ⟨w, by rw [List.length_set]; exact hw, by simp⟩

theorem inFlight_of_exited (s : TaskSystem) (h : ∀ w ∈ s.workers, w = Worker.exited) :
    s.inFlight = [] := by
  unfold TaskSystem.inFlight
  rw [List.filterMap_eq_nil_iff]
  intro w hw
  rw [h w hw]

/-- A step of the pool does not lose a task. -/
theorem pending_step (s s' : TaskSystem) (a : Action) (task : Task) (hP : s.Pending task)
    (h : s.step a = some s') : s'.Pending task := by
  cases a with
  | submit t =>
    simp only [TaskSystem.step, Option.some.injEq] at h
    subst h
    rcases hP with hP | hP | ⟨hP, hal⟩
    · exact Or.inl hP
    · exact Or.inr (Or.inl hP)
    · exact Or.inr (Or.inr ⟨List.mem_append_left _ hP, hal⟩)
  | stop =>
    simp only [TaskSystem.step, Option.some.injEq] at h
    subst h
    unfold TaskSystem.setStop
    split
    · exact hP
    · exact hP
  | dequeue w =>
    simp only [TaskSystem.step, TaskSystem.dequeue] at h
    split at h
    · next hw =>
      split at h
      · split at h
        · next hstop =>
          simp only [Option.some.injEq] at h
          subst h
          have e := inFlight_set_same s.workers w Worker.waiting Worker.exited hw
            (by intro t; simp) (by intro t; simp) s rfl
            { s with workers := s.workers.set w Worker.exited } rfl
          rcases hP with hP | hP | ⟨hP, hal⟩
          · exact Or.inl hP
          · exact Or.inr (Or.inl (by rw [e]; exact hP))
          · simp only [Bool.and_eq_true, List.isEmpty_iff] at hstop
            rw [hstop.2] at hP
            cases hP
        · split at h
          · simp only [Option.some.injEq] at h
            subst h
            exact hP
          · next t rest htasks =>
            simp only [Option.some.injEq] at h
            subst h
            have e := inFlight_set_running s.workers w Worker.waiting t hw
              (by intro t; simp) s rfl
              { s with workers := s.workers.set w (Worker.running t), tasks := rest
                       activeTasks := s.activeTasks + 1 } rfl
            rcases hP with hP | hP | ⟨hP, hal⟩
            · exact Or.inl hP
            · exact Or.inr (Or.inl (e.symm.subset (List.mem_cons_of_mem _ hP)))
            · rw [htasks] at hP
              rcases List.mem_cons.1 hP with hP | hP
              · subst hP
                exact Or.inr (Or.inl (e.symm.subset (List.mem_cons_self _ _)))
              · exact Or.inr (Or.inr ⟨hP, Worker.running t,
                  set_mem_of_getElem? s.workers w Worker.waiting _ hw, by simp⟩)
      · cases h
    · cases h
  | finish w =>
    simp only [TaskSystem.step, TaskSystem.finish] at h
    split at h
    · next t hw =>
      simp only [Option.some.injEq] at h
      subst h
      have e := inFlight_set_idle s.workers w Worker.waiting t hw
        (by intro t; simp) s rfl
        { s with workers := s.workers.set w Worker.waiting
                 activeTasks := s.activeTasks - 1
                 completed := s.completed ++ [t]
                 errors := s.errors + t.outcome.logged } rfl
      rcases hP with hP | hP | ⟨hP, hal⟩
      · exact Or.inl (List.mem_append_left _ hP)
      · rcases List.mem_cons.1 (e.subset hP) with hP | hP
        · subst hP
          exact Or.inl (List.mem_append_right _ (List.mem_singleton_self _))
        · exact Or.inr (Or.inl hP)
      · exact Or.inr (Or.inr ⟨hP, Worker.waiting,
          set_mem_of_getElem? s.workers w (Worker.running t) _ hw, by simp⟩)
    · cases h

theorem pending_run (actions : List Action) (s s' : TaskSystem) (task : Task)
    (hP : s.Pending task) (h : s.run actions = some s') : s'.Pending task := by
  induction actions generalizing s with
  | nil =>
    simp only [TaskSystem.run, Option.some.injEq] at h
    subst h
    exact hP
  | cons a as ih =>
    simp only [TaskSystem.run] at h
    cases hs : s.step a with
    | none => rw [hs] at h; cases h
    | some s1 =>
      rw [hs] at h
      exact ih s1 (pending_step s s1 a task hP hs) h

theorem getElem?_set_cases {α : Type} (l : List α) (w v : Nat) (x y : α)
    (h : (l.set w x)[v]? = some y) : (v = w ∧ y = x) ∨ l[v]? = some y := by
  by_cases hvw : w = v
  · subst hvw
    by_cases hw : w < l.length
    · rw [List.getElem?_set_self hw] at h
      simp only [Option.some.injEq] at h
      exact Or.inl ⟨rfl, h.symm⟩
    · rw [List.getElem?_eq_none (by rw [List.length_set]; omega)] at h
      cases h
  · rw [List.getElem?_set_ne hvw] at h
    exact Or.inr h

/-- A worker leaves its loop only in a step that starts with the stop flag set and the queue
empty. -/
theorem exit_step (s s' : TaskSystem) (a : Action) (w : Nat) (h : s.step a = some s')
    (h0 : s.workers[w]? ≠ some Worker.exited) (h1 : s'.workers[w]? = some Worker.exited) :
    s.stopFlag = true ∧ s.tasks = [] := by
  cases a with
  | submit t =>
    simp only [TaskSystem.step, Option.some.injEq] at h
    subst h
    exact absurd h1 h0
  | stop =>
    simp only [TaskSystem.step, Option.some.injEq] at h
    subst h
    unfold TaskSystem.setStop at h1
    split at h1
    · exact absurd h1 h0
    · exact absurd h1 h0
  | dequeue w' =>
    simp only [TaskSystem.step, TaskSystem.dequeue] at h
    split at h
    · next hw =>
      split at h
      · split at h
        · next hstop =>
          simp only [Bool.and_eq_true, List.isEmpty_iff] at hstop
          exact hstop
        · split at h
          · simp only [Option.some.injEq] at h
            subst h
            exact absurd h1 h0
          · next t rest htasks =>
            simp only [Option.some.injEq] at h
            subst h
            rcases getElem?_set_cases _ _ _ _ _ h1 with ⟨-, h2⟩ | h2
            · cases h2
            · exact absurd h2 h0
      · cases h
    · cases h
  | finish w' =>
    simp only [TaskSystem.step, TaskSystem.finish] at h
    split at h
    · next t hw =>
      simp only [Option.some.injEq] at h
      subst h
      rcases getElem?_set_cases _ _ _ _ _ h1 with ⟨-, h2⟩ | h2
      · cases h2
      · exact absurd h2 h0
    · cases h

/-- C21: `TaskSystem::stop` is idempotent and draining: a second call finds the stop flag set
and changes nothing; a worker leaves its loop only in a step that starts in a state where the
stop flag is set and the queue is empty, and a waiting worker that finds a task in the queue
takes it whether or not the stop flag is set; so a task that is in the queue of a pool with a
worker still in its loop has been run when all workers have left their loops, whenever `stop`
is called. -/
theorem stop_idempotent_draining (s s' : TaskSystem) (task : Task) (actions : List Action)
    (hq : task ∈ s.tasks) (hal : s.alive) (hrun : s.run actions = some s')
    (hex : ∀ w ∈ s'.workers, w = Worker.exited) :
    s.setStop.setStop = s.setStop ∧ (s.stopFlag = true → s.setStop = s) ∧
    s.setStop.stopFlag = true ∧
    (∀ (t t' : TaskSystem) (a : Action) (w : Nat), t.step a = some t' →
      t.workers[w]? ≠ some Worker.exited → t'.workers[w]? = some Worker.exited →
      t.stopFlag = true ∧ t.tasks = []) ∧
    (∀ (t : TaskSystem) (w : Nat) (x : Task) (rest : List Task),
      t.workers[w]? = some Worker.waiting → t.tasks = x :: rest →
      t.dequeue w = some { t with workers := t.workers.set w (Worker.running x), tasks := rest
                                  activeTasks := t.activeTasks + 1 }) ∧
    task ∈ s'.completed := by
  refine ⟨?_, ?_, ?_, ?_, ?_, ?_⟩
  · unfold TaskSystem.setStop
    by_cases h : s.stopFlag = true
    · simp [h]
    · simp [h]
  · intro h
    unfold TaskSystem.setStop
    simp [h]
  · unfold TaskSystem.setStop
    by_cases h : s.stopFlag = true
    · simp [h]
    · simp [h]
  · intro t t' a w h h0 h1
    exact exit_step t t' a w h h0 h1
  · intro t w x rest hw ht
    unfold TaskSystem.dequeue
    simp only [hw, ht]
    simp
  · rcases pending_run actions s s' task (Or.inr (Or.inr ⟨hq, hal⟩)) hrun with h | h | ⟨-, h⟩
    · exact h
    · rw [inFlight_of_exited s' hex] at h
      cases h
    · obtain ⟨w, hw, hne⟩ := h
      exact absurd (hex w hw) hne

theorem stop_idempotent_draining_witness :
    (⟨7, Outcome.returns⟩ : Task) ∈ ((TaskSystem.new 2 1).submit ⟨7, Outcome.returns⟩).tasks ∧
    ((TaskSystem.new 2 1).submit ⟨7, Outcome.returns⟩).alive ∧
    ((TaskSystem.new 2 1).submit ⟨7, Outcome.returns⟩).run
        [Action.stop, Action.dequeue 0, Action.finish 0, Action.dequeue 0] =
      some ⟨[Worker.exited], [], true, 0, [⟨7, Outcome.returns⟩], [⟨7, Outcome.returns⟩], 0⟩ ∧
    (∀ w ∈ (⟨[Worker.exited], [], true, 0, [⟨7, Outcome.returns⟩], [⟨7, Outcome.returns⟩], 0⟩ :
      TaskSystem).workers, w = Worker.exited) ∧
    (⟨7, Outcome.returns⟩ : Task) ∈
      (⟨[Worker.exited], [], true, 0, [⟨7, Outcome.returns⟩], [⟨7, Outcome.returns⟩], 0⟩ :
        TaskSystem).completed :=
  ⟨by decide, ⟨Worker.waiting, by decide, by decide⟩, by decide, by decide,
    (stop_idempotent_draining ((TaskSystem.new 2 1).submit ⟨7, Outcome.returns⟩)
      ⟨[Worker.exited], [], true, 0, [⟨7, Outcome.returns⟩], [⟨7, Outcome.returns⟩], 0⟩
      ⟨7, Outcome.returns⟩ [Action.stop, Action.dequeue 0, Action.finish 0, Action.dequeue 0]
      (by decide) ⟨Worker.waiting, by decide, by decide⟩ (by decide) (by decide)).2.2.2.2.2⟩

/-! ## The bands of `render_high` and the measuring mode -/

theorem emitCell_append (o1 o : List Nat) (a b c d e f : Int) (best : Best) :
    emitCell ⟨o1 ++ o, a, b, c, d, e, f⟩ best =
      ⟨o1 ++ (emitCell ⟨o, a, b, c, d, e, f⟩ best).out,
        (emitCell ⟨o, a, b, c, d, e, f⟩ best).prev_br,
        (emitCell ⟨o, a, b, c, d, e, f⟩ best).prev_bg,
        (emitCell ⟨o, a, b, c, d, e, f⟩ best).prev_bb,
        (emitCell ⟨o, a, b, c, d, e, f⟩ best).prev_fr,
        (emitCell ⟨o, a, b, c, d, e, f⟩ best).prev_fg,
        (emitCell ⟨o, a, b, c, d, e, f⟩ best).prev_fb⟩ := by
  unfold emitCell
  by_cases h1 : best.best_br ≠ a ∨ best.best_bg ≠ b ∨ best.best_bb ≠ c
  · by_cases h2 : best.best_fr ≠ d ∨ best.best_fg ≠ e ∨ best.best_fb ≠ f
    · simp only [h1, h2, if_true, List.append_assoc]
    · simp only [h1, h2, if_true, if_false, List.append_assoc]
  · by_cases h2 : best.best_fr ≠ d ∨ best.best_fg ≠ e ∨ best.best_fb ≠ f
    · simp only [h1, h2, if_true, if_false, List.append_assoc]
    · simp only [h1, h2, if_false, List.append_assoc]

/-- The string of a row state is only ever appended to. -/
theorem highCell_append (t : Integrals) (high_w : Nat) (thr : Int) (mo : Bool) (by_ : Nat)
    (o1 : List Nat) (l : List Nat) (st : HighRow) :
    l.foldl (highCell t high_w thr mo by_)
        ⟨o1 ++ st.out, st.prev_br, st.prev_bg, st.prev_bb, st.prev_fr, st.prev_fg, st.prev_fb⟩ =
      ⟨o1 ++ (l.foldl (highCell t high_w thr mo by_) st).out,
        (l.foldl (highCell t high_w thr mo by_) st).prev_br,
        (l.foldl (highCell t high_w thr mo by_) st).prev_bg,
        (l.foldl (highCell t high_w thr mo by_) st).prev_bb,
        (l.foldl (highCell t high_w thr mo by_) st).prev_fr,
        (l.foldl (highCell t high_w thr mo by_) st).prev_fg,
        (l.foldl (highCell t high_w thr mo by_) st).prev_fb⟩ := by
  induction l generalizing st with
  | nil => rfl
  | cons bx l ih =>
    simp only [List.foldl_cons]
    have e : highCell t high_w thr mo by_
        ⟨o1 ++ st.out, st.prev_br, st.prev_bg, st.prev_bb, st.prev_fr, st.prev_fg, st.prev_fb⟩
        bx =
        ⟨o1 ++ (highCell t high_w thr mo by_ st bx).out,
          (highCell t high_w thr mo by_ st bx).prev_br,
          (highCell t high_w thr mo by_ st bx).prev_bg,
          (highCell t high_w thr mo by_ st bx).prev_bb,
          (highCell t high_w thr mo by_ st bx).prev_fr,
          (highCell t high_w thr mo by_ st bx).prev_fg,
          (highCell t high_w thr mo by_ st bx).prev_fb⟩ := by
      unfold highCell
      cases mo
      · simp only [Bool.false_eq_true, if_false]
        exact emitCell_append o1 st.out _ _ _ _ _ _ _
      · simp only [if_true]
    rw [e]
    exact ih _

/-- A row appends its bytes to the string of the task. -/
theorem highLine_append (t : Integrals) (high_w out_w : Nat) (thr : Int) (mo : Bool)
    (out : List Nat) (by_ : Nat) :
    highLine t high_w out_w thr mo out by_ = out ++ highLine t high_w out_w thr mo [] by_ := by
  unfold highLine
  have h := highCell_append t high_w thr mo by_ out (List.range out_w)
    ⟨[], -1, -1, -1, -1, -1, -1⟩
  simp only [List.append_nil] at h
  rw [h]
  cases mo
  · simp only [Bool.false_eq_true, if_false, List.append_assoc]
  · simp only [if_true, List.append_assoc]

theorem highPart_rows (t : Integrals) (high_w out_w out_h threads : Nat) (thr : Int)
    (mo : Bool) (tid : Nat) :
    highPart t high_w out_w out_h threads thr mo tid =
      (List.range' ((out_h * tid) / threads)
        ((out_h * (tid + 1)) / threads - (out_h * tid) / threads)).flatMap
        (highLine t high_w out_w thr mo []) := by
  unfold highPart
  simp only
  rw [foldl_append_flatMap_mem _ (highLine t high_w out_w thr mo []) _
    (fun by_ _ out => highLine_append t high_w out_w thr mo out by_)]
  rfl

/-- The concatenation of the parts of the bands is the sequence of the rows. -/
theorem parts_rows (t : Integrals) (high_w out_w out_h threads : Nat) (thr : Int) (mo : Bool)
    (ht : 1 ≤ threads) :
    (List.range threads).flatMap (highPart t high_w out_w out_h threads thr mo) =
      (List.range out_h).flatMap (highLine t high_w out_w thr mo []) := by
  rw [flatMap_congr_mem _ _ _ (fun tid _ => highPart_rows t high_w out_w out_h threads thr mo tid)]
  rw [← List.flatMap_assoc, band_rows out_h threads threads, Nat.mul_div_cancel _ (by omega)]

/-- The best candidate of a cell does not depend on the counters. -/
theorem cellSearch_fst (t : Integrals) (high_w : Nat) (thr : Int) (bx by_ : Nat)
    (s1 s2 : PruneStats) :
    (cellSearch t high_w thr bx by_ s1).1 = (cellSearch t high_w thr bx by_ s2).1 := by
  unfold cellSearch
  rw [← selectStep_fst t high_w thr bx by_ glyphs Best.init none s1,
    ← selectStep_fst t high_w thr bx by_ glyphs Best.init none s2]

theorem highLineStats_eq (t : Integrals) (high_w out_w : Nat) (thr : Int) (mo : Bool)
    (st : List Nat × PruneStats) (by_ : Nat) :
    highLineStats t high_w out_w thr mo st by_ =
      (highLine t high_w out_w thr mo st.1 by_, rowStats t high_w out_w thr st.2 by_) := by
  unfold highLineStats highLine rowStats
  simp only
  have h1 := foldl_proj (fun s : HighRow × PruneStats => s.1)
    (highCellStats t high_w thr mo by_) (highCell t high_w thr mo by_)
    (by
      intro s bx
      unfold highCellStats highCell
      simp only
      rw [cellSearch_fst t high_w thr bx by_ s.2 ⟨0, 0, 0, 0⟩])
    (List.range out_w)
    (⟨st.1, -1, -1, -1, -1, -1, -1⟩, { st.2 with total_cells := st.2.total_cells + out_w })
  have h2 := foldl_proj (fun s : HighRow × PruneStats => s.2)
    (highCellStats t high_w thr mo by_)
    (fun s bx => (cellSearch t high_w thr bx by_ s).2)
    (by intro s bx; rfl)
    (List.range out_w)
    (⟨st.1, -1, -1, -1, -1, -1, -1⟩, { st.2 with total_cells := st.2.total_cells + out_w })
  simp only at h1 h2
  rw [h1, h2]

theorem highTask_eq (t : Integrals) (high_w out_w out_h threads : Nat) (thr : Int) (mo : Bool)
    (tid : Nat) (stats : PruneStats) :
    highTask t high_w out_w out_h threads thr mo tid stats =
      (highPart t high_w out_w out_h threads thr mo tid,
        bandStats t high_w out_w out_h threads thr stats tid) := by
  unfold highTask highPart bandStats
  simp only
  have h1 := foldl_proj (fun s : List Nat × PruneStats => s.1)
    (highLineStats t high_w out_w thr mo) (highLine t high_w out_w thr mo)
    (by intro s by_; rw [highLineStats_eq])
    (List.range' ((out_h * tid) / threads)
      ((out_h * (tid + 1)) / threads - (out_h * tid) / threads)) ([], stats)
  have h2 := foldl_proj (fun s : List Nat × PruneStats => s.2)
    (highLineStats t high_w out_w thr mo) (rowStats t high_w out_w thr)
    (by intro s by_; rw [highLineStats_eq])
    (List.range' ((out_h * tid) / threads)
      ((out_h * (tid + 1)) / threads - (out_h * tid) / threads)) ([], stats)
  simp only at h1 h2
  exact Prod.ext h1 h2

theorem parts_fold (h : Nat → List Nat) (l : List Nat) :
    ∀ (parts : List (List Nat)) (tid : Nat), tid < parts.length →
      (l.foldl (fun p tid' => p.set tid' (h tid')) parts).getD tid [] =
        if tid ∈ l then h tid else parts.getD tid [] := by
  induction l with
  | nil => intro parts tid _; simp
  | cons a l ih =>
    intro parts tid htid
    simp only [List.foldl_cons]
    rw [ih (parts.set a (h a)) tid (by rw [List.length_set]; exact htid)]
    by_cases hl : tid ∈ l
    · simp [hl]
    · simp only [hl, if_false, List.mem_cons, or_false]
      by_cases hat : tid = a
      · subst hat
        simp only [if_true]
        rw [List.getD_eq_getElem?_getD, List.getElem?_set_self htid]
        rfl
      · simp only [hat, if_false]
        rw [List.getD_eq_getElem?_getD, List.getD_eq_getElem?_getD,
          List.getElem?_set_ne (fun e => hat e.symm)]

/-- The text and the counters of `render_high` in terms of the bands: the text is the
concatenation of the parts in the order of `tid`, whatever the order of execution. -/
theorem render_high_sched_eq (highres : BlockPlanes) (out_w out_h hc : Nat) (thr : Int)
    (mo : Bool) (order : List Nat → List Nat) (ho : ∀ l, (order l).Perm l) :
    render_high_sched highres out_w out_h hc thr mo order =
      ((List.range (max 1 hc)).flatMap
        (highPart (buildIntegrals highres) highres.width.toNat out_w out_h (max 1 hc) thr mo),
       (order (List.range (max 1 hc))).foldl
        (bandStats (buildIntegrals highres) highres.width.toNat out_w out_h (max 1 hc) thr)
        ⟨0, 0, 0, 0⟩) := by
  unfold render_high_sched
  simp only
  have h1 := foldl_proj (fun s : List (List Nat) × PruneStats => s.1)
    (fun (st : List (List Nat) × PruneStats) tid =>
      ((st.1.set tid (highTask (buildIntegrals highres) highres.width.toNat out_w out_h
          (max 1 hc) thr mo tid st.2).1),
        (highTask (buildIntegrals highres) highres.width.toNat out_w out_h
          (max 1 hc) thr mo tid st.2).2))
    (fun p tid => p.set tid
      (highPart (buildIntegrals highres) highres.width.toNat out_w out_h (max 1 hc) thr mo tid))
    (by intro s tid; simp only [highTask_eq])
    (order (List.range (max 1 hc))) (List.replicate (max 1 hc) [], ⟨0, 0, 0, 0⟩)
  have h2 := foldl_proj (fun s : List (List Nat) × PruneStats => s.2)
    (fun (st : List (List Nat) × PruneStats) tid =>
      ((st.1.set tid (highTask (buildIntegrals highres) highres.width.toNat out_w out_h
          (max 1 hc) thr mo tid st.2).1),
        (highTask (buildIntegrals highres) highres.width.toNat out_w out_h
          (max 1 hc) thr mo tid st.2).2))
    (bandStats (buildIntegrals highres) highres.width.toNat out_w out_h (max 1 hc) thr)
    (by intro s tid; simp only [highTask_eq])
    (order (List.range (max 1 hc))) (List.replicate (max 1 hc) [], ⟨0, 0, 0, 0⟩)
  simp only at h1 h2
  rw [h1, h2, foldl_append_flatMap, List.nil_append]
  refine Prod.ext ?_ rfl
  simp only
  refine flatMap_congr_mem _ _ _ (fun tid htid => ?_)
  rw [parts_fold _ _ _ tid (by rw [List.length_replicate]; exact List.mem_range.1 htid)]
  rw [if_pos ((ho _).mem_iff.2 htid)]

/-- The text of `render_high` is the sequence of its rows. -/
theorem render_high_sched_text (highres : BlockPlanes) (out_w out_h hc : Nat) (thr : Int)
    (mo : Bool) (order : List Nat → List Nat) (ho : ∀ l, (order l).Perm l) :
    (render_high_sched highres out_w out_h hc thr mo order).1 =
      (List.range out_h).flatMap
        (highLine (buildIntegrals highres) highres.width.toNat out_w thr mo []) := by
  rw [render_high_sched_eq highres out_w out_h hc thr mo order ho]
  exact parts_rows _ _ _ _ _ _ _ (by omega)

/-- In the measuring mode a row is its newline. -/
theorem highLine_measure (t : Integrals) (high_w out_w : Nat) (thr : Int) (by_ : Nat) :
    highLine t high_w out_w thr true [] by_ = [10] := by
  unfold highLine
  have h : ∀ (l : List Nat) (st : HighRow), l.foldl (highCell t high_w thr true by_) st = st := by
    intro l
    induction l with
    | nil => intro st; rfl
    | cons a l ih =>
      intro st
      simp only [List.foldl_cons]
      rw [show highCell t high_w thr true by_ st a = st from rfl]
      exact ih st
  simp only [h, if_true]
  rfl

theorem measure_text (highres : BlockPlanes) (out_w out_h hc : Nat) (thr : Int)
    (order : List Nat → List Nat) (ho : ∀ l, (order l).Perm l) :
    (render_high_sched highres out_w out_h hc thr true order).1 = List.replicate out_h 10 := by
  rw [render_high_sched_text highres out_w out_h hc thr true order ho]
  rw [flatMap_congr_mem _ (fun _ => [10]) _ (fun by_ _ => highLine_measure _ _ _ _ by_)]
  induction out_h with
  | zero => rfl
  | succ n ih =>
    rw [List.range_succ, List.flatMap_append, ih, List.replicate_succ']
    rfl

/-- C26, the code at the failing input: for the grid of one cell of `darkPlanes` and
`measure_only = true` the returned text is not empty: it is the newline of the row. -/
theorem measure_only_newline :
    (((1 * 8 : Nat) : Int) ≤ darkPlanes.width) ∧ (((1 * 8 : Nat) : Int) ≤ darkPlanes.height) ∧
    (render_high_sched darkPlanes 1 1 4 24 true id).1 = ascii "\n" ∧
    (render_high_sched darkPlanes 1 1 4 24 true id).1 ≠ [] := by
  rw [measure_text darkPlanes 1 1 4 24 id (fun l => List.Perm.refl l)]
  exact ⟨by decide, by decide, rfl, by decide⟩

/-! ## The colours of the selected candidate -/

/-- A dyadic rational with a numerator below `2^53` is a `double`. -/
theorem fl_dyadic (z : ℤ) (j : ℕ) (hz : |z| < 2 ^ 53) :
    fl ((z : ℚ) / 2 ^ j) = (z : ℚ) / 2 ^ j := by
  unfold fl
  split
  · next h => rw [h]
  · next hx =>
    have h3 := expo_le ((z : ℚ) / 2 ^ j) hx
    have hpos : (0 : ℚ) < 2 ^ j := by positivity
    have habs : |(z : ℚ) / 2 ^ j| = |(z : ℚ)| / 2 ^ j := by
      rw [abs_div, abs_of_pos hpos]
    have hzq : |(z : ℚ)| < 2 ^ 53 := by
      have : ((|z| : ℤ) : ℚ) < ((2 ^ 53 : ℤ) : ℚ) := by exact_mod_cast hz
      rw [Int.cast_abs] at this
      calc |(z : ℚ)| < ((2 ^ 53 : ℤ) : ℚ) := this
        _ = 2 ^ 53 := by norm_num
    have hlt : (2 : ℚ) ^ (expo ((z : ℚ) / 2 ^ j)) < (2 : ℚ) ^ ((53 : ℤ) - (j : ℤ)) := by
      calc (2 : ℚ) ^ (expo ((z : ℚ) / 2 ^ j)) ≤ |(z : ℚ) / 2 ^ j| := h3
        _ = |(z : ℚ)| / 2 ^ j := habs
        _ < 2 ^ 53 / 2 ^ j := by
          rw [div_lt_div_iff_of_pos_right hpos]
          exact hzq
        _ = (2 : ℚ) ^ ((53 : ℤ) - (j : ℤ)) := by
          rw [zpow_sub₀ (by norm_num : (2 : ℚ) ≠ 0), zpow_natCast]
          norm_num
    have he : expo ((z : ℚ) / 2 ^ j) < 53 - (j : ℤ) := by
      by_contra hcon
      push_neg at hcon
      have := zpow_le_zpow_right₀ (by norm_num : (1 : ℚ) ≤ 2) hcon
      linarith
    obtain ⟨k, hk⟩ : ∃ k : ℕ, (52 : ℤ) - expo ((z : ℚ) / 2 ^ j) - (j : ℤ) = (k : ℤ) :=
      ⟨(52 - expo ((z : ℚ) / 2 ^ j) - (j : ℤ)).toNat, by omega⟩
    have hs : (2 : ℚ) ^ (expo ((z : ℚ) / 2 ^ j) - 52) = 1 / ((2 : ℚ) ^ k * 2 ^ j) := by
      have : expo ((z : ℚ) / 2 ^ j) - 52 = -(((k + j : ℕ) : ℤ)) := by
        push_cast
        omega
      rw [this, zpow_neg, zpow_natCast, pow_add]
      simp
    rw [hs]
    have e : (z : ℚ) / 2 ^ j / (1 / ((2 : ℚ) ^ k * 2 ^ j)) = (((z * 2 ^ k : ℤ)) : ℚ) := by
      push_cast
      field_simp
      ring
    rw [e, rne_intCast]
    push_cast
    field_simp
    ring

theorem fl_div64 (z : ℤ) (hz : |z| < 2 ^ 53) : fl ((z : ℚ) / 64) = (z : ℚ) / 64 := by
  have h := fl_dyadic z 6 hz
  have e : (2 : ℚ) ^ 6 = 64 := by norm_num
  rw [e] at h
  exact h

/-- The error of a channel of a candidate whose foreground is the whole cell, and of one whose
background is the whole cell, is computed without rounding and is the same. -/
theorem chanErrD_whole (T2 T : Nat) (hT : T ≤ 16320) (hT2 : T2 ≤ 4161600) :
    chanErrD T2 T T 64 0 = (T2 : ℚ) - (T : ℚ) * (T : ℚ) / 64 ∧
    chanErrD T2 T 0 0 64 = (T2 : ℚ) - (T : ℚ) * (T : ℚ) / 64 := by
  have hTT : T * T ≤ 16320 * 16320 := Nat.mul_le_mul hT hT
  have e1 : toD T = (T : ℚ) := toD_eq T (by omega)
  have e2 : toD T2 = (T2 : ℚ) := toD_eq T2 (by omega)
  have e3 : toD 64 = (64 : ℚ) := by
    have := toD_eq 64 (by norm_num)
    simpa using this
  have e4 : mulU64 T T = T * T := by
    unfold mulU64
    exact Nat.mod_eq_of_lt (by omega)
  have e5 : toD (T * T) = (T : ℚ) * (T : ℚ) := by
    rw [toD_eq (T * T) (by omega)]
    push_cast
    rfl
  have e6 : fl ((T : ℚ) * (T : ℚ)) = (T : ℚ) * (T : ℚ) := by
    rw [fl_eq_nat _ (T * T) (by push_cast; rfl) (by omega)]
    push_cast
    rfl
  have e7 : fl ((T : ℚ) * (T : ℚ) / 64) = (T : ℚ) * (T : ℚ) / 64 := by
    have := fl_div64 ((T * T : ℕ) : ℤ) (by
      rw [abs_of_nonneg (by positivity)]
      have : ((T * T : ℕ) : ℤ) ≤ ((16320 * 16320 : ℕ) : ℤ) := by exact_mod_cast hTT
      omega)
    push_cast at this
    exact this
  have e8 : fl ((T2 : ℚ) - (T : ℚ) * (T : ℚ) / 64) = (T2 : ℚ) - (T : ℚ) * (T : ℚ) / 64 := by
    have hz : |(64 * (T2 : ℤ) - ((T * T : ℕ) : ℤ))| < 2 ^ 53 := by
      have h1 : ((T * T : ℕ) : ℤ) ≤ ((16320 * 16320 : ℕ) : ℤ) := by exact_mod_cast hTT
      have h2 : (0 : ℤ) ≤ ((T * T : ℕ) : ℤ) := by positivity
      rw [abs_lt]
      constructor <;> omega
    have := fl_div64 (64 * (T2 : ℤ) - ((T * T : ℕ) : ℤ)) hz
    push_cast at this
    have e : (64 * (T2 : ℚ) - (T : ℚ) * (T : ℚ)) / 64 = (T2 : ℚ) - (T : ℚ) * (T : ℚ) / 64 := by
      ring
    rw [e] at this
    exact this
  constructor
  · unfold chanErrD
    simp only [gt_iff_lt, Nat.lt_irrefl, if_false]
    rw [if_pos (by norm_num), e1, e2, e3, e6, e7, e8, sub_zero, e8]
  · unfold chanErrD
    simp only [gt_iff_lt, Nat.lt_irrefl, if_false]
    rw [if_pos (by norm_num), e4, e5, e2, e3, e7, e8]

/-- A candidate whose foreground is empty has the computed error of the candidate whose
foreground is the whole cell. -/
theorem glyphErrD_zero (tot : Region) (hcnt : tot.cnt = 64)
    (hR : tot.sR ≤ 16320) (hG : tot.sG ≤ 16320) (hB : tot.sB ≤ 16320)
    (hR2 : tot.sR2 ≤ 4161600) (hG2 : tot.sG2 ≤ 4161600) (hB2 : tot.sB2 ≤ 4161600) :
    glyphErrD tot ⟨0, 0, 0, 0, 0, 0, 0⟩ = glyphErrD tot tot := by
  have s0 : subU64 64 0 = 64 := by decide
  have s64 : subU64 64 64 = 0 := by decide
  unfold glyphErrD
  simp only [hcnt, s0, s64]
  rw [(chanErrD_whole _ _ hR hR2).1, (chanErrD_whole _ _ hR hR2).2,
    (chanErrD_whole _ _ hG hG2).1, (chanErrD_whole _ _ hG hG2).2,
    (chanErrD_whole _ _ hB hB2).1, (chanErrD_whole _ _ hB hB2).2]

/-- The prune check gives the same value for an empty foreground and for an empty
background. -/
theorem colorDiff_zero (tot : Region) (hcnt : tot.cnt = 64)
    (hR : tot.sR ≤ 16320) (hG : tot.sG ≤ 16320) (hB : tot.sB ≤ 16320) :
    colorDiff (regionMeans tot ⟨0, 0, 0, 0, 0, 0, 0⟩) = colorDiff (regionMeans tot tot) := by
  have s0 : subU64 64 0 = 64 := by decide
  have s64 : subU64 64 64 = 0 := by decide
  unfold regionMeans colorDiff
  simp only [hcnt, s0, s64, gt_iff_lt, Nat.lt_irrefl, if_false]
  rw [if_pos (by norm_num), if_pos (by norm_num), if_pos (by norm_num),
    if_pos (by norm_num), if_pos (by norm_num), if_pos (by norm_num)]
  rw [subU64_of_le _ 0 (Nat.zero_le _) (by omega), subU64_of_le _ 0 (Nat.zero_le _) (by omega),
    subU64_of_le _ 0 (Nat.zero_le _) (by omega)]
  simp only [Nat.sub_zero, zero_sub, sub_zero, abs_neg]

/-- A candidate of which one region is empty has the computed error and the prune check of
Full. -/
theorem oneSided_as_full (highres : BlockPlanes) (thr : Int) (bx by_ : Nat)
    (hok : CellOK highres bx by_) (gd : GDesc) (hl : gd.level ≤ 8)
    (h : maskSum gd.mask (fun _ _ => 1) = 0 ∨
      maskSum (fun dx dy => !gd.mask dx dy) (fun _ _ => 1) = 0) :
    errOfD highres bx by_ gd = errOfD highres bx by_ ⟨0x2588, GType.F, 0, 0⟩ ∧
    evaluatedAt (buildIntegrals highres) highres.width.toNat thr bx by_ gd =
      evaluatedAt (buildIntegrals highres) highres.width.toNat thr bx by_
        ⟨0x2588, GType.F, 0, 0⟩ := by
  have hF : fgRegion (buildIntegrals highres) highres.width.toNat bx by_
      (cellTotals (buildIntegrals highres) highres.width.toNat bx by_)
      ⟨0x2588, GType.F, 0, 0⟩ =
      cellTotals (buildIntegrals highres) highres.width.toNat bx by_ := rfl
  have hfg : fgRegion (buildIntegrals highres) highres.width.toNat bx by_
      (cellTotals (buildIntegrals highres) highres.width.toNat bx by_) gd =
      ⟨0, 0, 0, 0, 0, 0, 0⟩ ∨
      fgRegion (buildIntegrals highres) highres.width.toNat bx by_
      (cellTotals (buildIntegrals highres) highres.width.toNat bx by_) gd =
      cellTotals (buildIntegrals highres) highres.width.toNat bx by_ := by
    rw [fgRegion_eq highres bx by_ hok gd hl, cellTotals_eq highres bx by_ hok]
    rcases h with h | h
    · left
      unfold maskRegion
      rw [maskSum_empty _ _ h, maskSum_empty _ _ h, maskSum_empty _ _ h, maskSum_empty _ _ h,
        maskSum_empty _ _ h, maskSum_empty _ _ h, h]
    · right
      refine maskRegion_congr highres bx by_ gd.mask (fun _ _ => true) ?_
      intro dx dy hdx hdy
      have := mask_empty _ h dx dy hdx hdy
      simp only [Bool.not_eq_false'] at this
      exact this
  obtain ⟨r1, r2, _, _, _⟩ := region_bounds highres bx by_ hok gd.mask Chan.R
  obtain ⟨g1, g2, _, _, _⟩ := region_bounds highres bx by_ hok gd.mask Chan.G
  obtain ⟨b1, b2, _, _, _⟩ := region_bounds highres bx by_ hok gd.mask Chan.B
  have htot := cellTotals_eq highres bx by_ hok
  have hcnt : (cellTotals (buildIntegrals highres) highres.width.toNat bx by_).cnt = 64 := by
    rw [htot]; exact maskSum_true_one
  have hR : (cellTotals (buildIntegrals highres) highres.width.toNat bx by_).sR ≤ 16320 := by
    rw [htot]; exact r2
  have hG : (cellTotals (buildIntegrals highres) highres.width.toNat bx by_).sG ≤ 16320 := by
    rw [htot]; exact g2
  have hB : (cellTotals (buildIntegrals highres) highres.width.toNat bx by_).sB ≤ 16320 := by
    rw [htot]; exact b2
  have hR2 : (cellTotals (buildIntegrals highres) highres.width.toNat bx by_).sR2 ≤ 4161600 := by
    rw [htot]; exact r1
  have hG2 : (cellTotals (buildIntegrals highres) highres.width.toNat bx by_).sG2 ≤ 4161600 := by
    rw [htot]; exact g1
  have hB2 : (cellTotals (buildIntegrals highres) highres.width.toNat bx by_).sB2 ≤ 4161600 := by
    rw [htot]; exact b1
  unfold errOfD evaluatedAt
  simp only
  rw [hF]
  generalize cellTotals (buildIntegrals highres) highres.width.toNat bx by_ = tot at *
  generalize fgRegion (buildIntegrals highres) highres.width.toNat bx by_ tot gd = fg at *
  rcases hfg with hfg | hfg
  · subst hfg
    rw [glyphErrD_zero tot hcnt hR hG hB hR2 hG2 hB2, colorDiff_zero tot hcnt hR hG hB]
    exact ⟨rfl, rfl⟩
  · subst hfg
    exact ⟨rfl, rfl⟩

/-- The form of one step of the search with book-keeping. -/
theorem selectStep_eq (highres : BlockPlanes) (thr : Int) (bx by_ : Nat)
    (R : Best × Option GDesc) (a : GDesc) :
    selectStep (buildIntegrals highres) highres.width.toNat thr bx by_ R a =
      if evaluatedAt (buildIntegrals highres) highres.width.toNat thr bx by_ a = true then
        (if errOfD highres bx by_ a < R.1.best_err then
          (R.1.update (cellTotals (buildIntegrals highres) highres.width.toNat bx by_)
            (fgRegion (buildIntegrals highres) highres.width.toNat bx by_
              (cellTotals (buildIntegrals highres) highres.width.toNat bx by_) a) a, some a)
        else R)
      else R := by
  unfold selectStep evaluatedAt errOfD
  simp only [Bool.not_eq_true', decide_eq_false_iff_not]
  by_cases h : colorDiff
      (regionMeans (cellTotals (buildIntegrals highres) highres.width.toNat bx by_)
        (fgRegion (buildIntegrals highres) highres.width.toNat bx by_
          (cellTotals (buildIntegrals highres) highres.width.toNat bx by_) a)) < thr
  · rw [if_pos h, if_neg (not_not.mpr h)]
  · rw [if_neg h, if_pos h]

/-- An update of the best candidate that takes over no colour of the previous one sets the
truncated means of the two regions. -/
theorem update_colours (highres : BlockPlanes) (bx by_ : Nat) (hok : CellOK highres bx by_)
    (gd : GDesc) (hl : gd.level ≤ 8) (b : Best)
    (hlt : errOfD highres bx by_ gd < b.best_err)
    (hfg : maskSum gd.mask (fun _ _ => 1) = 0 → b.best_fr = 0 ∧ b.best_fg = 0 ∧ b.best_fb = 0)
    (hbg : maskSum (fun dx dy => !gd.mask dx dy) (fun _ _ => 1) = 0 →
      b.best_br = 0 ∧ b.best_bg = 0 ∧ b.best_bb = 0) :
    (b.update (cellTotals (buildIntegrals highres) highres.width.toNat bx by_)
      (fgRegion (buildIntegrals highres) highres.width.toNat bx by_
        (cellTotals (buildIntegrals highres) highres.width.toNat bx by_) gd) gd).colours =
      specMeans highres bx by_ gd ∧
    (b.update (cellTotals (buildIntegrals highres) highres.width.toNat bx by_)
      (fgRegion (buildIntegrals highres) highres.width.toNat bx by_
        (cellTotals (buildIntegrals highres) highres.width.toNat bx by_) gd) gd).best_err =
      errOfD highres bx by_ gd ∧
    (b.update (cellTotals (buildIntegrals highres) highres.width.toNat bx by_)
      (fgRegion (buildIntegrals highres) highres.width.toNat bx by_
        (cellTotals (buildIntegrals highres) highres.width.toNat bx by_) gd) gd).best_cp =
      gd.code := by
  have hlt' : glyphErrD (cellTotals (buildIntegrals highres) highres.width.toNat bx by_)
      (fgRegion (buildIntegrals highres) highres.width.toNat bx by_
        (cellTotals (buildIntegrals highres) highres.width.toNat bx by_) gd) <
      b.best_err := hlt
  have hm := regionMeans_spec highres bx by_ hok gd hl
  unfold Best.update
  simp only
  rw [if_pos hlt', hm]
  refine ⟨?_, rfl, rfl⟩
  rw [fgRegion_eq highres bx by_ hok gd hl, cellTotals_eq highres bx by_ hok]
  have hn := maskSum_compl gd.mask (fun _ _ => 1)
  rw [maskSum_true_one] at hn
  have hcnt : (maskRegion highres bx by_ gd.mask).cnt = maskSum gd.mask (fun _ _ => 1) := rfl
  have htot : (maskRegion highres bx by_ (fun _ _ => true)).cnt = 64 := maskSum_true_one
  have hsub : subU64 64 (maskSum gd.mask (fun _ _ => 1)) =
      maskSum (fun dx dy => !gd.mask dx dy) (fun _ _ => 1) := by
    rw [subU64_of_le 64 _ (by omega) (by norm_num)]
    omega
  rw [hcnt, htot, hsub]
  unfold Best.colours
  simp only
  by_cases h1 : maskSum gd.mask (fun _ _ => 1) = 0
  · obtain ⟨a1, a2, a3⟩ := hfg h1
    have hb : maskSum (fun dx dy => !gd.mask dx dy) (fun _ _ => 1) > 0 := by omega
    simp only [h1, gt_iff_lt, Nat.lt_irrefl, if_false, hb, if_true, a1, a2, a3]
    unfold specMeans truncMean
    simp only [h1, if_true]
  · have hf : maskSum gd.mask (fun _ _ => 1) > 0 := by omega
    by_cases h2 : maskSum (fun dx dy => !gd.mask dx dy) (fun _ _ => 1) = 0
    · obtain ⟨a1, a2, a3⟩ := hbg h2
      simp only [h2, gt_iff_lt, Nat.lt_irrefl, if_false, hf, if_true, a1, a2, a3]
      unfold specMeans truncMean
      simp only [h2, if_true]
    · have hb : maskSum (fun dx dy => !gd.mask dx dy) (fun _ _ => 1) > 0 := by omega
      simp only [hf, hb, if_true]

/-- The search of a cell over Full and further candidates ends with none of them if all were
pruned, and otherwise with the truncated means of the two regions of the selected candidate
as colours. -/
theorem select_colours (highres : BlockPlanes) (thr : Int) (bx by_ : Nat)
    (hok : CellOK highres bx by_) (l : List GDesc) (hl : ∀ gd ∈ l, gd.level ≤ 8) :
    (((⟨0x2588, GType.F, 0, 0⟩ :: l).foldl
        (selectStep (buildIntegrals highres) highres.width.toNat thr bx by_)
        (Best.init, none)).2 = none ∧
      ((⟨0x2588, GType.F, 0, 0⟩ :: l).foldl
        (selectStep (buildIntegrals highres) highres.width.toNat thr bx by_)
        (Best.init, none)).1 = Best.init ∧
      ∀ gd ∈ (⟨0x2588, GType.F, 0, 0⟩ : GDesc) :: l,
        evaluatedAt (buildIntegrals highres) highres.width.toNat thr bx by_ gd = false) ∨
    ∃ gd, ((⟨0x2588, GType.F, 0, 0⟩ :: l).foldl
        (selectStep (buildIntegrals highres) highres.width.toNat thr bx by_)
        (Best.init, none)).2 = some gd ∧ gd ∈ (⟨0x2588, GType.F, 0, 0⟩ : GDesc) :: l ∧
      ((⟨0x2588, GType.F, 0, 0⟩ :: l).foldl
        (selectStep (buildIntegrals highres) highres.width.toNat thr bx by_)
        (Best.init, none)).1.colours = specMeans highres bx by_ gd ∧
      ((⟨0x2588, GType.F, 0, 0⟩ :: l).foldl
        (selectStep (buildIntegrals highres) highres.width.toNat thr bx by_)
        (Best.init, none)).1.best_cp = gd.code ∧
      (evaluatedAt (buildIntegrals highres) highres.width.toNat thr bx by_
          ⟨0x2588, GType.F, 0, 0⟩ = true →
        ((⟨0x2588, GType.F, 0, 0⟩ :: l).foldl
          (selectStep (buildIntegrals highres) highres.width.toNat thr bx by_)
          (Best.init, none)).1.best_err ≤ errOfD highres bx by_ ⟨0x2588, GType.F, 0, 0⟩) := by
  have hbool : ∀ b : Bool, ¬ b = true → b = false := by
    intro b hb
    cases b
    · rfl
    · exact absurd rfl hb
  induction l using List.reverseRecOn with
  | nil =>
    simp only [List.foldl_cons, List.foldl_nil]
    rw [selectStep_eq]
    by_cases hev : evaluatedAt (buildIntegrals highres) highres.width.toNat thr bx by_
        ⟨0x2588, GType.F, 0, 0⟩ = true
    · rw [if_pos hev]
      have hlt : errOfD highres bx by_ ⟨0x2588, GType.F, 0, 0⟩ <
          (Best.init, (none : Option GDesc)).1.best_err :=
        errOfD_lt_init highres bx by_ hok _ (by decide)
      rw [if_pos hlt]
      obtain ⟨u1, u2, u3⟩ := update_colours highres bx by_ hok ⟨0x2588, GType.F, 0, 0⟩
        (by decide) Best.init hlt (fun _ => ⟨rfl, rfl, rfl⟩) (fun _ => ⟨rfl, rfl, rfl⟩)
      right
      exact ⟨_, rfl, by simp, u1, u3, fun _ => le_of_eq u2⟩
    · rw [if_neg hev]
      left
      refine ⟨rfl, rfl, ?_⟩
      intro gd hgd
      simp only [List.mem_singleton] at hgd
      rw [hgd]
      exact hbool _ hev
  | append_singleton l a ih =>
    have ih' := ih (fun gd hgd => hl gd (by simp [hgd]))
    have ha : a.level ≤ 8 := hl a (by simp)
    rw [← List.cons_append, List.foldl_append]
    generalize (⟨0x2588, GType.F, 0, 0⟩ :: l).foldl
      (selectStep (buildIntegrals highres) highres.width.toNat thr bx by_)
      (Best.init, none) = R at ih' ⊢
    simp only [List.foldl_cons, List.foldl_nil]
    rw [selectStep_eq]
    by_cases hev : evaluatedAt (buildIntegrals highres) highres.width.toNat thr bx by_ a = true
    · rw [if_pos hev]
      by_cases hlt : errOfD highres bx by_ a < R.1.best_err
      · rw [if_pos hlt]
        right
        rcases ih' with ⟨hnone, hinit, hall⟩ | ⟨gd, hsome, hmem, hcol, hcp, hJ⟩
        · obtain ⟨u1, u2, u3⟩ := update_colours highres bx by_ hok a ha R.1 hlt
            (fun _ => by rw [hinit]; exact ⟨rfl, rfl, rfl⟩)
            (fun _ => by rw [hinit]; exact ⟨rfl, rfl, rfl⟩)
          refine ⟨a, rfl, by simp, u1, u3, ?_⟩
          intro hF
          rw [hall _ (by simp)] at hF
          cases hF
        · have htwo : ¬ (maskSum a.mask (fun _ _ => 1) = 0 ∨
              maskSum (fun dx dy => !a.mask dx dy) (fun _ _ => 1) = 0) := by
            intro hone
            obtain ⟨o1, o2⟩ := oneSided_as_full highres thr bx by_ hok a ha hone
            have hF := hJ (by rw [← o2]; exact hev)
            rw [o1] at hlt
            exact absurd hlt (not_lt.mpr hF)
          obtain ⟨u1, u2, u3⟩ := update_colours highres bx by_ hok a ha R.1 hlt
            (fun h0 => absurd (Or.inl h0) htwo) (fun h0 => absurd (Or.inr h0) htwo)
          refine ⟨a, rfl, by simp, u1, u3, ?_⟩
          intro hF
          rw [u2]
          exact le_of_lt (lt_of_lt_of_le hlt (hJ hF))
      · rw [if_neg hlt]
        rcases ih' with ⟨hnone, hinit, hall⟩ | ⟨gd, hsome, hmem, hcol, hcp, hJ⟩
        · exfalso
          apply hlt
          rw [hinit]
          exact errOfD_lt_init highres bx by_ hok a ha
        · right
          exact ⟨gd, hsome, by
            rw [List.mem_append]
            exact Or.inl hmem, hcol, hcp, hJ⟩
    · rw [if_neg hev]
      rcases ih' with ⟨hnone, hinit, hall⟩ | ⟨gd, hsome, hmem, hcol, hcp, hJ⟩
      · left
        refine ⟨hnone, hinit, ?_⟩
        intro gd hgd
        rw [List.mem_append, List.mem_singleton] at hgd
        rcases hgd with h | h
        · exact hall gd h
        · rw [h]; exact hbool _ hev
      · right
        exact ⟨gd, hsome, by
          rw [List.mem_append]
          exact Or.inl hmem, hcol, hcp, hJ⟩

/-- C25: for every cell with values in `[0, 255]` for which some candidate was evaluated, the
foreground colour that `render_high` keeps for the emission is, per channel, the truncating
quotient of the foreground-region sum of the winning glyph by its pixel count, and the
background colour is the truncating quotient of the background-region sum by its pixel count;
a region with zero pixels has the colour `0,0,0`: no colour of a previously best candidate is
carried over. -/
theorem selected_colours (highres : BlockPlanes) (thr : Int) (bx by_ : Nat)
    (hok : CellOK highres bx by_)
    (hev : ∃ gd ∈ glyphs,
      evaluatedAt (buildIntegrals highres) highres.width.toNat thr bx by_ gd = true) :
    ∃ gd ∈ glyphs, cellSelect highres thr bx by_ = some gd ∧
      (render_high_cell highres thr bx by_).best_cp = gd.code ∧
      (render_high_cell highres thr bx by_).colours = specMeans highres bx by_ gd ∧
      (maskSum gd.mask (fun _ _ => 1) = 0 →
        (render_high_cell highres thr bx by_).best_fr = 0 ∧
        (render_high_cell highres thr bx by_).best_fg = 0 ∧
        (render_high_cell highres thr bx by_).best_fb = 0) ∧
      (maskSum (fun dx dy => !gd.mask dx dy) (fun _ _ => 1) = 0 →
        (render_high_cell highres thr bx by_).best_br = 0 ∧
        (render_high_cell highres thr bx by_).best_bg = 0 ∧
        (render_high_cell highres thr bx by_).best_bb = 0) := by
  have hg : glyphs = ⟨0x2588, GType.F, 0, 0⟩ :: glyphs.tail := by decide
  have hcell : render_high_cell highres thr bx by_ =
      (glyphs.foldl (selectStep (buildIntegrals highres) highres.width.toNat thr bx by_)
        (Best.init, none)).1 := by
    unfold render_high_cell cellSearch
    rw [selectStep_fst (buildIntegrals highres) highres.width.toNat thr bx by_ glyphs Best.init
      none ⟨0, 0, 0, 0⟩]
  have hsel : cellSelect highres thr bx by_ =
      (glyphs.foldl (selectStep (buildIntegrals highres) highres.width.toNat thr bx by_)
        (Best.init, none)).2 := rfl
  have key := select_colours highres thr bx by_ hok glyphs.tail
    (fun gd hgd => glyphs_level_le gd (List.mem_of_mem_tail hgd))
  rw [← hg] at key
  rcases key with ⟨-, -, hall⟩ | ⟨gd, hsome, hmem, hcol, hcp, -⟩
  · obtain ⟨gd, hgd, hgev⟩ := hev
    rw [hall gd hgd] at hgev
    cases hgev
  · rw [← hcell] at hcol hcp
    rw [← hsel] at hsome
    refine ⟨gd, hmem, hsome, hcp, hcol, ?_, ?_⟩
    · intro h0
      have e1 : (render_high_cell highres thr bx by_).best_fr =
          (render_high_cell highres thr bx by_).colours.fr := rfl
      have e2 : (render_high_cell highres thr bx by_).best_fg =
          (render_high_cell highres thr bx by_).colours.fgc := rfl
      have e3 : (render_high_cell highres thr bx by_).best_fb =
          (render_high_cell highres thr bx by_).colours.fb := rfl
      rw [e1, e2, e3, hcol]
      unfold specMeans truncMean
      simp only [h0, if_true]
      exact ⟨trivial, trivial, trivial⟩
    · intro h0
      have e1 : (render_high_cell highres thr bx by_).best_br =
          (render_high_cell highres thr bx by_).colours.br := rfl
      have e2 : (render_high_cell highres thr bx by_).best_bg =
          (render_high_cell highres thr bx by_).colours.bgcol := rfl
      have e3 : (render_high_cell highres thr bx by_).best_bb =
          (render_high_cell highres thr bx by_).colours.bb := rfl
      rw [e1, e2, e3, hcol]
      unfold specMeans truncMean
      simp only [h0, if_true]
      exact ⟨trivial, trivial, trivial⟩

/-- At the threshold 0 every candidate is evaluated. -/
theorem evaluatedAt_zero (t : Integrals) (high_w bx by_ : Nat) (gd : GDesc) :
    evaluatedAt t high_w 0 bx by_ gd = true := by
  unfold evaluatedAt
  simp only [Bool.not_eq_true', decide_eq_false_iff_not, not_lt]
  exact colorDiff_nonneg _

theorem selected_colours_witness :
    CellOK tiePlanes 0 0 ∧
    (∃ gd ∈ glyphs,
      evaluatedAt (buildIntegrals tiePlanes) tiePlanes.width.toNat 0 0 0 gd = true) ∧
    (∃ gd ∈ glyphs, cellSelect tiePlanes 0 0 0 = some gd ∧
      (render_high_cell tiePlanes 0 0 0).best_cp = gd.code ∧
      (render_high_cell tiePlanes 0 0 0).colours = specMeans tiePlanes 0 0 gd ∧
      (maskSum gd.mask (fun _ _ => 1) = 0 →
        (render_high_cell tiePlanes 0 0 0).best_fr = 0 ∧
        (render_high_cell tiePlanes 0 0 0).best_fg = 0 ∧
        (render_high_cell tiePlanes 0 0 0).best_fb = 0) ∧
      (maskSum (fun dx dy => !gd.mask dx dy) (fun _ _ => 1) = 0 →
        (render_high_cell tiePlanes 0 0 0).best_br = 0 ∧
        (render_high_cell tiePlanes 0 0 0).best_bg = 0 ∧
        (render_high_cell tiePlanes 0 0 0).best_bb = 0)) :=
  ⟨tiePlanes_cellOK,
    ⟨⟨0x2588, GType.F, 0, 0⟩, by decide, evaluatedAt_zero _ _ _ _ _⟩,
    selected_colours tiePlanes 0 0 0 tiePlanes_cellOK
      ⟨⟨0x2588, GType.F, 0, 0⟩, by decide, evaluatedAt_zero _ _ _ _ _⟩⟩

/-! ## Splitting a cell does not increase the error -/

/-- The search of a cell over Full and further candidates ends with none of them if all were
pruned, and otherwise with Full or with a candidate whose two regions are both not empty. -/
theorem select_sided (highres : BlockPlanes) (thr : Int) (bx by_ : Nat)
    (hok : CellOK highres bx by_) (l : List GDesc) (hl : ∀ gd ∈ l, gd.level ≤ 8) :
    (((⟨0x2588, GType.F, 0, 0⟩ :: l).foldl
        (selectStep (buildIntegrals highres) highres.width.toNat thr bx by_)
        (Best.init, none)).2 = none ∧
      ((⟨0x2588, GType.F, 0, 0⟩ :: l).foldl
        (selectStep (buildIntegrals highres) highres.width.toNat thr bx by_)
        (Best.init, none)).1 = Best.init ∧
      ∀ gd ∈ (⟨0x2588, GType.F, 0, 0⟩ : GDesc) :: l,
        evaluatedAt (buildIntegrals highres) highres.width.toNat thr bx by_ gd = false) ∨
    ∃ gd, ((⟨0x2588, GType.F, 0, 0⟩ :: l).foldl
        (selectStep (buildIntegrals highres) highres.width.toNat thr bx by_)
        (Best.init, none)).2 = some gd ∧ gd ∈ (⟨0x2588, GType.F, 0, 0⟩ : GDesc) :: l ∧
      evaluatedAt (buildIntegrals highres) highres.width.toNat thr bx by_ gd = true ∧
      ((⟨0x2588, GType.F, 0, 0⟩ :: l).foldl
        (selectStep (buildIntegrals highres) highres.width.toNat thr bx by_)
        (Best.init, none)).1.best_cp = gd.code ∧
      (gd = ⟨0x2588, GType.F, 0, 0⟩ ∨
        ¬ (maskSum gd.mask (fun _ _ => 1) = 0 ∨
          maskSum (fun dx dy => !gd.mask dx dy) (fun _ _ => 1) = 0)) ∧
      (evaluatedAt (buildIntegrals highres) highres.width.toNat thr bx by_
          ⟨0x2588, GType.F, 0, 0⟩ = true →
        ((⟨0x2588, GType.F, 0, 0⟩ :: l).foldl
          (selectStep (buildIntegrals highres) highres.width.toNat thr bx by_)
          (Best.init, none)).1.best_err ≤ errOfD highres bx by_ ⟨0x2588, GType.F, 0, 0⟩) := by
  have hbool : ∀ b : Bool, ¬ b = true → b = false := by
    intro b hb
    cases b
    · rfl
    · exact absurd rfl hb
  have hupd : ∀ (b : Best) (a : GDesc), errOfD highres bx by_ a < b.best_err →
      (b.update (cellTotals (buildIntegrals highres) highres.width.toNat bx by_)
        (fgRegion (buildIntegrals highres) highres.width.toNat bx by_
          (cellTotals (buildIntegrals highres) highres.width.toNat bx by_) a) a).best_err =
        errOfD highres bx by_ a ∧
      (b.update (cellTotals (buildIntegrals highres) highres.width.toNat bx by_)
        (fgRegion (buildIntegrals highres) highres.width.toNat bx by_
          (cellTotals (buildIntegrals highres) highres.width.toNat bx by_) a) a).best_cp =
        a.code := by
    intro b a hlt
    unfold Best.update
    simp only
    have hlt' : glyphErrD (cellTotals (buildIntegrals highres) highres.width.toNat bx by_)
        (fgRegion (buildIntegrals highres) highres.width.toNat bx by_
          (cellTotals (buildIntegrals highres) highres.width.toNat bx by_) a) <
        b.best_err := hlt
    rw [if_pos hlt']
    exact ⟨rfl, rfl⟩
  induction l using List.reverseRecOn with
  | nil =>
    simp only [List.foldl_cons, List.foldl_nil]
    rw [selectStep_eq]
    by_cases hev : evaluatedAt (buildIntegrals highres) highres.width.toNat thr bx by_
        ⟨0x2588, GType.F, 0, 0⟩ = true
    · rw [if_pos hev]
      have hlt : errOfD highres bx by_ ⟨0x2588, GType.F, 0, 0⟩ <
          (Best.init, (none : Option GDesc)).1.best_err :=
        errOfD_lt_init highres bx by_ hok _ (by decide)
      rw [if_pos hlt]
      obtain ⟨u2, u3⟩ := hupd Best.init ⟨0x2588, GType.F, 0, 0⟩ hlt
      right
      exact ⟨_, rfl, by simp, hev, u3, Or.inl rfl, fun _ => le_of_eq u2⟩
    · rw [if_neg hev]
      left
      refine ⟨rfl, rfl, ?_⟩
      intro gd hgd
      simp only [List.mem_singleton] at hgd
      rw [hgd]
      exact hbool _ hev
  | append_singleton l a ih =>
    have ih' := ih (fun gd hgd => hl gd (by simp [hgd]))
    have ha : a.level ≤ 8 := hl a (by simp)
    rw [← List.cons_append, List.foldl_append]
    generalize (⟨0x2588, GType.F, 0, 0⟩ :: l).foldl
      (selectStep (buildIntegrals highres) highres.width.toNat thr bx by_)
      (Best.init, none) = R at ih' ⊢
    simp only [List.foldl_cons, List.foldl_nil]
    rw [selectStep_eq]
    by_cases hev : evaluatedAt (buildIntegrals highres) highres.width.toNat thr bx by_ a = true
    · rw [if_pos hev]
      by_cases hlt : errOfD highres bx by_ a < R.1.best_err
      · rw [if_pos hlt]
        right
        obtain ⟨u2, u3⟩ := hupd R.1 a hlt
        rcases ih' with ⟨hnone, hinit, hall⟩ | ⟨gd, hsome, hmem, hgev, hcp, hside, hJ⟩
        · have htwo : ¬ (maskSum a.mask (fun _ _ => 1) = 0 ∨
              maskSum (fun dx dy => !a.mask dx dy) (fun _ _ => 1) = 0) := by
            intro hone
            obtain ⟨-, o2⟩ := oneSided_as_full highres thr bx by_ hok a ha hone
            rw [o2, hall _ (by simp)] at hev
            cases hev
          refine ⟨a, rfl, by simp, hev, u3, Or.inr htwo, ?_⟩
          intro hF
          rw [hall _ (by simp)] at hF
          cases hF
        · have htwo : ¬ (maskSum a.mask (fun _ _ => 1) = 0 ∨
              maskSum (fun dx dy => !a.mask dx dy) (fun _ _ => 1) = 0) := by
            intro hone
            obtain ⟨o1, o2⟩ := oneSided_as_full highres thr bx by_ hok a ha hone
            have hF := hJ (by rw [← o2]; exact hev)
            rw [o1] at hlt
            exact absurd hlt (not_lt.mpr hF)
          refine ⟨a, rfl, by simp, hev, u3, Or.inr htwo, ?_⟩
          intro hF
          rw [u2]
          exact le_of_lt (lt_of_lt_of_le hlt (hJ hF))
      · rw [if_neg hlt]
        rcases ih' with ⟨hnone, hinit, hall⟩ | ⟨gd, hsome, hmem, hgev, hcp, hside, hJ⟩
        · exfalso
          apply hlt
          rw [hinit]
          exact errOfD_lt_init highres bx by_ hok a ha
        · right
          exact ⟨gd, hsome, by
            rw [List.mem_append]
            exact Or.inl hmem, hgev, hcp, hside, hJ⟩
    · rw [if_neg hev]
      rcases ih' with ⟨hnone, hinit, hall⟩ | ⟨gd, hsome, hmem, hgev, hcp, hside, hJ⟩
      · left
        refine ⟨hnone, hinit, ?_⟩
        intro gd hgd
        rw [List.mem_append, List.mem_singleton] at hgd
        rcases hgd with h | h
        · exact hall gd h
        · rw [h]; exact hbool _ hev
      · right
        exact ⟨gd, hsome, by
          rw [List.mem_append]
          exact Or.inl hmem, hgev, hcp, hside, hJ⟩

theorem space_mask_empty :
    maskSum (⟨0x20, GType.S, 0, 0⟩ : GDesc).mask (fun _ _ => 1) = 0 := by
  have hS : (⟨0x20, GType.S, 0, 0⟩ : GDesc).mask = fun _ _ => false := rfl
  rw [hS]
  unfold maskSum
  simp

/-- The prune check of Full compares the sum of the truncated whole-cell means with the
threshold. -/
theorem colorDiff_full (highres : BlockPlanes) (bx by_ : Nat) :
    colorDiff (specMeans highres bx by_ ⟨0x2588, GType.F, 0, 0⟩) =
      truncMean (maskSum (fun _ _ => true) (cellNat highres false Chan.R bx by_)) 64 +
      truncMean (maskSum (fun _ _ => true) (cellNat highres false Chan.G bx by_)) 64 +
      truncMean (maskSum (fun _ _ => true) (cellNat highres false Chan.B bx by_)) 64 := by
  have hF : (⟨0x2588, GType.F, 0, 0⟩ : GDesc).mask = fun _ _ => true := rfl
  have h0 : maskSum (fun _ _ => false) (fun _ _ => 1) = 0 := by
    unfold maskSum
    simp
  unfold colorDiff specMeans
  simp only [hF, Bool.not_true, h0, maskSum_true_one]
  have hz : ∀ s : Nat, truncMean s 0 = 0 := fun s => by unfold truncMean; simp
  have hn : ∀ s : Nat, 0 ≤ truncMean s 64 := by
    intro s
    unfold truncMean
    rw [if_neg (by norm_num)]
    exact Int.ofNat_nonneg _
  rw [hz, hz, hz, sub_zero, sub_zero, sub_zero, abs_of_nonneg (hn _), abs_of_nonneg (hn _),
    abs_of_nonneg (hn _)]

/-- C32: for every `prune_threshold` and every cell with values in `[0, 255]`, `render_high`
selects the Space code point U+0020 for the cell if and only if every one of the 22
candidates was pruned, and in that case both the foreground and the background colour are
`0,0,0` whatever the cell contains; Space never wins as an evaluated candidate, because Space
is pruned exactly when Full is (both when the sum of the truncated whole-cell channel means is
below the threshold) and otherwise Full, visited first, has the same computed error. -/
theorem space_iff_all_pruned (highres : BlockPlanes) (thr : Int) (bx by_ : Nat)
    (hok : CellOK highres bx by_) :
    ((render_high_cell highres thr bx by_).best_cp = 0x20 ↔
      ∀ gd ∈ glyphs,
        evaluatedAt (buildIntegrals highres) highres.width.toNat thr bx by_ gd = false) ∧
    ((∀ gd ∈ glyphs,
        evaluatedAt (buildIntegrals highres) highres.width.toNat thr bx by_ gd = false) →
      (render_high_cell highres thr bx by_).colours = ⟨0, 0, 0, 0, 0, 0⟩) ∧
    cellSelect highres thr bx by_ ≠ some ⟨0x20, GType.S, 0, 0⟩ ∧
    evaluatedAt (buildIntegrals highres) highres.width.toNat thr bx by_ ⟨0x20, GType.S, 0, 0⟩ =
      evaluatedAt (buildIntegrals highres) highres.width.toNat thr bx by_
        ⟨0x2588, GType.F, 0, 0⟩ ∧
    (evaluatedAt (buildIntegrals highres) highres.width.toNat thr bx by_
        ⟨0x2588, GType.F, 0, 0⟩ = false ↔
      truncMean (maskSum (fun _ _ => true) (cellNat highres false Chan.R bx by_)) 64 +
      truncMean (maskSum (fun _ _ => true) (cellNat highres false Chan.G bx by_)) 64 +
      truncMean (maskSum (fun _ _ => true) (cellNat highres false Chan.B bx by_)) 64 < thr) ∧
    errOfD highres bx by_ ⟨0x20, GType.S, 0, 0⟩ =
      errOfD highres bx by_ ⟨0x2588, GType.F, 0, 0⟩ := by
  have hg : glyphs = ⟨0x2588, GType.F, 0, 0⟩ :: glyphs.tail := by decide
  have hcell : render_high_cell highres thr bx by_ =
      (glyphs.foldl (selectStep (buildIntegrals highres) highres.width.toNat thr bx by_)
        (Best.init, none)).1 := by
    unfold render_high_cell cellSearch
    rw [selectStep_fst (buildIntegrals highres) highres.width.toNat thr bx by_ glyphs Best.init
      none ⟨0, 0, 0, 0⟩]
  have hsel : cellSelect highres thr bx by_ =
      (glyphs.foldl (selectStep (buildIntegrals highres) highres.width.toNat thr bx by_)
        (Best.init, none)).2 := rfl
  have hcode : ∀ gd ∈ glyphs, gd.code = 0x20 → gd = ⟨0x20, GType.S, 0, 0⟩ := by decide
  have hspace : ∀ gd : GDesc, gd = ⟨0x20, GType.S, 0, 0⟩ →
      ¬ (gd = ⟨0x2588, GType.F, 0, 0⟩ ∨
        ¬ (maskSum gd.mask (fun _ _ => 1) = 0 ∨
          maskSum (fun dx dy => !gd.mask dx dy) (fun _ _ => 1) = 0)) := by
    intro gd hgd hs
    subst hgd
    rcases hs with hs | hs
    · cases hs
    · exact hs (Or.inl space_mask_empty)
  obtain ⟨o1, o2⟩ := oneSided_as_full highres thr bx by_ hok ⟨0x20, GType.S, 0, 0⟩ (by decide)
    (Or.inl space_mask_empty)
  have key := select_sided highres thr bx by_ hok glyphs.tail
    (fun gd hgd => glyphs_level_le gd (List.mem_of_mem_tail hgd))
  rw [← hg, ← hcell, ← hsel] at key
  refine ⟨?_, ?_, ?_, o2, ?_, o1⟩
  · constructor
    · intro hcp
      rcases key with ⟨-, -, hall⟩ | ⟨gd, -, hmem, -, hcp', hside, -⟩
      · exact hall
      · exact absurd hside (hspace gd (hcode gd hmem (by rw [← hcp', hcp])))
    · intro hall
      rcases key with ⟨-, hinit, -⟩ | ⟨gd, -, hmem, hgev, -, -, -⟩
      · rw [hinit]; rfl
      · rw [hall gd hmem] at hgev
        cases hgev
  · intro hall
    rcases key with ⟨-, hinit, -⟩ | ⟨gd, -, hmem, hgev, -, -, -⟩
    · rw [hinit]; rfl
    · rw [hall gd hmem] at hgev
      cases hgev
  · intro hs
    rcases key with ⟨hnone, -, -⟩ | ⟨gd, hsome, -, -, -, hside, -⟩
    · rw [hnone] at hs
      cases hs
    · rw [hsome] at hs
      simp only [Option.some.injEq] at hs
      exact absurd hside (hspace gd hs)
  · rw [← colorDiff_full highres bx by_,
      ← regionMeans_spec highres bx by_ hok ⟨0x2588, GType.F, 0, 0⟩ (by decide)]
    unfold evaluatedAt
    simp

theorem space_iff_all_pruned_witness :
    CellOK darkPlanes 0 0 ∧
    (((render_high_cell darkPlanes 24 0 0).best_cp = 0x20 ↔
      ∀ gd ∈ glyphs,
        evaluatedAt (buildIntegrals darkPlanes) darkPlanes.width.toNat 24 0 0 gd = false) ∧
    ((∀ gd ∈ glyphs,
        evaluatedAt (buildIntegrals darkPlanes) darkPlanes.width.toNat 24 0 0 gd = false) →
      (render_high_cell darkPlanes 24 0 0).colours = ⟨0, 0, 0, 0, 0, 0⟩) ∧
    cellSelect darkPlanes 24 0 0 ≠ some ⟨0x20, GType.S, 0, 0⟩ ∧
    evaluatedAt (buildIntegrals darkPlanes) darkPlanes.width.toNat 24 0 0 ⟨0x20, GType.S, 0, 0⟩ =
      evaluatedAt (buildIntegrals darkPlanes) darkPlanes.width.toNat 24 0 0
        ⟨0x2588, GType.F, 0, 0⟩ ∧
    (evaluatedAt (buildIntegrals darkPlanes) darkPlanes.width.toNat 24 0 0
        ⟨0x2588, GType.F, 0, 0⟩ = false ↔
      truncMean (maskSum (fun _ _ => true) (cellNat darkPlanes false Chan.R 0 0)) 64 +
      truncMean (maskSum (fun _ _ => true) (cellNat darkPlanes false Chan.G 0 0)) 64 +
      truncMean (maskSum (fun _ _ => true) (cellNat darkPlanes false Chan.B 0 0)) 64 < 24) ∧
    errOfD darkPlanes 0 0 ⟨0x20, GType.S, 0, 0⟩ =
      errOfD darkPlanes 0 0 ⟨0x2588, GType.F, 0, 0⟩) :=
  ⟨darkPlanes_cellOK, space_iff_all_pruned darkPlanes 24 0 0 darkPlanes_cellOK⟩

/-! ## The array accesses of `resample_to_planes_fast` -/

/-- The array accesses of `resample_to_planes_fast` for a non-degenerate image and a grid of
at least one cell whose element count is in the range of an `int`. -/
theorem resampleAcc_eq (img : Image) (out_w out_h : Nat) (tile_h tile_h_horiz : Int)
    (hw : 1 ≤ img.width) (hh : 1 ≤ img.height) (how : 1 ≤ out_w) (hoh : 1 ≤ out_h)
    (hgrid : out_w * out_h < 2 ^ 31) :
    ∃ tr : Nat, 0 < tr ∧ resampleAcc img out_w out_h tile_h tile_h_horiz =
      (List.range out_w).flatMap (fun bx => [(Arr.x0s, bx), (Arr.x1s, bx)]) ++
      ([(Arr.x1s, 0), (Arr.x0s, 0)] ++
        (List.range' 1 out_w).flatMap (fun bx =>
          if bx = out_w then [] else [(Arr.x1s, bx), (Arr.x0s, bx)])) ++
      (List.range out_h).flatMap (fun by_ => [(Arr.y0s, by_), (Arr.y1s, by_)]) ++
      flattenAcc img (if tile_h ≤ 0 then 64 else tile_h) ++
      hAcc img.width.toNat img.height.toNat out_w (rangeStarts img.width.toNat out_w)
        (buildRuns (rangeStarts img.width.toNat out_w) (rangeEnds img.width.toNat out_w) out_w)
        (min (if tile_h_horiz ≤ 0 then
            max (if tile_h ≤ 0 then 64 else tile_h)
              (if (if tile_h ≤ 0 then 64 else tile_h) * 4 ≤ 0 then 64
                else (if tile_h ≤ 0 then 64 else tile_h) * 4)
          else tile_h_horiz) img.height) ++
      (List.range ((out_h + tr - 1) / tr)).flatMap
        (vTileAcc out_w out_h (rangeStarts img.height.toNat out_h)
          (rangeEnds img.height.toNat out_h) tr) := by
  have hrows : ¬ (min (if tile_h ≤ 0 then 64 else tile_h) (out_h : Int) = 0) := by
    split <;> omega
  obtain ⟨tr, htr, htr0⟩ : ∃ tr : Nat,
      min (if tile_h ≤ 0 then 64 else tile_h) (out_h : Int) = (tr : Int) ∧ 0 < tr := by
    refine ⟨(min (if tile_h ≤ 0 then 64 else tile_h) (out_h : Int)).toNat, ?_, ?_⟩
    · split <;> omega
    · split <;> omega
  refine ⟨tr, htr0, ?_⟩
  unfold resampleAcc
  have h0 : (0 : Int) ≤ (out_w : Int) * (out_h : Int) := by positivity
  rw [wrapInt_eq _ (by omega) (by exact_mod_cast hgrid)]
  have g1 : ¬ ((out_w : Int) * (out_h : Int) < 0) := by omega
  have g2 : ¬ (img.width ≤ 0 ∨ img.height ≤ 0) := by omega
  have g3 : ¬ ((out_w : Int) < 0 ∨ (out_h : Int) < 0) := by omega
  rw [if_neg g1, if_neg g2, if_neg g3]
  simp only [Int.toNat_ofNat, rangeStarts, rangeEnds]
  rw [if_pos (by omega : 0 < out_w), if_neg hrows, htr, tdiv_chunks out_h tr htr0]
  rfl

/-- C34, the code beyond the bound: for an image of three channels that is more than
715827882 pixels wide, the index `x * channels + 2` of the blue byte of the pixel
`x = 715827882` is `2^31`, which wraps to `-2^31` as an `int`; in row 0 the read
`src[x * channels + 2]` then goes to the offset `2^64 - 2^31` from `img.pixels.data()`, that
is `2^31` bytes before the buffer, which is outside the pixel bytes. -/
theorem resample_index_overflow (img : Image) (out_w out_h : Nat) (tile_h tile_h_horiz : Int)
    (hw : 715827883 ≤ img.width) (hh : 1 ≤ img.height) (hch : img.channels = 3)
    (hlen : img.pixels.length < 2 ^ 64 - 2 ^ 31)
    (how : 1 ≤ out_w) (hoh : 1 ≤ out_h) (hgrid : out_w * out_h < 2 ^ 31) :
    ∃ a ∈ resampleAcc img out_w out_h tile_h tile_h_horiz,
      a = (Arr.pixels, 2 ^ 64 - 2 ^ 31) ∧ ¬ (a.2 < arrSize img out_w out_h a.1) := by
  obtain ⟨tr, -, hacc⟩ := resampleAcc_eq img out_w out_h tile_h tile_h_horiz (by omega) hh
    how hoh hgrid
  refine ⟨(Arr.pixels, 2 ^ 64 - 2 ^ 31), ?_, rfl, ?_⟩
  · rw [hacc]
    apply List.mem_append_left
    apply List.mem_append_left
    apply List.mem_append_right
    unfold flattenAcc flattenTileAcc flattenRowAcc
    simp only [List.mem_flatMap, List.mem_range]
    obtain ⟨c, hc, hrow⟩ := (tile_cover img.height.toNat
      (clampTile (if tile_h ≤ 0 then 64 else tile_h) img.height.toNat)
      (clampTile_pos _ _) 0).2 (by omega)
    refine ⟨c, List.mem_range.1 hc, 0, hrow, 715827882, by omega, ?_⟩
    rw [hch]
    have e : ptrIndex (0 * img.width.toNat * (3 : Int).toNat)
        (wrapInt (((715827882 : Nat) : Int) * 3 + 2)) = 2 ^ 64 - 2 ^ 31 := by
      rw [Nat.zero_mul, Nat.zero_mul]
      decide
    rw [e]
    simp
  · show ¬ (2 ^ 64 - 2 ^ 31 < img.pixels.length)
    omega

end PicConvertor
